import Mathlib

/-!
The value model, the parser and the serializer of wingmann/jsonlw:
a shallow embedding of `src/src/json.cpp` and `src/include/json.h`.

Conventions of the embedding.

* A `std::string` is a list of characters (`Str`); one `Char` stands for one byte.
* `str[i]` is `charAt str i`. The C++ standard makes `str[size]` the terminating NUL;
  an index past it is outside the buffer, and is read as NUL here as well. Whether
  a run goes there is visible from the cursor, which every parse function returns.
* The cursor `size_t& offset` is passed in and returned.
* A C++ exception leaving a function, and the ways a run can leave defined
  behaviour, are the `error` side of `Except Fault`.
* A `double` is not interpreted: `Dbl` records the expression the source evaluates.
* The recursion of `parse_next`, `parse_array` and `parse_object` is bounded by a
  fuel argument; `load` supplies fuel proportional to the length of the text.
-/

namespace wingmann

/-- The type `std::string`, as the list of its bytes. -/
abbrev Str := List Char

/-- The read `str[i]`: the byte at `i`, and NUL at the end of the text or past it. -/
def charAt (str : Str) (i : Nat) : Char := str.getD i '\x00'

/-- The call `str.substr(pos, n)` for `pos ≤ str.size()`. -/
def substr (str : Str) (pos n : Nat) : Str := (str.drop pos).take n

/-- The predicate `isspace` of the C locale. -/
def isspace (c : Char) : Bool :=
  c = ' ' || c = '\t' || c = '\n' || c = '\x0b' || c = '\x0c' || c = '\r'

/-- The test `c >= '0' && c <= '9'`. -/
def isdigit (c : Char) : Bool := decide ('0' ≤ c) && decide (c ≤ '9')

/-- The test of `parse_string` for one character of a unicode escape. -/
def ishex (c : Char) : Bool :=
  (decide ('0' ≤ c) && decide (c ≤ '9')) ||
  (decide ('a' ≤ c) && decide (c ≤ 'f')) ||
  (decide ('A' ≤ c) && decide (c ≤ 'F'))

/-- The test `isspace(c) || c == ',' || c == ']' || c == '}'` that `parse_number`
applies to the character after a number. -/
def isterm (c : Char) : Bool := isspace c || c = ',' || c = ']' || c = '}'

/-- What can leave a function instead of a result. -/
inductive Fault
  /-- the exception `std::invalid_argument` (thrown by `std::stoll`, `std::stod`) -/
  | invalid_argument
  /-- the exception `std::out_of_range` (thrown by `std::stoll`, `at`) -/
  | out_of_range
  /-- the scan of `parse_string` ran past the terminating NUL without meeting a
  closing quote: the source keeps reading outside the buffer -/
  | runaway
  /-- a reference returned by `operator[]` does not designate an element -/
  | dangling
  /-- a member of the union `internal_` that is not the live one is read as a
  pointer and dereferenced (a null pointer, in the case of a Null value) -/
  | undefined
  /-- the fuel of the embedding ran out (no behaviour of the source) -/
  | fuel
  deriving DecidableEq, Repr

/-- A value of type `double`, as the expression that the source evaluates to get it.
Two different expressions may denote the same double. -/
inductive Dbl
  /-- the literal `double{}` -/
  | zero
  /-- the conversion `static_cast<double>(n)` of a 64-bit integer -/
  | of_int (n : Int)
  /-- the result of `std::stod(text)` -/
  | stod (text : Str)
  /-- the result of `std::pow(10, e)` -/
  | pow10 (e : Int)
  /-- the product `x * y` -/
  | mul (x y : Dbl)
  deriving DecidableEq, Repr

/-- The enumeration `json::class_type`. -/
inductive class_type
  | null | object | array | string | floating | integral | boolean
  deriving DecidableEq, Repr

/-- The class `json`: the tag `type_` together with the live member of `internal_`.
A `std::map` is the list of its entries in iteration order, a `std::deque` the
list of its elements. -/
inductive json
  | null
  | object (json_map : List (Str × json))
  | array (json_list : List json)
  | string (json_string : Str)
  | floating (json_float : Dbl)
  | integral (json_int : Int)
  | boolean (json_bool : Bool)
  deriving Repr

/-- The type `json::map_type`. -/
abbrev map_type := List (Str × json)

/-- The type `json::list_type`. -/
abbrev list_type := List json

/-- The comparison `a < b` of `std::string`: lexicographic, byte by byte. -/
def str_lt : Str → Str → Bool
  | [], [] => false
  | [], _ :: _ => true
  | _ :: _, [] => false
  | a :: as, b :: bs => if a < b then true else if b < a then false else str_lt as bs

/-- The invariant of `std::map`: the keys are strictly ascending. -/
def map_sorted : map_type → Bool
  | [] => true
  | [_] => true
  | (k1, _) :: (k2, v2) :: rest => str_lt k1 k2 && map_sorted ((k2, v2) :: rest)

/-- The call `m.find(key)`, as the mapped value when the key is present. -/
def map_find : map_type → Str → Option json
  | [], _ => none
  | (k, v) :: rest, key => if k = key then some v else map_find rest key

/-- The state of the map after `m[key]`: a missing key is inserted at its place,
with a default-constructed (Null) value. -/
def map_index : map_type → Str → map_type
  | [], key => [(key, json.null)]
  | (k, v) :: rest, key =>
    if str_lt key k then (key, json.null) :: (k, v) :: rest
    else if str_lt k key then (k, v) :: map_index rest key
    else (k, v) :: rest

/-- The store `ref = x` through the reference that `m[key]` returned. -/
def map_store : map_type → Str → json → map_type
  | [], _, _ => []
  | (k, v) :: rest, key, x =>
    if k = key then (k, x) :: rest else (k, v) :: map_store rest key x

/-- The call `l.resize(n)`: cut to `n` elements, or fill with Null up to `n`. -/
def list_resize (l : list_type) (n : Nat) : list_type :=
  l.take n ++ List.replicate (n - l.length) json.null

namespace json

/-- The method `json_type()`. -/
def json_type : json → class_type
  | null => class_type.null
  | object _ => class_type.object
  | array _ => class_type.array
  | string _ => class_type.string
  | floating _ => class_type.floating
  | integral _ => class_type.integral
  | boolean _ => class_type.boolean

/-- The method `set_type`: nothing when the kind is already `type`, else the old
payload is released and the empty payload of `type` installed. -/
def set_type (self : json) (type : class_type) : json :=
  if type = self.json_type then self
  else match type with
    | class_type.null => null
    | class_type.object => object []
    | class_type.array => array []
    | class_type.string => string []
    | class_type.floating => floating Dbl.zero
    | class_type.integral => integral 0
    | class_type.boolean => boolean false

/-- The static method `make`. -/
def make (type : class_type) : json := set_type null type

/-- The entries of an Object; no entries for another kind. -/
def entries : json → map_type
  | object m => m
  | _ => []

/-- The elements of an Array; no elements for another kind. -/
def elements : json → list_type
  | array l => l
  | _ => []

/-- The state of `*this` after `operator[](const string_type& key)`. -/
def index_key (self : json) (key : Str) : json :=
  object (map_index (self.set_type class_type.object).entries key)

/-- The state of `*this` after `operator[](unsigned int index)`; `index + 1` is
computed in `unsigned int`. -/
def index_pos (self : json) (index : Nat) : json :=
  let l := (self.set_type class_type.array).elements
  if index ≥ l.length then array (list_resize l ((index + 1) % 2 ^ 32)) else array l

/-- The statement `self[key] = x`. -/
def assign_key (self : json) (key : Str) (x : json) : json :=
  object (map_store (self.index_key key).entries key x)

/-- The statement `self[index] = x`. The reference that `operator[]` returns
designates an element only when `index` is below the length after the call. -/
def assign_pos (self : json) (index : Nat) (x : json) : Except Fault json :=
  let l := (self.index_pos index).elements
  if index < l.length then Except.ok (array (l.set index x)) else Except.error Fault.dangling

/-- The static method `json_escape`. -/
def json_escape : Str → Str
  | [] => []
  | i :: value =>
    (if i = '"' then ['\\', '"']
     else if i = '\\' then ['\\', '\\']
     else if i = '\x08' then ['\\', 'b']
     else if i = '\x0c' then ['\\', 'f']
     else if i = '\n' then ['\\', 'n']
     else if i = '\r' then ['\\', 'r']
     else if i = '\t' then ['\\', 't']
     else [i]) ++ json_escape value

/-- The method `to_string(bool& ok)`, as the pair of the result and `ok`. -/
def to_string_ok : json → Str × Bool
  | string s => (json_escape s, true)
  | _ => ([], false)

/-- The method `to_string()`. -/
def to_string (self : json) : Str := (to_string_ok self).1

/-- The loop `for (int i = 0; i < depth; ++i, pad += tab)` of `dump`, with `n`
iterations left. -/
def pad_loop : Nat → Str → Str → Str
  | 0, _, pad => pad
  | n + 1, tab, pad => pad_loop n tab (pad ++ tab)

/-- The local `pad` of `dump` after its loop. -/
def make_pad (depth : Int) (tab : Str) : Str := pad_loop depth.toNat tab []

/-- The call `std::to_string(long long)`: the signed decimal text. -/
def int_to_string (i : Int) : Str :=
  if i < 0 then '-' :: Nat.toDigits 10 i.natAbs else Nat.toDigits 10 i.toNat

mutual
/-- The method `dump(depth, tab)`. The text of a double, `std::to_string(double)`,
is the parameter `fmt`. -/
def dump (fmt : Dbl → Str) (tab : Str) : json → Int → Str
  | null, _ => ['n', 'u', 'l', 'l']
  | object json_map, depth =>
    let pad := make_pad depth tab
    let s := dump_object_loop fmt tab pad json_map depth ['{', '\n'] true
    s ++ (['\n'] ++ pad.drop 2 ++ ['}'])
  | array json_list, depth =>
    let s := dump_array_loop fmt tab json_list depth ['['] true
    s ++ [']']
  | string json_string, _ => ['"'] ++ json_escape json_string ++ ['"']
  | floating json_float, _ => fmt json_float
  | integral json_int, _ => int_to_string json_int
  | boolean json_bool, _ => if json_bool then ['t', 'r', 'u', 'e'] else ['f', 'a', 'l', 's', 'e']
/-- The loop of `dump` over the entries of an Object, from the entries left. -/
def dump_object_loop (fmt : Dbl → Str) (tab pad : Str) : map_type → Int → Str → Bool → Str
  | [], _, s, _ => s
  | p :: rest, depth, s, skip =>
    let s := if !skip then s ++ [',', '\n'] else s
    let s := s ++ (pad ++ ['"'] ++ p.1 ++ ['"', ' ', ':', ' '] ++ dump fmt tab p.2 (depth + 1))
    dump_object_loop fmt tab pad rest depth s false
/-- The loop of `dump` over the elements of an Array, from the elements left. -/
def dump_array_loop (fmt : Dbl → Str) (tab : Str) : list_type → Int → Str → Bool → Str
  | [], _, s, _ => s
  | p :: rest, depth, s, skip =>
    let s := if !skip then s ++ [',', ' '] else s
    let s := s ++ dump fmt tab p (depth + 1)
    dump_array_loop fmt tab rest depth s false
end

/-- The default `tab` of `dump` in `json.h`: four spaces. -/
def default_tab : Str := [' ', ' ', ' ', ' ']

/-- The call `dump()` with the defaults `depth = 1` and four spaces. -/
def dump_default (fmt : Dbl → Str) (self : json) : Str := dump fmt default_tab self 1

/-- The loop `while (isspace(str[offset])) ++offset`, on the text from `offset` on. -/
def consume_ws_loop : Str → Nat → Nat
  | [], offset => offset
  | c :: rest, offset => if isspace c then consume_ws_loop rest (offset + 1) else offset

/-- The method `consume_ws`; the result is the new `offset`. -/
def consume_ws (str : Str) (offset : Nat) : Nat := consume_ws_loop (str.drop offset) offset

/-- The loop of `parse_string`; `rest` is the text from `offset` on and `offset`
the index of the character `c` that the loop condition tests. At the end of
the text `c` is NUL, which is no quote: the scan goes on outside the buffer. -/
def parse_string_loop : Str → Nat → Str → Except Fault (json × Nat)
  | [], _, _ => Except.error Fault.runaway
  | c :: rest, offset, value =>
    if c = '"' then Except.ok (string value, offset + 1)
    else if c = '\\' then
      match rest with
      | [] => Except.error Fault.runaway
      | e :: rest2 =>
        if e = '"' then parse_string_loop rest2 (offset + 2) (value ++ ['"'])
        else if e = '\\' then parse_string_loop rest2 (offset + 2) (value ++ ['\\'])
        else if e = '/' then parse_string_loop rest2 (offset + 2) (value ++ ['/'])
        else if e = 'b' then parse_string_loop rest2 (offset + 2) (value ++ ['\x08'])
        else if e = 'f' then parse_string_loop rest2 (offset + 2) (value ++ ['\x0c'])
        else if e = 'n' then parse_string_loop rest2 (offset + 2) (value ++ ['\n'])
        else if e = 'r' then parse_string_loop rest2 (offset + 2) (value ++ ['\r'])
        else if e = 't' then parse_string_loop rest2 (offset + 2) (value ++ ['\t'])
        else if e = 'u' then
          match rest2 with
          | h1 :: h2 :: h3 :: h4 :: rest3 =>
            if ishex h1 && ishex h2 && ishex h3 && ishex h4 then
              parse_string_loop rest3 (offset + 6) (value ++ ['\\', 'u', h1, h2, h3, h4])
            else Except.ok (make class_type.string, offset + 1)
          | _ => Except.ok (make class_type.string, offset + 1)
        else parse_string_loop rest2 (offset + 2) (value ++ ['\\'])
    else parse_string_loop rest (offset + 1) (value ++ [c])

/-- The method `parse_string`, entered with `offset` on the opening quote. -/
def parse_string (str : Str) (offset : Nat) : Except Fault (json × Nat) :=
  parse_string_loop (str.drop (offset + 1)) (offset + 1) []

/-- The digits at the head of a text, as a number. -/
def digits_value (ds : Str) : Nat := ds.foldl (fun a c => 10 * a + (c.toNat - 48)) 0

/-- The call `std::stoll(s)`: leading white space, an optional sign, then the
longest run of digits. No digit there throws `std::invalid_argument`, a value
outside the 64-bit signed range throws `std::out_of_range`. -/
def stoll (s : Str) : Except Fault Int :=
  let s := s.dropWhile isspace
  let neg := s.head? = some '-'
  let s := if s.head? = some '-' || s.head? = some '+' then s.drop 1 else s
  let ds := s.takeWhile isdigit
  if ds = [] then Except.error Fault.invalid_argument
  else
    let v : Int := if neg then -(digits_value ds : Int) else (digits_value ds : Int)
    if v < -(2 ^ 63 : Int) || v > (2 ^ 63 - 1 : Int) then Except.error Fault.out_of_range
    else Except.ok v

/-- The call `std::stod(s)` on a text made of `-`, digits and `.` (what
`parse_number` builds): without a digit at the head, after an optional sign and
an optional point, it throws `std::invalid_argument`. Its `std::out_of_range`,
for a text whose value no double holds, is a matter of floating point and is
not part of the embedding. -/
def stod (s : Str) : Except Fault Dbl :=
  let t := if s.head? = some '-' || s.head? = some '+' then s.drop 1 else s
  let u := if t.head? = some '.' then t.drop 1 else t
  if (u.head?.map isdigit).getD false then Except.ok (Dbl.stod s)
  else Except.error Fault.invalid_argument

/-- The first loop of `parse_number`, on the text from `offset` on; the result is
`value`, `is_floating`, the character `c` that ended the loop and `offset`. -/
def parse_number_loop : Str → Nat → Str → Bool → Str × Bool × Char × Nat
  | [], offset, value, is_floating => (value, is_floating, '\x00', offset + 1)
  | c :: rest, offset, value, is_floating =>
    if c = '-' || isdigit c then parse_number_loop rest (offset + 1) (value ++ [c]) is_floating
    else if c = '.' then parse_number_loop rest (offset + 1) (value ++ [c]) true
    else (value, is_floating, c, offset + 1)

/-- The exponent loop of `parse_number`, on the text from `offset` on; the result
is `expression_value` (`none` on the error return) and `offset`. -/
def parse_exponent_loop : Str → Nat → Str → Option Str × Nat
  | [], offset, _ => (none, offset + 1)
  | c :: rest, offset, expression_value =>
    if isdigit c then parse_exponent_loop rest (offset + 1) (expression_value ++ [c])
    else if !isterm c then (none, offset + 1)
    else (some expression_value, offset + 1)

/-- The last statements of `parse_number`: the value assigned to `number`. Both
arms of the conditional expression are of type `double`. -/
def parse_number_value (value : Str) (is_floating : Bool) (expression_value : Str)
    (exp : Int) : Except Fault json :=
  if is_floating then
    (stod value).map (fun x => floating (Dbl.mul x (Dbl.pow10 exp)))
  else if expression_value ≠ [] then
    (stoll value).map (fun n => floating (Dbl.mul (Dbl.of_int n) (Dbl.pow10 exp)))
  else
    (stoll value).map (fun n => floating (Dbl.of_int n))

/-- The static method `parse_number`. -/
def parse_number (str : Str) (offset : Nat) : Except Fault (json × Nat) :=
  match parse_number_loop (str.drop offset) offset [] false with
  | (value, is_floating, c, offset) =>
    if c = 'E' || c = 'e' then
      let c := charAt str offset
      let offset := offset + 1
      let expression_value : Str := if c = '-' then ['-'] else []
      let offset := if c = '-' then offset + 1 else offset
      match parse_exponent_loop (str.drop offset) offset expression_value with
      | (none, offset) => Except.ok (make class_type.null, offset)
      | (some expression_value, offset) =>
        match stoll expression_value with
        | Except.error e => Except.error e
        | Except.ok exp =>
          (parse_number_value value is_floating expression_value exp).map
            (fun number => (number, offset - 1))
    else if !isterm c then Except.ok (make class_type.null, offset)
    else
      (parse_number_value value is_floating [] 0).map (fun number => (number, offset - 1))

/-- The static method `parse_bool`. -/
def parse_bool (str : Str) (offset : Nat) : Except Fault (json × Nat) :=
  if substr str offset 4 = ['t', 'r', 'u', 'e'] then Except.ok (boolean true, offset + 4)
  else if substr str offset 5 = ['f', 'a', 'l', 's', 'e'] then Except.ok (boolean false, offset + 5)
  else Except.ok (make class_type.null, offset)

/-- The static method `parse_null`. -/
def parse_null (str : Str) (offset : Nat) : Except Fault (json × Nat) :=
  if substr str offset 4 ≠ ['n', 'u', 'l', 'l'] then Except.ok (make class_type.null, offset)
  else Except.ok (null, offset + 4)

mutual
/-- The method `parse_next`. -/
def parse_next : Nat → Str → Nat → Except Fault (json × Nat)
  | 0, _, _ => Except.error Fault.fuel
  | fuel + 1, str, offset =>
    let offset := consume_ws str offset
    let value := charAt str offset
    if value = '[' then parse_array fuel str offset
    else if value = '{' then parse_object fuel str offset
    else if value = '"' then parse_string str offset
    else if value = 't' || value = 'f' then parse_bool str offset
    else if value = 'n' then parse_null str offset
    else if (decide (value ≤ '9') && decide (value ≥ '0')) || value = '-' then
      parse_number str offset
    else Except.ok (null, offset)
termination_by structural fuel => fuel
/-- The method `parse_object`, up to its loop. -/
def parse_object : Nat → Str → Nat → Except Fault (json × Nat)
  | 0, _, _ => Except.error Fault.fuel
  | fuel + 1, str, offset =>
    let json_object := make class_type.object
    let offset := offset + 1
    let offset := consume_ws str offset
    if charAt str offset = '}' then Except.ok (json_object, offset + 1)
    else parse_object_loop fuel str offset json_object
termination_by structural fuel => fuel
/-- The loop `while (true)` of `parse_object`, from one iteration on. -/
def parse_object_loop : Nat → Str → Nat → json → Except Fault (json × Nat)
  | 0, _, _, _ => Except.error Fault.fuel
  | fuel + 1, str, offset, json_object =>
    match parse_next fuel str offset with
    | Except.error e => Except.error e
    | Except.ok (key, offset) =>
      let offset := consume_ws str offset
      if charAt str offset ≠ ':' then Except.ok (json_object, offset)
      else
        let offset := consume_ws str (offset + 1)
        match parse_next fuel str offset with
        | Except.error e => Except.error e
        | Except.ok (value, offset) =>
          let json_object := json_object.assign_key key.to_string value
          let offset := consume_ws str offset
          if charAt str offset = ',' then parse_object_loop fuel str (offset + 1) json_object
          else if charAt str offset = '}' then Except.ok (json_object, offset + 1)
          else Except.ok (json_object, offset)
termination_by structural fuel => fuel
/-- The method `parse_array`, up to its loop. -/
def parse_array : Nat → Str → Nat → Except Fault (json × Nat)
  | 0, _, _ => Except.error Fault.fuel
  | fuel + 1, str, offset =>
    let json_array := make class_type.array
    let offset := offset + 1
    let offset := consume_ws str offset
    if charAt str offset = ']' then Except.ok (json_array, offset + 1)
    else parse_array_loop fuel str offset json_array 0
termination_by structural fuel => fuel
/-- The loop `while (true)` of `parse_array`, from one iteration on; `index` is
of type `size_t` and is converted to `unsigned int` for `operator[]`. -/
def parse_array_loop : Nat → Str → Nat → json → Nat → Except Fault (json × Nat)
  | 0, _, _, _, _ => Except.error Fault.fuel
  | fuel + 1, str, offset, json_array, index =>
    match parse_next fuel str offset with
    | Except.error e => Except.error e
    | Except.ok (x, offset) =>
      match json_array.assign_pos (index % 2 ^ 32) x with
      | Except.error e => Except.error e
      | Except.ok json_array =>
        let offset := consume_ws str offset
        if charAt str offset = ',' then
          parse_array_loop fuel str (offset + 1) json_array (index + 1)
        else if charAt str offset = ']' then Except.ok (json_array, offset + 1)
        else Except.ok (make class_type.array, offset)
termination_by structural fuel => fuel
end

/-- The fuel that `load` gives to `parse_next`. -/
def load_fuel (value : Str) : Nat := 3 * value.length + 8

/-- The method `load`. -/
def load (value : Str) : Except Fault json :=
  (parse_next (load_fuel value) value 0).map (fun r => r.1)

/-! ## Observers and constructors -/

/-- The value `std::numeric_limits<size_type>::max()`, the sentinel of `length`
and `size`. -/
def size_max : Nat := 2 ^ 64 - 1

/-- The default constructor `json()`, with the member initialisers `internal_{}`
and `type_{class_type::null}`. -/
def construct : json := null

/-- The move constructor `json(json&& other)`: the object constructed and `other`
afterwards. The fields of `other` are copied, then `other.type_` is set to null
and its pointer to `nullptr`. -/
def move_construct (other : json) : json × json := (other, null)

/-- Where the object `other` of a move assignment lives. -/
inductive place
  /-- an object of its own, which `*this` does not own -/
  | apart
  /-- the object `*this` itself, as in `t = std::move(t)` -/
  | same
  /-- an element or a mapped value that the payload of `*this` owns, as in
  `t = std::move(t["k"])` -/
  | owned
  deriving DecidableEq, Repr

/-- The move assignment `operator=(json&& other)`: `*this` and `other`
afterwards, for an `other` that lives at `at_place`. The first statement,
`clear_internal()`, deletes the payload of an Object or Array `*this`, and with
it an `other` that this payload owns: the next statement,
`internal_ = other.internal_`, then reads through a reference that designates
no object. Else the fields of `other` are copied to `*this` and `other` is
reset to Null with a null pointer; when `other` is `*this` itself, the payload
is deleted, the fields are copied onto themselves and the reset leaves that one
object Null. -/
def move_assign (self other : json) (at_place : place) : Except Fault (json × json) :=
  if at_place = place.owned ∧
      (self.json_type = class_type.object ∨ self.json_type = class_type.array) then
    Except.error Fault.dangling
  else
    let self := other
    let other := null
    if at_place = place.same then Except.ok (other, other) else Except.ok (self, other)

/-- The const method `at(const string_type& key)`: `internal_.json_map->at(key)`,
with no test of `type_`. -/
def at_key (self : json) (key : Str) : Except Fault json :=
  match self with
  | object json_map =>
    match map_find json_map key with
    | some v => Except.ok v
    | none => Except.error Fault.out_of_range
  | _ => Except.error Fault.undefined

/-- The const method `at(unsigned int index)`: `internal_.json_list->at(index)`,
with no test of `type_`. -/
def at_pos (self : json) (index : Nat) : Except Fault json :=
  match self with
  | array json_list =>
    match json_list[index]? with
    | some v => Except.ok v
    | none => Except.error Fault.out_of_range
  | _ => Except.error Fault.undefined

/-- The method `length()`. -/
def length : json → Nat
  | array json_list => json_list.length
  | _ => size_max

/-- The method `has_key`. -/
def has_key (self : json) (key : Str) : Bool :=
  decide (self.json_type = class_type.object) && (map_find self.entries key).isSome

/-- The method `size()`. -/
def size : json → Nat
  | object json_map => json_map.length
  | array json_list => json_list.length
  | _ => size_max

/-- The method `to_float(bool& ok)`, as the pair of the result and `ok`. -/
def to_float_ok : json → Dbl × Bool
  | floating json_float => (json_float, true)
  | _ => (Dbl.zero, false)

/-- The method `to_float()`. -/
def to_float (self : json) : Dbl := (to_float_ok self).1

/-- The method `to_int(bool& ok)`, as the pair of the result and `ok`. -/
def to_int_ok : json → Int × Bool
  | integral json_int => (json_int, true)
  | _ => (0, false)

/-- The method `to_int()`. -/
def to_int (self : json) : Int := (to_int_ok self).1

/-- The method `to_bool(bool& ok)`, as the pair of the result and `ok`: the
result is `ok && internal_.json_bool`. -/
def to_bool_ok : json → Bool × Bool
  | boolean json_bool => (true && json_bool, true)
  | _ => (false, false)

/-- The method `to_bool()`. -/
def to_bool (self : json) : Bool := (to_bool_ok self).1

/-! ## Notions for the statements

The layout of a dump in closed form, the trees that survive the round trip, and
object texts given member by member. -/

/-- The text that the loop of `dump` appends for the elements `l` of an Array;
`skip` is the flag of the loop. -/
def array_body (fmt : Dbl → Str) (tab : Str) (depth : Int) : list_type → Bool → Str
  | [], _ => []
  | p :: rest, skip =>
    (if skip then [] else [',', ' ']) ++
      (dump fmt tab p (depth + 1) ++ array_body fmt tab depth rest false)

/-- The text of one entry of an Object in `dump`, after the indentation. -/
def entry_text (fmt : Dbl → Str) (tab : Str) (depth : Int) (p : Str × json) : Str :=
  '"' :: (p.1 ++ '"' :: ' ' :: ':' :: ' ' :: dump fmt tab p.2 (depth + 1))

/-- The text that the loop of `dump` appends for the entries `m` of an Object. -/
def object_body (fmt : Dbl → Str) (tab pad : Str) (depth : Int) : map_type → Bool → Str
  | [], _ => []
  | p :: rest, skip =>
    (if skip then [] else [',', '\n']) ++
      (pad ++ (entry_text fmt tab depth p ++ object_body fmt tab pad depth rest false))

/-- A character that `json_escape` copies as it is. -/
def plain_char (c : Char) : Bool :=
  !(c = '"' || c = '\\' || c = '\x08' || c = '\x0c' || c = '\n' || c = '\r' || c = '\t')

/-- A character that `json_escape` writes after a backslash. -/
def escape_letter (e : Char) : Bool :=
  e = '"' || e = '\\' || e = 'b' || e = 'f' || e = 'n' || e = 'r' || e = 't'

/-- The texts that `json_escape` produces: plain characters, and backslashes only
in front of an escape letter. -/
def escaped_text : Str → Bool
  | [] => true
  | [c] => plain_char c
  | c :: e :: rest =>
    if c = '\\' then escape_letter e && escaped_text rest
    else plain_char c && escaped_text (e :: rest)

mutual
/-- The trees of the round trip: Null, Boolean and String leaves, Arrays of fewer
than 2^32 elements, and Objects whose keys are ascending and are escaped texts;
no Integer and no Float. -/
def stable : json → Bool
  | null => true
  | object json_map => map_sorted json_map && stable_entries json_map
  | array json_list => decide (json_list.length < 2 ^ 32) && stable_list json_list
  | string _ => true
  | floating _ => false
  | integral _ => false
  | boolean _ => true
/-- Every element is `stable`. -/
def stable_list : list_type → Bool
  | [] => true
  | x :: rest => stable x && stable_list rest
/-- Every key is an escaped text and every mapped value is `stable`. -/
def stable_entries : map_type → Bool
  | [] => true
  | p :: rest => escaped_text p.1 && stable p.2 && stable_entries rest
end

mutual
/-- The trees of the round trip as the specification words it: no Float. -/
def float_free : json → Bool
  | object json_map => float_free_entries json_map
  | array json_list => float_free_list json_list
  | floating _ => false
  | _ => true
/-- No element holds a Float. -/
def float_free_list : list_type → Bool
  | [] => true
  | x :: rest => float_free x && float_free_list rest
/-- No mapped value holds a Float. -/
def float_free_entries : map_type → Bool
  | [] => true
  | p :: rest => float_free p.2 && float_free_entries rest
end

/-- The entries of a dumped Object from the first key on. -/
def object_items (fmt : Dbl → Str) (tab pad : Str) (depth : Int) : map_type → Str
  | [] => []
  | p :: rest => entry_text fmt tab depth p ++ object_body fmt tab pad depth rest false

/-- One member of an object text: a key string with the payload `key`, a colon,
and a value text `text` that stands for `value`, with the runs of white space
before the key, before the colon, before the value and after the value. -/
structure member where
  ws_key : Str
  key : Str
  ws_colon : Str
  ws_value : Str
  text : Str
  value : json
  ws_end : Str

/-- The four runs of a member are white space. -/
def member_spaced (e : member) : Bool :=
  (e.ws_key ++ e.ws_colon ++ e.ws_value ++ e.ws_end).all isspace

/-- The text of one member: the quoted, escaped key, the colon and the value
text, with the white space between them. -/
def member_text (e : member) : Str :=
  e.ws_key ++ '"' :: (json_escape e.key ++ '"' :: (e.ws_colon ++ ':' :: (e.ws_value
    ++ (e.text ++ e.ws_end))))

/-- The member texts, joined by commas. -/
def members_text : List member → Str
  | [] => []
  | [e] => member_text e
  | e :: e2 :: rest => member_text e ++ ',' :: members_text (e2 :: rest)

/-- An object text: the members between braces. -/
def object_text (es : List member) : Str := '{' :: (members_text es ++ ['}'])

/-- The value of the last member of `es` that is stored under the key `k`; a
member is stored under the `json_escape` of its key payload. -/
def last_value : List member → Str → Option json
  | [], _ => none
  | e :: rest, k =>
    match last_value rest k with
    | some v => some v
    | none => if json_escape e.key = k then some e.value else none

/-- The text `t` stands for the value `v` inside an array or object text:
wherever `t` stands at a cursor, followed by white space, `,`, `]` or `}`,
`parse_next` with the fuel of `load` for `t` or more returns `v` and leaves the
cursor after `t`. -/
def parses_as (t : Str) (v : json) : Prop :=
  ∀ (fuel : Nat) (str : Str) (o : Nat) (c : Char) (rest : Str),
    isterm c = true → load_fuel t ≤ fuel → str.drop o = t ++ c :: rest →
    parse_next fuel str o = Except.ok (v, o + t.length)

/-- A text with its white space removed. -/
def strip_ws (t : Str) : Str := t.filter (fun c => !isspace c)

/-- The text `u` repeated `n` times. -/
def repeat_unit (u : Str) : Nat → Str
  | 0 => []
  | n + 1 => u ++ repeat_unit u n

/-- Texts joined by a separator. -/
def join_with (sep : Str) : List Str → Str
  | [] => []
  | [x] => x
  | x :: y :: rest => x ++ (sep ++ join_with sep (y :: rest))

/-- One entry of an Object dump in the words of the specification: the pad, the
key between quotes, ` : ` and the dump of the value one level deeper. -/
def spec_entry_line (fmt : Dbl → Str) (u : Str) (d : Int) (p : Str × json) : Str :=
  repeat_unit u d.toNat ++ (['"'] ++ p.1 ++ ['"', ' ', ':', ' '] ++ dump fmt u p.2 (d + 1))

/-- The layout of an Object dump in the words of the specification: an opening
brace and a newline, the entries joined by a comma and a newline, then a
newline, the indent of the parent, which is `u` repeated `d - 1` times, and the
closing brace. -/
def spec_object_layout (fmt : Dbl → Str) (u : Str) (d : Int) (m : map_type) : Str :=
  ['{', '\n'] ++ join_with [',', '\n'] (m.map (spec_entry_line fmt u d)) ++ ['\n'] ++
    repeat_unit u (d.toNat - 1) ++ ['}']

/-! ## The error stream

What a call of the parser writes to `std::cerr`, as the list of its messages.
The values and the cursor are those of the functions above; the functions
below follow the same branches and collect the messages. -/

/-- The messages of the parser on `std::cerr`, each with the text that it quotes
after `found`. -/
inductive Diag
  /-- The message `ERROR: Parse: Unknown starting character`. -/
  | parse_unknown (value : Char)
  /-- The message `Error: Object: Expected colon, found`. -/
  | object_colon (found : Char)
  /-- The message `ERROR: Object: Expected comma, found`. -/
  | object_comma (found : Char)
  /-- The message `ERROR: array: Expected ',' or ']', found`. -/
  | array_comma (found : Char)
  /-- The message `ERROR: String: Expected hex character in unicode escape, found`. -/
  | string_hex (found : Char)
  /-- The message `ERROR: Number: Expected a number for exponent, found`. -/
  | number_exponent (found : Char)
  /-- The message `ERROR: Number: unexpected character`. -/
  | number_char (found : Char)
  /-- The message `ERROR: Bool: Expected 'true' or 'false', found`. -/
  | bool_expected (found : Str)
  /-- The message `ERROR: Null: Expected 'null', found`. -/
  | null_expected (found : Str)
  deriving DecidableEq, Repr

/-- The character `c` that the hex test of `parse_string` rejects: the first of
the four characters after `u` that is no hex digit, NUL at the end of the text. -/
def hex_found (rest : Str) : Char := ((rest.take 4).find? (fun c => !ishex c)).getD '\x00'

/-- What the loop of `parse_string` writes to `std::cerr`, on the text from the
character that the loop condition tests: the message of the hex test, if the
loop gets to it. -/
def parse_string_loop_cerr : Str → List Diag
  | [] => []
  | c :: rest =>
    if c = '"' then []
    else if c = '\\' then
      match rest with
      | [] => []
      | e :: rest2 =>
        if e = 'u' then
          match rest2 with
          | h1 :: h2 :: h3 :: h4 :: rest3 =>
            if ishex h1 && ishex h2 && ishex h3 && ishex h4 then parse_string_loop_cerr rest3
            else [Diag.string_hex (hex_found rest2)]
          | _ => [Diag.string_hex (hex_found rest2)]
        else parse_string_loop_cerr rest2
    else parse_string_loop_cerr rest

/-- What `parse_string` writes to `std::cerr`. -/
def parse_string_cerr (str : Str) (offset : Nat) : List Diag :=
  parse_string_loop_cerr (str.drop (offset + 1))

/-- What `parse_number` writes to `std::cerr`. -/
def parse_number_cerr (str : Str) (offset : Nat) : List Diag :=
  match parse_number_loop (str.drop offset) offset [] false with
  | (_, _, c, offset) =>
    if c = 'E' || c = 'e' then
      let c := charAt str offset
      let offset := offset + 1
      let expression_value : Str := if c = '-' then ['-'] else []
      let offset := if c = '-' then offset + 1 else offset
      match parse_exponent_loop (str.drop offset) offset expression_value with
      | (none, offset) => [Diag.number_exponent (charAt str (offset - 1))]
      | (some _, _) => []
    else if !isterm c then [Diag.number_char c]
    else []

/-- What `parse_bool` writes to `std::cerr`. -/
def parse_bool_cerr (str : Str) (offset : Nat) : List Diag :=
  if substr str offset 4 = ['t', 'r', 'u', 'e'] then []
  else if substr str offset 5 = ['f', 'a', 'l', 's', 'e'] then []
  else [Diag.bool_expected (substr str offset 5)]

/-- What `parse_null` writes to `std::cerr`. -/
def parse_null_cerr (str : Str) (offset : Nat) : List Diag :=
  if substr str offset 4 ≠ ['n', 'u', 'l', 'l'] then [Diag.null_expected (substr str offset 4)]
  else []

mutual
/-- What `parse_next` writes to `std::cerr`. -/
def parse_next_cerr : Nat → Str → Nat → List Diag
  | 0, _, _ => []
  | fuel + 1, str, offset =>
    let offset := consume_ws str offset
    let value := charAt str offset
    if value = '[' then parse_array_cerr fuel str offset
    else if value = '{' then parse_object_cerr fuel str offset
    else if value = '"' then parse_string_cerr str offset
    else if value = 't' || value = 'f' then parse_bool_cerr str offset
    else if value = 'n' then parse_null_cerr str offset
    else if (decide (value ≤ '9') && decide (value ≥ '0')) || value = '-' then
      parse_number_cerr str offset
    else [Diag.parse_unknown value]
termination_by structural fuel => fuel
/-- What `parse_object` writes to `std::cerr`. -/
def parse_object_cerr : Nat → Str → Nat → List Diag
  | 0, _, _ => []
  | fuel + 1, str, offset =>
    let offset := offset + 1
    let offset := consume_ws str offset
    if charAt str offset = '}' then []
    else parse_object_loop_cerr fuel str offset
termination_by structural fuel => fuel
/-- What the loop of `parse_object` writes to `std::cerr`, from one iteration
on: the messages of the key, those of the value, then those of the iterations
that follow, or the message that ends the loop. An exception ends the output. -/
def parse_object_loop_cerr : Nat → Str → Nat → List Diag
  | 0, _, _ => []
  | fuel + 1, str, offset =>
    parse_next_cerr fuel str offset ++
    match parse_next fuel str offset with
    | Except.error _ => []
    | Except.ok (_, offset) =>
      let offset := consume_ws str offset
      if charAt str offset ≠ ':' then [Diag.object_colon (charAt str offset)]
      else
        let offset := consume_ws str (offset + 1)
        parse_next_cerr fuel str offset ++
        match parse_next fuel str offset with
        | Except.error _ => []
        | Except.ok (_, offset) =>
          let offset := consume_ws str offset
          if charAt str offset = ',' then parse_object_loop_cerr fuel str (offset + 1)
          else if charAt str offset = '}' then []
          else [Diag.object_comma (charAt str offset)]
termination_by structural fuel => fuel
/-- What `parse_array` writes to `std::cerr`. -/
def parse_array_cerr : Nat → Str → Nat → List Diag
  | 0, _, _ => []
  | fuel + 1, str, offset =>
    let json_array := make class_type.array
    let offset := offset + 1
    let offset := consume_ws str offset
    if charAt str offset = ']' then []
    else parse_array_loop_cerr fuel str offset json_array 0
termination_by structural fuel => fuel
/-- What the loop of `parse_array` writes to `std::cerr`, from one iteration on. -/
def parse_array_loop_cerr : Nat → Str → Nat → json → Nat → List Diag
  | 0, _, _, _, _ => []
  | fuel + 1, str, offset, json_array, index =>
    parse_next_cerr fuel str offset ++
    match parse_next fuel str offset with
    | Except.error _ => []
    | Except.ok (x, offset) =>
      match json_array.assign_pos (index % 2 ^ 32) x with
      | Except.error _ => []
      | Except.ok json_array =>
        let offset := consume_ws str offset
        if charAt str offset = ',' then
          parse_array_loop_cerr fuel str (offset + 1) json_array (index + 1)
        else if charAt str offset = ']' then []
        else [Diag.array_comma (charAt str offset)]
termination_by structural fuel => fuel
end

/-- What `load` writes to `std::cerr`. -/
def load_cerr (value : Str) : List Diag := parse_next_cerr (load_fuel value) value 0

/-! ## Range views and the list constructor -/

/-- The method `array_range()`, as the elements that the returned wrapper
iterates: the wrapper holds the list of an Array and a null pointer for every
other kind, and a wrapper of a null pointer begins where it ends. -/
def array_range : json → Except Fault list_type
  | array json_list => Except.ok json_list
  | _ => Except.ok []

/-- The method `array_range() const`. -/
def array_range_const : json → Except Fault list_type
  | array json_list => Except.ok json_list
  | _ => Except.ok []

/-- The method `object_range()`, as the entries that the returned wrapper
iterates. -/
def object_range : json → Except Fault map_type
  | object json_map => Except.ok json_map
  | _ => Except.ok []

/-- The method `object_range() const` of `json.cpp`. Its test is
`type_ == class_type::array`: for an Array the wrapper holds the member
`json_map` of the union, which is the pointer to the list read as a pointer to
a map, and for every other kind, an Object included, a null pointer. -/
def object_range_const : json → Except Fault map_type
  | array _ => Except.error Fault.undefined
  | _ => Except.ok []

/-- The loop of the constructor from `std::initializer_list<json>`, from the
elements left: `operator[](i->to_string()) = *std::next(i)`, two elements at a
time. With one element left `std::next(i)` is the end of the list. -/
def construct_list_loop : List json → json → Except Fault json
  | [], self => Except.ok self
  | [_], _ => Except.error Fault.undefined
  | i :: next :: rest, self => construct_list_loop rest (self.assign_key i.to_string next)

/-- The constructor `json(std::initializer_list<json> list)`. -/
def construct_list (list : List json) : Except Fault json :=
  construct_list_loop list (set_type null class_type.object)

/-- The elements `k_1, x_1, ..., k_n, x_n` of an initializer list whose keys are
the String values of the texts `k_i`. -/
def pair_list : List (Str × json) → List json
  | [] => []
  | p :: rest => string p.1 :: p.2 :: pair_list rest

/-- The value of the last pair of `ps` with the key `k`. -/
def last_entry : List (Str × json) → Str → Option json
  | [], _ => none
  | p :: rest, k =>
    match last_entry rest k with
    | some v => some v
    | none => if p.1 = k then some p.2 else none

/-- The test `iscntrl` of the C locale: the codes below 32, and 127. -/
def iscntrl (c : Char) : Bool := decide (c.toNat < 32) || decide (c.toNat = 127)

/-- The characters that `parse_number` collects in its first loop. -/
def number_chars (w : Str) : Bool := w.all (fun c => c = '-' || isdigit c || c = '.')

/-- The exponent part of a number text as `parse_number` consumes it: nothing, or
`e` or `E`, then one character, then digits; after `e-` one more character
before the digits. -/
def exponent_part : Str → Bool
  | [] => true
  | [_] => false
  | e :: y :: ds =>
    (e = 'e' || e = 'E') &&
      (if y = '-' then
        match ds with
        | [] => false
        | _ :: ds2 => ds2.all isdigit
      else ds.all isdigit)

/-! ## Fuel, shifted texts and array texts -/

/-- A result that is not the end of the fuel and that, when it is a value, leaves
the cursor at `o` or after it. -/
def settled (o : Nat) : Except Fault (json × Nat) → Prop
  | Except.ok (_, offset) => o ≤ offset
  | Except.error e => e ≠ Fault.fuel

/-- A result with its cursor moved by `k`. -/
def shift (k : Nat) : Except Fault (json × Nat) → Except Fault (json × Nat)
  | Except.ok (v, offset) => Except.ok (v, offset + k)
  | Except.error e => Except.error e

/-- The text `t` alone is parsed to `v` by `parse_next`, with the fuel of `load`,
up to its end and without a message on `std::cerr`. -/
def reads_clean (t : Str) (v : json) : Prop :=
  parse_next (load_fuel t) t 0 = Except.ok (v, t.length) ∧ load_cerr t = []

/-- One element of an array text: a value text `text` that stands for `value`,
with the runs of white space before and after it. -/
structure element where
  ws_before : Str
  text : Str
  value : json
  ws_after : Str

/-- The two runs of an element are white space. -/
def element_spaced (e : element) : Bool := (e.ws_before ++ e.ws_after).all isspace

/-- The text of one element. -/
def element_text (e : element) : Str := e.ws_before ++ (e.text ++ e.ws_after)

/-- The element texts, joined by commas. -/
def elements_text : List element → Str
  | [] => []
  | [e] => element_text e
  | e :: e2 :: rest => element_text e ++ ',' :: elements_text (e2 :: rest)

/-- An array text: the elements between brackets. -/
def array_text (es : List element) : Str := '[' :: (elements_text es ++ [']'])

/-- The stores `json_array[index++] = x` of the loop of `parse_array`, for the
values `xs` one after the other. -/
def store_all : json → Nat → List json → Except Fault json
  | json_array, _, [] => Except.ok json_array
  | json_array, index, x :: xs =>
    match json_array.assign_pos (index % 2 ^ 32) x with
    | Except.error e => Except.error e
    | Except.ok json_array => store_all json_array (index + 1) xs

/-- The texts of elements that are each followed by a comma. -/
def elements_front : List element → Str
  | [] => []
  | e :: rest => element_text e ++ ',' :: elements_front rest

/-- The texts of members that are each followed by a comma. -/
def members_front : List member → Str
  | [] => []
  | e :: rest => member_text e ++ ',' :: members_front rest

/-! ## The single header

The header `include/single/json.h` holds a second copy of the class, `json_t`,
and of the parser. The members of the class that the parser and `dump` call
(`make`, `set_type`, `operator[]`, the assignments, `to_string`,
`json_escape`) and the functions `consume_ws`, `parse_string`, `parse_bool`
and `parse_null` are, statement for statement, those of `json.cpp`; they are
embedded by the definitions above. The definitions below embed the functions
of the header whose text differs, `parse_number` (with `std::stol` for
`std::stoll`) and `parse_array` (with an `unsigned` index), the functions that
call them, and `dump`. The width of `long`, which the platform sets, is the
parameter `long_bits`. -/

namespace single

/-- The call `std::stol(s)`, for a `long` of `long_bits` bits: leading white
space, an optional sign, then the longest run of digits. No digit there throws
`std::invalid_argument`, a value outside the range of `long` throws
`std::out_of_range`. -/
def stol (long_bits : Nat) (s : Str) : Except Fault Int :=
  let s := s.dropWhile isspace
  let neg := s.head? = some '-'
  let s := if s.head? = some '-' || s.head? = some '+' then s.drop 1 else s
  let ds := s.takeWhile isdigit
  if ds = [] then Except.error Fault.invalid_argument
  else
    let v : Int := if neg then -(digits_value ds : Int) else (digits_value ds : Int)
    if v < -(2 ^ (long_bits - 1) : Int) || v > (2 ^ (long_bits - 1) - 1 : Int) then
      Except.error Fault.out_of_range
    else Except.ok v

/-- The first loop of `parse_number` in the single header, on the text from
`offset` on; the result is `val`, `is_double`, the character `c` that ended the
loop and `offset`. -/
def parse_number_loop : Str → Nat → Str → Bool → Str × Bool × Char × Nat
  | [], offset, val, is_double => (val, is_double, '\x00', offset + 1)
  | c :: rest, offset, val, is_double =>
    if c = '-' || isdigit c then parse_number_loop rest (offset + 1) (val ++ [c]) is_double
    else if c = '.' then parse_number_loop rest (offset + 1) (val ++ [c]) true
    else (val, is_double, c, offset + 1)

/-- The exponent loop of `parse_number` in the single header, on the text from
`offset` on; the result is `exp_str` (`none` on the error return) and `offset`. -/
def parse_exponent_loop : Str → Nat → Str → Option Str × Nat
  | [], offset, _ => (none, offset + 1)
  | c :: rest, offset, exp_str =>
    if isdigit c then parse_exponent_loop rest (offset + 1) (exp_str ++ [c])
    else if !isterm c then (none, offset + 1)
    else (some exp_str, offset + 1)

/-- The last statements of `parse_number` in the single header: the value
assigned to `number`. The operands of the conditional expression are a `double`
and a `long`, so that its type is `double`. -/
def parse_number_value (long_bits : Nat) (val : Str) (is_double : Bool) (exp_str : Str)
    (exp : Int) : Except Fault json :=
  if is_double then
    (stod val).map (fun x => floating (Dbl.mul x (Dbl.pow10 exp)))
  else if exp_str ≠ [] then
    (stol long_bits val).map (fun n => floating (Dbl.mul (Dbl.of_int n) (Dbl.pow10 exp)))
  else
    (stol long_bits val).map (fun n => floating (Dbl.of_int n))

/-- The function `parse_number` of the single header. -/
def parse_number (long_bits : Nat) (str : Str) (offset : Nat) : Except Fault (json × Nat) :=
  match parse_number_loop (str.drop offset) offset [] false with
  | (val, is_double, c, offset) =>
    if c = 'E' || c = 'e' then
      let c := charAt str offset
      let offset := offset + 1
      let exp_str : Str := if c = '-' then ['-'] else []
      let offset := if c = '-' then offset + 1 else offset
      match parse_exponent_loop (str.drop offset) offset exp_str with
      | (none, offset) => Except.ok (make class_type.null, offset)
      | (some exp_str, offset) =>
        match stol long_bits exp_str with
        | Except.error e => Except.error e
        | Except.ok exp =>
          (parse_number_value long_bits val is_double exp_str exp).map
            (fun number => (number, offset - 1))
    else if !isterm c then Except.ok (make class_type.null, offset)
    else
      (parse_number_value long_bits val is_double [] 0).map
        (fun number => (number, offset - 1))

mutual
/-- The function `parse_next` of the single header. -/
def parse_next (long_bits : Nat) : Nat → Str → Nat → Except Fault (json × Nat)
  | 0, _, _ => Except.error Fault.fuel
  | fuel + 1, str, offset =>
    let offset := consume_ws str offset
    let value := charAt str offset
    if value = '[' then parse_array long_bits fuel str offset
    else if value = '{' then parse_object long_bits fuel str offset
    else if value = '"' then parse_string str offset
    else if value = 't' || value = 'f' then parse_bool str offset
    else if value = 'n' then parse_null str offset
    else if (decide (value ≤ '9') && decide (value ≥ '0')) || value = '-' then
      parse_number long_bits str offset
    else Except.ok (null, offset)
termination_by structural fuel => fuel
/-- The function `parse_object` of the single header, up to its loop. -/
def parse_object (long_bits : Nat) : Nat → Str → Nat → Except Fault (json × Nat)
  | 0, _, _ => Except.error Fault.fuel
  | fuel + 1, str, offset =>
    let json_object := make class_type.object
    let offset := offset + 1
    let offset := consume_ws str offset
    if charAt str offset = '}' then Except.ok (json_object, offset + 1)
    else parse_object_loop long_bits fuel str offset json_object
termination_by structural fuel => fuel
/-- The loop `while (true)` of `parse_object` in the single header, from one
iteration on. -/
def parse_object_loop (long_bits : Nat) : Nat → Str → Nat → json → Except Fault (json × Nat)
  | 0, _, _, _ => Except.error Fault.fuel
  | fuel + 1, str, offset, json_object =>
    match parse_next long_bits fuel str offset with
    | Except.error e => Except.error e
    | Except.ok (key, offset) =>
      let offset := consume_ws str offset
      if charAt str offset ≠ ':' then Except.ok (json_object, offset)
      else
        let offset := consume_ws str (offset + 1)
        match parse_next long_bits fuel str offset with
        | Except.error e => Except.error e
        | Except.ok (value, offset) =>
          let json_object := json_object.assign_key key.to_string value
          let offset := consume_ws str offset
          if charAt str offset = ',' then
            parse_object_loop long_bits fuel str (offset + 1) json_object
          else if charAt str offset = '}' then Except.ok (json_object, offset + 1)
          else Except.ok (json_object, offset)
termination_by structural fuel => fuel
/-- The function `parse_array` of the single header, up to its loop. -/
def parse_array (long_bits : Nat) : Nat → Str → Nat → Except Fault (json × Nat)
  | 0, _, _ => Except.error Fault.fuel
  | fuel + 1, str, offset =>
    let json_array := make class_type.array
    let offset := offset + 1
    let offset := consume_ws str offset
    if charAt str offset = ']' then Except.ok (json_array, offset + 1)
    else parse_array_loop long_bits fuel str offset json_array 0
termination_by structural fuel => fuel
/-- The loop `while (true)` of `parse_array` in the single header, from one
iteration on; `index` is of type `unsigned`, so that `index++` is computed
modulo 2^32. -/
def parse_array_loop (long_bits : Nat) :
    Nat → Str → Nat → json → Nat → Except Fault (json × Nat)
  | 0, _, _, _, _ => Except.error Fault.fuel
  | fuel + 1, str, offset, json_array, index =>
    match parse_next long_bits fuel str offset with
    | Except.error e => Except.error e
    | Except.ok (x, offset) =>
      match json_array.assign_pos index x with
      | Except.error e => Except.error e
      | Except.ok json_array =>
        let offset := consume_ws str offset
        if charAt str offset = ',' then
          parse_array_loop long_bits fuel str (offset + 1) json_array ((index + 1) % 2 ^ 32)
        else if charAt str offset = ']' then Except.ok (json_array, offset + 1)
        else Except.ok (make class_type.array, offset)
termination_by structural fuel => fuel
end

/-- The method `json_t::load` of the single header. -/
def load (long_bits : Nat) (str : Str) : Except Fault json :=
  (parse_next long_bits (load_fuel str) str 0).map (fun r => r.1)

mutual
/-- The method `json_t::dump(depth, tab)` of the single header. The text of a
double, `std::to_string(double)`, is the parameter `fmt`. -/
def dump (fmt : Dbl → Str) (tab : Str) : json → Int → Str
  | null, _ => ['n', 'u', 'l', 'l']
  | object json_map, depth =>
    let pad := make_pad depth tab
    let s := dump_object_loop fmt tab pad json_map depth ['{', '\n'] true
    s ++ (['\n'] ++ pad.drop 2 ++ ['}'])
  | array json_list, depth =>
    let s := dump_array_loop fmt tab json_list depth ['['] true
    s ++ [']']
  | string json_string, _ => ['"'] ++ json_escape json_string ++ ['"']
  | floating json_float, _ => fmt json_float
  | integral json_int, _ => int_to_string json_int
  | boolean json_bool, _ => if json_bool then ['t', 'r', 'u', 'e'] else ['f', 'a', 'l', 's', 'e']
/-- The loop of `dump` of the single header over the entries of an Object, from
the entries left. -/
def dump_object_loop (fmt : Dbl → Str) (tab pad : Str) : map_type → Int → Str → Bool → Str
  | [], _, s, _ => s
  | p :: rest, depth, s, skip =>
    let s := if !skip then s ++ [',', '\n'] else s
    let s := s ++ (pad ++ ['"'] ++ p.1 ++ ['"', ' ', ':', ' '] ++ dump fmt tab p.2 (depth + 1))
    dump_object_loop fmt tab pad rest depth s false
/-- The loop of `dump` of the single header over the elements of an Array, from
the elements left. -/
def dump_array_loop (fmt : Dbl → Str) (tab : Str) : list_type → Int → Str → Bool → Str
  | [], _, s, _ => s
  | p :: rest, depth, s, skip =>
    let s := if !skip then s ++ [',', ' '] else s
    let s := s ++ dump fmt tab p (depth + 1)
    dump_array_loop fmt tab rest depth s false
end

/-- The default `tab` of `dump` in the single header: two spaces. -/
def default_tab : Str := [' ', ' ']

end single

/-! ## Values that their own delimiter closes -/

/-- Whether the loop of `parse_string`, on the text from the character that the
loop condition tests, leaves through that condition, on the closing quote. -/
def parse_string_loop_closes : Str → Bool
  | [] => false
  | c :: rest =>
    if c = '"' then true
    else if c = '\\' then
      match rest with
      | [] => false
      | e :: rest2 =>
        if e = 'u' then
          match rest2 with
          | h1 :: h2 :: h3 :: h4 :: rest3 =>
            if ishex h1 && ishex h2 && ishex h3 && ishex h4 then parse_string_loop_closes rest3
            else false
          | _ => false
        else parse_string_loop_closes rest2
    else parse_string_loop_closes rest

/-- Whether `parse_string`, entered with `offset` on the opening quote, returns
from behind the closing quote. -/
def parse_string_closes (str : Str) (offset : Nat) : Bool :=
  parse_string_loop_closes (str.drop (offset + 1))

/-- Whether the loop of `parse_array` leaves through its `break`, on the closing
bracket. -/
def parse_array_loop_closes : Nat → Str → Nat → json → Nat → Bool
  | 0, _, _, _, _ => false
  | fuel + 1, str, offset, json_array, index =>
    match parse_next fuel str offset with
    | Except.error _ => false
    | Except.ok (x, offset) =>
      match json_array.assign_pos (index % 2 ^ 32) x with
      | Except.error _ => false
      | Except.ok json_array =>
        let offset := consume_ws str offset
        if charAt str offset = ',' then
          parse_array_loop_closes fuel str (offset + 1) json_array (index + 1)
        else if charAt str offset = ']' then true
        else false

/-- Whether `parse_array`, entered with `offset` on the opening bracket, returns
from behind the closing bracket of its array. -/
def parse_array_closes : Nat → Str → Nat → Bool
  | 0, _, _ => false
  | fuel + 1, str, offset =>
    let offset := consume_ws str (offset + 1)
    if charAt str offset = ']' then true
    else parse_array_loop_closes fuel str offset (make class_type.array) 0

/-- Whether the loop of `parse_object` leaves through its `break` on the closing
brace. -/
def parse_object_loop_closes : Nat → Str → Nat → json → Bool
  | 0, _, _, _ => false
  | fuel + 1, str, offset, json_object =>
    match parse_next fuel str offset with
    | Except.error _ => false
    | Except.ok (key, offset) =>
      let offset := consume_ws str offset
      if charAt str offset ≠ ':' then false
      else
        let offset := consume_ws str (offset + 1)
        match parse_next fuel str offset with
        | Except.error _ => false
        | Except.ok (value, offset) =>
          let json_object := json_object.assign_key key.to_string value
          let offset := consume_ws str offset
          if charAt str offset = ',' then
            parse_object_loop_closes fuel str (offset + 1) json_object
          else if charAt str offset = '}' then true
          else false

/-- Whether `parse_object`, entered with `offset` on the opening brace, returns
from behind the closing brace of its object. -/
def parse_object_closes : Nat → Str → Nat → Bool
  | 0, _, _ => false
  | fuel + 1, str, offset =>
    let offset := consume_ws str (offset + 1)
    if charAt str offset = '}' then true
    else parse_object_loop_closes fuel str offset (make class_type.object)

/-- Whether the top-level value of the text is an Object, an Array or a String
that its own closing delimiter ends: the call of `parse_object`, `parse_array`
or `parse_string` that `parse_next` makes for `load` returns from behind the
closing brace, bracket or quote of that value, not from an error exit. -/
def closes (str : Str) : Bool :=
  let offset := consume_ws str 0
  let value := charAt str offset
  if value = '[' then parse_array_closes (load_fuel str - 1) str offset
  else if value = '{' then parse_object_closes (load_fuel str - 1) str offset
  else if value = '"' then parse_string_closes str offset
  else false

/-- One of the characters `,` `]` `:` and the closing brace, which the loops of
`parse_array` and `parse_object` look for behind a value. -/
def isdelim (c : Char) : Bool := c = ',' || c = ']' || c = ':' || c = '}'

end json

/-! ## Basic facts about reading the text -/

open json

theorem charAt_eq_head (str : Str) (i : Nat) :
    charAt str i = ((str.drop i).head?).getD '\x00' := by
  simp [charAt, List.getD_eq_getElem?_getD, List.head?_drop]

theorem consume_ws_loop_append (w t : Str) (off : Nat) (hw : ∀ c ∈ w, isspace c = true) :
    json.consume_ws_loop (w ++ t) off = json.consume_ws_loop t (off + w.length) := by
  induction w generalizing off with
  | nil => simp
  | cons c w ih =>
    have hc : isspace c = true := hw c (by simp)
    have hw2 : ∀ c ∈ w, isspace c = true := fun d hd => hw d (by simp [hd])
    rw [List.cons_append, json.consume_ws_loop]
    simp only [hc, if_true, List.length_cons]
    rw [ih (off + 1) hw2, show off + 1 + w.length = off + (w.length + 1) by omega]

/-! ## A text at a cursor

The parser reads `str` only through `str.drop offset`; a hypothesis
`str.drop o = t ++ rest` says that the text `t` stands at the cursor `o`. -/

theorem drop_step (str : Str) (o : Nat) (a b : Str) (h : str.drop o = a ++ b) :
    str.drop (o + a.length) = b := by
  rw [← List.drop_drop, h]; simp

theorem drop_succ (str : Str) (o : Nat) (c : Char) (b : Str) (h : str.drop o = c :: b) :
    str.drop (o + 1) = b := drop_step str o [c] b h

theorem charAt_at (str : Str) (o : Nat) (c : Char) (t : Str) (h : str.drop o = c :: t) :
    charAt str o = c := by
  simp [charAt_eq_head, h]

theorem consume_ws_at (str : Str) (o : Nat) (w : Str) (c : Char) (t : Str)
    (h : str.drop o = w ++ c :: t) (hw : ∀ c ∈ w, isspace c = true) (hc : isspace c = false) :
    consume_ws str o = o + w.length := by
  rw [consume_ws, h, consume_ws_loop_append w (c :: t) o hw, consume_ws_loop]
  simp [hc]

theorem consume_ws_stay (str : Str) (o : Nat) (c : Char) (t : Str)
    (h : str.drop o = c :: t) (hc : isspace c = false) : consume_ws str o = o := 
  consume_ws_at str o [] c t h (by simp) hc

/-! ## `parse_string` inverts `json_escape` -/

theorem parse_string_loop_quote (rest : Str) (off : Nat) (v : Str) :
    json.parse_string_loop ('"' :: rest) off v = Except.ok (json.string v, off + 1) := by
  rw [json.parse_string_loop.eq_def]; simp

theorem parse_string_loop_plain (c : Char) (rest : Str) (off : Nat) (v : Str)
    (h1 : c ≠ '"') (h2 : c ≠ '\\') :
    json.parse_string_loop (c :: rest) off v
      = json.parse_string_loop rest (off + 1) (v ++ [c]) := by
  rw [json.parse_string_loop.eq_def]; simp only [h1, h2, if_false]

theorem parse_string_loop_escape_one (i : Char) (rest : Str) (off : Nat) (v : Str) :
    json.parse_string_loop (json.json_escape [i] ++ rest) off v
      = json.parse_string_loop rest (off + (json.json_escape [i]).length) (v ++ [i]) := by
  by_cases h1 : i = '"'
  · subst h1; rw [json.parse_string_loop.eq_def]; simp [json.json_escape]
  by_cases h2 : i = '\\'
  · subst h2; rw [json.parse_string_loop.eq_def]; simp [json.json_escape]
  by_cases h3 : i = '\x08'
  · subst h3; rw [json.parse_string_loop.eq_def]; simp [json.json_escape]
  by_cases h4 : i = '\x0c'
  · subst h4; rw [json.parse_string_loop.eq_def]; simp [json.json_escape]
  by_cases h5 : i = '\n'
  · subst h5; rw [json.parse_string_loop.eq_def]; simp [json.json_escape]
  by_cases h6 : i = '\r'
  · subst h6; rw [json.parse_string_loop.eq_def]; simp [json.json_escape]
  by_cases h7 : i = '\t'
  · subst h7; rw [json.parse_string_loop.eq_def]; simp [json.json_escape]
  simp [json.json_escape, h1, h2, h3, h4, h5, h6, h7, parse_string_loop_plain]

theorem json_escape_cons (i : Char) (s : Str) :
    json.json_escape (i :: s) = json.json_escape [i] ++ json.json_escape s := by
  simp [json.json_escape]

theorem parse_string_loop_escape (s post : Str) (off : Nat) (acc : Str) :
    json.parse_string_loop (json.json_escape s ++ '"' :: post) off acc
      = Except.ok (json.string (acc ++ s), off + (json.json_escape s).length + 1) := by
  induction s generalizing off acc with
  | nil => simp [json.json_escape, parse_string_loop_quote]
  | cons i s ih =>
    rw [json_escape_cons, List.append_assoc, parse_string_loop_escape_one, ih]
    simp [Nat.add_assoc]

/-- The step of `parse_next` with fuel left, as one equation. -/
theorem parse_next_succ (fuel : Nat) (str : Str) (offset : Nat) :
    json.parse_next (fuel + 1) str offset =
      (let offset := json.consume_ws str offset
       let value := charAt str offset
       if value = '[' then json.parse_array fuel str offset
       else if value = '{' then json.parse_object fuel str offset
       else if value = '"' then json.parse_string str offset
       else if value = 't' || value = 'f' then json.parse_bool str offset
       else if value = 'n' then json.parse_null str offset
       else if (decide (value ≤ '9') && decide (value ≥ '0')) || value = '-' then
         json.parse_number str offset
       else Except.ok (json.null, offset)) := by
  rw [json.parse_next]

/-! ## Values at a cursor -/

theorem parse_string_at (str : Str) (o : Nat) (s rest : Str)
    (h : str.drop o = '"' :: (json_escape s ++ '"' :: rest)) :
    parse_string str o = Except.ok (json.string s, o + (json_escape s).length + 2) := by
  rw [parse_string, drop_succ str o _ _ h, parse_string_loop_escape]
  simp only [List.nil_append]
  rw [show o + 1 + (json_escape s).length + 1 = o + (json_escape s).length + 2 by omega]

/-- White space before a value is skipped by `parse_next`. -/
theorem parse_next_skip (fuel : Nat) (str : Str) (o : Nat) (w : Str) (c : Char) (t : Str)
    (h : str.drop o = w ++ c :: t) (hw : ∀ c ∈ w, isspace c = true) (hc : isspace c = false) :
    parse_next fuel str o = parse_next fuel str (o + w.length) := by
  cases fuel with
  | zero => rfl
  | succ f =>
    rw [parse_next_succ, parse_next_succ, consume_ws_at str o w c t h hw hc,
      consume_ws_stay str (o + w.length) c t (drop_step str o w _ h) hc]

theorem parse_next_string_at (fuel : Nat) (str : Str) (o : Nat) (s rest : Str)
    (h : str.drop o = '"' :: (json_escape s ++ '"' :: rest)) :
    parse_next (fuel + 1) str o
      = Except.ok (json.string s, o + (json_escape s).length + 2) := by
  rw [parse_next_succ]
  simp only [consume_ws_stay str o '"' _ h (by decide), charAt_at str o '"' _ h]
  simp [parse_string_at str o s rest h]

theorem parse_next_null_at (fuel : Nat) (str : Str) (o : Nat) (rest : Str)
    (h : str.drop o = 'n' :: 'u' :: 'l' :: 'l' :: rest) :
    parse_next (fuel + 1) str o = Except.ok (json.null, o + 4) := by
  rw [parse_next_succ]
  simp only [consume_ws_stay str o 'n' _ h (by decide), charAt_at str o 'n' _ h]
  simp [parse_null, substr, h]

theorem parse_next_true_at (fuel : Nat) (str : Str) (o : Nat) (rest : Str)
    (h : str.drop o = 't' :: 'r' :: 'u' :: 'e' :: rest) :
    parse_next (fuel + 1) str o = Except.ok (json.boolean true, o + 4) := by
  rw [parse_next_succ]
  simp only [consume_ws_stay str o 't' _ h (by decide), charAt_at str o 't' _ h]
  simp [parse_bool, substr, h]

theorem parse_next_false_at (fuel : Nat) (str : Str) (o : Nat) (rest : Str)
    (h : str.drop o = 'f' :: 'a' :: 'l' :: 's' :: 'e' :: rest) :
    parse_next (fuel + 1) str o = Except.ok (json.boolean false, o + 5) := by
  rw [parse_next_succ]
  simp only [consume_ws_stay str o 'f' _ h (by decide), charAt_at str o 'f' _ h]
  simp [parse_bool, substr, h]

/-- C3: for every string `s`, the dump of the String value `s` is a quote, then
`json_escape s`, then a quote; parsing that text from offset 0 gives the String
value `s` with the cursor at the end of the text, and so does `load`. The text
`"a\"b\n"` is parsed to a, quote, b, newline, which is dumped to the same text. -/
theorem string_escape_roundtrip (fmt : Dbl → Str) (tab : Str) (depth : Int) (s : Str) :
    json.dump fmt tab (json.string s) depth = ['"'] ++ json.json_escape s ++ ['"'] ∧
    json.parse_next (json.load_fuel (json.dump fmt tab (json.string s) depth))
        (json.dump fmt tab (json.string s) depth) 0
      = Except.ok (json.string s, (json.dump fmt tab (json.string s) depth).length) ∧
    json.load (json.dump fmt tab (json.string s) depth) = Except.ok (json.string s) ∧
    json.load ['"', 'a', '\\', '"', 'b', '\\', 'n', '"']
      = Except.ok (json.string ['a', '"', 'b', '\n']) ∧
    json.dump fmt tab (json.string ['a', '"', 'b', '\n']) depth
      = ['"', 'a', '\\', '"', 'b', '\\', 'n', '"'] := by
  have hd : json.dump fmt tab (json.string s) depth = ['"'] ++ json.json_escape s ++ ['"'] := by
    rw [json.dump]
  have hp : ∀ fuel, json.parse_next (fuel + 1) (json.dump fmt tab (json.string s) depth) 0
      = Except.ok (json.string s, (json.dump fmt tab (json.string s) depth).length) := by
    intro fuel
    rw [parse_next_string_at fuel _ 0 s [] (by rw [hd]; simp), hd]
    simp
  refine ⟨hd, ?_, ?_, rfl, ?_⟩
  · exact hp _
  · rw [json.load, json.load_fuel, hp]; rfl
  · rw [json.dump]; rfl

/-! ## Number texts: what the code returns -/

theorem parse_number_value_floating (value : Str) (fl : Bool) (ev : Str) (exp : Int) (v : json)
    (h : parse_number_value value fl ev exp = Except.ok v) :
    v.json_type = class_type.floating := by
  unfold parse_number_value at h
  split at h
  · cases hs : stod value <;> simp [hs, Except.map] at h
    subst h; rfl
  · split at h <;>
    · cases hs : stoll value <;> simp [hs, Except.map] at h
      subst h; rfl

theorem parse_number_kind (str : Str) (offset : Nat) (v : json) (o : Nat)
    (h : parse_number str offset = Except.ok (v, o)) :
    v.json_type = class_type.null ∨ v.json_type = class_type.floating := by
  unfold parse_number at h
  split at h
  split at h
  · dsimp only at h
    split at h
    · simp only [Except.ok.injEq, Prod.mk.injEq] at h
      left; rw [← h.1]; rfl
    · split at h
      · simp at h
      · simp only [Except.map] at h
        split at h
        · simp at h
        · rename_i w hv
          simp only [Except.ok.injEq, Prod.mk.injEq] at h
          right; rw [← h.1]; exact parse_number_value_floating _ _ _ _ _ hv
  · split at h
    · simp only [Except.ok.injEq, Prod.mk.injEq] at h
      left; rw [← h.1]; rfl
    · simp only [Except.map] at h
      split at h
      · simp at h
      · rename_i w hv
        simp only [Except.ok.injEq, Prod.mk.injEq] at h
        right; rw [← h.1]; exact parse_number_value_floating _ _ _ _ _ hv

/-- C4: on the text `42`, and on the text `-5`, `load` returns Null: the character
after the last digit is the terminating NUL, which `parse_number` takes for an
unexpected character. The cursor is then one past the end of the text. -/
theorem load_top_level_integer_is_null :
    json.load ['4', '2'] = Except.ok json.null ∧
    json.load ['-', '5'] = Except.ok json.null ∧
    json.parse_next (json.load_fuel ['4', '2']) ['4', '2'] 0 = Except.ok (json.null, 3) :=
  ⟨rfl, rfl, rfl⟩

/-- C5: `parse_number` on `42` before a terminator returns a Float-kind value, the
double converted from 42, and so the element of `load` of `[42]` is of Float
kind; on no text and at no offset does `parse_number` return an Integer-kind
value. -/
theorem parse_number_yields_floating :
    json.parse_number ['4', '2', ']'] 0 = Except.ok (json.floating (Dbl.of_int 42), 2) ∧
    json.load ['[', '4', '2', ']'] = Except.ok (json.array [json.floating (Dbl.of_int 42)]) ∧
    ∀ (str : Str) (offset : Nat),
      (json.parse_number str offset).toOption.map (fun r => r.1.json_type)
        ≠ some class_type.integral := by
  refine ⟨rfl, rfl, ?_⟩
  intro str offset
  cases h : json.parse_number str offset with
  | error e => simp [Except.toOption]
  | ok r =>
    obtain ⟨v, o⟩ := r
    rcases parse_number_kind str offset v o h with hk | hk <;> simp [Except.toOption, hk]

/-- C6: `load` of `1e3` is Null; inside an array, `[1e3]` makes `std::stoll` throw
`std::invalid_argument` on the empty exponent text, and `[1e23]` yields the
double `1 * pow(10, 3)`: the first character after `e` is read and dropped. -/
theorem exponent_first_digit_dropped :
    json.load ['1', 'e', '3'] = Except.ok json.null ∧
    json.load ['[', '1', 'e', '3', ']'] = Except.error Fault.invalid_argument ∧
    json.load ['[', '1', 'e', '2', '3', ']']
      = Except.ok (json.array [json.floating (Dbl.mul (Dbl.of_int 1) (Dbl.pow10 3))]) :=
  ⟨rfl, rfl, rfl⟩

/-- C8: `load` lets an exception escape: `[-]` and `[1e3]` end in
`std::invalid_argument`, and twenty digits `[99999999999999999999]` end in
`std::out_of_range`, all thrown by `std::stoll`. -/
theorem load_raises_on_malformed_number :
    json.load ['[', '-', ']'] = Except.error Fault.invalid_argument ∧
    json.load ['[', '1', 'e', '3', ']'] = Except.error Fault.invalid_argument ∧
    json.load "[99999999999999999999]".toList = Except.error Fault.out_of_range :=
  ⟨rfl, rfl, rfl⟩

/-! ## The order of keys -/

theorem str_lt_irrefl (a : Str) : str_lt a a = false := by
  induction a with
  | nil => rfl
  | cons c a ih => simp [str_lt, ih]

theorem str_lt_asymm (a b : Str) (h : str_lt a b = true) : str_lt b a = false := by
  induction a generalizing b with
  | nil => cases b <;> simp_all [str_lt]
  | cons c a ih =>
    cases b with
    | nil => simp [str_lt] at h
    | cons d b =>
      simp only [str_lt] at h ⊢
      by_cases h1 : c < d
      · have h2 : ¬ d < c := lt_asymm h1
        simp [h1, h2]
      · by_cases h2 : d < c
        · simp [h1, h2] at h
        · simp only [h1, h2, if_false] at h ⊢
          exact ih b h

theorem str_lt_trans (a b c : Str) (h1 : str_lt a b = true) (h2 : str_lt b c = true) :
    str_lt a c = true := by
  induction a generalizing b c with
  | nil =>
    cases b with
    | nil => simp [str_lt] at h1
    | cons y b => cases c <;> simp_all [str_lt]
  | cons x a ih =>
    cases b with
    | nil => simp [str_lt] at h1
    | cons y b =>
      cases c with
      | nil => simp [str_lt] at h2
      | cons z c =>
        simp only [str_lt] at h1 h2 ⊢
        by_cases hxy : x < y
        · by_cases hyz : y < z
          · simp [lt_trans hxy hyz]
          · by_cases hzy : z < y
            · simp [hyz, hzy] at h2
            · have : y = z := le_antisymm (not_lt.mp hzy) (not_lt.mp hyz)
              subst this; simp [hxy]
        · by_cases hyx : y < x
          · simp [hxy, hyx] at h1
          · have hxy' : x = y := le_antisymm (not_lt.mp hyx) (not_lt.mp hxy)
            subst hxy'
            simp only [hxy, if_false] at h1
            by_cases hxz : x < z
            · simp [hxz]
            · by_cases hzx : z < x
              · simp [hxz, hzx] at h2
              · simp only [hxz, hzx, if_false] at h2 ⊢
                exact ih b c h1 h2

theorem str_lt_total (a b : Str) (h1 : str_lt a b = false) (h2 : str_lt b a = false) :
    a = b := by
  induction a generalizing b with
  | nil => cases b <;> simp_all [str_lt]
  | cons x a ih =>
    cases b with
    | nil => simp [str_lt] at h2
    | cons y b =>
      simp only [str_lt] at h1 h2
      by_cases hxy : x < y
      · simp [hxy] at h1
      · by_cases hyx : y < x
        · simp [hyx] at h2
        · have : x = y := le_antisymm (not_lt.mp hyx) (not_lt.mp hxy)
          subst this
          simp only [hxy, if_false] at h1 h2
          rw [ih b h1 h2]

theorem str_lt_ne (a b : Str) (h : str_lt a b = true) : a ≠ b := by
  intro hab; subst hab; rw [str_lt_irrefl] at h; cases h

/-! ## The map of an Object -/

/-- Every key of `m` is above `k`. -/
theorem map_sorted_cons (k : Str) (v : json) (m : map_type) :
    map_sorted ((k, v) :: m) = true ↔
      (∀ e ∈ m, str_lt k e.1 = true) ∧ map_sorted m = true := by
  induction m generalizing k v with
  | nil => simp [map_sorted]
  | cons e m ih =>
    obtain ⟨k2, v2⟩ := e
    simp only [map_sorted, Bool.and_eq_true, List.mem_cons, forall_eq_or_imp]
    constructor
    · rintro ⟨h1, h2⟩
      refine ⟨⟨h1, ?_⟩, h2⟩
      intro e he
      exact str_lt_trans _ _ _ h1 (((ih k2 v2).1 h2).1 e he)
    · rintro ⟨⟨h1, _⟩, h2⟩
      exact ⟨h1, h2⟩

theorem map_find_none_of_above (k : Str) (m : map_type)
    (h : ∀ e ∈ m, str_lt k e.1 = true) : map_find m k = none := by
  induction m with
  | nil => rfl
  | cons e m ih =>
    obtain ⟨k2, v2⟩ := e
    have h1 : str_lt k k2 = true := h (k2, v2) (by simp)
    have h2 : k2 ≠ k := fun hk => str_lt_ne _ _ h1 hk.symm
    simp only [map_find, h2, if_false]
    exact ih (fun e he => h e (by simp [he]))

theorem map_find_index_ne (m : map_type) (key k : Str) (h : k ≠ key) :
    map_find (map_index m key) k = map_find m k := by
  induction m with
  | nil => simp [map_index, map_find, h.symm]
  | cons e m ih =>
    obtain ⟨k2, v2⟩ := e
    simp only [map_index]
    split
    · simp [map_find, h.symm]
    · split
      · simp [map_find, ih]
      · rfl

theorem map_index_present (m : map_type) (key : Str) (x : json)
    (hs : map_sorted m = true) (h : map_find m key = some x) : map_index m key = m := by
  induction m with
  | nil => simp [map_find] at h
  | cons e m ih =>
    obtain ⟨k2, v2⟩ := e
    have hs2 := (map_sorted_cons k2 v2 m).1 hs
    simp only [map_index]
    by_cases hk : k2 = key
    · subst hk; simp [str_lt_irrefl]
    · simp only [map_find, hk, if_false] at h
      by_cases h1 : str_lt key k2 = true
      · exfalso
        have : map_find m key = none :=
          map_find_none_of_above key m (fun e he => str_lt_trans _ _ _ h1 (hs2.1 e he))
        rw [this] at h; cases h
      · by_cases h2 : str_lt k2 key = true
        · simp [h1, h2, ih hs2.2 h]
        · simp [h1, h2]

theorem map_index_absent (m : map_type) (key : Str) (h : map_find m key = none) :
    map_find (map_index m key) key = some json.null ∧
      (map_index m key).length = m.length + 1 := by
  induction m with
  | nil => simp [map_index, map_find]
  | cons e m ih =>
    obtain ⟨k2, v2⟩ := e
    by_cases hk : k2 = key
    · simp [map_find, hk] at h
    · simp only [map_find, hk, if_false] at h
      simp only [map_index]
      by_cases h1 : str_lt key k2 = true
      · simp [h1, map_find]
      · by_cases h2 : str_lt k2 key = true
        · simp [h1, h2, map_find, hk, ih h]
        · exact absurd (str_lt_total _ _ (by simpa using h2) (by simpa using h1)) hk

theorem map_index_contains (m : map_type) (key : Str) :
    ∃ x, map_find (map_index m key) key = some x := by
  induction m with
  | nil => exact ⟨json.null, by simp [map_index, map_find]⟩
  | cons e m ih =>
    obtain ⟨k2, v2⟩ := e
    simp only [map_index]
    by_cases h1 : str_lt key k2 = true
    · exact ⟨json.null, by simp [h1, map_find]⟩
    · by_cases h2 : str_lt k2 key = true
      · obtain ⟨x, hx⟩ := ih
        exact ⟨x, by simp [h1, h2, map_find, str_lt_ne _ _ h2, hx]⟩
      · have hk : k2 = key := str_lt_total _ _ (by simpa using h2) (by simpa using h1)
        subst hk
        exact ⟨v2, by simp [str_lt_irrefl, map_find]⟩

theorem map_index_keys (m : map_type) (key : Str) (e : Str × json)
    (he : e ∈ map_index m key) : e.1 = key ∨ e ∈ m := by
  induction m with
  | nil => simp [map_index] at he; left; rw [he]
  | cons e2 m ih =>
    obtain ⟨k2, v2⟩ := e2
    simp only [map_index] at he
    split at he
    · simp only [List.mem_cons] at he
      rcases he with he | he | he
      · left; rw [he]
      · right; simp [he]
      · right; simp [he]
    · split at he
      · simp only [List.mem_cons] at he
        rcases he with he | he
        · right; simp [he]
        · rcases ih he with h | h
          · left; exact h
          · right; simp [h]
      · right; exact he

theorem map_index_sorted (m : map_type) (key : Str) (hs : map_sorted m = true) :
    map_sorted (map_index m key) = true := by
  induction m with
  | nil => simp [map_index, map_sorted]
  | cons e m ih =>
    obtain ⟨k2, v2⟩ := e
    have hs2 := (map_sorted_cons k2 v2 m).1 hs
    simp only [map_index]
    by_cases h1 : str_lt key k2 = true
    · simp only [h1, if_true]
      rw [map_sorted_cons]
      refine ⟨?_, hs⟩
      intro e he
      simp only [List.mem_cons] at he
      rcases he with he | he
      · rw [he]; exact h1
      · exact str_lt_trans _ _ _ h1 (hs2.1 e he)
    · by_cases h2 : str_lt k2 key = true
      · have h1f : str_lt key k2 = false := by simpa using h1
        simp only [h1f, h2, if_true, Bool.false_eq_true, if_false]
        rw [map_sorted_cons]
        refine ⟨?_, ih hs2.2⟩
        intro e he
        rcases map_index_keys m key e he with h | h
        · rw [h]; exact h2
        · exact hs2.1 e h
      · simp only [h1, h2, if_false]; exact hs

/-! ## Mutating access -/

theorem map_store_find (m : map_type) (key k : Str) (x : json) :
    map_find (map_store m key x) k
      = if k = key then (map_find m key).map (fun _ => x) else map_find m k := by
  induction m with
  | nil => simp [map_store, map_find]
  | cons e m ih =>
    obtain ⟨k2, v2⟩ := e
    simp only [map_store]
    by_cases h1 : k2 = key
    · subst h1
      by_cases h2 : k = k2
      · subst h2; simp [map_find]
      · have h3 : ¬ k2 = k := fun h => h2 h.symm
        simp [map_find, h2, h3]
    · by_cases h2 : k = key
      · subst h2; simp [map_find, h1, ih]
      · simp [map_find, h1, h2, ih]

theorem map_store_keys (m : map_type) (key : Str) (x : json) :
    (map_store m key x).map Prod.fst = m.map Prod.fst := by
  induction m with
  | nil => rfl
  | cons e m ih =>
    obtain ⟨k2, v2⟩ := e
    simp only [map_store]
    split <;> simp [ih]

theorem map_store_sorted (m : map_type) (key : Str) (x : json)
    (hs : map_sorted m = true) : map_sorted (map_store m key x) = true := by
  induction m with
  | nil => exact hs
  | cons e m ih =>
    obtain ⟨k2, v2⟩ := e
    have hs2 := (map_sorted_cons k2 v2 m).1 hs
    simp only [map_store]
    split
    · exact (map_sorted_cons k2 x m).2 hs2
    · refine (map_sorted_cons k2 v2 _).2 ⟨?_, ih hs2.2⟩
      intro e he
      have h1 : e.1 ∈ (map_store m key x).map Prod.fst := List.mem_map_of_mem _ he
      rw [map_store_keys, List.mem_map] at h1
      obtain ⟨e2, he2, h2⟩ := h1
      rw [← h2]; exact hs2.1 e2 he2

theorem set_type_object_entries (v : json) :
    (v.set_type class_type.object).entries = v.entries := by
  cases v <;> rfl

theorem set_type_array_elements (v : json) :
    (v.set_type class_type.array).elements = v.elements := by
  cases v <;> rfl

theorem entries_of_object (v : json) (h : v.json_type = class_type.object) :
    v = json.object v.entries := by
  cases v <;> first | rfl | (simp [json_type] at h)

theorem entries_of_not_object (v : json) (h : v.json_type ≠ class_type.object) :
    v.entries = [] := by
  cases v <;> simp [json_type, entries] at h ⊢

/-- C10: after the mutating access `v[k]` the value is an Object that contains
`k`, with its keys still in ascending order. When `v` was an Object, every other
key is mapped as before, a key already present leaves the value as it was, and a
missing key is mapped to Null with one entry more; when `v` was of another kind,
`k -> Null` is the only entry. On a fresh Null, `v[k] = x` gives the Object with
the single entry `k -> x`. -/
theorem index_key_vivifies (v : json) (k : Str) (hv : map_sorted v.entries = true) :
    (v.index_key k).json_type = class_type.object ∧
    (∃ x, map_find (v.index_key k).entries k = some x) ∧
    map_sorted (v.index_key k).entries = true ∧
    (v.json_type = class_type.object →
      (∀ k2, k2 ≠ k → map_find (v.index_key k).entries k2 = map_find v.entries k2) ∧
      (∀ x, map_find v.entries k = some x → v.index_key k = v) ∧
      (map_find v.entries k = none →
        map_find (v.index_key k).entries k = some json.null ∧
        (v.index_key k).entries.length = v.entries.length + 1)) ∧
    (v.json_type ≠ class_type.object → v.index_key k = json.object [(k, json.null)]) ∧
    (∀ x, json.null.assign_key k x = json.object [(k, x)]) := by
  have he : (v.index_key k).entries = map_index v.entries k := by
    show map_index (v.set_type class_type.object).entries k = _
    rw [set_type_object_entries]
  refine ⟨rfl, ?_, ?_, ?_, ?_, ?_⟩
  · rw [he]; exact map_index_contains _ _
  · rw [he]; exact map_index_sorted _ _ hv
  · intro hobj
    refine ⟨?_, ?_, ?_⟩
    · intro k2 hk2; rw [he]; exact map_find_index_ne _ _ _ hk2
    · intro x hx
      have h1 : v.index_key k = json.object (map_index v.entries k) := by
        show json.object (map_index (v.set_type class_type.object).entries k) = _
        rw [set_type_object_entries]
      rw [h1, map_index_present _ _ x hv hx]
      exact (entries_of_object v hobj).symm
    · intro hnone; rw [he]; exact map_index_absent _ _ hnone
  · intro hno
    show json.object (map_index (v.set_type class_type.object).entries k) = _
    rw [set_type_object_entries, entries_of_not_object v hno]
    rfl
  · intro x
    simp only [assign_key, index_key, set_type, json_type, entries, map_index, map_store]
    simp

/-- The access `v[b]` on the Object with the one key `a`: `b` is mapped to Null
and there are two entries. -/
theorem index_key_vivifies_witness :
    map_sorted (json.object [(['a'], json.boolean true)]).entries = true ∧
    map_find ((json.object [(['a'], json.boolean true)]).index_key ['b']).entries ['b']
      = some json.null ∧
    ((json.object [(['a'], json.boolean true)]).index_key ['b']).entries.length = 2 :=
  ⟨rfl, ((index_key_vivifies (json.object [(['a'], json.boolean true)]) ['b'] rfl).2.2.2.1
      rfl).2.2 rfl⟩

theorem list_resize_grow (l : list_type) (n : Nat) (h : l.length ≤ n) :
    list_resize l n = l ++ List.replicate (n - l.length) json.null := by
  simp [list_resize, List.take_of_length_le h]

/-- Below the largest index the access `v[i]` extends the array as intended. -/
theorem index_pos_in_range (v : json) (i : Nat) (hi : i + 1 < 2 ^ 32) :
    ∃ l, v.index_pos i = json.array l ∧
      l.length = max v.elements.length (i + 1) ∧
      (∀ j, j < v.elements.length → l[j]? = v.elements[j]?) ∧
      (∀ j, v.elements.length ≤ j → j < l.length → l[j]? = some json.null) := by
  unfold index_pos
  simp only [set_type_array_elements, Nat.mod_eq_of_lt hi]
  by_cases h : i ≥ v.elements.length
  · refine ⟨list_resize v.elements (i + 1), by simp [h], ?_, ?_, ?_⟩
    · rw [list_resize_grow _ _ (by omega)]
      simp only [List.length_append, List.length_replicate]
      omega
    · intro j hj
      rw [list_resize_grow _ _ (by omega), List.getElem?_append_left hj]
    · intro j hj1 hj2
      rw [list_resize_grow _ _ (by omega)] at hj2 ⊢
      rw [List.getElem?_append_right hj1]
      simp only [List.length_append, List.length_replicate] at hj2
      rw [List.getElem?_replicate]
      simp; omega
  · refine ⟨v.elements, by simp [h], ?_, ?_, ?_⟩
    · omega
    · intro j _; rfl
    · intro j hj1 hj2; omega

/-- At the largest index the access `v[i]` leaves an empty Array, whatever `v`
held (an Array of more than 4294967295 elements apart). -/
theorem index_pos_max_index (v : json) (h : v.elements.length ≤ 4294967295) :
    v.index_pos 4294967295 = json.array [] := by
  unfold index_pos
  rw [set_type_array_elements]
  have h2 : 4294967295 ≥ v.elements.length := h
  simp [h2, list_resize]

/-- An Array of 4294967295 elements takes no further element by `a[index] = x`. -/
theorem assign_pos_at_wrap (l : list_type) (x : json) (h : l.length = 4294967295) :
    (json.array l).assign_pos (l.length % 2 ^ 32) x = Except.error Fault.dangling := by
  have h2 : (json.array l).index_pos 4294967295 = json.array [] :=
    index_pos_max_index _ (by show l.length ≤ 4294967295; omega)
  rw [h, show (4294967295 : Nat) % 2 ^ 32 = 4294967295 from rfl, assign_pos, h2]
  rfl

/-- C9: at the largest index, 4294967295, `index + 1` wraps to 0 in
`unsigned int`: the access `v[4294967295]` on an Array of one element, and on a
fresh Null, leaves an empty Array, and the reference it returns designates no
element. At index 3 a fresh Null becomes the Array of length 4 with Null at the
indices 0 to 2 and the assigned value at index 3. -/
theorem index_pos_wraps_at_max_index :
    json.index_pos (json.array [json.null]) 4294967295 = json.array [] ∧
    json.index_pos json.null 4294967295 = json.array [] ∧
    json.assign_pos json.null 4294967295 (json.boolean true) = Except.error Fault.dangling ∧
    json.assign_pos json.null 3 (json.boolean true)
      = Except.ok (json.array [json.null, json.null, json.null, json.boolean true]) :=
  ⟨rfl, rfl, rfl, rfl⟩

/-! ## Escaped texts and stable trees -/

theorem escaped_text_image_aux : ∀ (n : Nat) (k : Str), k.length ≤ n → escaped_text k = true →
    ∃ s, json_escape s = k
  | _, [], _, _ => ⟨[], rfl⟩
  | 0, _ :: _, hn, _ => by simp at hn
  | n + 1, [c], _, h => by
    refine ⟨[c], ?_⟩
    simp only [escaped_text, plain_char, Bool.not_eq_true', Bool.or_eq_false_iff,
      decide_eq_false_iff_not] at h
    simp [json_escape, h]
  | n + 1, c :: e :: rest, hn, h => by
    rw [escaped_text] at h
    by_cases hc : c = '\\'
    · subst hc
      simp only [if_true, Bool.and_eq_true] at h
      obtain ⟨s, hs⟩ := escaped_text_image_aux n rest
        (by simp only [List.length_cons] at hn; omega) h.2
      have he := h.1
      simp only [escape_letter, Bool.or_eq_true, decide_eq_true_eq] at he
      rcases he with (((((he | he) | he) | he) | he) | he) | he <;> subst he
      · exact ⟨'"' :: s, by rw [json_escape_cons, hs]; rfl⟩
      · exact ⟨'\\' :: s, by rw [json_escape_cons, hs]; rfl⟩
      · exact ⟨'\x08' :: s, by rw [json_escape_cons, hs]; rfl⟩
      · exact ⟨'\x0c' :: s, by rw [json_escape_cons, hs]; rfl⟩
      · exact ⟨'\n' :: s, by rw [json_escape_cons, hs]; rfl⟩
      · exact ⟨'\r' :: s, by rw [json_escape_cons, hs]; rfl⟩
      · exact ⟨'\t' :: s, by rw [json_escape_cons, hs]; rfl⟩
    · simp only [hc, if_false, Bool.and_eq_true] at h
      obtain ⟨s, hs⟩ := escaped_text_image_aux n (e :: rest)
        (by simp only [List.length_cons] at hn ⊢; omega) h.2
      refine ⟨c :: s, ?_⟩
      have hp := h.1
      simp only [plain_char, Bool.not_eq_true', Bool.or_eq_false_iff,
        decide_eq_false_iff_not] at hp
      rw [json_escape_cons, hs]
      simp [json_escape, hp]

/-- An escaped text is the `json_escape` of some text. -/
theorem escaped_text_image (k : Str) (h : escaped_text k = true) : ∃ s, json_escape s = k :=
  escaped_text_image_aux k.length k (Nat.le_refl _) h

/-- Every `json_escape` is an escaped text. -/
theorem escaped_text_escape (s : Str) : escaped_text (json_escape s) = true := by
  induction s with
  | nil => rfl
  | cons i s ih =>
    rw [json_escape_cons]
    have key : ∀ t : Str, escaped_text t = true →
        escaped_text (json_escape [i] ++ t) = true := by
      intro t ht
      by_cases h1 : i = '"'
      · subst h1; simpa [json_escape, escaped_text, escape_letter] using ht
      by_cases h2 : i = '\\'
      · subst h2; simpa [json_escape, escaped_text, escape_letter] using ht
      by_cases h3 : i = '\x08'
      · subst h3; simpa [json_escape, escaped_text, escape_letter] using ht
      by_cases h4 : i = '\x0c'
      · subst h4; simpa [json_escape, escaped_text, escape_letter] using ht
      by_cases h5 : i = '\n'
      · subst h5; simpa [json_escape, escaped_text, escape_letter] using ht
      by_cases h6 : i = '\r'
      · subst h6; simpa [json_escape, escaped_text, escape_letter] using ht
      by_cases h7 : i = '\t'
      · subst h7; simpa [json_escape, escaped_text, escape_letter] using ht
      have hj : json_escape [i] = [i] := by simp [json_escape, h1, h2, h3, h4, h5, h6, h7]
      rw [hj]
      cases t with
      | nil => simp [escaped_text, plain_char, h1, h2, h3, h4, h5, h6, h7]
      | cons e t =>
        simp only [List.singleton_append, escaped_text, h2, if_false, Bool.and_eq_true]
        exact ⟨by simp [plain_char, h1, h2, h3, h4, h5, h6, h7], ht⟩
    exact key _ ih

theorem stable_array (l : list_type) :
    (json.array l).stable = true ↔ l.length < 2 ^ 32 ∧ stable_list l = true := by
  rw [stable]; simp

theorem stable_object (m : map_type) :
    (json.object m).stable = true ↔ map_sorted m = true ∧ stable_entries m = true := by
  rw [stable]; simp

theorem stable_list_cons (x : json) (xs : list_type) :
    stable_list (x :: xs) = true ↔ x.stable = true ∧ stable_list xs = true := by
  rw [stable_list]; simp

theorem stable_entries_cons (p : Str × json) (ps : map_type) :
    stable_entries (p :: ps) = true ↔
      (∃ s, json_escape s = p.1) ∧ p.2.stable = true ∧ stable_entries ps = true := by
  rw [stable_entries]
  simp only [Bool.and_eq_true]
  constructor
  · rintro ⟨⟨h1, h2⟩, h3⟩
    exact ⟨escaped_text_image _ h1, h2, h3⟩
  · rintro ⟨⟨s, hs⟩, h2, h3⟩
    exact ⟨⟨by rw [← hs]; exact escaped_text_escape s, h2⟩, h3⟩

/-! ## The layout of a dump -/

theorem dump_array_loop_eq (fmt : Dbl → Str) (tab : Str) (depth : Int) (l : list_type)
    (s : Str) (skip : Bool) :
    dump_array_loop fmt tab l depth s skip = s ++ array_body fmt tab depth l skip := by
  induction l generalizing s skip with
  | nil => simp [dump_array_loop, array_body]
  | cons p rest ih =>
    rw [dump_array_loop]
    simp only [ih, array_body]
    cases skip <;> simp

theorem dump_object_loop_eq (fmt : Dbl → Str) (tab pad : Str) (depth : Int) (m : map_type)
    (s : Str) (skip : Bool) :
    dump_object_loop fmt tab pad m depth s skip = s ++ object_body fmt tab pad depth m skip := by
  induction m generalizing s skip with
  | nil => simp [dump_object_loop, object_body]
  | cons p rest ih =>
    rw [dump_object_loop]
    simp only [ih, object_body, entry_text]
    cases skip <;> simp

theorem dump_array_eq (fmt : Dbl → Str) (tab : Str) (depth : Int) (l : list_type) :
    dump fmt tab (json.array l) depth = '[' :: (array_body fmt tab depth l true ++ [']']) := by
  rw [dump]; simp [dump_array_loop_eq]

theorem dump_object_eq (fmt : Dbl → Str) (tab : Str) (depth : Int) (m : map_type) :
    dump fmt tab (json.object m) depth
      = '{' :: '\n' :: (object_body fmt tab (make_pad depth tab) depth m true
          ++ '\n' :: ((make_pad depth tab).drop 2 ++ ['}'])) := by
  rw [dump]; simp [dump_object_loop_eq]

theorem pad_loop_space (tab : Str) (htab : ∀ c ∈ tab, isspace c = true) (n : Nat) (pad : Str)
    (hpad : ∀ c ∈ pad, isspace c = true) : ∀ c ∈ pad_loop n tab pad, isspace c = true := by
  induction n generalizing pad with
  | zero => simpa [pad_loop] using hpad
  | succ n ih =>
    rw [pad_loop]
    apply ih
    intro c hc
    rcases List.mem_append.1 hc with h | h
    · exact hpad c h
    · exact htab c h

theorem make_pad_space (tab : Str) (htab : ∀ c ∈ tab, isspace c = true) (depth : Int) :
    ∀ c ∈ make_pad depth tab, isspace c = true :=
  pad_loop_space tab htab _ [] (by simp)

/-- A dump of a `stable` tree starts with a character that opens a value. -/
theorem dump_head (fmt : Dbl → Str) (tab : Str) (depth : Int) (v : json) (hv : v.stable = true) :
    ∃ c t, dump fmt tab v depth = c :: t ∧ isspace c = false ∧ c ≠ ']' := by
  cases v with
  | null => exact ⟨'n', _, by rw [dump], by decide, by decide⟩
  | object m => exact ⟨'{', _, dump_object_eq fmt tab depth m, by decide, by decide⟩
  | array l => exact ⟨'[', _, dump_array_eq fmt tab depth l, by decide, by decide⟩
  | string s => exact ⟨'"', json_escape s ++ ['"'], by rw [dump]; rfl, by decide, by decide⟩
  | floating f => simp [stable] at hv
  | integral i => simp [stable] at hv
  | boolean b =>
    cases b
    · exact ⟨'f', _, by rw [dump]; rfl, by decide, by decide⟩
    · exact ⟨'t', _, by rw [dump]; rfl, by decide, by decide⟩

theorem map_sorted_append (a b : map_type) (h : map_sorted (a ++ b) = true) :
    ∀ x ∈ a, ∀ y ∈ b, str_lt x.1 y.1 = true := by
  induction a with
  | nil => intro x hx; cases hx
  | cons e a ih =>
    obtain ⟨k, v⟩ := e
    have h2 := (map_sorted_cons k v (a ++ b)).1 h
    intro x hx y hy
    rcases List.mem_cons.1 hx with hx | hx
    · rw [hx]; exact h2.1 y (List.mem_append_right _ hy)
    · exact ih h2.2 x hx y hy

theorem map_index_append (m : map_type) (key : Str)
    (h : ∀ e ∈ m, str_lt e.1 key = true) : map_index m key = m ++ [(key, json.null)] := by
  induction m with
  | nil => rfl
  | cons e m ih =>
    obtain ⟨k, v⟩ := e
    have h1 : str_lt k key = true := h (k, v) (List.mem_cons_self _ _)
    have h2 : str_lt key k = false := str_lt_asymm _ _ h1
    rw [map_index]
    simp only [h1, h2, if_true, Bool.false_eq_true, if_false]
    rw [ih (fun e he => h e (List.mem_cons_of_mem _ he))]
    rfl

theorem map_store_append (m : map_type) (key : Str) (y x : json)
    (h : ∀ e ∈ m, e.1 ≠ key) : map_store (m ++ [(key, y)]) key x = m ++ [(key, x)] := by
  induction m with
  | nil => simp [map_store]
  | cons e m ih =>
    obtain ⟨k, v⟩ := e
    have h1 : k ≠ key := h (k, v) (List.mem_cons_self _ _)
    rw [List.cons_append, map_store]
    simp only [h1, if_false]
    rw [ih (fun e he => h e (List.mem_cons_of_mem _ he))]
    rfl

/-- Storing under a key above all keys present appends the entry. -/
theorem assign_key_append (m : map_type) (key : Str) (x : json)
    (h : ∀ e ∈ m, str_lt e.1 key = true) :
    (json.object m).assign_key key x = json.object (m ++ [(key, x)]) := by
  show json.object (map_store (json.object (map_index m key)).entries key x) = _
  rw [map_index_append m key h]
  show json.object (map_store (m ++ [(key, json.null)]) key x) = _
  rw [map_store_append m key _ x (fun e he => str_lt_ne _ _ (h e he))]

/-- Assigning at the index that is the length appends the element. -/
theorem assign_pos_append (l : list_type) (x : json) (h : l.length + 1 < 2 ^ 32) :
    (json.array l).assign_pos (l.length % 2 ^ 32) x = Except.ok (json.array (l ++ [x])) := by
  have h1 : l.length % 2 ^ 32 = l.length := Nat.mod_eq_of_lt (by omega)
  have h2 : (json.array l).index_pos l.length = json.array (l ++ [json.null]) := by
    unfold index_pos
    rw [set_type_array_elements]
    have he : (json.array l).elements = l := rfl
    simp only [he, Nat.mod_eq_of_lt h, ge_iff_le, le_refl, if_true]
    rw [list_resize_grow _ _ (by omega)]
    simp
  rw [h1, assign_pos, h2]
  have he : (json.array (l ++ [json.null])).elements = l ++ [json.null] := rfl
  simp [he]

/-! ## Parsing a dump -/

theorem array_body_false (fmt : Dbl → Str) (tab : Str) (depth : Int) (x : json) (xs : list_type) :
    array_body fmt tab depth (x :: xs) false
      = ',' :: ' ' :: (dump fmt tab x (depth + 1) ++ array_body fmt tab depth xs false) := by
  simp [array_body]

theorem object_body_false (fmt : Dbl → Str) (tab pad : Str) (depth : Int) (p : Str × json)
    (ps : map_type) :
    object_body fmt tab pad depth (p :: ps) false
      = ',' :: (('\n' :: pad) ++ (entry_text fmt tab depth p
          ++ object_body fmt tab pad depth ps false)) := by
  simp [object_body]

/-- The step of `parse_array_loop` with fuel left, as one equation. -/
theorem parse_array_loop_succ (fuel : Nat) (str : Str) (offset : Nat) (json_array : json)
    (index : Nat) :
    parse_array_loop (fuel + 1) str offset json_array index =
      (match parse_next fuel str offset with
      | Except.error e => Except.error e
      | Except.ok (x, offset) =>
        match json_array.assign_pos (index % 2 ^ 32) x with
        | Except.error e => Except.error e
        | Except.ok json_array =>
          let offset := consume_ws str offset
          if charAt str offset = ',' then
            parse_array_loop fuel str (offset + 1) json_array (index + 1)
          else if charAt str offset = ']' then Except.ok (json_array, offset + 1)
          else Except.ok (make class_type.array, offset)) := by
  rw [parse_array_loop]

/-- The step of `parse_object_loop` with fuel left, as one equation. -/
theorem parse_object_loop_succ (fuel : Nat) (str : Str) (offset : Nat) (json_object : json) :
    parse_object_loop (fuel + 1) str offset json_object =
      (match parse_next fuel str offset with
      | Except.error e => Except.error e
      | Except.ok (key, offset) =>
        let offset := consume_ws str offset
        if charAt str offset ≠ ':' then Except.ok (json_object, offset)
        else
          let offset := consume_ws str (offset + 1)
          match parse_next fuel str offset with
          | Except.error e => Except.error e
          | Except.ok (value, offset) =>
            let json_object := json_object.assign_key key.to_string value
            let offset := consume_ws str offset
            if charAt str offset = ',' then parse_object_loop fuel str (offset + 1) json_object
            else if charAt str offset = '}' then Except.ok (json_object, offset + 1)
            else Except.ok (json_object, offset)) := by
  rw [parse_object_loop]

theorem parse_array_succ (fuel : Nat) (str : Str) (offset : Nat) :
    parse_array (fuel + 1) str offset =
      (if charAt str (consume_ws str (offset + 1)) = ']' then
        Except.ok (make class_type.array, consume_ws str (offset + 1) + 1)
      else parse_array_loop fuel str (consume_ws str (offset + 1)) (make class_type.array) 0) := by
  rw [parse_array]

theorem parse_object_succ (fuel : Nat) (str : Str) (offset : Nat) :
    parse_object (fuel + 1) str offset =
      (if charAt str (consume_ws str (offset + 1)) = '}' then
        Except.ok (make class_type.object, consume_ws str (offset + 1) + 1)
      else parse_object_loop fuel str (consume_ws str (offset + 1)) (make class_type.object)) := by
  rw [parse_object]

theorem object_body_true (fmt : Dbl → Str) (tab pad : Str) (depth : Int) (p : Str × json)
    (ps : map_type) :
    object_body fmt tab pad depth (p :: ps) true
      = pad ++ object_items fmt tab pad depth (p :: ps) := by
  simp [object_body, object_items]

theorem object_body_false_items (fmt : Dbl → Str) (tab pad : Str) (depth : Int)
    (p : Str × json) (ps : map_type) :
    object_body fmt tab pad depth (p :: ps) false
      = ',' :: (('\n' :: pad) ++ object_items fmt tab pad depth (p :: ps)) := by
  simp [object_body, object_items]

theorem ok_pair_congr (v : json) (a b : Nat) (h : a = b) :
    (Except.ok (v, a) : Except Fault (json × Nat)) = Except.ok (v, b) := by rw [h]

theorem make_array : make class_type.array = json.array [] := rfl
theorem make_object : make class_type.object = json.object [] := rfl

mutual
theorem parse_next_dump (fmt : Dbl → Str) (tab : Str) (htab : ∀ c ∈ tab, isspace c = true) :
    ∀ (v : json) (depth : Int) (fuel : Nat) (str : Str) (o : Nat) (rest : Str),
      v.stable = true → 2 * (dump fmt tab v depth).length ≤ fuel →
      str.drop o = dump fmt tab v depth ++ rest →
      parse_next fuel str o = Except.ok (v, o + (dump fmt tab v depth).length)
  | json.null, depth, fuel, str, o, rest, _, hf, hd => by
    have hdump : dump fmt tab json.null depth = ['n', 'u', 'l', 'l'] := by rw [dump]
    rw [hdump] at hf hd ⊢
    obtain ⟨f, rfl⟩ : ∃ f, fuel = f + 1 := ⟨fuel - 1, by simp at hf; omega⟩
    exact parse_next_null_at f str o rest hd
  | json.boolean true, depth, fuel, str, o, rest, _, hf, hd => by
    have hdump : dump fmt tab (json.boolean true) depth = ['t', 'r', 'u', 'e'] := by rw [dump]; rfl
    rw [hdump] at hf hd ⊢
    obtain ⟨f, rfl⟩ : ∃ f, fuel = f + 1 := ⟨fuel - 1, by simp at hf; omega⟩
    exact parse_next_true_at f str o rest hd
  | json.boolean false, depth, fuel, str, o, rest, _, hf, hd => by
    have hdump : dump fmt tab (json.boolean false) depth = ['f', 'a', 'l', 's', 'e'] := by
      rw [dump]; rfl
    rw [hdump] at hf hd ⊢
    obtain ⟨f, rfl⟩ : ∃ f, fuel = f + 1 := ⟨fuel - 1, by simp at hf; omega⟩
    exact parse_next_false_at f str o rest hd
  | json.string s, depth, fuel, str, o, rest, _, hf, hd => by
    have hdump : dump fmt tab (json.string s) depth = '"' :: (json_escape s ++ ['"']) := by
      rw [dump]; rfl
    rw [hdump] at hf hd ⊢
    obtain ⟨f, rfl⟩ : ∃ f, fuel = f + 1 := ⟨fuel - 1, by simp at hf; omega⟩
    rw [parse_next_string_at f str o s rest (by rw [hd]; simp)]
    apply ok_pair_congr
    simp only [List.length_cons, List.length_append, List.length_nil]; omega
  | json.floating _, _, _, _, _, _, hv, _, _ => by simp [stable] at hv
  | json.integral _, _, _, _, _, _, hv, _, _ => by simp [stable] at hv
  | json.array l, depth, fuel, str, o, rest, hv, hf, hd => by
    rw [dump_array_eq] at hf hd ⊢
    simp only [List.length_cons, List.length_append, List.length_singleton] at hf
    obtain ⟨f, rfl⟩ : ∃ f, fuel = f + 2 := ⟨fuel - 2, by omega⟩
    have h0 : str.drop o = '[' :: (array_body fmt tab depth l true ++ ']' :: rest) := by
      rw [hd]; simp
    have h1 := drop_succ str o _ _ h0
    rw [parse_next_succ]
    simp only [consume_ws_stay str o '[' _ h0 (by decide), charAt_at str o '[' _ h0, if_true]
    rw [parse_array_succ, make_array]
    rw [stable_array] at hv
    cases l with
    | nil =>
      simp only [array_body, List.nil_append] at h1
      rw [consume_ws_stay str (o + 1) ']' rest h1 (by decide), charAt_at _ _ _ _ h1]
      simp [array_body]
    | cons x xs =>
      rw [stable_list_cons] at hv
      obtain ⟨c, t, hc, hsp, hne⟩ := dump_head fmt tab (depth + 1) x hv.2.1
      have h1c : str.drop (o + 1)
          = c :: (t ++ (array_body fmt tab depth xs false ++ ']' :: rest)) := by
        rw [h1, array_body, hc]; simp
      rw [consume_ws_stay _ _ c _ h1c hsp, charAt_at _ _ _ _ h1c]
      simp only [hne, if_false]
      have hl := parse_array_loop_dump fmt tab htab (x :: xs) depth [] f str (o + 1) [] rest
        ((stable_list_cons x xs).2 hv.2) (by simp) (by simpa using hv.1) (by simp)
        (by omega) (by rw [h1]; simp)
      simp only [List.length_nil, List.nil_append, Nat.add_zero] at hl
      rw [hl]
      apply ok_pair_congr
      simp only [List.length_cons, List.length_append, List.length_nil]; omega
  | json.object m, depth, fuel, str, o, rest, hv, hf, hd => by
    rw [dump_object_eq] at hf hd ⊢
    have hP := make_pad_space tab htab depth
    have hQ : ∀ c ∈ (make_pad depth tab).drop 2, isspace c = true :=
      fun c hc => hP c (List.mem_of_mem_drop hc)
    simp only [List.length_cons, List.length_append, List.length_nil] at hf
    obtain ⟨f, rfl⟩ : ∃ f, fuel = f + 2 := ⟨fuel - 2, by omega⟩
    have h0 : str.drop o = '{' :: ('\n' :: (object_body fmt tab (make_pad depth tab) depth m true
        ++ '\n' :: ((make_pad depth tab).drop 2 ++ '}' :: rest))) := by
      rw [hd]; simp
    have h1 := drop_succ str o _ _ h0
    rw [parse_next_succ]
    simp only [consume_ws_stay str o '{' _ h0 (by decide), charAt_at str o '{' _ h0]
    simp only [Char.reduceEq, if_false, if_true]
    rw [parse_object_succ, make_object]
    rw [stable_object] at hv
    cases m with
    | nil =>
      have h2 : str.drop (o + 1)
          = ('\n' :: '\n' :: (make_pad depth tab).drop 2) ++ '}' :: rest := by
        rw [h1]; simp [object_body]
      have hw : ∀ c ∈ '\n' :: '\n' :: (make_pad depth tab).drop 2, isspace c = true := by
        intro c hc
        simp only [List.mem_cons] at hc
        rcases hc with hc | hc | hc
        · rw [hc]; decide
        · rw [hc]; decide
        · exact hQ c hc
      rw [consume_ws_at str (o + 1) _ '}' rest h2 hw (by decide),
        charAt_at _ _ '}' rest (drop_step _ _ _ _ h2)]
      simp only [if_true]
      apply ok_pair_congr
      simp only [List.length_cons, List.length_append, List.length_nil, object_body]; omega
    | cons e es =>
      rw [object_body_true] at h1 hf ⊢
      obtain ⟨k, v⟩ := e
      have h2 : str.drop (o + 1) = ('\n' :: make_pad depth tab) ++ '"' :: (k ++ '"' :: ' ' :: ':'
          :: ' ' :: dump fmt tab v (depth + 1) ++ (object_body fmt tab (make_pad depth tab) depth
            es false ++ '\n' :: ((make_pad depth tab).drop 2 ++ '}' :: rest))) := by
        rw [h1]; simp [object_items, entry_text]
      have hw : ∀ c ∈ '\n' :: make_pad depth tab, isspace c = true := by
        intro c hc
        simp only [List.mem_cons] at hc
        rcases hc with hc | hc
        · rw [hc]; decide
        · exact hP c hc
      rw [consume_ws_at str (o + 1) _ '"' _ h2 hw (by decide),
        charAt_at _ _ '"' _ (drop_step _ _ _ _ h2)]
      simp only [Char.reduceEq, if_false]
      have hl := parse_object_loop_dump fmt tab htab ((k, v) :: es) depth [] f str
        (o + 1 + ('\n' :: make_pad depth tab).length) [] ((make_pad depth tab).drop 2) rest
        hv.2 (by simp) (by simpa using hv.1) (by simp) hQ
        (by simp only [List.length_append] at hf; omega)
        (by rw [drop_step _ _ _ _ h2]; simp [object_items, entry_text])
      rw [hl]
      apply ok_pair_congr
      simp only [List.length_cons, List.length_append, List.length_nil]; omega
theorem parse_array_loop_dump (fmt : Dbl → Str) (tab : Str)
    (htab : ∀ c ∈ tab, isspace c = true) :
    ∀ (l : list_type) (depth : Int) (done : list_type) (fuel : Nat) (str : Str) (o : Nat)
      (w rest : Str),
      stable_list l = true → l ≠ [] → done.length + l.length < 2 ^ 32 →
      (∀ c ∈ w, isspace c = true) →
      2 * (array_body fmt tab depth l true).length + 1 ≤ fuel →
      str.drop o = w ++ (array_body fmt tab depth l true ++ ']' :: rest) →
      parse_array_loop fuel str o (json.array done) done.length
        = Except.ok (json.array (done ++ l),
            o + w.length + (array_body fmt tab depth l true).length + 1)
  | [], _, _, _, _, _, _, _, _, hne, _, _, _, _ => absurd rfl hne
  | x :: xs, depth, done, fuel, str, o, w, rest, hs, _, hlen, hw, hf, hd => by
    have hb : array_body fmt tab depth (x :: xs) true
        = dump fmt tab x (depth + 1) ++ array_body fmt tab depth xs false := by
      simp [array_body]
    rw [hb] at hf hd ⊢
    simp only [List.length_append, List.length_cons] at hf hlen
    rw [stable_list_cons] at hs
    obtain ⟨f, rfl⟩ : ∃ f, fuel = f + 1 := ⟨fuel - 1, by omega⟩
    obtain ⟨c, t, hc, hsp, _⟩ := dump_head fmt tab (depth + 1) x hs.1
    have hd1 : str.drop o
        = w ++ c :: (t ++ (array_body fmt tab depth xs false ++ ']' :: rest)) := by
      rw [hd, hc]; simp
    have hd2 : str.drop (o + w.length) = dump fmt tab x (depth + 1)
        ++ (array_body fmt tab depth xs false ++ ']' :: rest) := by
      have h := drop_step str o w _ hd
      rw [h]; simp
    have hx := parse_next_dump fmt tab htab x (depth + 1) f str (o + w.length) _ hs.1
      (by omega) hd2
    rw [parse_array_loop_succ, parse_next_skip f str o w c _ hd1 hw hsp, hx]
    simp only []
    rw [assign_pos_append done x (by omega)]
    simp only []
    have hd3 := drop_step str (o + w.length) _ _ hd2
    cases xs with
    | nil =>
      simp only [array_body, List.nil_append] at hd3 ⊢
      rw [consume_ws_stay _ _ ']' rest hd3 (by decide), charAt_at _ _ _ _ hd3]
      simp
    | cons y ys =>
      rw [array_body_false] at hd3 hf ⊢
      rw [consume_ws_stay _ _ ',' _ hd3 (by decide), charAt_at _ _ _ _ hd3]
      simp only [if_true]
      have hd4 := drop_succ _ _ _ _ hd3
      have hb2 : array_body fmt tab depth (y :: ys) true
          = dump fmt tab y (depth + 1) ++ array_body fmt tab depth ys false := by
        simp [array_body]
      have ih := parse_array_loop_dump fmt tab htab (y :: ys) depth (done ++ [x]) f str
        (o + w.length + (dump fmt tab x (depth + 1)).length + 1) [' '] rest hs.2 (by simp)
        (by simp only [List.length_append, List.length_cons, List.length_nil] at hlen ⊢; omega)
        (by simp [isspace])
        (by rw [hb2]; simp only [List.length_cons, List.length_append] at hf ⊢; omega)
        (by rw [hd4, hb2]; simp)
      have hl : (done ++ [x]).length = done.length + 1 := by simp
      rw [hl] at ih
      rw [ih, hb2, List.append_assoc, List.singleton_append]
      apply ok_pair_congr
      simp only [List.length_cons, List.length_append, List.length_nil]; omega
theorem parse_object_loop_dump (fmt : Dbl → Str) (tab : Str)
    (htab : ∀ c ∈ tab, isspace c = true) :
    ∀ (m : map_type) (depth : Int) (done : map_type) (fuel : Nat) (str : Str) (o : Nat)
      (w q rest : Str),
      stable_entries m = true → m ≠ [] → map_sorted (done ++ m) = true →
      (∀ c ∈ w, isspace c = true) → (∀ c ∈ q, isspace c = true) →
      2 * (object_items fmt tab (make_pad depth tab) depth m).length + 1 ≤ fuel →
      str.drop o = w ++ (object_items fmt tab (make_pad depth tab) depth m
        ++ '\n' :: (q ++ '}' :: rest)) →
      parse_object_loop fuel str o (json.object done)
        = Except.ok (json.object (done ++ m),
            o + w.length + (object_items fmt tab (make_pad depth tab) depth m).length
              + 1 + q.length + 1)
  | [], _, _, _, _, _, _, _, _, _, hne, _, _, _, _, _ => absurd rfl hne
  | (k, v) :: es, depth, done, fuel, str, o, w, q, rest, hs, _, hsort, hw, hq, hf, hd => by
    have hP := make_pad_space tab htab depth
    rw [stable_entries_cons] at hs
    obtain ⟨⟨s, hk⟩, hv, hes⟩ := hs
    simp only at hk hv
    subst hk
    have hb : object_items fmt tab (make_pad depth tab) depth ((json_escape s, v) :: es)
        = '"' :: (json_escape s ++ '"' :: ' ' :: ':' :: ' ' :: (dump fmt tab v (depth + 1)
          ++ object_body fmt tab (make_pad depth tab) depth es false)) := by
      simp [object_items, entry_text]
    rw [hb] at hf hd ⊢
    simp only [List.length_append, List.length_cons] at hf
    obtain ⟨f, rfl⟩ : ∃ f, fuel = f + 2 := ⟨fuel - 2, by omega⟩
    obtain ⟨c, t, hc, hsp, _⟩ := dump_head fmt tab (depth + 1) v hv
    -- the key
    have hd1 : str.drop o = w ++ '"' :: (json_escape s ++ '"' :: (' ' :: ':' :: ' '
        :: (dump fmt tab v (depth + 1) ++ (object_body fmt tab (make_pad depth tab) depth es false
          ++ '\n' :: (q ++ '}' :: rest))))) := by
      rw [hd]; simp
    have hd2 := drop_step str o w _ hd1
    rw [parse_object_loop_succ, parse_next_skip (f + 1) str o w '"' _ hd1 hw (by decide),
      parse_next_string_at f str (o + w.length) s _ hd2]
    simp only []
    have hd3 : str.drop (o + w.length + (json_escape s).length + 2) = [' '] ++ ':' :: (' '
        :: (dump fmt tab v (depth + 1) ++ (object_body fmt tab (make_pad depth tab) depth es false
          ++ '\n' :: (q ++ '}' :: rest)))) := by
      have h := drop_step str (o + w.length) ('"' :: (json_escape s ++ ['"']))
        (' ' :: ':' :: ' ' :: (dump fmt tab v (depth + 1) ++ (object_body fmt tab
          (make_pad depth tab) depth es false ++ '\n' :: (q ++ '}' :: rest))))
        (by rw [hd2]; simp)
      have e : o + w.length + ('"' :: (json_escape s ++ ['"'])).length
          = o + w.length + (json_escape s).length + 2 := by
        simp only [List.length_cons, List.length_append, List.length_nil]; omega
      rw [e] at h
      exact h
    rw [consume_ws_at _ _ [' '] ':' _ hd3 (by simp [isspace]) (by decide)]
    have hd4 := drop_step _ _ _ _ hd3
    rw [charAt_at _ _ ':' _ hd4]
    simp only [ne_eq, not_true_eq_false, if_false]
    have hd5 : str.drop (o + w.length + (json_escape s).length + 2 + [' '].length + 1)
        = [' '] ++ c :: (t ++ (object_body fmt tab (make_pad depth tab) depth es false
          ++ '\n' :: (q ++ '}' :: rest))) := by
      rw [drop_succ _ _ _ _ hd4, hc]; simp
    rw [consume_ws_at _ _ [' '] c _ hd5 (by simp [isspace]) hsp]
    have hd6 : str.drop (o + w.length + (json_escape s).length + 2 + [' '].length + 1
        + [' '].length) = dump fmt tab v (depth + 1)
          ++ (object_body fmt tab (make_pad depth tab) depth es false
            ++ '\n' :: (q ++ '}' :: rest)) := by
      rw [drop_step _ _ _ _ hd5, hc]; simp
    rw [parse_next_dump fmt tab htab v (depth + 1) (f + 1) str _ _ hv (by omega) hd6]
    simp only []
    have hto : (json.string s).to_string = json_escape s := rfl
    rw [hto, assign_key_append done (json_escape s) v
      (fun e he => map_sorted_append done _ hsort e he _ (List.mem_cons_self _ _))]
    have hd7 := drop_step _ _ _ _ hd6
    cases es with
    | nil =>
      have hd8 : str.drop (o + w.length + (json_escape s).length + 2 + [' '].length + 1
          + [' '].length + (dump fmt tab v (depth + 1)).length)
            = ('\n' :: q) ++ '}' :: rest := by
        rw [hd7]; simp [object_body]
      have hwq : ∀ c ∈ '\n' :: q, isspace c = true := by
        intro c hc
        simp only [List.mem_cons] at hc
        rcases hc with hc | hc
        · rw [hc]; decide
        · exact hq c hc
      rw [consume_ws_at _ _ _ '}' rest hd8 hwq (by decide),
        charAt_at _ _ '}' rest (drop_step _ _ _ _ hd8)]
      simp only [Char.reduceEq, if_false, if_true]
      apply ok_pair_congr
      simp only [List.length_cons, List.length_append, List.length_nil, object_body]; omega
    | cons e2 es2 =>
      rw [object_body_false_items] at hd7 hf ⊢
      rw [consume_ws_stay _ _ ',' _ hd7 (by decide), charAt_at _ _ ',' _ hd7]
      simp only [if_true]
      have hwp : ∀ c ∈ '\n' :: make_pad depth tab, isspace c = true := by
        intro c hc
        simp only [List.mem_cons] at hc
        rcases hc with hc | hc
        · rw [hc]; decide
        · exact hP c hc
      have ih := parse_object_loop_dump fmt tab htab (e2 :: es2) depth
        (done ++ [(json_escape s, v)]) (f + 1) str _ ('\n' :: make_pad depth tab) q rest
        hes (by simp) (by rw [List.append_assoc]; exact hsort) hwp hq
        (by simp only [List.length_cons, List.length_append] at hf ⊢; omega)
        (by rw [drop_succ _ _ _ _ hd7]; simp)
      rw [ih, List.append_assoc, List.singleton_append]
      apply ok_pair_congr
      simp only [List.length_cons, List.length_append, List.length_nil]; omega
end

/-! ## The round trip -/

/-- A dump of a `stable` tree, with white space for the indent unit, is loaded
back to the tree. -/
theorem load_dump_stable (fmt : Dbl → Str) (tab : Str) (depth : Int) (v : json)
    (htab : ∀ c ∈ tab, isspace c = true) (hv : v.stable = true) :
    load (dump fmt tab v depth) = Except.ok v := by
  have h := parse_next_dump fmt tab htab v depth (load_fuel (dump fmt tab v depth))
    (dump fmt tab v depth) 0 [] hv (by unfold load_fuel; omega) (by simp)
  rw [load, h]; rfl

theorem default_tab_space : ∀ c ∈ default_tab, isspace c = true := by decide

/-- C1, amended: for every tree built from Null, Boolean, String, Array (of fewer
than 2^32 elements) and Object whose keys are escaped texts, each the
`json_escape` of some text, for every depth and every indent unit made of white
space, `load` of the dump is the tree itself: the same kinds, keys, order and
payloads. -/
theorem dump_load_roundtrip (fmt : Dbl → Str) (tab : Str) (depth : Int) (v : json)
    (htab : ∀ c ∈ tab, isspace c = true) (hv : v.stable = true) :
    load (dump fmt tab v depth) = Except.ok v ∧
    load (dump_default fmt v) = Except.ok v :=
  ⟨load_dump_stable fmt tab depth v htab hv,
   load_dump_stable fmt default_tab 1 v default_tab_space hv⟩

theorem sample_stable :
    (json.object [(['a'], json.array [json.boolean true, json.string ['x', '\n', '"']]),
      (['b', '\\', 'n'], json.object [(['q'], json.null)])]).stable = true :=
  rfl

/-- The round trip of a tree with a nested Array and Object, at the defaults. -/
theorem dump_load_roundtrip_witness :
    (∀ c ∈ default_tab, isspace c = true) ∧
    (json.object [(['a'], json.array [json.boolean true, json.string ['x', '\n', '"']]),
      (['b', '\\', 'n'], json.object [(['q'], json.null)])]).stable = true ∧
    load (dump_default (fun _ => [])
      (json.object [(['a'], json.array [json.boolean true, json.string ['x', '\n', '"']]),
        (['b', '\\', 'n'], json.object [(['q'], json.null)])]))
    = Except.ok
      (json.object [(['a'], json.array [json.boolean true, json.string ['x', '\n', '"']]),
        (['b', '\\', 'n'], json.object [(['q'], json.null)])]) :=
  ⟨default_tab_space, sample_stable,
    (dump_load_roundtrip (fun _ => []) default_tab 1 _ default_tab_space sample_stable).2⟩

/-- C1 as stated fails: the float-free tree Integer 42 is dumped as `42` and
loaded as Null; inside an Array the Integer comes back as a Float; and the
Object with the key of one newline character comes back with the two-character
key backslash, n. -/
theorem roundtrip_fails_on_integer :
    (json.integral 42).float_free = true ∧
    load (dump_default (fun _ => []) (json.integral 42)) = Except.ok json.null ∧
    load (dump_default (fun _ => []) (json.integral 42)) ≠ Except.ok (json.integral 42) ∧
    (json.array [json.integral 42]).float_free = true ∧
    load (dump_default (fun _ => []) (json.array [json.integral 42]))
      = Except.ok (json.array [json.floating (Dbl.of_int 42)]) ∧
    (json.object [(['\n'], json.null)]).float_free = true ∧
    load (dump_default (fun _ => []) (json.object [(['\n'], json.null)]))
      = Except.ok (json.object [(['\\', 'n'], json.null)]) := by
  refine ⟨rfl, rfl, ?_, rfl, rfl, rfl, rfl⟩
  rw [show load (dump_default (fun _ => []) (json.integral 42)) = Except.ok json.null from rfl]
  intro h
  cases h

/-- C2, amended: for every tree built from Null, Boolean, String, Array (of fewer
than 2^32 elements) and Object whose keys are escaped texts, each the
`json_escape` of some text, for every depth and every indent unit made of white
space, the dump of `load` of the dump is the dump, text for text; so it is at
the defaults. -/
theorem dump_load_dump (fmt : Dbl → Str) (tab : Str) (depth : Int) (v : json)
    (htab : ∀ c ∈ tab, isspace c = true) (hv : v.stable = true) :
    (load (dump fmt tab v depth)).map (fun r => dump fmt tab r depth)
      = Except.ok (dump fmt tab v depth) ∧
    (load (dump_default fmt v)).map (dump_default fmt) = Except.ok (dump_default fmt v) := by
  constructor
  · rw [load_dump_stable fmt tab depth v htab hv]; rfl
  · rw [dump_default, load_dump_stable fmt default_tab 1 v default_tab_space hv]; rfl

/-- The dump of the reloaded dump of an Array of a String and an empty Object. -/
theorem dump_load_dump_witness :
    (∀ c ∈ default_tab, isspace c = true) ∧
    (json.array [json.string ['a', '\\'], json.object []]).stable = true ∧
    (load (dump_default (fun _ => [])
      (json.array [json.string ['a', '\\'], json.object []]))).map (dump_default (fun _ => []))
    = Except.ok (dump_default (fun _ => [])
      (json.array [json.string ['a', '\\'], json.object []])) :=
  ⟨default_tab_space, rfl,
    (dump_load_dump (fun _ => []) default_tab 1
      (json.array [json.string ['a', '\\'], json.object []]) default_tab_space
      rfl).2⟩

/-- C2 as stated fails: the dump `42` of Integer 42 is loaded as Null, whose dump
is `null`; and the dump of the Object with the key of one newline character is
reloaded and dumped with the key backslash, n. -/
theorem dump_not_idempotent_on_integer :
    (json.integral 42).float_free = true ∧
    dump_default (fun _ => []) (json.integral 42) = ['4', '2'] ∧
    (load (dump_default (fun _ => []) (json.integral 42))).map (dump_default (fun _ => []))
      = Except.ok ['n', 'u', 'l', 'l'] ∧
    (load (dump_default (fun _ => []) (json.integral 42))).map (dump_default (fun _ => []))
      ≠ Except.ok (dump_default (fun _ => []) (json.integral 42)) ∧
    (load (dump_default (fun _ => []) (json.object [(['\n'], json.null)]))).map
        (dump_default (fun _ => []))
      = Except.ok (dump_default (fun _ => []) (json.object [(['\\', 'n'], json.null)])) ∧
    dump_default (fun _ => []) (json.object [(['\n'], json.null)])
      ≠ dump_default (fun _ => []) (json.object [(['\\', 'n'], json.null)]) := by
  refine ⟨rfl, rfl, rfl, ?_, rfl, ?_⟩
  · rw [show (load (dump_default (fun _ => []) (json.integral 42))).map
        (dump_default (fun _ => [])) = Except.ok ['n', 'u', 'l', 'l'] from rfl,
      show dump_default (fun _ => []) (json.integral 42) = ['4', '2'] from rfl]
    simp
  · decide

/-! ## Object texts with repeated keys -/

theorem consume_ws_loop_spec (l : Str) (o : Nat) :
    ∃ k, consume_ws_loop l o = o + k ∧ consume_ws_loop (l.drop k) (o + k) = o + k := by
  induction l generalizing o with
  | nil => exact ⟨0, rfl, rfl⟩
  | cons c l ih =>
    by_cases hc : isspace c = true
    · obtain ⟨k, h1, h2⟩ := ih (o + 1)
      refine ⟨k + 1, ?_, ?_⟩
      · rw [consume_ws_loop]; simp only [hc, if_true]; rw [h1]; omega
      · rw [List.drop_succ_cons, show o + (k + 1) = o + 1 + k by omega]; exact h2
    · refine ⟨0, ?_, ?_⟩
      · rw [consume_ws_loop]; simp [hc]
      · rw [List.drop_zero, consume_ws_loop]; simp [hc]

theorem consume_ws_idem (str : Str) (o : Nat) :
    consume_ws str (consume_ws str o) = consume_ws str o := by
  obtain ⟨k, h1, h2⟩ := consume_ws_loop_spec (str.drop o) o
  have e1 : consume_ws str o = o + k := h1
  rw [e1]
  show consume_ws_loop (str.drop (o + k)) (o + k) = o + k
  rw [← List.drop_drop]
  exact h2

/-- The white space that `consume_ws` skips is skipped by `parse_next` as well. -/
theorem parse_next_consume (fuel : Nat) (str : Str) (o : Nat) :
    parse_next fuel str (consume_ws str o) = parse_next fuel str o := by
  cases fuel with
  | zero => rfl
  | succ f => rw [parse_next_succ, parse_next_succ, consume_ws_idem]

/-- From a cursor on white space `w`, `consume_ws` goes where it goes from the
end of `w`. -/
theorem consume_ws_over (str : Str) (o : Nat) (w t : Str) (h : str.drop o = w ++ t)
    (hw : ∀ c ∈ w, isspace c = true) :
    consume_ws str o = consume_ws str (o + w.length) := by
  rw [consume_ws, consume_ws, h, consume_ws_loop_append w t o hw, drop_step str o w t h]

/-- White space before a value text is skipped by `parse_next`. -/
theorem parse_next_over (fuel : Nat) (str : Str) (o : Nat) (w t : Str)
    (h : str.drop o = w ++ t) (hw : ∀ c ∈ w, isspace c = true) :
    parse_next fuel str o = parse_next fuel str (o + w.length) := by
  rw [← parse_next_consume fuel str o, consume_ws_over str o w t h hw, parse_next_consume]

/-- The map after `json_object[key] = value`. -/
theorem assign_key_object (m : map_type) (key : Str) (x : json) :
    (json.object m).assign_key key x = json.object (map_store (map_index m key) key x) := rfl

theorem map_find_put (m : map_type) (key k : Str) (x : json) :
    map_find (map_store (map_index m key) key x) k
      = if k = key then some x else map_find m k := by
  rw [map_store_find]
  by_cases h : k = key
  · obtain ⟨y, hy⟩ := map_index_contains m key
    simp [h, hy]
  · simp [h, map_find_index_ne m key k h]

theorem map_sorted_put (m : map_type) (key : Str) (x : json) (h : map_sorted m = true) :
    map_sorted (map_store (map_index m key) key x) = true :=
  map_store_sorted _ _ _ (map_index_sorted m key h)

/-- The map that the members `es` leave, stored one after the other into `done`. -/
theorem fold_put_find (es : List member) (done : map_type) (k : Str) :
    map_find (es.foldl (fun m e => map_store (map_index m (json_escape e.key))
        (json_escape e.key) e.value) done) k
      = match last_value es k with
        | some v => some v
        | none => map_find done k := by
  induction es generalizing done with
  | nil => rfl
  | cons e rest ih =>
    rw [List.foldl_cons, ih, last_value, map_find_put]
    cases last_value rest k with
    | some v => rfl
    | none =>
      by_cases h : json_escape e.key = k
      · simp [h]
      · have h2 : ¬ k = json_escape e.key := fun h3 => h h3.symm
        simp [h, h2]

theorem fold_put_sorted (es : List member) (done : map_type)
    (h : map_sorted done = true) :
    map_sorted (es.foldl (fun m e => map_store (map_index m (json_escape e.key))
        (json_escape e.key) e.value) done) = true := by
  induction es generalizing done with
  | nil => exact h
  | cons e rest ih => rw [List.foldl_cons]; exact ih _ (map_sorted_put _ _ _ h)

theorem members_text_cons (e : member) (rest : List member) :
    ∃ tail, members_text (e :: rest) = member_text e ++ tail ∧
      ((rest = [] ∧ tail = []) ∨ (rest ≠ [] ∧ tail = ',' :: members_text rest)) := by
  cases rest with
  | nil => exact ⟨[], by simp [members_text], Or.inl ⟨rfl, rfl⟩⟩
  | cons e2 rest =>
    exact ⟨',' :: members_text (e2 :: rest), by simp [members_text],
      Or.inr ⟨by simp, rfl⟩⟩

theorem member_spaced_iff (e : member) :
    member_spaced e = true ↔ (∀ c ∈ e.ws_key, isspace c = true) ∧
      (∀ c ∈ e.ws_colon, isspace c = true) ∧ (∀ c ∈ e.ws_value, isspace c = true) ∧
      (∀ c ∈ e.ws_end, isspace c = true) := by
  simp only [member_spaced, List.all_eq_true, List.mem_append]
  constructor
  · intro h
    exact ⟨fun c hc => h c (Or.inl (Or.inl (Or.inl hc))),
      fun c hc => h c (Or.inl (Or.inl (Or.inr hc))),
      fun c hc => h c (Or.inl (Or.inr hc)), fun c hc => h c (Or.inr hc)⟩
  · rintro ⟨h1, h2, h3, h4⟩ c (((hc | hc) | hc) | hc)
    · exact h1 c hc
    · exact h2 c hc
    · exact h3 c hc
    · exact h4 c hc

/-- The character after a value text inside a member: the first of the white
space after it, or else the separator. -/
theorem after_value (w : Str) (sep : Char) (rest : Str) (hw : ∀ c ∈ w, isspace c = true)
    (hsep : isterm sep = true) :
    ∃ c r, w ++ sep :: rest = c :: r ∧ isterm c = true := by
  cases w with
  | nil => exact ⟨sep, rest, rfl, hsep⟩
  | cons c w =>
    refine ⟨c, w ++ sep :: rest, rfl, ?_⟩
    have := hw c (List.mem_cons_self _ _)
    simp [isterm, this]

theorem member_text_length (e : member) :
    (member_text e).length = e.ws_key.length + (json_escape e.key).length + e.ws_colon.length
      + e.ws_value.length + e.text.length + e.ws_end.length + 3 := by
  simp only [member_text, List.length_append, List.length_cons]; omega

/-- One iteration of the loop of `parse_object` on a member followed by the
separator `sep`: the key, the colon and the value are read, and the cursor is
left on `sep`. -/
theorem parse_member (e : member) (f : Nat) (str : Str) (o : Nat) (sep : Char) (rest : Str)
    (hs : member_spaced e = true) (hp : parses_as e.text e.value)
    (hf : 3 * (member_text e).length + 5 ≤ f) (hsep : sep = ',' ∨ sep = '}')
    (hd : str.drop o = member_text e ++ sep :: rest) :
    parse_next f str o = Except.ok (json.string e.key,
        o + e.ws_key.length + (json_escape e.key).length + 2) ∧
    consume_ws str (o + e.ws_key.length + (json_escape e.key).length + 2)
      = o + e.ws_key.length + (json_escape e.key).length + 2 + e.ws_colon.length ∧
    charAt str (o + e.ws_key.length + (json_escape e.key).length + 2 + e.ws_colon.length)
      = ':' ∧
    parse_next f str (consume_ws str
        (o + e.ws_key.length + (json_escape e.key).length + 2 + e.ws_colon.length + 1))
      = Except.ok (e.value, o + (member_text e).length - e.ws_end.length) ∧
    consume_ws str (o + (member_text e).length - e.ws_end.length)
      = o + (member_text e).length ∧
    charAt str (o + (member_text e).length) = sep ∧
    str.drop (o + (member_text e).length + 1) = rest := by
  obtain ⟨hw1, hw2, hw3, hw4⟩ := (member_spaced_iff e).1 hs
  have hlen := member_text_length e
  obtain ⟨g, rfl⟩ : ∃ g, f = g + 1 := ⟨f - 1, by omega⟩
  have hsepterm : isterm sep = true := by rcases hsep with rfl | rfl <;> decide
  have hsepsp : isspace sep = false := by rcases hsep with rfl | rfl <;> decide
  have hd1 : str.drop o = e.ws_key ++ '"' :: (json_escape e.key ++ '"' :: (e.ws_colon
      ++ ':' :: (e.ws_value ++ (e.text ++ (e.ws_end ++ sep :: rest))))) := by
    rw [hd, member_text]; simp
  have hd2 := drop_step str o _ _ hd1
  have hkey := parse_next_string_at g str (o + e.ws_key.length) e.key _ hd2
  have hd3 : str.drop (o + e.ws_key.length + (json_escape e.key).length + 2)
      = e.ws_colon ++ ':' :: (e.ws_value ++ (e.text ++ (e.ws_end ++ sep :: rest))) := by
    have h := drop_step str (o + e.ws_key.length) ('"' :: (json_escape e.key ++ ['"']))
      (e.ws_colon ++ ':' :: (e.ws_value ++ (e.text ++ (e.ws_end ++ sep :: rest))))
      (by rw [hd2]; simp)
    have e2 : o + e.ws_key.length + ('"' :: (json_escape e.key ++ ['"'])).length
        = o + e.ws_key.length + (json_escape e.key).length + 2 := by
      simp only [List.length_cons, List.length_append, List.length_nil]; omega
    rw [e2] at h
    exact h
  have hd4 := drop_step _ _ _ _ hd3
  have hd5 := drop_succ _ _ _ _ hd4
  have hd6 := drop_step _ _ _ _ hd5
  have hd7 := drop_step _ _ _ _ hd6
  have hd8 := drop_step _ _ _ _ hd7
  have ho6 : o + e.ws_key.length + (json_escape e.key).length + 2 + e.ws_colon.length + 1
      + e.ws_value.length = o + (member_text e).length - e.ws_end.length - e.text.length := by
    omega
  have ho7 : o + e.ws_key.length + (json_escape e.key).length + 2 + e.ws_colon.length + 1
      + e.ws_value.length + e.text.length = o + (member_text e).length - e.ws_end.length := by
    omega
  have ho8 : o + e.ws_key.length + (json_escape e.key).length + 2 + e.ws_colon.length + 1
      + e.ws_value.length + e.text.length + e.ws_end.length = o + (member_text e).length := by
    omega
  rw [ho7] at hd7
  rw [ho8] at hd8
  obtain ⟨c, r, hcr, hterm⟩ := after_value e.ws_end sep rest hw4 hsepterm
  refine ⟨?_, ?_, ?_, ?_, ?_, ?_, ?_⟩
  · rw [parse_next_skip (g + 1) str o e.ws_key '"' _ hd1 hw1 (by decide), hkey]
  · exact consume_ws_at _ _ e.ws_colon ':' _ hd3 hw2 (by decide)
  · exact charAt_at _ _ ':' _ hd4
  · rw [parse_next_consume, parse_next_over (g + 1) str _ e.ws_value _ hd5 hw3,
      hp (g + 1) str _ c r hterm (by unfold load_fuel; omega) (by rw [hd6, hcr]), ho7]
  · rw [consume_ws_at _ _ e.ws_end sep rest hd7 hw4 hsepsp]
    omega
  · exact charAt_at _ _ sep rest hd8
  · exact drop_succ _ _ _ _ hd8

/-- White space before the first key is skipped by the loop of `parse_object`. -/
theorem parse_object_loop_over (fuel : Nat) (str : Str) (o : Nat) (w t : Str) (obj : json)
    (h : str.drop o = w ++ t) (hw : ∀ c ∈ w, isspace c = true) :
    parse_object_loop fuel str (o + w.length) obj = parse_object_loop fuel str o obj := by
  cases fuel with
  | zero => rfl
  | succ f =>
    rw [parse_object_loop_succ, parse_object_loop_succ, parse_next_over f str o w t h hw]

/-- The loop of `parse_object` on the members `es`, entered with the map `done`. -/
theorem parse_object_loop_members :
    ∀ (es : List member) (done : map_type) (fuel : Nat) (str : Str) (o : Nat) (rest : Str),
      es ≠ [] → (∀ e ∈ es, member_spaced e = true) →
      (∀ e ∈ es, parses_as e.text e.value) →
      3 * (members_text es).length + 6 ≤ fuel →
      str.drop o = members_text es ++ '}' :: rest →
      parse_object_loop fuel str o (json.object done)
        = Except.ok (json.object (es.foldl (fun m e => map_store (map_index m
            (json_escape e.key)) (json_escape e.key) e.value) done),
            o + (members_text es).length + 1)
  | [], _, _, _, _, _, hne, _, _, _, _ => absurd rfl hne
  | e :: es, done, fuel, str, o, rest, _, hs, hp, hf, hd => by
    obtain ⟨tail, htxt, htail⟩ := members_text_cons e es
    rw [htxt] at hf hd ⊢
    simp only [List.length_append] at hf
    obtain ⟨f, rfl⟩ : ∃ f, fuel = f + 1 := ⟨fuel - 1, by omega⟩
    have hto : (json.string e.key).to_string = json_escape e.key := rfl
    rcases htail with ⟨hes, ht⟩ | ⟨hes, ht⟩
    · subst hes; subst ht
      obtain ⟨h1, h2, h3, h4, h5, h6, _⟩ := parse_member e f str o '}' rest
        (hs e (List.mem_cons_self _ _)) (hp e (List.mem_cons_self _ _)) (by omega)
        (Or.inr rfl) (by rw [hd]; simp)
      rw [parse_object_loop_succ, h1]
      simp only []
      rw [h2, h3]
      simp only [ne_eq, not_true_eq_false, if_false]
      rw [h4]
      simp only []
      rw [h5, h6, hto, assign_key_object]
      simp only [Char.reduceEq, if_false, if_true, List.foldl_cons, List.foldl_nil,
        List.append_nil]
    · subst ht
      obtain ⟨h1, h2, h3, h4, h5, h6, h7⟩ := parse_member e f str o ','
        (members_text es ++ '}' :: rest)
        (hs e (List.mem_cons_self _ _)) (hp e (List.mem_cons_self _ _))
        (by simp only [List.length_cons] at hf; omega)
        (Or.inl rfl) (by rw [hd]; simp)
      rw [parse_object_loop_succ, h1]
      simp only []
      rw [h2, h3]
      simp only [ne_eq, not_true_eq_false, if_false]
      rw [h4]
      simp only []
      rw [h5, h6, hto, assign_key_object]
      simp only [if_true]
      rw [parse_object_loop_members es _ f str _ rest hes
        (fun e2 he2 => hs e2 (List.mem_cons_of_mem _ he2))
        (fun e2 he2 => hp e2 (List.mem_cons_of_mem _ he2))
        (by simp only [List.length_cons] at hf; omega) h7]
      rw [List.foldl_cons]
      apply ok_pair_congr
      simp only [List.length_cons, List.length_append]; omega

/-- C7: `load` of the text `{"a":1,"a":2}` is the Object with the single key `a`
mapped to the number 2. In general, for members with string keys, any white
space around the key, the colon and the value, and value texts that each stand
for a value, `load` of the object text made of them is an Object with its keys in
strictly ascending order, so each at most once, in which every key is mapped to
the value of the last member stored under it and no other key is present. -/
theorem object_text_last_write_wins (es : List member)
    (hs : ∀ e ∈ es, member_spaced e = true) (h : ∀ e ∈ es, parses_as e.text e.value) :
    load "\x7b\"a\":1,\"a\":2\x7d".toList
      = Except.ok (json.object [(['a'], json.floating (Dbl.of_int 2))]) ∧
    ∃ m, load (object_text es) = Except.ok (json.object m) ∧ map_sorted m = true ∧
      ∀ k, map_find m k = last_value es k := by
  refine ⟨rfl, ?_⟩
  cases es with
  | nil => exact ⟨[], rfl, rfl, fun k => rfl⟩
  | cons e es =>
    refine ⟨_, ?_, fold_put_sorted (e :: es) [] rfl, fun k => ?_⟩
    · obtain ⟨tail, htxt, _⟩ := members_text_cons e es
      obtain ⟨hw1, _, _, _⟩ := (member_spaced_iff e).1 (hs e (List.mem_cons_self _ _))
      have h0 : (object_text (e :: es)).drop 0 = '{' :: (members_text (e :: es) ++ ['}']) := rfl
      have h1 := drop_succ _ 0 _ _ h0
      have h1q : (object_text (e :: es)).drop (0 + 1) = e.ws_key ++ '"' :: (json_escape e.key
          ++ '"' :: (e.ws_colon ++ ':' :: (e.ws_value ++ (e.text ++ e.ws_end))) ++ tail
            ++ ['}']) := by
        rw [h1, htxt, member_text]; simp
      have hlen : (object_text (e :: es)).length = (members_text (e :: es)).length + 2 := by
        simp [object_text]
      rw [load, load_fuel, hlen,
        show 3 * ((members_text (e :: es)).length + 2) + 8
          = 3 * (members_text (e :: es)).length + 12 + 1 + 1 by omega,
        parse_next_succ]
      simp only [consume_ws_stay _ 0 '{' _ h0 (by decide), charAt_at _ 0 '{' _ h0]
      simp only [Char.reduceEq, if_false, if_true]
      rw [parse_object_succ, consume_ws_at _ _ e.ws_key '"' _ h1q hw1 (by decide),
        charAt_at _ _ '"' _ (drop_step _ _ _ _ h1q)]
      simp only [Char.reduceEq, if_false]
      rw [make_object, parse_object_loop_over _ _ (0 + 1) e.ws_key _ _ h1q hw1,
        parse_object_loop_members (e :: es) [] _ _ (0 + 1) [] (by simp) hs h (by omega) h1]
      rfl
    · rw [fold_put_find]
      cases last_value (e :: es) k <;> rfl

theorem isterm_cases (c : Char) (h : isterm c = true) :
    c = ' ' ∨ c = '\t' ∨ c = '\n' ∨ c = '\x0b' ∨ c = '\x0c' ∨ c = '\r' ∨ c = ',' ∨ c = ']'
      ∨ c = '}' := by
  simp only [isterm, isspace, Bool.or_eq_true, decide_eq_true_eq] at h
  tauto

theorem parses_as_one : parses_as ['1'] (json.floating (Dbl.of_int 1)) := by
  intro fuel str o c rest hc hf hd
  obtain ⟨f, rfl⟩ : ∃ f, fuel = f + 1 := ⟨fuel - 1, by unfold load_fuel at hf; omega⟩
  have hd1 : str.drop o = '1' :: c :: rest := by rw [hd]; rfl
  rw [parse_next_succ]
  simp only [consume_ws_stay str o '1' _ hd1 (by decide), charAt_at str o '1' _ hd1]
  rcases isterm_cases c hc with rfl | rfl | rfl | rfl | rfl | rfl | rfl | rfl | rfl <;>
    simp [parse_number, hd1, parse_number_loop, isdigit, isterm, isspace, parse_number_value,
      stoll, digits_value, Except.map]

theorem parses_as_two : parses_as ['2'] (json.floating (Dbl.of_int 2)) := by
  intro fuel str o c rest hc hf hd
  obtain ⟨f, rfl⟩ : ∃ f, fuel = f + 1 := ⟨fuel - 1, by unfold load_fuel at hf; omega⟩
  have hd1 : str.drop o = '2' :: c :: rest := by rw [hd]; rfl
  rw [parse_next_succ]
  simp only [consume_ws_stay str o '2' _ hd1 (by decide), charAt_at str o '2' _ hd1]
  rcases isterm_cases c hc with rfl | rfl | rfl | rfl | rfl | rfl | rfl | rfl | rfl <;>
    simp [parse_number, hd1, parse_number_loop, isdigit, isterm, isspace, parse_number_value,
      stoll, digits_value, Except.map]

/-- The text `{ "a" : 1 ,"a":2}`, two members under the key `a`, the first with
white space around its key, colon and value: the key `a` is mapped to 2. -/
theorem object_text_last_write_wins_witness :
    (∀ e ∈ [member.mk [' '] ['a'] [' '] [' '] ['1'] (json.floating (Dbl.of_int 1)) [' '],
        member.mk [] ['a'] [] [] ['2'] (json.floating (Dbl.of_int 2)) []],
      member_spaced e = true) ∧
    (∀ e ∈ [member.mk [' '] ['a'] [' '] [' '] ['1'] (json.floating (Dbl.of_int 1)) [' '],
        member.mk [] ['a'] [] [] ['2'] (json.floating (Dbl.of_int 2)) []],
      parses_as e.text e.value) ∧
    object_text [member.mk [' '] ['a'] [' '] [' '] ['1'] (json.floating (Dbl.of_int 1)) [' '],
        member.mk [] ['a'] [] [] ['2'] (json.floating (Dbl.of_int 2)) []]
      = "\x7b \"a\" : 1 ,\"a\":2\x7d".toList ∧
    last_value [member.mk [' '] ['a'] [' '] [' '] ['1'] (json.floating (Dbl.of_int 1)) [' '],
        member.mk [] ['a'] [] [] ['2'] (json.floating (Dbl.of_int 2)) []] ['a']
      = some (json.floating (Dbl.of_int 2)) ∧
    ∃ m, load (object_text
        [member.mk [' '] ['a'] [' '] [' '] ['1'] (json.floating (Dbl.of_int 1)) [' '],
        member.mk [] ['a'] [] [] ['2'] (json.floating (Dbl.of_int 2)) []])
          = Except.ok (json.object m) ∧
      map_sorted m = true ∧
      ∀ k, map_find m k = last_value
        [member.mk [' '] ['a'] [' '] [' '] ['1'] (json.floating (Dbl.of_int 1)) [' '],
        member.mk [] ['a'] [] [] ['2'] (json.floating (Dbl.of_int 2)) []] k := by
  have hs : ∀ e ∈ [member.mk [' '] ['a'] [' '] [' '] ['1'] (json.floating (Dbl.of_int 1)) [' '],
      member.mk [] ['a'] [] [] ['2'] (json.floating (Dbl.of_int 2)) []],
      member_spaced e = true := by
    intro e he
    simp only [List.mem_cons, List.mem_singleton, List.not_mem_nil, or_false] at he
    rcases he with rfl | rfl <;> rfl
  have hp : ∀ e ∈ [member.mk [' '] ['a'] [' '] [' '] ['1'] (json.floating (Dbl.of_int 1)) [' '],
      member.mk [] ['a'] [] [] ['2'] (json.floating (Dbl.of_int 2)) []],
      parses_as e.text e.value := by
    intro e he
    simp only [List.mem_cons, List.mem_singleton, List.not_mem_nil, or_false] at he
    rcases he with rfl | rfl
    · exact parses_as_one
    · exact parses_as_two
  exact ⟨hs, hp, rfl, rfl, (object_text_last_write_wins _ hs hp).2⟩

/-! ## Observers -/

/-- C11: the strict readers. For every value, `to_string(ok)`, `to_float(ok)`,
`to_int(ok)` and `to_bool(ok)` set `ok` exactly when the kind is String, Float,
Integer or Boolean respectively; on a match `to_float`, `to_int` and `to_bool`
return the stored payload (and `to_string` the escaped payload) with `ok` set,
on a mismatch they return the empty string, `double{}`, 0 or false with `ok`
cleared; in particular `to_string(ok)` on an Integer reports failure. -/
theorem typed_readers_strict (v : json) :
    ((to_string_ok v).2 = true ↔ v.json_type = class_type.string) ∧
    ((to_float_ok v).2 = true ↔ v.json_type = class_type.floating) ∧
    ((to_int_ok v).2 = true ↔ v.json_type = class_type.integral) ∧
    ((to_bool_ok v).2 = true ↔ v.json_type = class_type.boolean) ∧
    ((∃ s, v = json.string s ∧ to_string_ok v = (json_escape s, true)) ∨
      (v.json_type ≠ class_type.string ∧ to_string_ok v = ([], false))) ∧
    ((∃ f, v = json.floating f ∧ to_float_ok v = (f, true)) ∨
      (v.json_type ≠ class_type.floating ∧ to_float_ok v = (Dbl.zero, false))) ∧
    ((∃ i, v = json.integral i ∧ to_int_ok v = (i, true)) ∨
      (v.json_type ≠ class_type.integral ∧ to_int_ok v = (0, false))) ∧
    ((∃ b, v = json.boolean b ∧ to_bool_ok v = (b, true)) ∨
      (v.json_type ≠ class_type.boolean ∧ to_bool_ok v = (false, false))) ∧
    (∀ i, to_string_ok (json.integral i) = ([], false)) := by
  cases v <;>
    simp [to_string_ok, to_float_ok, to_int_ok, to_bool_ok, json_type]

/-- A key is found in a map exactly when it is one of the keys. -/
theorem map_find_isSome (m : map_type) (k : Str) :
    (map_find m k).isSome = true ↔ k ∈ m.map Prod.fst := by
  induction m with
  | nil => simp [map_find]
  | cons e m ih =>
    obtain ⟨k2, v2⟩ := e
    rw [map_find]
    by_cases h : k2 = k
    · subst h
      simp only [if_true, Option.isSome_some, List.map_cons, List.mem_cons, true_or]
    · have h2 : ¬ k = k2 := fun h3 => h h3.symm
      simp only [h, if_false, ih, List.map_cons, List.mem_cons, h2, false_or]

/-- The const accessors by kind: on an Object `at(key)` returns the mapped value
or throws `std::out_of_range`, on an Array `at(index)` returns the element or
throws `std::out_of_range`; on every other kind neither tests `type_`, and the
union is read as a pointer that is not there. -/
theorem const_at_by_kind (v : json) (k : Str) (i : Nat) :
    (∀ m, v = json.object m → ∀ x, map_find m k = some x → v.at_key k = Except.ok x) ∧
    (∀ m, v = json.object m → map_find m k = none →
      v.at_key k = Except.error Fault.out_of_range) ∧
    (v.json_type ≠ class_type.object → v.at_key k = Except.error Fault.undefined) ∧
    (∀ l, v = json.array l → ∀ x, l[i]? = some x → v.at_pos i = Except.ok x) ∧
    (∀ l, v = json.array l → l.length ≤ i → v.at_pos i = Except.error Fault.out_of_range) ∧
    (v.json_type ≠ class_type.array → v.at_pos i = Except.error Fault.undefined) := by
  refine ⟨?_, ?_, ?_, ?_, ?_, ?_⟩
  · rintro m rfl x hx; rw [at_key]; simp only [hx]
  · rintro m rfl hx; rw [at_key]; simp only [hx]
  · intro h; cases v <;> first | rfl | exact absurd rfl h
  · rintro l rfl x hx; rw [at_pos]; simp only [hx]
  · rintro l rfl hx; rw [at_pos]; simp only [List.getElem?_eq_none hx]
  · intro h; cases v <;> first | rfl | exact absurd rfl h

/-- C12: the const `at(key)` returns the mapped value on an Object that holds the
key and throws `std::out_of_range` on an Object that does not, and the const
`at(index)` does the same on an Array; but on a value of another kind (a Null
value, an Integer, a String) neither throws: the accessor does not look at the
kind and dereferences the union as a map or a vector, which is undefined. -/
theorem const_at_without_kind_test :
    json.at_key (json.object [(['a'], json.boolean true)]) ['a'] = Except.ok (json.boolean true) ∧
    json.at_key (json.object [(['a'], json.boolean true)]) ['b']
      = Except.error Fault.out_of_range ∧
    json.at_pos (json.array [json.null]) 0 = Except.ok json.null ∧
    json.at_pos (json.array [json.null]) 1 = Except.error Fault.out_of_range ∧
    json.at_key json.null ['a'] = Except.error Fault.undefined ∧
    json.at_key (json.integral 5) ['a'] = Except.error Fault.undefined ∧
    json.at_key (json.array [json.null]) ['a'] = Except.error Fault.undefined ∧
    json.at_pos json.null 0 = Except.error Fault.undefined ∧
    json.at_pos (json.string ['x']) 0 = Except.error Fault.undefined ∧
    json.at_pos (json.object [(['a'], json.boolean true)]) 0
      = Except.error Fault.undefined :=
  ⟨rfl, rfl, rfl, rfl, rfl, rfl, rfl, rfl, rfl, rfl⟩

/-- C13: `has_key` returns a result for every value and key, and the result is
true exactly when the value is an Object and the key is one of its keys; on
every other kind it is false. -/
theorem has_key_exact (v : json) (k : Str) :
    (v.has_key k = true ↔
      v.json_type = class_type.object ∧ k ∈ v.entries.map Prod.fst) ∧
    (v.json_type ≠ class_type.object → v.has_key k = false) := by
  constructor
  · rw [has_key, Bool.and_eq_true, decide_eq_true_eq, map_find_isSome]
  · intro h
    rw [has_key]
    simp only [h, decide_False, Bool.false_and]

/-- C13 at concrete values: the key "a" is found in the Object with the one
entry "a", the key "b" is not, and no key is found in an Array. -/
theorem has_key_exact_witness :
    (json.object [(['a'], json.null)]).has_key ['a'] = true ∧
    (json.object [(['a'], json.null)]).has_key ['b'] = false ∧
    (json.array [json.null]).has_key ['a'] = false :=
  ⟨(has_key_exact _ _).1.2 ⟨rfl, by decide⟩, by decide,
    (has_key_exact (json.array [json.null]) ['a']).2 (by decide)⟩

/-- C14: `length()` is the element count of an Array and the largest `size_t`,
2^64 - 1, for every other kind, an Object included; `size()` is the entry count
of an Object, the element count of an Array and 2^64 - 1 for every other kind. -/
theorem length_and_size (v : json) :
    (∀ l, v = json.array l → v.length = l.length ∧ v.size = l.length) ∧
    (∀ m, v = json.object m → v.length = 2 ^ 64 - 1 ∧ v.size = m.length) ∧
    (v.json_type ≠ class_type.array → v.length = 2 ^ 64 - 1) ∧
    (v.json_type ≠ class_type.array → v.json_type ≠ class_type.object →
      v.size = 2 ^ 64 - 1) := by
  refine ⟨?_, ?_, ?_, ?_⟩
  · rintro l rfl; exact ⟨rfl, rfl⟩
  · rintro m rfl; exact ⟨rfl, rfl⟩
  · intro h; cases v <;> first | rfl | exact absurd rfl h
  · intro h1 h2; cases v <;> first | rfl | exact absurd rfl h1 | exact absurd rfl h2

/-- C14 at concrete values: an Array of two elements has length and size 2, an
Object of one entry has size 1 and the sentinel for length, and a String has
the sentinel for both. -/
theorem length_and_size_witness :
    ((json.array [json.null, json.null]).length = 2 ∧
      (json.array [json.null, json.null]).size = 2) ∧
    ((json.object [(['a'], json.null)]).length = 2 ^ 64 - 1 ∧
      (json.object [(['a'], json.null)]).size = 1) ∧
    (json.string ['x']).length = 2 ^ 64 - 1 ∧
    (json.string ['x']).size = 2 ^ 64 - 1 :=
  ⟨(length_and_size _).1 _ rfl, (length_and_size _).2.1 _ rfl,
    (length_and_size (json.string ['x'])).2.2.1 (by decide),
    (length_and_size (json.string ['x'])).2.2.2 (by decide) (by decide)⟩

/-- C15: `make(kind)` returns, for each of the seven kinds, a value of that kind
with the empty or zero payload: an Object with no entries, an Array of length
0, the String "", the Float 0.0, the Integer 0, the Boolean false, and Null;
a default-constructed value is Null. -/
theorem make_empty_payload :
    json.make class_type.object = json.object [] ∧
    json.make class_type.array = json.array [] ∧
    json.make class_type.string = json.string [] ∧
    json.make class_type.floating = json.floating Dbl.zero ∧
    json.make class_type.integral = json.integral 0 ∧
    json.make class_type.boolean = json.boolean false ∧
    json.make class_type.null = json.null ∧
    json.construct = json.null ∧
    (∀ type, (json.make type).json_type = type) ∧
    (json.make class_type.object).size = 0 ∧
    (json.make class_type.array).length = 0 :=
  ⟨rfl, rfl, rfl, rfl, rfl, rfl, rfl, rfl, fun type => by cases type <;> rfl, rfl, rfl⟩

/-- C16: move assignment releases the target before it reads the source. The
move constructor, and the move assignment from a source that is an object of
its own, leave the target with the value, kind and payload, that the source
held and the source of Null kind. But `operator=(json&&)` begins with
`clear_internal()`: when the source is a mapped value or an element of the
target, as in `t = std::move(t["k"])` and `t = std::move(t[0])`, the source is
destroyed with the payload of the target before its fields are read, and the
target does not get its value; and `t = std::move(t)` leaves `t` Null, whatever
it held. -/
theorem move_assign_releases_first :
    (∀ s : json, json.move_construct s = (s, json.null)) ∧
    (∀ t s : json, json.move_assign t s place.apart = Except.ok (s, json.null)) ∧
    (∀ (m : map_type) (key : Str) (s : json), map_find m key = some s →
      json.move_assign (json.object m) s place.owned = Except.error Fault.dangling) ∧
    (∀ (l : list_type) (index : Nat) (s : json), l[index]? = some s →
      json.move_assign (json.array l) s place.owned = Except.error Fault.dangling) ∧
    (∀ (t : json) (key : Str) (s : json),
      json.move_assign (t.index_key key) s place.owned = Except.error Fault.dangling) ∧
    (∀ (t : json) (index : Nat) (s : json),
      json.move_assign (t.index_pos index) s place.owned = Except.error Fault.dangling) ∧
    (∀ s : json, json.move_assign s s place.same = Except.ok (json.null, json.null)) ∧
    json.move_assign (json.object [(['k'], json.string ['a'])]) (json.string ['a'])
      place.owned = Except.error Fault.dangling ∧
    json.move_assign (json.string ['a']) (json.string ['a']) place.same
      = Except.ok (json.null, json.null) := by
  refine ⟨fun _ => rfl, fun _ _ => rfl, fun _ _ _ _ => rfl, fun _ _ _ _ => rfl,
    fun _ _ _ => rfl, ?_, fun _ => rfl, rfl, rfl⟩
  intro t index s
  have h : (t.index_pos index).json_type = class_type.array := by
    unfold index_pos
    simp only
    split_ifs <;> rfl
  unfold move_assign
  rw [if_pos ⟨rfl, Or.inr h⟩]

/-! ## Empty containers -/

/-- An opening brace, white space and a closing brace at the cursor are parsed to
the empty Object. -/
theorem parse_next_empty_object (fuel : Nat) (str : Str) (o : Nat) (w rest : Str)
    (h : str.drop o = '{' :: (w ++ '}' :: rest)) (hw : ∀ c ∈ w, isspace c = true) :
    parse_next (fuel + 2) str o = Except.ok (json.object [], o + w.length + 2) := by
  rw [parse_next_succ]
  simp only [consume_ws_stay str o '{' _ h (by decide), charAt_at str o '{' _ h]
  simp only [Char.reduceEq, if_false, if_true]
  have h1 : str.drop (o + 1) = w ++ '}' :: rest := drop_succ str o _ _ h
  rw [parse_object_succ, consume_ws_at str (o + 1) w '}' rest h1 hw (by decide),
    charAt_at str (o + 1 + w.length) '}' rest (drop_step str (o + 1) w _ h1)]
  simp only [if_true, make_object]
  exact ok_pair_congr _ _ _ (by omega)

/-- An opening bracket, white space and a closing bracket at the cursor are parsed
to the empty Array. -/
theorem parse_next_empty_array (fuel : Nat) (str : Str) (o : Nat) (w rest : Str)
    (h : str.drop o = '[' :: (w ++ ']' :: rest)) (hw : ∀ c ∈ w, isspace c = true) :
    parse_next (fuel + 2) str o = Except.ok (json.array [], o + w.length + 2) := by
  rw [parse_next_succ]
  simp only [consume_ws_stay str o '[' _ h (by decide), charAt_at str o '[' _ h]
  simp only [if_true]
  have h1 : str.drop (o + 1) = w ++ ']' :: rest := drop_succ str o _ _ h
  rw [parse_array_succ, consume_ws_at str (o + 1) w ']' rest h1 hw (by decide),
    charAt_at str (o + 1 + w.length) ']' rest (drop_step str (o + 1) w _ h1)]
  simp only [if_true, make_array]
  exact ok_pair_congr _ _ _ (by omega)

/-- The fuel of `load` is at least two. -/
theorem load_fuel_two (value : Str) : load_fuel value = 3 * value.length + 6 + 2 := rfl

/-- C18: the text of an opening brace, any white space and a closing brace loads
to an Object of size 0, and the text of an opening bracket, any white space and
a closing bracket loads to an Array of length 0; with no white space these are
the texts `{}` and `[]`. -/
theorem load_empty_containers (w : Str) (hw : ∀ c ∈ w, isspace c = true) :
    (∃ v, load ('{' :: (w ++ ['}'])) = Except.ok v ∧
      v.json_type = class_type.object ∧ v.size = 0) ∧
    (∃ v, load ('[' :: (w ++ [']'])) = Except.ok v ∧
      v.json_type = class_type.array ∧ v.length = 0) ∧
    load ['{', '}'] = Except.ok (json.object []) ∧
    load ['[', ']'] = Except.ok (json.array []) := by
  refine ⟨⟨json.object [], ?_, rfl, rfl⟩, ⟨json.array [], ?_, rfl, rfl⟩, rfl, rfl⟩
  · rw [load, load_fuel_two, parse_next_empty_object _ _ 0 w [] rfl hw]; rfl
  · rw [load, load_fuel_two, parse_next_empty_array _ _ 0 w [] rfl hw]; rfl

/-- C18 on the texts with a space, a tab and a newline between the brackets. -/
theorem load_empty_containers_witness :
    (∀ c ∈ [' ', '\t', '\n'], isspace c = true) ∧
    (∃ v, load ['{', ' ', '\t', '\n', '}'] = Except.ok v ∧
      v.json_type = class_type.object ∧ v.size = 0) ∧
    (∃ v, load ['[', ' ', '\t', '\n', ']'] = Except.ok v ∧
      v.json_type = class_type.array ∧ v.length = 0) :=
  ⟨by decide, (load_empty_containers [' ', '\t', '\n'] (by decide)).1,
    (load_empty_containers [' ', '\t', '\n'] (by decide)).2.1⟩

theorem strip_ws_space (w : Str) (hw : ∀ c ∈ w, isspace c = true) : strip_ws w = [] := by
  rw [strip_ws, List.filter_eq_nil_iff]
  intro c hc
  simp [hw c hc]

theorem strip_ws_append (a b : Str) : strip_ws (a ++ b) = strip_ws a ++ strip_ws b := by
  simp [strip_ws]

/-- The indent before the closing brace is white space when the unit is. -/
theorem closing_pad_space (tab : Str) (htab : ∀ c ∈ tab, isspace c = true) (depth : Int) :
    ∀ c ∈ '\n' :: '\n' :: (make_pad depth tab).drop 2, isspace c = true := by
  intro c hc
  rcases List.mem_cons.1 hc with h | hc
  · rw [h]; decide
  rcases List.mem_cons.1 hc with h | hc
  · rw [h]; decide
  exact make_pad_space tab htab depth c (List.mem_of_mem_drop hc)

theorem dump_empty_object (fmt : Dbl → Str) (tab : Str) (depth : Int) :
    dump fmt tab (json.object []) depth
      = '{' :: (('\n' :: '\n' :: (make_pad depth tab).drop 2) ++ ['}']) := by
  rw [dump_object_eq]; rfl

/-- C19: for every indent unit made of white space (the default of four spaces is
one) and every depth, the dump of the empty Object is an opening brace, white
space and a closing brace, so it is `{}` once white space is removed, and the
dump of the empty Array is `[]`; `load` of either dump is the empty container
of the same kind. -/
theorem dump_empty_containers (fmt : Dbl → Str) (tab : Str) (depth : Int)
    (htab : ∀ c ∈ tab, isspace c = true) :
    strip_ws (dump fmt tab (json.object []) depth) = ['{', '}'] ∧
    dump fmt tab (json.array []) depth = ['[', ']'] ∧
    strip_ws (dump fmt tab (json.array []) depth) = ['[', ']'] ∧
    load (dump fmt tab (json.object []) depth) = Except.ok (json.object []) ∧
    load (dump fmt tab (json.array []) depth) = Except.ok (json.array []) := by
  have ha : dump fmt tab (json.array []) depth = ['[', ']'] := by rw [dump_array_eq]; rfl
  refine ⟨?_, ha, ?_, ?_, ?_⟩
  · rw [dump_empty_object, show ∀ (x : Str), '{' :: (x ++ ['}']) = ['{'] ++ (x ++ ['}']) from
      fun _ => rfl, strip_ws_append, strip_ws_append,
      strip_ws_space _ (closing_pad_space tab htab depth)]
    rfl
  · rw [ha]; rfl
  · rw [dump_empty_object, load, load_fuel_two,
      parse_next_empty_object _ _ 0 _ [] rfl (closing_pad_space tab htab depth)]
    rfl
  · rw [ha]; rfl

/-- C19 at the defaults of `dump`: depth 1 and four spaces. -/
theorem dump_empty_containers_witness :
    (∀ c ∈ default_tab, isspace c = true) ∧
    dump_default (fun _ => []) (json.object []) = ['{', '\n', '\n', ' ', ' ', '}'] ∧
    strip_ws (dump_default (fun _ => []) (json.object [])) = ['{', '}'] ∧
    load (dump_default (fun _ => []) (json.object [])) = Except.ok (json.object []) ∧
    load (dump_default (fun _ => []) (json.array [])) = Except.ok (json.array []) :=
  ⟨default_tab_space, rfl,
    (dump_empty_containers (fun _ => []) default_tab 1 default_tab_space).1,
    (dump_empty_containers (fun _ => []) default_tab 1 default_tab_space).2.2.2.1,
    (dump_empty_containers (fun _ => []) default_tab 1 default_tab_space).2.2.2.2⟩

/-! ## The layout of an Object dump -/

theorem pad_loop_repeat (tab : Str) (n : Nat) (pad : Str) :
    pad_loop n tab pad = pad ++ repeat_unit tab n := by
  induction n generalizing pad with
  | zero => simp [pad_loop, repeat_unit]
  | succ n ih => rw [pad_loop, ih, repeat_unit, List.append_assoc]

theorem make_pad_repeat (depth : Int) (tab : Str) :
    make_pad depth tab = repeat_unit tab depth.toNat := by
  rw [make_pad, pad_loop_repeat, List.nil_append]

theorem spec_entry_line_eq (fmt : Dbl → Str) (u : Str) (d : Int) (p : Str × json) :
    spec_entry_line fmt u d p = make_pad d u ++ entry_text fmt u d p := by
  rw [spec_entry_line, make_pad_repeat, entry_text]; simp

/-- The entries that the loop of `dump` writes are the entry lines joined by a
comma and a newline. -/
theorem object_body_join (fmt : Dbl → Str) (u : Str) (d : Int) (p : Str × json)
    (rest : map_type) :
    join_with [',', '\n'] ((p :: rest).map (spec_entry_line fmt u d))
      = spec_entry_line fmt u d p ++ object_body fmt u (make_pad d u) d rest false := by
  induction rest generalizing p with
  | nil => simp [join_with, object_body]
  | cons q r ih =>
    rw [List.map_cons, List.map_cons, join_with, ← List.map_cons, ih q, object_body,
      spec_entry_line_eq fmt u d q]
    simp

/-- The text that `dump` returns for an Object: the closing brace is indented by
the pad of the Object itself without its first two characters. -/
theorem dump_object_layout (fmt : Dbl → Str) (u : Str) (d : Int) (m : map_type) :
    dump fmt u (json.object m) d
      = ['{', '\n'] ++ join_with [',', '\n'] (m.map (spec_entry_line fmt u d)) ++ ['\n'] ++
          (repeat_unit u d.toNat).drop 2 ++ ['}'] := by
  rw [dump_object_eq, ← make_pad_repeat]
  cases m with
  | nil => simp [object_body, join_with]
  | cons p rest =>
    rw [object_body_join, object_body, spec_entry_line_eq]
    simp

/-- With a unit of two characters the pad without its first two characters is
the indent of the parent. -/
theorem repeat_unit_drop (u : Str) (hu : u.length = 2) (n : Nat) (hn : 1 ≤ n) :
    (repeat_unit u n).drop 2 = repeat_unit u (n - 1) := by
  obtain ⟨k, rfl⟩ : ∃ k, n = k + 1 := ⟨n - 1, by omega⟩
  rw [repeat_unit, Nat.add_sub_cancel, ← hu, List.drop_left]

/-- With an indent unit of two characters, the default of the single header, the
dump of an Object has the layout of the specification. -/
theorem dump_object_layout_two (fmt : Dbl → Str) (u : Str) (d : Int) (m : map_type)
    (hu : u.length = 2) (hd : 1 ≤ d) :
    dump fmt u (json.object m) d = spec_object_layout fmt u d m := by
  rw [dump_object_layout, spec_object_layout, repeat_unit_drop u hu d.toNat (by omega)]

/-- C20: the dump of an Object is an opening brace and a newline, then the
entries, each as the pad (the unit repeated `d` times), the key between quotes,
` : ` and the dump of the value at depth `d + 1`, joined by a comma and a
newline, then a newline, an indent and the closing brace; but the indent before
the closing brace is the pad without its first two characters, not the unit
repeated `d - 1` times. The two agree for a unit of two characters; for the
Object with the one entry "a" : null at the defaults of `json.h`, depth 1 and
four spaces, the code writes two spaces before the closing brace where the
layout of the specification has none. -/
theorem object_dump_closing_indent (fmt : Dbl → Str) (u : Str) (d : Int) (m : map_type) :
    dump fmt u (json.object m) d
      = ['{', '\n'] ++ join_with [',', '\n'] (m.map (spec_entry_line fmt u d)) ++ ['\n'] ++
          (repeat_unit u d.toNat).drop 2 ++ ['}'] ∧
    spec_object_layout fmt u d m
      = ['{', '\n'] ++ join_with [',', '\n'] (m.map (spec_entry_line fmt u d)) ++ ['\n'] ++
          repeat_unit u (d.toNat - 1) ++ ['}'] ∧
    dump_default fmt (json.object [(['a'], json.null)])
      = ['{', '\n', ' ', ' ', ' ', ' ', '"', 'a', '"', ' ', ':', ' ', 'n', 'u', 'l', 'l', '\n',
          ' ', ' ', '}'] ∧
    spec_object_layout fmt default_tab 1 [(['a'], json.null)]
      = ['{', '\n', ' ', ' ', ' ', ' ', '"', 'a', '"', ' ', ':', ' ', 'n', 'u', 'l', 'l', '\n',
          '}'] ∧
    dump_default fmt (json.object [(['a'], json.null)])
      ≠ spec_object_layout fmt default_tab 1 [(['a'], json.null)] := by
  refine ⟨dump_object_layout fmt u d m, rfl, rfl, rfl, ?_⟩
  have h1 : dump_default fmt (json.object [(['a'], json.null)])
      = ['{', '\n', ' ', ' ', ' ', ' ', '"', 'a', '"', ' ', ':', ' ', 'n', 'u', 'l', 'l', '\n',
          ' ', ' ', '}'] := rfl
  have h2 : spec_object_layout fmt default_tab 1 [(['a'], json.null)]
      = ['{', '\n', ' ', ' ', ' ', ' ', '"', 'a', '"', ' ', ':', ' ', 'n', 'u', 'l', 'l', '\n',
          '}'] := rfl
  rw [h1, h2]
  decide

/-! ## A text followed by more text

The runs of the parser that write nothing to `std::cerr` read the text only
below its length, so they are the same on every extension of the text. -/

theorem charAt_lt (t : Str) (i : Nat) (h : charAt t i ≠ '\x00') : i < t.length := by
  by_contra hn
  apply h
  rw [charAt, List.getD_eq_default _ _ (by omega)]

theorem charAt_append (t s : Str) (i : Nat) (h : i < t.length) :
    charAt (t ++ s) i = charAt t i := by
  rw [charAt, charAt, List.getD_append _ _ _ _ h]

theorem drop_append (t s : Str) (o : Nat) (h : o ≤ t.length) :
    (t ++ s).drop o = t.drop o ++ s := List.drop_append_of_le_length h

theorem consume_ws_loop_le (l : Str) (o : Nat) :
    o ≤ consume_ws_loop l o ∧ consume_ws_loop l o ≤ o + l.length := by
  induction l generalizing o with
  | nil => simp [consume_ws_loop]
  | cons c l ih =>
    rw [consume_ws_loop]
    by_cases hc : isspace c = true
    · simp only [hc, if_true, List.length_cons]
      have := ih (o + 1)
      omega
    · rw [if_neg hc, List.length_cons]
      omega

theorem consume_ws_loop_local (l s : Str) (o : Nat) (h : consume_ws_loop l o < o + l.length) :
    consume_ws_loop (l ++ s) o = consume_ws_loop l o := by
  induction l generalizing o with
  | nil => simp [consume_ws_loop] at h
  | cons c l ih =>
    rw [List.cons_append, consume_ws_loop, consume_ws_loop]
    by_cases hc : isspace c = true
    · simp only [hc, if_true]
      apply ih
      rw [consume_ws_loop] at h
      simp only [hc, if_true, List.length_cons] at h
      omega
    · rw [if_neg hc, if_neg hc]

theorem consume_ws_ge (t : Str) (o : Nat) : o ≤ consume_ws t o :=
  (consume_ws_loop_le _ o).1

theorem consume_ws_local (t s : Str) (o : Nat) (h : consume_ws t o < t.length) :
    consume_ws (t ++ s) o = consume_ws t o := by
  have h1 : o ≤ consume_ws t o := consume_ws_ge t o
  rw [consume_ws, consume_ws, drop_append t s o (by omega)]
  apply consume_ws_loop_local
  rw [List.length_drop]
  have h2 : consume_ws t o = consume_ws_loop (t.drop o) o := rfl
  omega

/-- White space that ends on a character of the text is the same white space in
every extension of the text. -/
theorem consume_ws_char (t s : Str) (o : Nat) (h : charAt t (consume_ws t o) ≠ '\x00') :
    consume_ws (t ++ s) o = consume_ws t o ∧
    charAt (t ++ s) (consume_ws t o) = charAt t (consume_ws t o) :=
  ⟨consume_ws_local t s o (charAt_lt t _ h), charAt_append t s _ (charAt_lt t _ h)⟩


theorem parse_string_loop_local (s : Str) : ∀ (n : Nat) (l : Str), l.length ≤ n →
    ∀ (off : Nat) (acc : Str) (r : json × Nat), parse_string_loop l off acc = Except.ok r →
    parse_string_loop_cerr l = [] → parse_string_loop (l ++ s) off acc = Except.ok r := by
  intro n
  induction n with
  | zero =>
    intro l hl off acc r h _
    have hnil : l = [] := List.length_eq_zero.1 (by omega)
    subst hnil
    rw [parse_string_loop.eq_def] at h; simp at h
  | succ n ih =>
    intro l hl off acc r h hc
    rcases l with _ | ⟨c, rest⟩
    · rw [parse_string_loop.eq_def] at h; simp at h
    rw [List.cons_append, parse_string_loop.eq_def]
    rw [parse_string_loop.eq_def] at h
    rw [parse_string_loop_cerr.eq_def] at hc
    simp only [List.length_cons] at hl
    by_cases h1 : c = '"'
    · subst h1
      simp only [if_true] at h ⊢; exact h
    by_cases h2 : c = '\\'
    · subst h2
      rcases rest with _ | ⟨e, rest2⟩
      · simp at h
      simp only [List.length_cons] at hl
      by_cases hu : e = 'u'
      · subst hu
        rcases rest2 with _ | ⟨x1, _ | ⟨x2, _ | ⟨x3, _ | ⟨x4, rest3⟩⟩⟩⟩
        · simp at hc
        · simp at hc
        · simp at hc
        · simp at hc
        · simp only [List.length_cons] at hl
          by_cases hh : (ishex x1 && ishex x2 && ishex x3 && ishex x4) = true
          · simp only [Char.reduceEq, if_false, if_true, hh, List.cons_append] at h hc ⊢
            exact ih rest3 (by omega) _ _ _ h hc
          · simp [hh] at hc
      · simp only [Char.reduceEq, if_false, if_true, hu, List.cons_append] at h hc ⊢
        split_ifs at h ⊢ <;> exact ih rest2 (by omega) _ _ _ h hc
    · simp only [h1, h2, if_false] at h hc ⊢
      exact ih rest (by omega) _ _ _ h hc


theorem parse_string_local (t s : Str) (o : Nat) (r : json × Nat) (ho : o < t.length)
    (h : parse_string t o = Except.ok r) (hc : parse_string_cerr t o = []) :
    parse_string (t ++ s) o = Except.ok r := by
  rw [parse_string, drop_append t s (o + 1) (by omega)]
  exact parse_string_loop_local s _ _ (Nat.le_refl _) _ _ _ h hc

theorem parse_number_loop_local (s : Str) (l : Str) (off : Nat) (value : Str) (fl : Bool)
    (h : (parse_number_loop l off value fl).2.2.1 ≠ '\x00') :
    parse_number_loop (l ++ s) off value fl = parse_number_loop l off value fl := by
  induction l generalizing off value fl with
  | nil => simp [parse_number_loop] at h
  | cons c l ih =>
    rw [List.cons_append, parse_number_loop, parse_number_loop]
    rw [parse_number_loop] at h
    split_ifs at h ⊢ with h1 h2
    · exact ih _ _ _ h
    · exact ih _ _ _ h
    · rfl

theorem parse_exponent_loop_local (s : Str) (l : Str) (off : Nat) (ev : Str)
    (h : (parse_exponent_loop l off ev).1 ≠ none) :
    parse_exponent_loop (l ++ s) off ev = parse_exponent_loop l off ev ∧ l ≠ [] := by
  induction l generalizing off ev with
  | nil => simp [parse_exponent_loop] at h
  | cons c l ih =>
    refine ⟨?_, by simp⟩
    rw [List.cons_append, parse_exponent_loop, parse_exponent_loop]
    rw [parse_exponent_loop] at h
    split_ifs at h ⊢ with h1 h2
    · exact (ih _ _ h).1
    · rfl
    · rfl

theorem drop_ne_nil (t : Str) (o : Nat) (h : t.drop o ≠ []) : o < t.length := by
  by_contra hn
  exact h (List.drop_eq_nil_of_le (by omega))

/-- A call of `parse_number` that writes nothing to `std::cerr` does the same on
every extension of the text. -/
theorem parse_number_local (t s : Str) (o : Nat) (ho : o ≤ t.length)
    (hc : parse_number_cerr t o = []) : parse_number (t ++ s) o = parse_number t o := by
  rw [parse_number, parse_number, drop_append t s o ho]
  rw [parse_number_cerr] at hc
  rcases hloop : parse_number_loop (t.drop o) o [] false with ⟨value, fl, c, n⟩
  rw [hloop] at hc
  simp only at hc
  have hcne : c ≠ '\x00' := by
    intro h0
    subst h0
    simp [isterm, isspace] at hc
  have hloop2 : parse_number_loop (t.drop o ++ s) o [] false = (value, fl, c, n) := by
    rw [parse_number_loop_local s _ _ _ _ (by rw [hloop]; exact hcne)]; exact hloop
  rw [hloop2]
  simp only
  by_cases hE : (c = 'E' || c = 'e') = true
  · simp only [hE, if_true] at hc ⊢
    rcases hexp : parse_exponent_loop
        (t.drop (if charAt t n = '-' then n + 1 + 1 else n + 1))
        (if charAt t n = '-' then n + 1 + 1 else n + 1)
        (if charAt t n = '-' then ['-'] else []) with ⟨ev, m⟩
    rw [hexp] at hc
    have hsome : ev ≠ none := by
      intro h0; subst h0; simp at hc
    have hl := parse_exponent_loop_local s _ _ _ (by rw [hexp]; exact hsome)
    have hlt := drop_ne_nil _ _ hl.2
    have hn : n < t.length := by
      split_ifs at hlt <;> omega
    rw [charAt_append t s n hn, drop_append t s _ (by omega), hl.1, hexp]
  · rw [if_neg hE, if_neg hE]

theorem substr_local (t s : Str) (o n : Nat) (hn : 0 < n) (h : (substr t o n).length = n) :
    substr (t ++ s) o n = substr t o n := by
  rw [substr, List.length_take, List.length_drop] at h
  rw [substr, substr, drop_append t s o (by omega),
    List.take_append_of_le_length (by rw [List.length_drop]; omega)]

theorem substr_take (t : Str) (o : Nat) : substr t o 4 = (substr t o 5).take 4 := by
  rw [substr, substr, List.take_take]; rfl

/-- A call of `parse_bool` that writes nothing to `std::cerr` does the same on
every extension of the text. -/
theorem parse_bool_local (t s : Str) (o : Nat) (hc : parse_bool_cerr t o = []) :
    parse_bool (t ++ s) o = parse_bool t o := by
  rw [parse_bool_cerr] at hc
  rw [parse_bool, parse_bool]
  by_cases h1 : substr t o 4 = ['t', 'r', 'u', 'e']
  · have e1 := substr_local t s o 4 (by omega) (by rw [h1]; rfl)
    rw [e1, if_pos h1, if_pos h1]
  · by_cases h2 : substr t o 5 = ['f', 'a', 'l', 's', 'e']
    · have e2 := substr_local t s o 5 (by omega) (by rw [h2]; rfl)
      have e3 : substr (t ++ s) o 4 ≠ ['t', 'r', 'u', 'e'] := by
        rw [substr_take, e2, h2]; decide
      rw [if_neg e3, if_neg h1, e2]
    · simp [h1, h2] at hc

/-- A call of `parse_null` that writes nothing to `std::cerr` does the same on
every extension of the text. -/
theorem parse_null_local (t s : Str) (o : Nat) (hc : parse_null_cerr t o = []) :
    parse_null (t ++ s) o = parse_null t o := by
  rw [parse_null_cerr] at hc
  rw [parse_null, parse_null]
  by_cases h1 : substr t o 4 = ['n', 'u', 'l', 'l']
  · have e1 := substr_local t s o 4 (by omega) (by rw [h1]; rfl)
    rw [e1]
  · simp [h1] at hc

theorem parse_next_cerr_succ (fuel : Nat) (str : Str) (offset : Nat) :
    parse_next_cerr (fuel + 1) str offset =
      (if charAt str (consume_ws str offset) = '[' then
        parse_array_cerr fuel str (consume_ws str offset)
      else if charAt str (consume_ws str offset) = '{' then
        parse_object_cerr fuel str (consume_ws str offset)
      else if charAt str (consume_ws str offset) = '"' then
        parse_string_cerr str (consume_ws str offset)
      else if charAt str (consume_ws str offset) = 't' ||
          charAt str (consume_ws str offset) = 'f' then
        parse_bool_cerr str (consume_ws str offset)
      else if charAt str (consume_ws str offset) = 'n' then
        parse_null_cerr str (consume_ws str offset)
      else if (decide (charAt str (consume_ws str offset) ≤ '9') &&
          decide (charAt str (consume_ws str offset) ≥ '0')) ||
          charAt str (consume_ws str offset) = '-' then
        parse_number_cerr str (consume_ws str offset)
      else [Diag.parse_unknown (charAt str (consume_ws str offset))]) := by
  rw [parse_next_cerr]

theorem parse_object_cerr_succ (fuel : Nat) (str : Str) (offset : Nat) :
    parse_object_cerr (fuel + 1) str offset =
      (if charAt str (consume_ws str (offset + 1)) = '}' then []
      else parse_object_loop_cerr fuel str (consume_ws str (offset + 1))) := by
  rw [parse_object_cerr]

theorem parse_array_cerr_succ (fuel : Nat) (str : Str) (offset : Nat) :
    parse_array_cerr (fuel + 1) str offset =
      (if charAt str (consume_ws str (offset + 1)) = ']' then []
      else parse_array_loop_cerr fuel str (consume_ws str (offset + 1))
        (make class_type.array) 0) := by
  rw [parse_array_cerr]

theorem parse_object_loop_cerr_succ (fuel : Nat) (str : Str) (offset : Nat) :
    parse_object_loop_cerr (fuel + 1) str offset =
      parse_next_cerr fuel str offset ++
      (match parse_next fuel str offset with
      | Except.error _ => []
      | Except.ok (_, offset) =>
        if charAt str (consume_ws str offset) ≠ ':' then
          [Diag.object_colon (charAt str (consume_ws str offset))]
        else
          parse_next_cerr fuel str (consume_ws str (consume_ws str offset + 1)) ++
          match parse_next fuel str (consume_ws str (consume_ws str offset + 1)) with
          | Except.error _ => []
          | Except.ok (_, offset) =>
            if charAt str (consume_ws str offset) = ',' then
              parse_object_loop_cerr fuel str (consume_ws str offset + 1)
            else if charAt str (consume_ws str offset) = '}' then []
            else [Diag.object_comma (charAt str (consume_ws str offset))]) := by
  rw [parse_object_loop_cerr]

theorem parse_array_loop_cerr_succ (fuel : Nat) (str : Str) (offset : Nat) (json_array : json)
    (index : Nat) :
    parse_array_loop_cerr (fuel + 1) str offset json_array index =
      parse_next_cerr fuel str offset ++
      (match parse_next fuel str offset with
      | Except.error _ => []
      | Except.ok (x, offset) =>
        match json_array.assign_pos (index % 2 ^ 32) x with
        | Except.error _ => []
        | Except.ok json_array =>
          if charAt str (consume_ws str offset) = ',' then
            parse_array_loop_cerr fuel str (consume_ws str offset + 1) json_array (index + 1)
          else if charAt str (consume_ws str offset) = ']' then []
          else [Diag.array_comma (charAt str (consume_ws str offset))]) := by
  rw [parse_array_loop_cerr]

/-- A call of `parse_next` that returns and writes nothing to `std::cerr` has
found a character of the text after the white space. -/
theorem parse_next_start (fuel : Nat) (t : Str) (o : Nat) (r : json × Nat)
    (h : parse_next fuel t o = Except.ok r) (hc : parse_next_cerr fuel t o = []) :
    charAt t (consume_ws t o) ≠ '\x00' := by
  cases fuel with
  | zero => rw [parse_next] at h; simp at h
  | succ f =>
    intro h0
    rw [parse_next_cerr_succ, h0] at hc
    simp at hc

theorem parse_object_loop_start (fuel : Nat) (t : Str) (o : Nat) (obj : json) (r : json × Nat)
    (h : parse_object_loop fuel t o obj = Except.ok r)
    (hc : parse_object_loop_cerr fuel t o = []) :
    charAt t (consume_ws t o) ≠ '\x00' := by
  cases fuel with
  | zero => rw [parse_object_loop] at h; simp at h
  | succ f =>
    rw [parse_object_loop_succ] at h
    rw [parse_object_loop_cerr_succ] at hc
    rcases hk : parse_next f t o with e | k
    · rw [hk] at h; simp at h
    · exact parse_next_start f t o k hk (List.append_eq_nil.1 hc).1

theorem parse_array_loop_start (fuel : Nat) (t : Str) (o : Nat) (arr : json) (i : Nat)
    (r : json × Nat) (h : parse_array_loop fuel t o arr i = Except.ok r)
    (hc : parse_array_loop_cerr fuel t o arr i = []) :
    charAt t (consume_ws t o) ≠ '\x00' := by
  cases fuel with
  | zero => rw [parse_array_loop] at h; simp at h
  | succ f =>
    rw [parse_array_loop_succ] at h
    rw [parse_array_loop_cerr_succ] at hc
    rcases hk : parse_next f t o with e | k
    · rw [hk] at h; simp at h
    · exact parse_next_start f t o k hk (List.append_eq_nil.1 hc).1

/-- The runs of the five parsing functions that return and write nothing to
`std::cerr` are the same on every extension of the text, with any larger fuel. -/
theorem parse_local (t s : Str) : ∀ f : Nat,
    (∀ o r, parse_next f t o = Except.ok r → parse_next_cerr f t o = [] →
      ∀ g, f ≤ g → parse_next g (t ++ s) o = Except.ok r) ∧
    (∀ o r, parse_object f t o = Except.ok r → parse_object_cerr f t o = [] →
      ∀ g, f ≤ g → parse_object g (t ++ s) o = Except.ok r) ∧
    (∀ o obj r, parse_object_loop f t o obj = Except.ok r →
      parse_object_loop_cerr f t o = [] →
      ∀ g, f ≤ g → parse_object_loop g (t ++ s) o obj = Except.ok r) ∧
    (∀ o r, parse_array f t o = Except.ok r → parse_array_cerr f t o = [] →
      ∀ g, f ≤ g → parse_array g (t ++ s) o = Except.ok r) ∧
    (∀ o arr i r, parse_array_loop f t o arr i = Except.ok r →
      parse_array_loop_cerr f t o arr i = [] →
      ∀ g, f ≤ g → parse_array_loop g (t ++ s) o arr i = Except.ok r) := by
  intro f
  induction f with
  | zero =>
    refine ⟨?_, ?_, ?_, ?_, ?_⟩
    · intro o r h; rw [parse_next] at h; simp at h
    · intro o r h; rw [parse_object] at h; simp at h
    · intro o obj r h; rw [parse_object_loop] at h; simp at h
    · intro o r h; rw [parse_array] at h; simp at h
    · intro o arr i r h; rw [parse_array_loop] at h; simp at h
  | succ f ih =>
    obtain ⟨ihn, iho, ihol, iha, ihal⟩ := ih
    refine ⟨?_, ?_, ?_, ?_, ?_⟩
    · intro o r h hc g hg
      obtain ⟨g, rfl⟩ : ∃ g', g = g' + 1 := ⟨g - 1, by omega⟩
      have hstart := parse_next_start (f + 1) t o r h hc
      obtain ⟨e1, e2⟩ := consume_ws_char t s o hstart
      rw [parse_next_succ] at h ⊢
      rw [parse_next_cerr_succ] at hc
      simp only [e1, e2] at h hc ⊢
      split_ifs at h hc ⊢ with h1 h2 h3 h4 h5 h6
      · exact iha _ r h hc g (by omega)
      · exact iho _ r h hc g (by omega)
      · exact parse_string_local t s _ r (charAt_lt t _ hstart) h hc
      · rw [parse_bool_local t s _ hc]; exact h
      · rw [parse_null_local t s _ hc]; exact h
      · rw [parse_number_local t s _ (Nat.le_of_lt (charAt_lt t _ hstart)) hc]; exact h
    · intro o r h hc g hg
      obtain ⟨g, rfl⟩ : ∃ g', g = g' + 1 := ⟨g - 1, by omega⟩
      rw [parse_object_succ] at h ⊢
      rw [parse_object_cerr_succ] at hc
      have hstart : charAt t (consume_ws t (o + 1)) ≠ '\x00' := by
        by_cases h1 : charAt t (consume_ws t (o + 1)) = '}'
        · rw [h1]; decide
        · rw [if_neg h1] at h hc
          have h2 := parse_object_loop_start f t _ _ r h hc
          rwa [consume_ws_idem] at h2
      obtain ⟨e1, e2⟩ := consume_ws_char t s (o + 1) hstart
      rw [e1, e2]
      split_ifs at h hc ⊢ with h1
      · exact h
      · exact ihol _ _ r h hc g (by omega)
    · intro o obj r h hc g hg
      obtain ⟨g, rfl⟩ : ∃ g', g = g' + 1 := ⟨g - 1, by omega⟩
      rw [parse_object_loop_succ] at h ⊢
      rw [parse_object_loop_cerr_succ] at hc
      obtain ⟨hc1, hc2⟩ := List.append_eq_nil.1 hc
      rcases hk : parse_next f t o with e | ⟨key, o1⟩
      · rw [hk] at h; simp at h
      rw [hk] at h hc2
      rw [ihn o (key, o1) hk hc1 g (by omega)]
      simp only at h hc2 ⊢
      by_cases hcol : charAt t (consume_ws t o1) = ':'
      swap
      · simp [hcol] at hc2
      obtain ⟨e1, e2⟩ := consume_ws_char t s o1 (by rw [hcol]; decide)
      simp only [e1, e2, hcol, ne_eq, not_true_eq_false, if_false] at h hc2 ⊢
      obtain ⟨hc3, hc4⟩ := List.append_eq_nil.1 hc2
      rcases hv : parse_next f t (consume_ws t (consume_ws t o1 + 1)) with e | ⟨value, o4⟩
      · rw [hv] at h; simp at h
      rw [hv] at h hc4
      have hs2 := parse_next_start f t _ _ hv hc3
      rw [consume_ws_idem] at hs2
      obtain ⟨e3, e4⟩ := consume_ws_char t s (consume_ws t o1 + 1) hs2
      rw [e3, ihn _ _ hv hc3 g (by omega)]
      simp only at h hc4 ⊢
      have hs3 : charAt t (consume_ws t o4) ≠ '\x00' := by
        intro h0; rw [h0] at hc4; simp at hc4
      obtain ⟨e5, e6⟩ := consume_ws_char t s o4 hs3
      simp only [e5, e6]
      split_ifs at h hc4 ⊢ with h1 h2
      · exact ihol _ _ r h hc4 g (by omega)
      · exact h
    · intro o r h hc g hg
      obtain ⟨g, rfl⟩ : ∃ g', g = g' + 1 := ⟨g - 1, by omega⟩
      rw [parse_array_succ] at h ⊢
      rw [parse_array_cerr_succ] at hc
      have hstart : charAt t (consume_ws t (o + 1)) ≠ '\x00' := by
        by_cases h1 : charAt t (consume_ws t (o + 1)) = ']'
        · rw [h1]; decide
        · rw [if_neg h1] at h hc
          have h2 := parse_array_loop_start f t _ _ _ r h hc
          rwa [consume_ws_idem] at h2
      obtain ⟨e1, e2⟩ := consume_ws_char t s (o + 1) hstart
      rw [e1, e2]
      split_ifs at h hc ⊢ with h1
      · exact h
      · exact ihal _ _ _ r h hc g (by omega)
    · intro o arr i r h hc g hg
      obtain ⟨g, rfl⟩ : ∃ g', g = g' + 1 := ⟨g - 1, by omega⟩
      rw [parse_array_loop_succ] at h ⊢
      rw [parse_array_loop_cerr_succ] at hc
      obtain ⟨hc1, hc2⟩ := List.append_eq_nil.1 hc
      rcases hk : parse_next f t o with e | ⟨x, o1⟩
      · rw [hk] at h; simp at h
      rw [hk] at h hc2
      rw [ihn o (x, o1) hk hc1 g (by omega)]
      simp only at h hc2 ⊢
      rcases ha : arr.assign_pos (i % 2 ^ 32) x with e | arr2
      · rw [ha] at h; simp at h
      rw [ha] at h hc2
      simp only at h hc2 ⊢
      have hs3 : charAt t (consume_ws t o1) ≠ '\x00' := by
        intro h0; rw [h0] at hc2; simp at hc2
      obtain ⟨e5, e6⟩ := consume_ws_char t s o1 hs3
      simp only [e5, e6]
      split_ifs at h hc2 ⊢ with h1 h2
      · exact ihal _ _ _ r h hc2 g (by omega)
      · exact h

theorem load_fuel_append (t s : Str) : load_fuel t ≤ load_fuel (t ++ s) := by
  rw [load_fuel, load_fuel, List.length_append]; omega

/-- A text that `load` parses to a value without writing a message to
`std::cerr`, whatever the kind of the value, is parsed to the same value before
every suffix. -/
theorem load_ignores_suffix (t s : Str) (v : json) (h : load t = Except.ok v)
    (hc : load_cerr t = []) : load (t ++ s) = Except.ok v := by
  rw [load] at h ⊢
  rcases hr : parse_next (load_fuel t) t 0 with e | ⟨v2, o⟩
  · rw [hr] at h; simp [Except.map] at h
  rw [hr] at h
  simp only [Except.map, Except.ok.injEq] at h
  subst h
  rw [(parse_local t s (load_fuel t)).1 0 _ hr hc _ (load_fuel_append t s)]
  rfl

/-- A top-level value that is not closed: on the text `[[]` the cursor ends at
the length of the text, 3, behind a closing bracket, but that bracket closes
the inner array and the outer array leaves through its error exit, on the
message `Expected ',' or ']'`. What follows the text then matters: `load`
returns the empty Array for it and the Array of one empty Array for the text
followed by `]`. In the same way `load` of the Object text without its last
brace returns the Object with the one entry "a", with the cursor at the length
of the text, and two entries when the suffix `,"b":{}}` follows. -/
theorem suffix_changes_unterminated_text :
    closes ['[', '[', ']'] = false ∧
    closes ['\x7b', '"', 'a', '"', ':', '\x7b', '\x7d'] = false ∧
    parse_next (load_fuel ['[', '[', ']']) ['[', '[', ']'] 0
      = Except.ok (json.array [], ['[', '[', ']'].length) ∧
    load ['[', '[', ']'] = Except.ok (json.array []) ∧
    load (['[', '[', ']'] ++ [']']) = Except.ok (json.array [json.array []]) ∧
    load (['[', '[', ']'] ++ [']']) ≠ load ['[', '[', ']'] ∧
    load_cerr ['[', '[', ']'] = [Diag.array_comma '\x00'] ∧
    parse_next (load_fuel ['{', '"', 'a', '"', ':', '{', '}'])
        ['{', '"', 'a', '"', ':', '{', '}'] 0
      = Except.ok (json.object [(['a'], json.object [])],
          ['{', '"', 'a', '"', ':', '{', '}'].length) ∧
    load (['{', '"', 'a', '"', ':', '{', '}'] ++ [',', '"', 'b', '"', ':', '{', '}', '}'])
      = Except.ok (json.object [(['a'], json.object []), (['b'], json.object [])]) ∧
    load (['{', '"', 'a', '"', ':', '{', '}'] ++ [',', '"', 'b', '"', ':', '{', '}', '}'])
      ≠ load ['{', '"', 'a', '"', ':', '{', '}'] := by
  have h1 : load ['[', '[', ']'] = Except.ok (json.array []) := rfl
  have h2 : load (['[', '[', ']'] ++ [']']) = Except.ok (json.array [json.array []]) := rfl
  have h3 : load ['{', '"', 'a', '"', ':', '{', '}']
      = Except.ok (json.object [(['a'], json.object [])]) := rfl
  have h4 : load (['{', '"', 'a', '"', ':', '{', '}'] ++ [',', '"', 'b', '"', ':', '{', '}', '}'])
      = Except.ok (json.object [(['a'], json.object []), (['b'], json.object [])]) := rfl
  refine ⟨by decide, by decide, rfl, h1, h2, ?_, rfl, rfl, h4, ?_⟩
  · rw [h1, h2]; simp
  · rw [h3, h4]; simp

/-! ## The order of a dump -/

theorem map_sorted_tail (p : Str × json) (m : map_type) (h : map_sorted (p :: m) = true) :
    map_sorted m = true := by
  cases m with
  | nil => rfl
  | cons q r =>
    obtain ⟨k1, v1⟩ := p
    obtain ⟨k2, v2⟩ := q
    rw [map_sorted, Bool.and_eq_true] at h
    exact h.2

theorem map_sorted_head (p : Str × json) (m : map_type) (h : map_sorted (p :: m) = true) :
    ∀ q ∈ m, str_lt p.1 q.1 = true := by
  induction m generalizing p with
  | nil => simp
  | cons q r ih =>
    obtain ⟨k1, v1⟩ := p
    obtain ⟨k2, v2⟩ := q
    rw [map_sorted, Bool.and_eq_true] at h
    intro e he
    rcases List.mem_cons.1 he with h1 | h1
    · rw [h1]; exact h.1
    · exact str_lt_trans _ _ _ h.1 (ih (k2, v2) h.2 e h1)

/-- The keys of a map are strictly ascending, each below all that follow. -/
theorem map_sorted_pairwise (m : map_type) (h : map_sorted m = true) :
    (m.map Prod.fst).Pairwise (fun a b => str_lt a b = true) := by
  induction m with
  | nil => exact List.Pairwise.nil
  | cons p m ih =>
    rw [List.map_cons, List.pairwise_cons]
    refine ⟨?_, ih (map_sorted_tail p m h)⟩
    intro b hb
    obtain ⟨q, hq, rfl⟩ := List.mem_map.1 hb
    exact map_sorted_head p m h q hq

/-- Two stores under different keys into the empty Object give the same Object
in either order. -/
theorem assign_key_two (k1 k2 : Str) (x1 x2 : json) (h : k1 ≠ k2) :
    ((make class_type.object).assign_key k1 x1).assign_key k2 x2
      = ((make class_type.object).assign_key k2 x2).assign_key k1 x1 ∧
    ∃ m, ((make class_type.object).assign_key k1 x1).assign_key k2 x2 = json.object m ∧
      map_sorted m = true ∧ map_find m k1 = some x1 ∧ map_find m k2 = some x2 ∧
      m.length = 2 := by
  have e1 : (make class_type.object).assign_key k1 x1 = json.object [(k1, x1)] := by
    simp [make_object, assign_key, index_key, set_type, json_type, entries, map_index, map_store]
  have e2 : (make class_type.object).assign_key k2 x2 = json.object [(k2, x2)] := by
    simp [make_object, assign_key, index_key, set_type, json_type, entries, map_index, map_store]
  rw [e1, e2]
  have h' : k2 ≠ k1 := fun e => h e.symm
  by_cases a : str_lt k1 k2 = true
  · have b := str_lt_asymm _ _ a
    have r1 : (json.object [(k1, x1)]).assign_key k2 x2 = json.object [(k1, x1), (k2, x2)] := by
      simp [assign_key, index_key, set_type, json_type, entries, map_index, map_store, a, b, h, h']
    have r2 : (json.object [(k2, x2)]).assign_key k1 x1 = json.object [(k1, x1), (k2, x2)] := by
      simp [assign_key, index_key, set_type, json_type, entries, map_index, map_store, a, b, h, h']
    rw [r1, r2]
    refine ⟨rfl, _, rfl, ?_, ?_, ?_, rfl⟩
    · simp [map_sorted, a]
    · simp [map_find]
    · simp [map_find, h]
  · have a' : str_lt k1 k2 = false := by simpa using a
    have b : str_lt k2 k1 = true := by
      by_contra hb
      exact h (str_lt_total _ _ a' (by simpa using hb))
    have r1 : (json.object [(k1, x1)]).assign_key k2 x2 = json.object [(k2, x2), (k1, x1)] := by
      simp [assign_key, index_key, set_type, json_type, entries, map_index, map_store, a', b, h, h']
    have r2 : (json.object [(k2, x2)]).assign_key k1 x1 = json.object [(k2, x2), (k1, x1)] := by
      simp [assign_key, index_key, set_type, json_type, entries, map_index, map_store, a', b, h, h']
    rw [r1, r2]
    refine ⟨rfl, _, rfl, ?_, ?_, ?_, rfl⟩
    · simp [map_sorted, b]
    · simp [map_find, h']
    · simp [map_find]

/-- C21: for every Object, whose map holds its keys in strictly ascending order
as every `std::map` does, `dump` writes the entries in the order of the map,
that is in strictly ascending byte-wise order of the keys; and for distinct
keys `k1`, `k2` the two stores `v[k1] = x1`, `v[k2] = x2` into an empty Object
give the same Object, hence the same dump, in either order. -/
theorem dump_in_key_order (fmt : Dbl → Str) (u : Str) (d : Int) (m : map_type)
    (hm : map_sorted m = true) :
    dump fmt u (json.object m) d
      = ['{', '\n'] ++ join_with [',', '\n'] (m.map (spec_entry_line fmt u d)) ++ ['\n'] ++
          (repeat_unit u d.toNat).drop 2 ++ ['}'] ∧
    (m.map Prod.fst).Pairwise (fun a b => str_lt a b = true) ∧
    ∀ (k1 k2 : Str) (x1 x2 : json), k1 ≠ k2 →
      dump fmt u (((make class_type.object).assign_key k1 x1).assign_key k2 x2) d
        = dump fmt u (((make class_type.object).assign_key k2 x2).assign_key k1 x1) d :=
  ⟨dump_object_layout fmt u d m, map_sorted_pairwise m hm,
    fun k1 k2 x1 x2 h => by rw [(assign_key_two k1 k2 x1 x2 h).1]⟩

/-- C21 on the keys "b" and "a": stored in this order or in the other, the dump
at the defaults lists "a" before "b". -/
theorem dump_in_key_order_witness :
    map_sorted [(['a'], json.null), (['b'], json.boolean true)] = true ∧
    dump_default (fun _ => [])
        (((make class_type.object).assign_key ['b'] (json.boolean true)).assign_key ['a']
          json.null)
      = "\x7b\n    \"a\" : null,\n    \"b\" : true\n  \x7d".toList ∧
    dump_default (fun _ => [])
        (((make class_type.object).assign_key ['a'] json.null).assign_key ['b']
          (json.boolean true))
      = "\x7b\n    \"a\" : null,\n    \"b\" : true\n  \x7d".toList ∧
    dump_default (fun _ => [])
        (((make class_type.object).assign_key ['b'] (json.boolean true)).assign_key ['a']
          json.null)
      = dump_default (fun _ => [])
        (((make class_type.object).assign_key ['a'] json.null).assign_key ['b']
          (json.boolean true)) :=
  ⟨rfl, rfl, rfl,
    (dump_in_key_order (fun _ => []) default_tab 1 [(['a'], json.null), (['b'], json.boolean true)]
      rfl).2.2 ['b'] ['a'] (json.boolean true) json.null (by decide)⟩

/-! ## Arrays, scalars and range views -/

/-- The elements that the loop of `dump` writes are their dumps joined by a comma
and a space. -/
theorem array_body_join (fmt : Dbl → Str) (u : Str) (d : Int) (x : json) (rest : list_type) :
    join_with [',', ' '] ((x :: rest).map (fun p => dump fmt u p (d + 1)))
      = dump fmt u x (d + 1) ++ array_body fmt u d rest false := by
  induction rest generalizing x with
  | nil => simp [join_with, array_body]
  | cons q r ih =>
    have e := ih q
    rw [List.map_cons] at e
    rw [List.map_cons, List.map_cons, join_with, e, array_body]
    simp

/-- The text that `dump` returns for an Array. -/
theorem dump_array_layout (fmt : Dbl → Str) (u : Str) (d : Int) (l : list_type) :
    dump fmt u (json.array l) d
      = ['['] ++ join_with [',', ' '] (l.map (fun p => dump fmt u p (d + 1))) ++ [']'] := by
  rw [dump_array_eq]
  cases l with
  | nil => simp [array_body, join_with]
  | cons x rest =>
    rw [array_body_join, array_body]
    simp

/-- The text of `std::to_string(long long)` is the decimal text of the integer,
with a minus sign when it is negative. -/
theorem int_to_string_decimal (i : Int) : int_to_string i = (toString i).toList := by
  cases i with
  | ofNat n =>
    have h : ¬ ((Int.ofNat n) < 0) := by simp
    rw [int_to_string, if_neg h]
    rfl
  | negSucc n =>
    have h : (Int.negSucc n) < 0 := Int.negSucc_lt_zero n
    rw [int_to_string, if_pos h]
    rfl

/-- C22: the dump of an Array is an opening bracket, the dumps of the elements at
depth `d + 1` in index order joined by a comma and a space, and a closing
bracket, `[]` when it is empty; Null dumps as `null`, a Boolean as `true` or
`false`, and an Integer as its signed decimal text. -/
theorem array_and_scalar_dump (fmt : Dbl → Str) (u : Str) (d : Int) (l : list_type) (i : Int) :
    dump fmt u (json.array l) d
      = ['['] ++ join_with [',', ' '] (l.map (fun p => dump fmt u p (d + 1))) ++ [']'] ∧
    dump fmt u (json.array []) d = ['[', ']'] ∧
    dump fmt u json.null d = ['n', 'u', 'l', 'l'] ∧
    dump fmt u (json.boolean true) d = ['t', 'r', 'u', 'e'] ∧
    dump fmt u (json.boolean false) d = ['f', 'a', 'l', 's', 'e'] ∧
    dump fmt u (json.integral i) d = (toString i).toList ∧
    dump fmt u (json.integral (-5)) d = ['-', '5'] ∧
    dump fmt u (json.integral 0) d = ['0'] ∧
    dump fmt u (json.array [json.integral 42, json.null, json.array [json.boolean true]]) d
      = "[42, null, [true]]".toList := by
  refine ⟨dump_array_layout fmt u d l, ?_, ?_, ?_, ?_, ?_, ?_, ?_, ?_⟩
  · rw [dump_array_eq]; rfl
  · rw [dump]
  · rw [dump]; rfl
  · rw [dump]; rfl
  · rw [dump, int_to_string_decimal]
  · rw [dump]; rfl
  · rw [dump]; rfl
  · rw [dump_array_layout]
    simp only [List.map_cons, List.map_nil, join_with, dump_array_layout]
    rw [dump, dump, dump]
    rfl

/-- C23: `array_range()`, `array_range() const` and `object_range()` iterate the
elements of an Array, respectively the entries of an Object, and nothing for
every other kind; but `object_range() const` tests for the Array kind, so it
iterates nothing for an Object, and for an Array it wraps the list as if it
were a map. -/
theorem const_object_range_tests_array (v : json) (m : map_type) (l : list_type) :
    v.array_range = Except.ok v.elements ∧
    v.array_range_const = Except.ok v.elements ∧
    v.object_range = Except.ok v.entries ∧
    (json.object m).object_range_const = Except.ok [] ∧
    (json.array l).object_range_const = Except.error Fault.undefined ∧
    (json.object [(['a'], json.null)]).object_range = Except.ok [(['a'], json.null)] ∧
    (json.object [(['a'], json.null)]).object_range_const = Except.ok [] ∧
    (json.object [(['a'], json.null)]).object_range_const
      ≠ Except.ok (json.object [(['a'], json.null)]).entries := by
  refine ⟨?_, ?_, ?_, rfl, rfl, rfl, rfl, ?_⟩
  · cases v <;> rfl
  · cases v <;> rfl
  · cases v <;> rfl
  · intro h
    have h2 : ([] : map_type) = [(['a'], json.null)] := Except.ok.inj h
    exact absurd h2 (by simp)

/-! ## Escapes in a string literal -/

theorem parse_string_loop_escape_pre (s post : Str) (off : Nat) (acc : Str) :
    parse_string_loop (json_escape s ++ post) off acc
      = parse_string_loop post (off + (json_escape s).length) (acc ++ s) := by
  induction s generalizing off acc with
  | nil => simp [json_escape]
  | cons i s ih =>
    rw [json_escape_cons, List.append_assoc, parse_string_loop_escape_one, ih]
    simp [Nat.add_assoc]

theorem parse_string_loop_cerr_escape_one (i : Char) (post : Str) :
    parse_string_loop_cerr (json_escape [i] ++ post) = parse_string_loop_cerr post := by
  by_cases h1 : i = '"'
  · subst h1; rw [parse_string_loop_cerr.eq_def]; simp [json_escape]
  by_cases h2 : i = '\\'
  · subst h2; rw [parse_string_loop_cerr.eq_def]; simp [json_escape]
  by_cases h3 : i = '\x08'
  · subst h3; rw [parse_string_loop_cerr.eq_def]; simp [json_escape]
  by_cases h4 : i = '\x0c'
  · subst h4; rw [parse_string_loop_cerr.eq_def]; simp [json_escape]
  by_cases h5 : i = '\n'
  · subst h5; rw [parse_string_loop_cerr.eq_def]; simp [json_escape]
  by_cases h6 : i = '\r'
  · subst h6; rw [parse_string_loop_cerr.eq_def]; simp [json_escape]
  by_cases h7 : i = '\t'
  · subst h7; rw [parse_string_loop_cerr.eq_def]; simp [json_escape]
  rw [parse_string_loop_cerr.eq_def]
  simp [json_escape, h1, h2, h3, h4, h5, h6, h7]

theorem parse_string_loop_cerr_escape (s post : Str) :
    parse_string_loop_cerr (json_escape s ++ post) = parse_string_loop_cerr post := by
  induction s with
  | nil => simp [json_escape]
  | cons i s ih =>
    rw [json_escape_cons, List.append_assoc, parse_string_loop_cerr_escape_one, ih]

/-- The default branch of the escape switch appends the backslash and nothing
else; the character after the backslash is passed over. -/
theorem parse_string_loop_unknown (c : Char) (rest : Str) (off : Nat) (value : Str)
    (hc : c ≠ '"' ∧ c ≠ '\\' ∧ c ≠ '/' ∧ c ≠ 'b' ∧ c ≠ 'f' ∧ c ≠ 'n' ∧ c ≠ 'r' ∧ c ≠ 't' ∧
      c ≠ 'u') :
    parse_string_loop ('\\' :: c :: rest) off value
      = parse_string_loop rest (off + 2) (value ++ ['\\']) := by
  obtain ⟨h1, h2, h3, h4, h5, h6, h7, h8, h9⟩ := hc
  rw [parse_string_loop.eq_def]
  simp only [Char.reduceEq, if_false, if_true, h1, h2, h3, h4, h5, h6, h7, h8, h9]

/-- C24: in a string literal, a backslash followed by a character `c` that is
none of the quote, the backslash, `/`, `b`, `f`, `n`, `r`, `t`, `u` adds the
backslash alone to the payload: `c` is passed over and does not appear, so the
payload is one character shorter than backslash, `c` would make it. The
literal `"\q"` yields the string of the one character backslash. -/
theorem unknown_escape_drops_character (a b rest : Str) (c : Char) (str : Str) (o : Nat)
    (hc : c ≠ '"' ∧ c ≠ '\\' ∧ c ≠ '/' ∧ c ≠ 'b' ∧ c ≠ 'f' ∧ c ≠ 'n' ∧ c ≠ 'r' ∧ c ≠ 't' ∧
      c ≠ 'u')
    (hd : str.drop o = '"' :: (json_escape a ++ '\\' :: c :: (json_escape b ++ '"' :: rest))) :
    parse_string str o
      = Except.ok (json.string (a ++ '\\' :: b),
          o + (json_escape a).length + (json_escape b).length + 4) ∧
    json.string (a ++ '\\' :: b) ≠ json.string (a ++ '\\' :: c :: b) ∧
    load ['"', '\\', 'q', '"'] = Except.ok (json.string ['\\']) := by
  refine ⟨?_, ?_, rfl⟩
  · rw [parse_string, drop_succ str o _ _ hd, parse_string_loop_escape_pre,
      parse_string_loop_unknown c _ _ _ hc, parse_string_loop_escape]
    simp only [List.nil_append, List.append_assoc, List.singleton_append]
    exact ok_pair_congr _ _ _ (by omega)
  · intro h
    have h2 := congrArg List.length (json.string.inj h)
    simp at h2

/-- C24 on the literal `"x\qy"`, read as `x`, backslash, `y`. -/
theorem unknown_escape_drops_character_witness :
    parse_string ['"', 'x', '\\', 'q', 'y', '"'] 0
      = Except.ok (json.string ['x', '\\', 'y'], 6) :=
  (unknown_escape_drops_character ['x'] ['y'] [] 'q' ['"', 'x', '\\', 'q', 'y', '"'] 0
    (by decide) rfl).1

theorem ishex_ranges (c : Char) :
    ishex c = true ↔
      ('0' ≤ c ∧ c ≤ '9') ∨ ('a' ≤ c ∧ c ≤ 'f') ∨ ('A' ≤ c ∧ c ≤ 'F') := by
  simp [ishex, or_assoc]

theorem parse_string_loop_hex (h1 h2 h3 h4 : Char) (rest : Str) (off : Nat) (value : Str) :
    parse_string_loop ('\\' :: 'u' :: h1 :: h2 :: h3 :: h4 :: rest) off value
      = if (ishex h1 && ishex h2 && ishex h3 && ishex h4) = true then
          parse_string_loop rest (off + 6) (value ++ ['\\', 'u', h1, h2, h3, h4])
        else Except.ok (json.string [], off + 1) := by
  rw [parse_string_loop.eq_def]
  simp only [Char.reduceEq, if_false, if_true]
  rfl

theorem parse_string_loop_cerr_hex (h1 h2 h3 h4 : Char) (rest : Str) :
    parse_string_loop_cerr ('\\' :: 'u' :: h1 :: h2 :: h3 :: h4 :: rest)
      = if (ishex h1 && ishex h2 && ishex h3 && ishex h4) = true then
          parse_string_loop_cerr rest
        else [Diag.string_hex (hex_found (h1 :: h2 :: h3 :: h4 :: rest))] := by
  rw [parse_string_loop_cerr.eq_def]
  simp only [Char.reduceEq, if_false, if_true]

/-- The character that the message of the hex test quotes is one of the four and
is no hex digit. -/
theorem hex_found_spec (h1 h2 h3 h4 : Char) (rest : Str)
    (h : (ishex h1 && ishex h2 && ishex h3 && ishex h4) = false) :
    hex_found (h1 :: h2 :: h3 :: h4 :: rest) ∈ [h1, h2, h3, h4] ∧
    ishex (hex_found (h1 :: h2 :: h3 :: h4 :: rest)) = false := by
  simp only [hex_found, List.take, List.find?]
  cases e1 : ishex h1 <;> cases e2 : ishex h2 <;> cases e3 : ishex h3 <;> cases e4 : ishex h4 <;>
    simp_all

/-- C25: in a string literal, a backslash and `u` followed by four characters: when
all four are hex digits (`0`-`9`, `a`-`f`, `A`-`F`) the six characters
backslash, `u` and the four are added to the payload as they are and the scan
goes on after the fourth, without a message; when one of them is not,
`parse_string` writes the message of the hex test, which quotes that character,
and returns the empty String. -/
theorem unicode_escape_kept (a b rest : Str) (h1 h2 h3 h4 : Char) (str : Str) (o : Nat)
    (hd : str.drop o = '"' :: (json_escape a ++ '\\' :: 'u' :: h1 :: h2 :: h3 :: h4 ::
      (json_escape b ++ '"' :: rest))) :
    ((ishex h1 && ishex h2 && ishex h3 && ishex h4) = true →
      parse_string str o
        = Except.ok (json.string (a ++ ['\\', 'u', h1, h2, h3, h4] ++ b),
            o + (json_escape a).length + (json_escape b).length + 8) ∧
      parse_string_cerr str o = []) ∧
    ((ishex h1 && ishex h2 && ishex h3 && ishex h4) = false →
      (∃ n, parse_string str o = Except.ok (json.string [], n)) ∧
      ∃ c, parse_string_cerr str o = [Diag.string_hex c] ∧ c ∈ [h1, h2, h3, h4] ∧
        ishex c = false) ∧
    (∀ c, ishex c = true ↔
      ('0' ≤ c ∧ c ≤ '9') ∨ ('a' ≤ c ∧ c ≤ 'f') ∨ ('A' ≤ c ∧ c ≤ 'F')) := by
  refine ⟨fun hh => ⟨?_, ?_⟩, fun hh => ⟨⟨o + 1 + (json_escape a).length + 1, ?_⟩,
    ⟨hex_found (h1 :: h2 :: h3 :: h4 :: (json_escape b ++ '"' :: rest)), ?_,
      hex_found_spec h1 h2 h3 h4 _ hh⟩⟩, ishex_ranges⟩
  · rw [parse_string, drop_succ str o _ _ hd, parse_string_loop_escape_pre,
      parse_string_loop_hex, if_pos hh, parse_string_loop_escape]
    simp only [List.nil_append, List.append_assoc]
    exact ok_pair_congr _ _ _ (by omega)
  · rw [parse_string_cerr, drop_succ str o _ _ hd, parse_string_loop_cerr_escape,
      parse_string_loop_cerr_hex, if_pos hh, parse_string_loop_cerr_escape]
    rw [parse_string_loop_cerr.eq_def]
    simp
  · rw [parse_string, drop_succ str o _ _ hd, parse_string_loop_escape_pre,
      parse_string_loop_hex, if_neg (by simp [hh])]
  · rw [parse_string_cerr, drop_succ str o _ _ hd, parse_string_loop_cerr_escape,
      parse_string_loop_cerr_hex, if_neg (by simp [hh])]

/-- C25 on two literals of `a`, an escape and `b`: the escape with the digits
`12f4` is kept, the one with `12G4` is rejected with the message on `G`. -/
theorem unicode_escape_kept_witness :
    (parse_string "\"a\\u12f4b\"".toList 0
        = Except.ok (json.string "a\\u12f4b".toList, 10) ∧
      parse_string_cerr "\"a\\u12f4b\"".toList 0 = []) ∧
    (∃ n, parse_string "\"a\\u12G4b\"".toList 0 = Except.ok (json.string [], n)) ∧
    parse_string_cerr "\"a\\u12G4b\"".toList 0 = [Diag.string_hex 'G'] :=
  ⟨(unicode_escape_kept ['a'] ['b'] [] '1' '2' 'f' '4' "\"a\\u12f4b\"".toList 0 rfl).1
      (by decide),
    ((unicode_escape_kept ['a'] ['b'] [] '1' '2' 'G' '4' "\"a\\u12G4b\"".toList 0 rfl).2.1
      (by decide)).1, rfl⟩

/-! ## Number texts and the cursor -/

/-- The first loop of `parse_number` collects every `-`, digit and `.`, wherever
it stands, and ends on the first other character. -/
theorem parse_number_loop_at (w : Str) (c : Char) (rest : Str) (off : Nat) (value : Str)
    (fl : Bool) (hw : number_chars w = true)
    (hc : (c = '-' || isdigit c || c = '.') = false) :
    parse_number_loop (w ++ c :: rest) off value fl
      = (value ++ w, fl || w.contains '.', c, off + w.length + 1) := by
  induction w generalizing off value fl with
  | nil =>
    simp only [Bool.or_eq_false_iff, decide_eq_false_iff_not] at hc
    rw [List.nil_append, parse_number_loop]
    simp [hc.1.1, hc.1.2, hc.2]
  | cons a w ih =>
    rw [number_chars, List.all_cons, Bool.and_eq_true] at hw
    have hw2 : number_chars w = true := hw.2
    rw [List.cons_append, parse_number_loop]
    by_cases h1 : (a = '-' || isdigit a) = true
    · have hne : a ≠ '.' := by
        intro e; subst e; simp [isdigit] at h1
      rw [if_pos h1, ih _ _ _ hw2]
      simp [hne.symm, Nat.add_assoc, Nat.add_comm 1]
    · have hdot : a = '.' := by
        have := hw.1
        simp only [Bool.or_eq_true, decide_eq_true_eq] at this h1
        tauto
      rw [if_neg h1, if_pos hdot, ih _ _ _ hw2]
      simp [hdot, Nat.add_assoc, Nat.add_comm 1]

theorem isterm_not_number (c : Char) (h : isterm c = true) :
    (c = '-' || isdigit c || c = '.') = false ∧ (c = 'E' || c = 'e') = false ∧
      isdigit c = false := by
  rcases isterm_cases c h with h | h | h | h | h | h | h | h | h <;> subst h <;> decide

/-- The exponent loop collects the digits and ends on the terminator. -/
theorem parse_exponent_loop_at (ds : Str) (c : Char) (rest : Str) (off : Nat) (ev : Str)
    (hds : ds.all isdigit = true) (hc : isterm c = true) :
    parse_exponent_loop (ds ++ c :: rest) off ev = (some (ev ++ ds), off + ds.length + 1) := by
  induction ds generalizing off ev with
  | nil =>
    rw [List.nil_append, parse_exponent_loop]
    simp [(isterm_not_number c hc).2.2, hc]
  | cons a ds ih =>
    rw [List.all_cons, Bool.and_eq_true] at hds
    rw [List.cons_append, parse_exponent_loop, if_pos hds.1, ih _ _ hds.2]
    simp [Nat.add_assoc, Nat.add_comm 1]

/-- A run of `-`, digits and `.` before a terminator: `parse_number` hands all of
it to `stod` or `stoll` and leaves the cursor on the terminator. -/
theorem parse_number_plain (w : Str) (c : Char) (rest str : Str) (p : Nat)
    (hw : number_chars w = true) (hc : isterm c = true) (hd : str.drop p = w ++ c :: rest) :
    parse_number str p
      = (parse_number_value w (w.contains '.') [] 0).map (fun number => (number, p + w.length)) := by
  obtain ⟨h1, h2, _⟩ := isterm_not_number c hc
  rw [parse_number, hd, parse_number_loop_at w c rest p [] false hw h1]
  simp only [List.nil_append, Bool.false_or]
  rw [if_neg (by simp [h2]), if_neg (by simp [hc])]
  rfl

/-- C26: the first loop of `parse_number` collects `-`, digits and `.` wherever
they stand: on `[1.2.3]` the second point is consumed, the text `1.2.3` goes
to `stod` and the element is a Float; on `[1-2]` the second `-` is consumed,
the text `1-2` goes to `stoll` and the element is the Float 1. Neither element
is Null and no message is written. -/
theorem number_loop_takes_any_sign_or_point :
    parse_number_loop ['1', '.', '2', '.', '3', ']'] 1 [] false
      = (['1', '.', '2', '.', '3'], true, ']', 7) ∧
    parse_number_loop ['1', '-', '2', ']'] 1 [] false = (['1', '-', '2'], false, ']', 5) ∧
    load ['[', '1', '.', '2', '.', '3', ']']
      = Except.ok (json.array [json.floating
          (Dbl.mul (Dbl.stod ['1', '.', '2', '.', '3']) (Dbl.pow10 0))]) ∧
    load ['[', '1', '-', '2', ']'] = Except.ok (json.array [json.floating (Dbl.of_int 1)]) ∧
    load_cerr ['[', '1', '.', '2', '.', '3', ']'] = [] ∧
    load_cerr ['[', '1', '-', '2', ']'] = [] ∧
    load ['[', '1', '.', '2', '.', '3', ']'] ≠ Except.ok (json.array [json.null]) ∧
    load ['[', '1', '-', '2', ']'] ≠ Except.ok (json.array [json.null]) := by
  have h1 : load ['[', '1', '.', '2', '.', '3', ']']
      = Except.ok (json.array [json.floating
          (Dbl.mul (Dbl.stod ['1', '.', '2', '.', '3']) (Dbl.pow10 0))]) := rfl
  have h2 : load ['[', '1', '-', '2', ']']
      = Except.ok (json.array [json.floating (Dbl.of_int 1)]) := rfl
  refine ⟨rfl, rfl, h1, h2, rfl, rfl, ?_, ?_⟩
  · rw [h1]; simp
  · rw [h2]; simp

/-- C27: a number text, made of a run of `-`, digits and `.` and an exponent part
as `parse_number` consumes it, stands at the offset `p` before a terminator
(white space, `,`, `]` or `}`): whenever `parse_number` returns, the cursor is
`p` plus the length of the number text, the index of the terminator. -/
theorem number_terminator_peeked (w x : Str) (c : Char) (rest str : Str) (p : Nat) (v : json)
    (o : Nat) (hw : number_chars w = true) (hx : exponent_part x = true)
    (hc : isterm c = true) (hd : str.drop p = w ++ x ++ c :: rest)
    (h : parse_number str p = Except.ok (v, o)) :
    o = p + (w ++ x).length ∧ charAt str o = c := by
  have hlast : charAt str (p + (w ++ x).length) = c :=
    charAt_at str _ c rest (drop_step str p (w ++ x) _ hd)
  suffices ho : o = p + (w ++ x).length by rw [ho]; exact ⟨rfl, hlast⟩
  rcases x with _ | ⟨e, _ | ⟨y, ds⟩⟩
  · rw [List.append_nil] at hd
    rw [parse_number_plain w c rest str p hw hc hd] at h
    rw [List.append_nil]
    cases hv : parse_number_value w (w.contains '.') [] 0 with
    | error er => rw [hv] at h; simp [Except.map] at h
    | ok number =>
      rw [hv] at h
      simp only [Except.map, Except.ok.injEq, Prod.mk.injEq] at h
      exact h.2.symm
  · simp [exponent_part] at hx
  · simp only [exponent_part, Bool.and_eq_true] at hx
    obtain ⟨he, hx⟩ := hx
    have hen : (e = '-' || isdigit e || e = '.') = false := by
      simp only [Bool.or_eq_true, decide_eq_true_eq] at he
      rcases he with he | he <;> subst he <;> decide
    have hd1 : str.drop p = w ++ e :: (y :: ds ++ c :: rest) := by
      rw [hd]; simp
    have hE : (e = 'E' || e = 'e') = true := by
      simp only [Bool.or_eq_true, decide_eq_true_eq] at he ⊢
      tauto
    have hd3 : str.drop (p + (w ++ [e]).length) = y :: (ds ++ c :: rest) :=
      drop_step str p (w ++ [e]) (y :: (ds ++ c :: rest)) (by rw [hd1]; simp)
    rw [List.length_append, List.length_singleton, ← Nat.add_assoc] at hd3
    have hy : charAt str (p + w.length + 1) = y := charAt_at str _ y _ hd3
    rw [parse_number, hd1, parse_number_loop_at w e _ p [] false hw hen] at h
    simp only [List.nil_append, Bool.false_or] at h
    rw [if_pos hE] at h
    simp only [hy] at h
    by_cases hm : y = '-'
    · subst hm
      rcases ds with _ | ⟨z, ds2⟩
      · simp at hx
      simp only [if_true] at hx h
      have hd2 : str.drop (p + w.length + 1 + 1 + 1) = ds2 ++ c :: rest := by
        have := drop_step str p (w ++ [e, '-', z]) (ds2 ++ c :: rest) (by rw [hd1]; simp)
        simpa [Nat.add_assoc] using this
      rw [hd2, parse_exponent_loop_at ds2 c rest _ _ hx hc] at h
      simp only at h
      cases hs : stoll (['-'] ++ ds2) with
      | error er => rw [hs] at h; simp at h
      | ok ex =>
        rw [hs] at h
        simp only at h
        cases hv : parse_number_value w (w.contains '.') (['-'] ++ ds2) ex with
        | error er => rw [hv] at h; simp [Except.map] at h
        | ok number =>
          rw [hv] at h
          simp only [Except.map, Except.ok.injEq, Prod.mk.injEq] at h
          rw [← h.2]
          simp only [List.length_append, List.length_cons]
          omega
    · simp only [hm, if_false] at hx h
      have hd2 : str.drop (p + w.length + 1 + 1) = ds ++ c :: rest := by
        have := drop_step str p (w ++ [e, y]) (ds ++ c :: rest) (by rw [hd1]; simp)
        simpa [Nat.add_assoc] using this
      rw [hd2, parse_exponent_loop_at ds c rest _ _ hx hc] at h
      simp only at h
      cases hs : stoll ([] ++ ds) with
      | error er => rw [hs] at h; simp at h
      | ok ex =>
        rw [hs] at h
        simp only at h
        cases hv : parse_number_value w (w.contains '.') ([] ++ ds) ex with
        | error er => rw [hv] at h; simp [Except.map] at h
        | ok number =>
          rw [hv] at h
          simp only [Except.map, Except.ok.injEq, Prod.mk.injEq] at h
          rw [← h.2]
          simp only [List.length_append, List.length_cons]
          omega

/-- C27 on the text `[12.5e+03 ]`: the number text `12.5e+03` of length 8 stands at
offset 1 before a space, and the cursor is left at 9; and on `[7,8]`, where
the text `7` at offset 1 is followed by a comma, at 2. -/
theorem number_terminator_peeked_witness :
    (parse_number "[12.5e+03 ]".toList 1
        = Except.ok (json.floating (Dbl.mul (Dbl.stod ['1', '2', '.', '5']) (Dbl.pow10 3)), 9) ∧
      charAt "[12.5e+03 ]".toList 9 = ' ') ∧
    (parse_number ['[', '7', ',', '8', ']'] 1 = Except.ok (json.floating (Dbl.of_int 7), 2) ∧
      charAt ['[', '7', ',', '8', ']'] 2 = ',') :=
  ⟨⟨rfl, (number_terminator_peeked ['1', '2', '.', '5'] ['e', '+', '0', '3'] ' ' [']']
      "[12.5e+03 ]".toList 1 _ 9 rfl rfl rfl rfl rfl).2⟩,
    ⟨rfl, (number_terminator_peeked ['7'] [] ',' ['8', ']'] ['[', '7', ',', '8', ']'] 1 _ 2
      rfl rfl rfl rfl rfl).2⟩⟩

/-! ## The constructor from a list of keys and values -/

/-- A text without a quote, a backslash or a control character is its own escaped
form. -/
theorem json_escape_plain (s : Str)
    (h : ∀ c ∈ s, c ≠ '"' ∧ c ≠ '\\' ∧ iscntrl c = false) : json_escape s = s := by
  induction s with
  | nil => rfl
  | cons i s ih =>
    obtain ⟨h1, h2, h3⟩ := h i (List.mem_cons_self _ _)
    have h4 : i ≠ '\x08' := by intro e; subst e; simp [iscntrl] at h3
    have h5 : i ≠ '\x0c' := by intro e; subst e; simp [iscntrl] at h3
    have h6 : i ≠ '\n' := by intro e; subst e; simp [iscntrl] at h3
    have h7 : i ≠ '\r' := by intro e; subst e; simp [iscntrl] at h3
    have h8 : i ≠ '\t' := by intro e; subst e; simp [iscntrl] at h3
    rw [json_escape, ih (fun c hc => h c (List.mem_cons_of_mem _ hc))]
    simp [h1, h2, h4, h5, h6, h7, h8]

/-- The map that the pairs `ps` leave, stored one after the other into `done`. -/
theorem fold_pairs_find (ps : List (Str × json)) (done : map_type) (k : Str) :
    map_find (ps.foldl (fun m p => map_store (map_index m p.1) p.1 p.2) done) k
      = match last_entry ps k with
        | some v => some v
        | none => map_find done k := by
  induction ps generalizing done with
  | nil => rfl
  | cons p rest ih =>
    rw [List.foldl_cons, ih, last_entry, map_find_put]
    cases last_entry rest k with
    | some v => rfl
    | none =>
      by_cases h : p.1 = k
      · simp [h]
      · have h2 : ¬ k = p.1 := fun e => h e.symm
        simp [h, h2]

theorem fold_pairs_sorted (ps : List (Str × json)) (done : map_type)
    (h : map_sorted done = true) :
    map_sorted (ps.foldl (fun m p => map_store (map_index m p.1) p.1 p.2) done) = true := by
  induction ps generalizing done with
  | nil => exact h
  | cons p rest ih => rw [List.foldl_cons]; exact ih _ (map_sorted_put _ _ _ h)

theorem construct_list_loop_pairs (ps : List (Str × json)) (done : map_type)
    (h : ∀ p ∈ ps, ∀ c ∈ p.1, c ≠ '"' ∧ c ≠ '\\' ∧ iscntrl c = false) :
    construct_list_loop (pair_list ps) (json.object done)
      = Except.ok (json.object
          (ps.foldl (fun m p => map_store (map_index m p.1) p.1 p.2) done)) := by
  induction ps generalizing done with
  | nil => rfl
  | cons p rest ih =>
    rw [pair_list, construct_list_loop]
    have e1 : (json.string p.1).to_string = p.1 :=
      json_escape_plain p.1 (h p (List.mem_cons_self _ _))
    rw [e1, assign_key_object, ih _ (fun q hq => h q (List.mem_cons_of_mem _ hq)),
      List.foldl_cons]

/-- C30: the constructor from the list `k_1, x_1, ..., k_n, x_n`, where every
`k_i` is a String whose text holds no quote, backslash or control character,
builds an Object whose map, in ascending order of the keys, gives for every
key text the `x_i` of its last occurrence in the list, and nothing for a text
that is no key of the list. -/
theorem aggregate_literal (ps : List (Str × json))
    (h : ∀ p ∈ ps, ∀ c ∈ p.1, c ≠ '"' ∧ c ≠ '\\' ∧ iscntrl c = false) :
    ∃ m, construct_list (pair_list ps) = Except.ok (json.object m) ∧
      map_sorted m = true ∧ ∀ k, map_find m k = last_entry ps k := by
  refine ⟨_, construct_list_loop_pairs ps [] h, fold_pairs_sorted ps [] rfl, fun k => ?_⟩
  rw [fold_pairs_find]
  cases last_entry ps k <;> rfl

/-- C30 on the list "b", null, "a", true, "b", 2: the Object has the two entries
"a" : true and "b" : 2. -/
theorem aggregate_literal_witness :
    (∀ p ∈ [(['b'], json.null), (['a'], json.boolean true), (['b'], json.integral 2)],
      ∀ c ∈ p.1, c ≠ '"' ∧ c ≠ '\\' ∧ iscntrl c = false) ∧
    construct_list [json.string ['b'], json.null, json.string ['a'], json.boolean true,
        json.string ['b'], json.integral 2]
      = Except.ok (json.object [(['a'], json.boolean true), (['b'], json.integral 2)]) ∧
    ∃ m, construct_list (pair_list
        [(['b'], json.null), (['a'], json.boolean true), (['b'], json.integral 2)])
        = Except.ok (json.object m) ∧
      map_sorted m = true ∧
      ∀ k, map_find m k = last_entry
        [(['b'], json.null), (['a'], json.boolean true), (['b'], json.integral 2)] k :=
  ⟨by decide, rfl, aggregate_literal _ (by decide)⟩

/-! ## The fuel of `load` is enough

Every call of the parser with fuel for three steps per character left returns
a value with the cursor not moved back, or throws; it never ends for want of
fuel. -/

theorem settled_mono (a b : Nat) (r : Except Fault (json × Nat)) (h : a ≤ b)
    (hr : settled b r) : settled a r := by
  rcases r with e | ⟨v, o⟩
  · exact hr
  · exact Nat.le_trans h hr

theorem settled_ok (o : Nat) (v : json) (o2 : Nat) (h : o ≤ o2) :
    settled o (Except.ok (v, o2)) := h

theorem parse_string_loop_settled : ∀ (n : Nat) (l : Str), l.length ≤ n →
    ∀ (off : Nat) (acc : Str), settled off (parse_string_loop l off acc) := by
  intro n
  induction n with
  | zero =>
    intro l hl off acc
    have hnil : l = [] := List.length_eq_zero.1 (by omega)
    subst hnil
    rw [parse_string_loop.eq_def]
    simp [settled]
  | succ n ih =>
    intro l hl off acc
    rcases l with _ | ⟨c, rest⟩
    · rw [parse_string_loop.eq_def]; simp [settled]
    rw [parse_string_loop.eq_def]
    simp only [List.length_cons] at hl
    by_cases h1 : c = '"'
    · subst h1
      simp only [if_true]
      exact settled_ok _ _ _ (by omega)
    by_cases h2 : c = '\\'
    · subst h2
      rcases rest with _ | ⟨e, rest2⟩
      · simp [settled]
      simp only [List.length_cons] at hl
      by_cases hu : e = 'u'
      · subst hu
        rcases rest2 with _ | ⟨x1, _ | ⟨x2, _ | ⟨x3, _ | ⟨x4, rest3⟩⟩⟩⟩
        · simp [settled]
        · simp [settled]
        · simp [settled]
        · simp [settled]
        · simp only [List.length_cons] at hl
          simp only [Char.reduceEq, if_false, if_true]
          split_ifs
          · exact settled_mono _ _ _ (by omega) (ih rest3 (by omega) _ _)
          · exact settled_ok _ _ _ (by omega)
      · simp only [Char.reduceEq, if_false, if_true, hu]
        split_ifs <;> exact settled_mono _ _ _ (by omega) (ih rest2 (by omega) _ _)
    · simp only [h1, h2, if_false]
      exact settled_mono _ _ _ (by omega) (ih rest (by omega) _ _)

theorem parse_string_settled (str : Str) (o : Nat) : settled o (parse_string str o) :=
  settled_mono _ _ _ (by omega) (parse_string_loop_settled _ _ (Nat.le_refl _) _ _)

theorem parse_number_loop_ge (l : Str) (off : Nat) (value : Str) (fl : Bool) :
    off + 1 ≤ (parse_number_loop l off value fl).2.2.2 := by
  induction l generalizing off value fl with
  | nil => simp [parse_number_loop]
  | cons c l ih =>
    rw [parse_number_loop]
    split_ifs
    · exact Nat.le_trans (by omega) (ih _ _ _)
    · exact Nat.le_trans (by omega) (ih _ _ _)
    · simp

theorem parse_exponent_loop_ge (l : Str) (off : Nat) (ev : Str) :
    off + 1 ≤ (parse_exponent_loop l off ev).2 := by
  induction l generalizing off ev with
  | nil => simp [parse_exponent_loop]
  | cons c l ih =>
    rw [parse_exponent_loop]
    split_ifs
    · exact Nat.le_trans (by omega) (ih _ _)
    · simp
    · simp

theorem stoll_error (s : Str) (e : Fault) (h : stoll s = Except.error e) : e ≠ Fault.fuel := by
  unfold stoll at h
  simp only at h
  split_ifs at h <;> simp at h <;> subst h <;> decide

theorem stod_error (s : Str) (e : Fault) (h : stod s = Except.error e) : e ≠ Fault.fuel := by
  unfold stod at h
  simp only at h
  split_ifs at h <;> simp at h <;> subst h <;> decide

theorem parse_number_value_error (value : Str) (fl : Bool) (ev : Str) (ex : Int) (e : Fault)
    (h : parse_number_value value fl ev ex = Except.error e) : e ≠ Fault.fuel := by
  unfold parse_number_value at h
  split_ifs at h
  · cases hs : stod value with
    | error e2 => rw [hs] at h; simp [Except.map] at h; subst h; exact stod_error _ _ hs
    | ok x => rw [hs] at h; simp [Except.map] at h
  · cases hs : stoll value with
    | error e2 => rw [hs] at h; simp [Except.map] at h; subst h; exact stoll_error _ _ hs
    | ok x => rw [hs] at h; simp [Except.map] at h
  · cases hs : stoll value with
    | error e2 => rw [hs] at h; simp [Except.map] at h; subst h; exact stoll_error _ _ hs
    | ok x => rw [hs] at h; simp [Except.map] at h

theorem settled_map (o a : Nat) (r : Except Fault json) (h : o ≤ a)
    (hr : ∀ e, r = Except.error e → e ≠ Fault.fuel) :
    settled o (r.map (fun number => (number, a))) := by
  cases r with
  | error e => exact hr e rfl
  | ok v => exact h

theorem parse_number_settled (str : Str) (o : Nat) : settled o (parse_number str o) := by
  rw [parse_number]
  have hn := parse_number_loop_ge (str.drop o) o [] false
  rcases hloop : parse_number_loop (str.drop o) o [] false with ⟨value, fl, c, n⟩
  rw [hloop] at hn
  simp only at hn ⊢
  by_cases h1 : (c = 'E' || c = 'e') = true
  · rw [if_pos h1]
    have hx := parse_exponent_loop_ge
      (str.drop (if charAt str n = '-' then n + 1 + 1 else n + 1))
      (if charAt str n = '-' then n + 1 + 1 else n + 1)
      (if charAt str n = '-' then ['-'] else [])
    rcases hexp : parse_exponent_loop
        (str.drop (if charAt str n = '-' then n + 1 + 1 else n + 1))
        (if charAt str n = '-' then n + 1 + 1 else n + 1)
        (if charAt str n = '-' then ['-'] else []) with ⟨ev, m⟩
    rw [hexp] at hx
    simp only at hx
    have hm : n + 2 ≤ m := by
      by_cases hy : charAt str n = '-'
      · rw [if_pos hy] at hx; omega
      · rw [if_neg hy] at hx; omega
    rcases ev with _ | ev
    · exact settled_ok _ _ _ (by omega)
    · simp only
      cases hs : stoll ev with
      | error e => exact stoll_error _ _ hs
      | ok ex => exact settled_map _ _ _ (by omega) (parse_number_value_error _ _ _ _)
  · rw [if_neg h1]
    by_cases h2 : (!isterm c) = true
    · rw [if_pos h2]; exact settled_ok _ _ _ (by omega)
    · rw [if_neg h2]
      exact settled_map _ _ _ (by omega) (parse_number_value_error _ _ _ _)

theorem parse_bool_settled (str : Str) (o : Nat) : settled o (parse_bool str o) := by
  rw [parse_bool]
  split_ifs <;> exact settled_ok _ _ _ (by omega)

theorem parse_null_settled (str : Str) (o : Nat) : settled o (parse_null str o) := by
  rw [parse_null]
  split_ifs <;> exact settled_ok _ _ _ (by omega)

theorem assign_pos_error (a : json) (i : Nat) (x : json) (e : Fault)
    (h : a.assign_pos i x = Except.error e) : e ≠ Fault.fuel := by
  unfold assign_pos at h
  simp only at h
  split_ifs at h
  simp at h
  subst h
  decide

/-- With fuel for three steps per character left, and one or two more, each of the
five parsing functions returns a value with the cursor not moved back, or
throws. -/
theorem parse_settled (str : Str) : ∀ f : Nat,
    (∀ o, 3 * (str.length - o) + 1 ≤ f → settled o (parse_next f str o)) ∧
    (∀ o, o < str.length → 3 * (str.length - o) ≤ f → settled o (parse_object f str o)) ∧
    (∀ o obj, 3 * (str.length - o) + 2 ≤ f → settled o (parse_object_loop f str o obj)) ∧
    (∀ o, o < str.length → 3 * (str.length - o) ≤ f → settled o (parse_array f str o)) ∧
    (∀ o arr i, 3 * (str.length - o) + 2 ≤ f → settled o (parse_array_loop f str o arr i)) := by
  intro f
  induction f with
  | zero =>
    refine ⟨?_, ?_, ?_, ?_, ?_⟩
    · intro o h; omega
    · intro o h1 h2; omega
    · intro o obj h; omega
    · intro o h1 h2; omega
    · intro o arr i h; omega
  | succ f ih =>
    obtain ⟨ihn, iho, ihol, iha, ihal⟩ := ih
    refine ⟨?_, ?_, ?_, ?_, ?_⟩
    · intro o hf
      have hge := consume_ws_ge str o
      rw [parse_next_succ]
      simp only
      split_ifs with h1 h2 h3 h4 h5 h6
      · have hlt := charAt_lt str _ (by rw [h1]; decide)
        exact settled_mono _ _ _ hge (iha _ hlt (by omega))
      · have hlt := charAt_lt str _ (by rw [h2]; decide)
        exact settled_mono _ _ _ hge (iho _ hlt (by omega))
      · exact settled_mono _ _ _ hge (parse_string_settled _ _)
      · exact settled_mono _ _ _ hge (parse_bool_settled _ _)
      · exact settled_mono _ _ _ hge (parse_null_settled _ _)
      · exact settled_mono _ _ _ hge (parse_number_settled _ _)
      · exact settled_ok _ _ _ hge
    · intro o hlt hf
      have hge := consume_ws_ge str (o + 1)
      rw [parse_object_succ]
      split_ifs with h1
      · exact settled_ok _ _ _ (by omega)
      · exact settled_mono _ _ _ (by omega) (ihol _ _ (by omega))
    · intro o obj hf
      rw [parse_object_loop_succ]
      have hn := ihn o (by omega)
      rcases hk : parse_next f str o with e | ⟨key, o1⟩
      · rw [hk] at hn; exact hn
      rw [hk] at hn
      have h1 : o ≤ o1 := hn
      have h2 := consume_ws_ge str o1
      simp only
      by_cases hcol : charAt str (consume_ws str o1) = ':'
      swap
      · rw [if_pos hcol]; exact settled_ok _ _ _ (by omega)
      rw [if_neg (by simp [hcol])]
      have h3 := consume_ws_ge str (consume_ws str o1 + 1)
      have hv := ihn (consume_ws str (consume_ws str o1 + 1)) (by omega)
      rcases hval : parse_next f str (consume_ws str (consume_ws str o1 + 1))
        with e | ⟨value, o4⟩
      · rw [hval] at hv; exact hv
      rw [hval] at hv
      have h4 : consume_ws str (consume_ws str o1 + 1) ≤ o4 := hv
      have h5 := consume_ws_ge str o4
      simp only
      split_ifs with h6 h7
      · have hlt := charAt_lt str _ (by rw [h6]; decide)
        exact settled_mono _ _ _ (by omega) (ihol _ _ (by omega))
      · exact settled_ok _ _ _ (by omega)
      · exact settled_ok _ _ _ (by omega)
    · intro o hlt hf
      have hge := consume_ws_ge str (o + 1)
      rw [parse_array_succ]
      split_ifs with h1
      · exact settled_ok _ _ _ (by omega)
      · exact settled_mono _ _ _ (by omega) (ihal _ _ _ (by omega))
    · intro o arr i hf
      rw [parse_array_loop_succ]
      have hn := ihn o (by omega)
      rcases hk : parse_next f str o with e | ⟨x, o1⟩
      · rw [hk] at hn; exact hn
      rw [hk] at hn
      have h1 : o ≤ o1 := hn
      have h2 := consume_ws_ge str o1
      simp only
      rcases ha : arr.assign_pos (i % 2 ^ 32) x with e | arr2
      · exact assign_pos_error _ _ _ _ ha
      simp only
      split_ifs with h6 h7
      · have hlt := charAt_lt str _ (by rw [h6]; decide)
        exact settled_mono _ _ _ (by omega) (ihal _ _ _ (by omega))
      · exact settled_ok _ _ _ (by omega)
      · exact settled_ok _ _ _ (by omega)

/-- The parse that `load` starts never ends for want of fuel. -/
theorem load_settled (t : Str) : settled 0 (parse_next (load_fuel t) t 0) :=
  (parse_settled t (load_fuel t)).1 0 (by rw [load_fuel]; omega)

/-! ## A text behind a prefix

The parser reads the text only from the cursor on, so behind any prefix it does
what it does on the text alone, with every cursor moved by the length of the
prefix; and more fuel changes nothing once the fuel is enough. -/

theorem charAt_shift (w t : Str) (o : Nat) : charAt (w ++ t) (o + w.length) = charAt t o := by
  rw [charAt, charAt, List.getD_eq_getElem?_getD, List.getD_eq_getElem?_getD,
    List.getElem?_append_right (by omega), Nat.add_sub_cancel]

theorem drop_shift (w t : Str) (o : Nat) : (w ++ t).drop (o + w.length) = t.drop o := by
  rw [Nat.add_comm, ← List.drop_drop, List.drop_left]

theorem substr_shift (w t : Str) (o n : Nat) :
    substr (w ++ t) (o + w.length) n = substr t o n := by
  rw [substr, substr, drop_shift]

theorem consume_ws_loop_shift (l : Str) (o k : Nat) :
    consume_ws_loop l (o + k) = consume_ws_loop l o + k := by
  induction l generalizing o with
  | nil => rfl
  | cons c l ih =>
    rw [consume_ws_loop, consume_ws_loop]
    split_ifs
    · rw [Nat.add_right_comm, ih]
    · rfl

theorem consume_ws_shift (w t : Str) (o : Nat) :
    consume_ws (w ++ t) (o + w.length) = consume_ws t o + w.length := by
  rw [consume_ws, consume_ws, drop_shift, consume_ws_loop_shift]

theorem shift_ok (k : Nat) (v : json) (o : Nat) :
    shift k (Except.ok (v, o)) = Except.ok (v, o + k) := rfl

theorem shift_error (k : Nat) (e : Fault) : shift k (Except.error e) = Except.error e := rfl

theorem parse_string_loop_shift (k : Nat) : ∀ (n : Nat) (l : Str), l.length ≤ n →
    ∀ (off : Nat) (acc : Str),
      parse_string_loop l (off + k) acc = shift k (parse_string_loop l off acc) := by
  intro n
  induction n with
  | zero =>
    intro l hl off acc
    have hnil : l = [] := List.length_eq_zero.1 (by omega)
    subst hnil
    rw [parse_string_loop.eq_def, parse_string_loop.eq_def]
    rfl
  | succ n ih =>
    intro l hl off acc
    rcases l with _ | ⟨c, rest⟩
    · rw [parse_string_loop.eq_def, parse_string_loop.eq_def]; rfl
    rw [parse_string_loop.eq_def, parse_string_loop.eq_def (c :: rest)]
    simp only [List.length_cons] at hl
    by_cases h1 : c = '"'
    · subst h1
      simp only [if_true, shift_ok]
      exact ok_pair_congr _ _ _ (by omega)
    by_cases h2 : c = '\\'
    · subst h2
      rcases rest with _ | ⟨e, rest2⟩
      · rfl
      simp only [List.length_cons] at hl
      by_cases hu : e = 'u'
      · subst hu
        rcases rest2 with _ | ⟨x1, _ | ⟨x2, _ | ⟨x3, _ | ⟨x4, rest3⟩⟩⟩⟩
        · simp only [Char.reduceEq, if_false, if_true, shift_ok]
          exact ok_pair_congr _ _ _ (by omega)
        · simp only [Char.reduceEq, if_false, if_true, shift_ok]
          exact ok_pair_congr _ _ _ (by omega)
        · simp only [Char.reduceEq, if_false, if_true, shift_ok]
          exact ok_pair_congr _ _ _ (by omega)
        · simp only [Char.reduceEq, if_false, if_true, shift_ok]
          exact ok_pair_congr _ _ _ (by omega)
        · simp only [List.length_cons] at hl
          simp only [Char.reduceEq, if_false, if_true]
          split_ifs
          · rw [show off + k + 6 = off + 6 + k by omega]
            exact ih rest3 (by omega) _ _
          · rw [shift_ok]
            exact ok_pair_congr _ _ _ (by omega)
      · simp only [Char.reduceEq, if_false, if_true, hu]
        rw [show off + k + 2 = off + 2 + k by omega]
        split_ifs <;> exact ih rest2 (by omega) _ _
    · simp only [h1, h2, if_false]
      rw [show off + k + 1 = off + 1 + k by omega]
      exact ih rest (by omega) _ _

theorem parse_string_shift (w t : Str) (o : Nat) :
    parse_string (w ++ t) (o + w.length) = shift w.length (parse_string t o) := by
  rw [parse_string, parse_string, show o + w.length + 1 = o + 1 + w.length by omega,
    drop_shift]
  exact parse_string_loop_shift _ _ _ (Nat.le_refl _) _ _

theorem parse_number_loop_shift (l : Str) (off k : Nat) (value : Str) (fl : Bool) :
    parse_number_loop l (off + k) value fl
      = ((parse_number_loop l off value fl).1, (parse_number_loop l off value fl).2.1,
          (parse_number_loop l off value fl).2.2.1,
          (parse_number_loop l off value fl).2.2.2 + k) := by
  induction l generalizing off value fl with
  | nil => simp [parse_number_loop]; omega
  | cons c l ih =>
    rw [parse_number_loop, parse_number_loop]
    split_ifs
    · rw [show off + k + 1 = off + 1 + k by omega]; exact ih _ _ _
    · rw [show off + k + 1 = off + 1 + k by omega]; exact ih _ _ _
    · simp; omega

theorem parse_exponent_loop_shift (l : Str) (off k : Nat) (ev : Str) :
    parse_exponent_loop l (off + k) ev
      = ((parse_exponent_loop l off ev).1, (parse_exponent_loop l off ev).2 + k) := by
  induction l generalizing off ev with
  | nil => simp [parse_exponent_loop]; omega
  | cons c l ih =>
    rw [parse_exponent_loop, parse_exponent_loop]
    split_ifs
    · rw [show off + k + 1 = off + 1 + k by omega]; exact ih _ _
    · simp; omega
    · simp; omega

theorem shift_map (k a : Nat) (r : Except Fault json) (h : 1 ≤ a) :
    r.map (fun number => (number, a + k - 1))
      = shift k (r.map (fun number => (number, a - 1))) := by
  cases r with
  | error e => rfl
  | ok v =>
    simp only [Except.map, shift_ok]
    exact ok_pair_congr _ _ _ (by omega)

theorem parse_number_shift (w t : Str) (o : Nat) :
    parse_number (w ++ t) (o + w.length) = shift w.length (parse_number t o) := by
  rw [parse_number, parse_number, drop_shift, parse_number_loop_shift]
  have hn := parse_number_loop_ge (t.drop o) o [] false
  rcases hloop : parse_number_loop (t.drop o) o [] false with ⟨value, fl, c, n⟩
  rw [hloop] at hn
  simp only at hn ⊢
  by_cases h1 : (c = 'E' || c = 'e') = true
  · rw [if_pos h1, if_pos h1, charAt_shift]
    have e1 : (if charAt t n = '-' then n + w.length + 1 + 1 else n + w.length + 1)
        = (if charAt t n = '-' then n + 1 + 1 else n + 1) + w.length := by
      split_ifs <;> omega
    rw [e1, drop_shift, parse_exponent_loop_shift]
    have hx := parse_exponent_loop_ge
      (t.drop (if charAt t n = '-' then n + 1 + 1 else n + 1))
      (if charAt t n = '-' then n + 1 + 1 else n + 1)
      (if charAt t n = '-' then ['-'] else [])
    rcases hexp : parse_exponent_loop
        (t.drop (if charAt t n = '-' then n + 1 + 1 else n + 1))
        (if charAt t n = '-' then n + 1 + 1 else n + 1)
        (if charAt t n = '-' then ['-'] else []) with ⟨ev, m⟩
    rw [hexp] at hx
    simp only at hx ⊢
    rcases ev with _ | ev
    · rfl
    · simp only
      cases hs : stoll ev with
      | error e => rfl
      | ok ex => exact shift_map _ _ _ (by omega)
  · rw [if_neg h1, if_neg h1]
    by_cases h2 : (!isterm c) = true
    · rw [if_pos h2, if_pos h2]; rfl
    · rw [if_neg h2, if_neg h2]
      exact shift_map _ _ _ (by omega)

theorem parse_bool_shift (w t : Str) (o : Nat) :
    parse_bool (w ++ t) (o + w.length) = shift w.length (parse_bool t o) := by
  rw [parse_bool, parse_bool, substr_shift, substr_shift]
  split_ifs
  · rw [shift_ok]; exact ok_pair_congr _ _ _ (by omega)
  · rw [shift_ok]; exact ok_pair_congr _ _ _ (by omega)
  · rfl

theorem parse_null_shift (w t : Str) (o : Nat) :
    parse_null (w ++ t) (o + w.length) = shift w.length (parse_null t o) := by
  rw [parse_null, parse_null, substr_shift]
  split_ifs
  · rfl
  · rw [shift_ok]; exact ok_pair_congr _ _ _ (by omega)

/-- Each of the five parsing functions, once it does not end for want of fuel,
does the same with more fuel and behind any prefix, up to the cursor. -/
theorem parse_shift (w t : Str) : ∀ f : Nat,
    (∀ o, parse_next f t o ≠ Except.error Fault.fuel → ∀ g, f ≤ g →
      parse_next g (w ++ t) (o + w.length) = shift w.length (parse_next f t o)) ∧
    (∀ o, parse_object f t o ≠ Except.error Fault.fuel → ∀ g, f ≤ g →
      parse_object g (w ++ t) (o + w.length) = shift w.length (parse_object f t o)) ∧
    (∀ o obj, parse_object_loop f t o obj ≠ Except.error Fault.fuel → ∀ g, f ≤ g →
      parse_object_loop g (w ++ t) (o + w.length) obj
        = shift w.length (parse_object_loop f t o obj)) ∧
    (∀ o, parse_array f t o ≠ Except.error Fault.fuel → ∀ g, f ≤ g →
      parse_array g (w ++ t) (o + w.length) = shift w.length (parse_array f t o)) ∧
    (∀ o arr i, parse_array_loop f t o arr i ≠ Except.error Fault.fuel → ∀ g, f ≤ g →
      parse_array_loop g (w ++ t) (o + w.length) arr i
        = shift w.length (parse_array_loop f t o arr i)) := by
  intro f
  induction f with
  | zero =>
    refine ⟨?_, ?_, ?_, ?_, ?_⟩
    · intro o h; rw [parse_next] at h; exact absurd rfl h
    · intro o h; rw [parse_object] at h; exact absurd rfl h
    · intro o obj h; rw [parse_object_loop] at h; exact absurd rfl h
    · intro o h; rw [parse_array] at h; exact absurd rfl h
    · intro o arr i h; rw [parse_array_loop] at h; exact absurd rfl h
  | succ f ih =>
    obtain ⟨ihn, iho, ihol, iha, ihal⟩ := ih
    refine ⟨?_, ?_, ?_, ?_, ?_⟩
    · intro o hne g hg
      obtain ⟨g, rfl⟩ : ∃ g', g = g' + 1 := ⟨g - 1, by omega⟩
      rw [parse_next_succ] at hne
      rw [parse_next_succ, parse_next_succ]
      simp only [consume_ws_shift, charAt_shift] at hne ⊢
      split_ifs at hne ⊢ with h1 h2 h3 h4 h5 h6
      · exact iha _ hne g (by omega)
      · exact iho _ hne g (by omega)
      · exact parse_string_shift w t _
      · exact parse_bool_shift w t _
      · exact parse_null_shift w t _
      · exact parse_number_shift w t _
      · rfl
    · intro o hne g hg
      obtain ⟨g, rfl⟩ : ∃ g', g = g' + 1 := ⟨g - 1, by omega⟩
      rw [parse_object_succ] at hne
      rw [parse_object_succ, parse_object_succ, Nat.add_right_comm o w.length 1,
        consume_ws_shift, charAt_shift]
      split_ifs at hne ⊢ with h1
      · rw [shift_ok]; exact ok_pair_congr _ _ _ (by omega)
      · exact ihol _ _ hne g (by omega)
    · intro o obj hne g hg
      obtain ⟨g, rfl⟩ : ∃ g', g = g' + 1 := ⟨g - 1, by omega⟩
      rw [parse_object_loop_succ] at hne
      rw [parse_object_loop_succ, parse_object_loop_succ]
      rcases hk : parse_next f t o with e | ⟨key, o1⟩
      · rw [hk] at hne
        rw [ihn o (by rw [hk]; exact hne) g (by omega), hk]
        rfl
      rw [hk] at hne
      rw [ihn o (by rw [hk]; simp) g (by omega), hk, shift_ok]
      simp only [consume_ws_shift, charAt_shift] at hne ⊢
      by_cases hcol : charAt t (consume_ws t o1) = ':'
      swap
      · rw [if_pos hcol, if_pos hcol]; rfl
      rw [if_neg (by simp [hcol])] at hne ⊢
      rw [if_neg (by simp [hcol]), Nat.add_right_comm _ w.length 1, consume_ws_shift]
      rcases hv : parse_next f t (consume_ws t (consume_ws t o1 + 1)) with e | ⟨value, o4⟩
      · rw [hv] at hne
        rw [ihn _ (by rw [hv]; exact hne) g (by omega), hv]
        rfl
      rw [hv] at hne
      rw [ihn _ (by rw [hv]; simp) g (by omega), hv, shift_ok]
      simp only [consume_ws_shift, charAt_shift] at hne ⊢
      split_ifs at hne ⊢ with h6 h7
      · rw [Nat.add_right_comm _ w.length 1]
        exact ihol _ _ hne g (by omega)
      · rw [shift_ok]; exact ok_pair_congr _ _ _ (by omega)
      · rfl
    · intro o hne g hg
      obtain ⟨g, rfl⟩ : ∃ g', g = g' + 1 := ⟨g - 1, by omega⟩
      rw [parse_array_succ] at hne
      rw [parse_array_succ, parse_array_succ, Nat.add_right_comm o w.length 1,
        consume_ws_shift, charAt_shift]
      split_ifs at hne ⊢ with h1
      · rw [shift_ok]; exact ok_pair_congr _ _ _ (by omega)
      · exact ihal _ _ _ hne g (by omega)
    · intro o arr i hne g hg
      obtain ⟨g, rfl⟩ : ∃ g', g = g' + 1 := ⟨g - 1, by omega⟩
      rw [parse_array_loop_succ] at hne
      rw [parse_array_loop_succ, parse_array_loop_succ]
      rcases hk : parse_next f t o with e | ⟨x, o1⟩
      · rw [hk] at hne
        rw [ihn o (by rw [hk]; exact hne) g (by omega), hk]
        rfl
      rw [hk] at hne
      rw [ihn o (by rw [hk]; simp) g (by omega), hk, shift_ok]
      simp only at hne ⊢
      rcases ha : arr.assign_pos (i % 2 ^ 32) x with e | arr2
      · rfl
      rw [ha] at hne
      simp only [consume_ws_shift, charAt_shift] at hne ⊢
      split_ifs at hne ⊢ with h6 h7
      · rw [Nat.add_right_comm _ w.length 1]
        exact ihal _ _ _ hne g (by omega)
      · rw [shift_ok]; exact ok_pair_congr _ _ _ (by omega)
      · rfl

theorem settled_not_fuel (o : Nat) (r : Except Fault (json × Nat)) (h : settled o r) :
    r ≠ Except.error Fault.fuel := by
  intro e
  rw [e] at h
  exact h rfl

/-- With the fuel of `load` for the text or more, `parse_next` at the start of the
text returns what it returns with the fuel of `load`. -/
theorem parse_next_fuel (t : Str) (g : Nat) (hg : load_fuel t ≤ g) :
    parse_next g t 0 = parse_next (load_fuel t) t 0 := by
  have h := (parse_shift [] t (load_fuel t)).1 0 (settled_not_fuel _ _ (load_settled t)) g hg
  rw [List.nil_append, List.length_nil, Nat.add_zero] at h
  rw [h]
  cases parse_next (load_fuel t) t 0 with
  | error e => rfl
  | ok r => rfl

/-- A text that `parse_next` reads alone, to its end and without a message, stands
for its value wherever it is followed by a terminator. -/
theorem reads_clean_parses_as (t : Str) (v : json) (h : reads_clean t v) : parses_as t v := by
  intro fuel str o c rest _ hf hd
  have ho : o < str.length := drop_ne_nil str o (by rw [hd]; simp)
  have h1 := (parse_local t (c :: rest) (load_fuel t)).1 0 (v, t.length) h.1 h.2 fuel hf
  have h2 := (parse_shift (str.take o) (t ++ c :: rest) fuel).1 0
    (by rw [h1]; simp) fuel (Nat.le_refl _)
  rw [h1, shift_ok, ← hd, List.take_append_drop, List.length_take,
    Nat.min_eq_left (Nat.le_of_lt ho), Nat.zero_add] at h2
  rw [h2, Nat.add_comm]

theorem takeWhile_space (t : Str) : ∀ c ∈ t.takeWhile isspace, isspace c = true := by
  intro c hc
  exact (List.mem_takeWhile_imp hc)

/-- A text that stands for a value starts, after white space, with a character
that is not a closing bracket. -/
theorem parses_as_head (t : Str) (v : json) (h : parses_as t v) :
    ∃ ws x tail, t = ws ++ x :: tail ∧ (∀ c ∈ ws, isspace c = true) ∧ isspace x = false ∧
      x ≠ ']' := by
  have hws := takeWhile_space t
  have hsplit : t = t.takeWhile isspace ++ t.dropWhile isspace :=
    (List.takeWhile_append_dropWhile _ _).symm
  rcases hdw : t.dropWhile isspace with _ | ⟨x, tail⟩
  · exfalso
    rw [hdw, List.append_nil] at hsplit
    have h1 := h (load_fuel t + 1) (t ++ [' ']) 0 ' ' [] (by decide) (by omega) rfl
    rw [parse_next_succ] at h1
    have hall : ∀ c ∈ t ++ [' '], isspace c = true := by
      intro c hc
      rcases List.mem_append.1 hc with hc | hc
      · rw [hsplit] at hc; exact hws c hc
      · rw [List.mem_singleton.1 hc]; decide
    have e1 : consume_ws (t ++ [' ']) 0 = t.length + 1 := by
      have := consume_ws_loop_append (t ++ [' ']) [] 0 hall
      rw [List.append_nil] at this
      rw [consume_ws, List.drop_zero, this, consume_ws_loop]
      simp
    have e2 : charAt (t ++ [' ']) (t.length + 1) = '\x00' := by
      rw [charAt, List.getD_eq_default _ _ (by simp)]
    simp only [e1, e2] at h1
    simp at h1
  · have hx : isspace x = false := by
      have := List.head_dropWhile_not isspace t (by rw [hdw]; simp)
      simpa [hdw] using this
    refine ⟨t.takeWhile isspace, x, tail, by rw [← hdw]; exact hsplit, hws, hx, ?_⟩
    intro hx2
    subst hx2
    have hd : (t ++ [',']).drop 0 = t.takeWhile isspace ++ ']' :: (tail ++ [',']) := by
      rw [List.drop_zero]
      conv_lhs => rw [hsplit, hdw]
      simp
    have h1 := h (load_fuel t + 1) (t ++ [',']) 0 ',' [] (by decide) (by omega) rfl
    rw [parse_next_succ] at h1
    have e1 := consume_ws_at (t ++ [',']) 0 _ ']' _ hd hws (by decide)
    have e2 := charAt_at (t ++ [',']) (0 + (t.takeWhile isspace).length) ']' _
      (drop_step _ 0 _ _ hd)
    simp only [e1, e2] at h1
    simp only [Char.reduceEq, if_false, Bool.or_self, Bool.false_eq_true, decide_False,
      Bool.and_self] at h1
    rw [if_neg (by decide)] at h1
    simp only [Except.ok.injEq, Prod.mk.injEq] at h1
    have hl : t.length = (t.takeWhile isspace).length + (tail.length + 1) := by
      conv_lhs => rw [hsplit, hdw]
      simp
    omega

theorem element_spaced_iff (e : element) :
    element_spaced e = true ↔ (∀ c ∈ e.ws_before, isspace c = true) ∧
      (∀ c ∈ e.ws_after, isspace c = true) := by
  simp only [element_spaced, List.all_eq_true, List.mem_append]
  constructor
  · intro h
    exact ⟨fun c hc => h c (Or.inl hc), fun c hc => h c (Or.inr hc)⟩
  · rintro ⟨h1, h2⟩ c (hc | hc)
    · exact h1 c hc
    · exact h2 c hc

theorem elements_text_cons (e : element) (rest : List element) :
    ∃ tail, elements_text (e :: rest) = element_text e ++ tail ∧
      ((rest = [] ∧ tail = []) ∨ (rest ≠ [] ∧ tail = ',' :: elements_text rest)) := by
  cases rest with
  | nil => exact ⟨[], by simp [elements_text], Or.inl ⟨rfl, rfl⟩⟩
  | cons e2 rest =>
    exact ⟨',' :: elements_text (e2 :: rest), by simp [elements_text],
      Or.inr ⟨by simp, rfl⟩⟩

/-- The steps of the loop of `parse_array` over one element that stands before a
comma or the closing bracket. -/
theorem parse_element (e : element) (f : Nat) (str : Str) (o : Nat) (sep : Char) (rest : Str)
    (hs : element_spaced e = true) (hp : parses_as e.text e.value)
    (hf : load_fuel e.text ≤ f) (hsep : sep = ',' ∨ sep = ']')
    (hd : str.drop o = element_text e ++ sep :: rest) :
    parse_next f str o = Except.ok (e.value, o + e.ws_before.length + e.text.length) ∧
    consume_ws str (o + e.ws_before.length + e.text.length) = o + (element_text e).length ∧
    charAt str (o + (element_text e).length) = sep ∧
    str.drop (o + (element_text e).length + 1) = rest := by
  obtain ⟨hw1, hw2⟩ := (element_spaced_iff e).1 hs
  have hsepterm : isterm sep = true := by rcases hsep with rfl | rfl <;> decide
  have hsepsp : isspace sep = false := by rcases hsep with rfl | rfl <;> decide
  have hd1 : str.drop o = e.ws_before ++ (e.text ++ (e.ws_after ++ sep :: rest)) := by
    rw [hd, element_text]; simp
  have hd2 := drop_step str o _ _ hd1
  have hd3 := drop_step str _ _ _ hd2
  have hd4 := drop_step str _ _ _ hd3
  have hlen : (element_text e).length
      = e.ws_before.length + e.text.length + e.ws_after.length := by
    simp only [element_text, List.length_append]; omega
  have ho : o + e.ws_before.length + e.text.length + e.ws_after.length
      = o + (element_text e).length := by omega
  rw [ho] at hd4
  obtain ⟨c, r, hcr, hterm⟩ := after_value e.ws_after sep rest hw2 hsepterm
  refine ⟨?_, ?_, ?_, ?_⟩
  · rw [parse_next_over f str o e.ws_before _ hd1 hw1,
      hp f str _ c r hterm hf (by rw [hd2, hcr])]
  · rw [consume_ws_at _ _ e.ws_after sep rest hd3 hw2 hsepsp]
    omega
  · exact charAt_at _ _ sep rest hd4
  · exact drop_succ _ _ _ _ hd4

/-- The loop of `parse_array` on the elements `es`, entered with the Array `arr`
and the index `idx`: the values are stored one after the other. -/
theorem parse_array_loop_elements :
    ∀ (es : List element) (arr : json) (idx : Nat) (fuel : Nat) (str : Str) (o : Nat)
      (rest : Str),
      es ≠ [] → (∀ e ∈ es, element_spaced e = true) →
      (∀ e ∈ es, parses_as e.text e.value) →
      3 * (elements_text es).length + 9 ≤ fuel →
      str.drop o = elements_text es ++ ']' :: rest →
      parse_array_loop fuel str o arr idx
        = (store_all arr idx (es.map (fun e => e.value))).map
            (fun a => (a, o + (elements_text es).length + 1))
  | [], _, _, _, _, _, _, hne, _, _, _, _ => absurd rfl hne
  | e :: es, arr, idx, fuel, str, o, rest, _, hs, hp, hf, hd => by
    obtain ⟨tail, htxt, htail⟩ := elements_text_cons e es
    rw [htxt] at hf hd ⊢
    simp only [List.length_append] at hf
    obtain ⟨f, rfl⟩ : ∃ f, fuel = f + 1 := ⟨fuel - 1, by omega⟩
    have hlen : (element_text e).length
        = e.ws_before.length + e.text.length + e.ws_after.length := by
      simp only [element_text, List.length_append]; omega
    rcases htail with ⟨hes, ht⟩ | ⟨hes, ht⟩
    · subst hes; subst ht
      obtain ⟨h1, h2, h3, _⟩ := parse_element e f str o ']' rest
        (hs e (List.mem_cons_self _ _)) (hp e (List.mem_cons_self _ _))
        (by rw [load_fuel]; omega) (Or.inr rfl) (by rw [hd]; simp)
      rw [parse_array_loop_succ, h1]
      simp only [List.map_cons, List.map_nil, store_all]
      rcases ha : arr.assign_pos (idx % 2 ^ 32) e.value with er | arr2
      · rfl
      · simp only [h2, h3, Char.reduceEq, if_false, if_true, List.append_nil, Except.map]
    · subst ht
      obtain ⟨h1, h2, h3, h4⟩ := parse_element e f str o ','
        (elements_text es ++ ']' :: rest)
        (hs e (List.mem_cons_self _ _)) (hp e (List.mem_cons_self _ _))
        (by rw [load_fuel]; omega) (Or.inl rfl) (by rw [hd]; simp)
      rw [parse_array_loop_succ, h1]
      simp only [List.map_cons, store_all]
      rcases ha : arr.assign_pos (idx % 2 ^ 32) e.value with er | arr2
      · rfl
      · simp only [h2, h3, if_true]
        rw [parse_array_loop_elements es arr2 (idx + 1) f str _ rest hes
          (fun e2 he2 => hs e2 (List.mem_cons_of_mem _ he2))
          (fun e2 he2 => hp e2 (List.mem_cons_of_mem _ he2))
          (by simp only [List.length_cons] at hf; omega) h4]
        cases store_all arr2 (idx + 1) (es.map (fun e => e.value)) with
        | error er => rfl
        | ok a =>
          simp only [Except.map]
          apply ok_pair_congr
          simp only [List.length_cons, List.length_append]; omega

/-- An array text at the cursor: `parse_next` stores the values of the elements
one after the other into a fresh Array and leaves the cursor after the text. -/
theorem parse_next_array_text (es : List element) (fuel : Nat) (str : Str) (o : Nat)
    (rest : Str) (hs : ∀ e ∈ es, element_spaced e = true)
    (hp : ∀ e ∈ es, parses_as e.text e.value)
    (hf : load_fuel (array_text es) ≤ fuel) (hd : str.drop o = array_text es ++ rest) :
    parse_next fuel str o
      = (store_all (json.array []) 0 (es.map (fun e => e.value))).map
          (fun a => (a, o + (array_text es).length)) := by
  have hlen : (array_text es).length = (elements_text es).length + 2 := by
    simp [array_text]
  rw [load_fuel, hlen] at hf
  obtain ⟨g, rfl⟩ : ∃ g, fuel = g + 1 + 1 := ⟨fuel - 2, by omega⟩
  have h0 : str.drop o = '[' :: (elements_text es ++ ']' :: rest) := by
    rw [hd, array_text]; simp
  have h1 := drop_succ _ o _ _ h0
  rw [parse_next_succ]
  simp only [consume_ws_stay _ o '[' _ h0 (by decide), charAt_at _ o '[' _ h0]
  simp only [if_true]
  rw [parse_array_succ, hlen]
  cases es with
  | nil =>
    have h2 : str.drop (o + 1) = ']' :: rest := by rw [h1]; rfl
    rw [consume_ws_stay _ _ ']' _ h2 (by decide), charAt_at _ _ ']' _ h2]
    simp only [if_true, make_array, List.map_nil, store_all, Except.map]
    exact ok_pair_congr _ _ _ (by simp [elements_text])
  | cons e es =>
    obtain ⟨tail, htxt, _⟩ := elements_text_cons e es
    obtain ⟨hw1, _⟩ := (element_spaced_iff e).1 (hs e (List.mem_cons_self _ _))
    obtain ⟨ws, x, tl, htx, hws, hx, hx2⟩ := parses_as_head e.text e.value
      (hp e (List.mem_cons_self _ _))
    have h2 : str.drop (o + 1) = (e.ws_before ++ ws) ++ x :: (tl ++ e.ws_after ++ tail ++
        ']' :: rest) := by
      rw [h1, htxt, element_text, htx]; simp
    have hsp : ∀ c ∈ e.ws_before ++ ws, isspace c = true := by
      intro c hc
      rcases List.mem_append.1 hc with hc | hc
      · exact hw1 c hc
      · exact hws c hc
    have e1 := consume_ws_at _ _ _ x _ h2 hsp hx
    have e2 := charAt_at _ _ x _ (drop_step _ _ _ _ h2)
    rw [← e1] at e2
    rw [e2, if_neg hx2, make_array]
    have h3 : parse_array_loop g str (consume_ws str (o + 1)) (json.array []) 0
        = parse_array_loop g str (o + 1) (json.array []) 0 := by
      cases g with
      | zero => rfl
      | succ g2 => rw [parse_array_loop_succ, parse_array_loop_succ, parse_next_consume]
    rw [h3, parse_array_loop_elements (e :: es) _ 0 g str (o + 1) rest (by simp) hs hp
      (by omega) h1]
    cases store_all (json.array []) 0 ((e :: es).map (fun e => e.value)) with
    | error er => rfl
    | ok a =>
      simp only [Except.map]
      exact ok_pair_congr _ _ _ (by omega)

theorem except_map_map (r : Except Fault json) (n : Nat) :
    (r.map (fun a => (a, n))).map (fun r => r.1) = r := by
  cases r <;> rfl

/-- The value that `load` returns for an array text. -/
theorem load_array_text (es : List element) (hs : ∀ e ∈ es, element_spaced e = true)
    (hp : ∀ e ∈ es, parses_as e.text e.value) :
    load (array_text es) = store_all (json.array []) 0 (es.map (fun e => e.value)) := by
  rw [load, parse_next_array_text es _ _ 0 [] hs hp (Nat.le_refl _) (by simp),
    except_map_map]

/-- Fewer than 2^32 values are stored in their order. -/
theorem store_all_append (done vs : list_type) (h : done.length + vs.length < 2 ^ 32) :
    store_all (json.array done) done.length vs = Except.ok (json.array (done ++ vs)) := by
  induction vs generalizing done with
  | nil => simp [store_all]
  | cons x vs ih =>
    simp only [List.length_cons] at h
    rw [store_all, assign_pos_append done x (by omega)]
    simp only
    have := ih (done ++ [x]) (by simp only [List.length_append, List.length_singleton]; omega)
    simp only [List.length_append, List.length_singleton, List.append_assoc,
      List.singleton_append] at this
    exact this

/-! ## Object texts, and white space -/

/-- An object text at the cursor: `parse_next` stores the members one after the
other into a fresh Object and leaves the cursor after the text. -/
theorem parse_next_object_text (es : List member) (fuel : Nat) (str : Str) (o : Nat)
    (rest : Str) (hs : ∀ e ∈ es, member_spaced e = true)
    (hp : ∀ e ∈ es, parses_as e.text e.value)
    (hf : load_fuel (object_text es) ≤ fuel) (hd : str.drop o = object_text es ++ rest) :
    parse_next fuel str o
      = Except.ok (json.object (es.foldl (fun m e => map_store (map_index m
          (json_escape e.key)) (json_escape e.key) e.value) []),
          o + (object_text es).length) := by
  have hlen : (object_text es).length = (members_text es).length + 2 := by
    simp [object_text]
  rw [load_fuel, hlen] at hf
  obtain ⟨g, rfl⟩ : ∃ g, fuel = g + 1 + 1 := ⟨fuel - 2, by omega⟩
  have h0 : str.drop o = '{' :: (members_text es ++ '}' :: rest) := by
    rw [hd, object_text]; simp
  have h1 := drop_succ _ o _ _ h0
  cases es with
  | nil =>
    have h2 : str.drop o = '{' :: ([] ++ '}' :: rest) := by rw [h0]; rfl
    rw [parse_next_empty_object g str o [] rest h2 (by simp)]
    rfl
  | cons e es =>
    obtain ⟨tail, htxt, _⟩ := members_text_cons e es
    obtain ⟨hw1, _, _, _⟩ := (member_spaced_iff e).1 (hs e (List.mem_cons_self _ _))
    have h1q : str.drop (o + 1) = e.ws_key ++ '"' :: (json_escape e.key
        ++ '"' :: (e.ws_colon ++ ':' :: (e.ws_value ++ (e.text ++ e.ws_end))) ++ tail
          ++ '}' :: rest) := by
      rw [h1, htxt, member_text]; simp
    rw [parse_next_succ]
    simp only [consume_ws_stay _ o '{' _ h0 (by decide), charAt_at _ o '{' _ h0]
    simp only [Char.reduceEq, if_false, if_true]
    rw [parse_object_succ, consume_ws_at _ _ e.ws_key '"' _ h1q hw1 (by decide),
      charAt_at _ _ '"' _ (drop_step _ _ _ _ h1q)]
    simp only [Char.reduceEq, if_false]
    rw [make_object, parse_object_loop_over _ _ (o + 1) e.ws_key _ _ h1q hw1,
      parse_object_loop_members (e :: es) [] _ _ (o + 1) rest (by simp) hs hp (by omega) h1]
    exact ok_pair_congr _ _ _ (by omega)

/-- The value that `load` returns for an object text. -/
theorem load_object_text (es : List member) (hs : ∀ e ∈ es, member_spaced e = true)
    (hp : ∀ e ∈ es, parses_as e.text e.value) :
    load (object_text es)
      = Except.ok (json.object (es.foldl (fun m e => map_store (map_index m
          (json_escape e.key)) (json_escape e.key) e.value) [])) := by
  rw [load, parse_next_object_text es _ _ 0 [] hs hp (Nat.le_refl _) (by simp)]
  rfl

/-- An object text stands for its value wherever it stands: object texts nest. -/
theorem object_text_parses_as (es : List member) (hs : ∀ e ∈ es, member_spaced e = true)
    (hp : ∀ e ∈ es, parses_as e.text e.value) :
    parses_as (object_text es) (json.object (es.foldl (fun m e => map_store (map_index m
      (json_escape e.key)) (json_escape e.key) e.value) [])) := by
  intro fuel str o c rest _ hf hd
  exact parse_next_object_text es fuel str o (c :: rest) hs hp hf hd

/-- An array text whose values can be stored stands for the Array wherever it
stands: array texts nest. -/
theorem array_text_parses_as (es : List element) (a : json)
    (hs : ∀ e ∈ es, element_spaced e = true) (hp : ∀ e ∈ es, parses_as e.text e.value)
    (ha : store_all (json.array []) 0 (es.map (fun e => e.value)) = Except.ok a) :
    parses_as (array_text es) a := by
  intro fuel str o c rest _ hf hd
  rw [parse_next_array_text es fuel str o (c :: rest) hs hp hf hd, ha]
  rfl

/-- The texts `true`, `null` and `"a"` are read alone, to their end and without a
message. -/
theorem reads_clean_samples :
    reads_clean ['t', 'r', 'u', 'e'] (json.boolean true) ∧
    reads_clean ['n', 'u', 'l', 'l'] json.null ∧
    reads_clean ['"', 'a', '"'] (json.string ['a']) ∧
    reads_clean [' ', '"', 'a', '"'] (json.string ['a']) ∧
    reads_clean [' ', 'n', 'u', 'l', 'l'] json.null :=
  ⟨⟨rfl, rfl⟩, ⟨rfl, rfl⟩, ⟨rfl, rfl⟩, ⟨rfl, rfl⟩, ⟨rfl, rfl⟩⟩

theorem elements_text_join (ts : List (Str × json)) :
    elements_text (ts.map (fun p => (⟨[], p.1, p.2, []⟩ : element)))
      = join_with [','] (ts.map Prod.fst) := by
  induction ts with
  | nil => rfl
  | cons p rest ih =>
    cases rest with
    | nil => simp [elements_text, element_text, join_with]
    | cons q rest2 =>
      rw [List.map_cons] at ih
      rw [List.map_cons, List.map_cons, elements_text, ih]
      simp [element_text, join_with]

/-- C29, as it holds: for fewer than 2^32 element texts `t_i`, each of which
`parse_next` reads alone to its end as `v_i` without a message on `std::cerr`,
or each of which stands for `v_i` before any terminator, `load` of the
bracketed texts joined by commas is the Array of the `v_i` in their order. -/
theorem array_elements_in_order (ts : List (Str × json)) (hn : ts.length < 2 ^ 32)
    (h : ∀ p ∈ ts, reads_clean p.1 p.2 ∨ parses_as p.1 p.2) :
    load ('[' :: (join_with [','] (ts.map Prod.fst) ++ [']']))
      = Except.ok (json.array (ts.map Prod.snd)) := by
  have hp : ∀ e ∈ ts.map (fun p => (⟨[], p.1, p.2, []⟩ : element)),
      parses_as e.text e.value := by
    intro e he
    obtain ⟨p, hp, rfl⟩ := List.mem_map.1 he
    rcases h p hp with h1 | h1
    · exact reads_clean_parses_as _ _ h1
    · exact h1
  have hs : ∀ e ∈ ts.map (fun p => (⟨[], p.1, p.2, []⟩ : element)),
      element_spaced e = true := by
    intro e he
    obtain ⟨p, _, rfl⟩ := List.mem_map.1 he
    rfl
  have h1 := load_array_text _ hs hp
  rw [array_text, elements_text_join, List.map_map] at h1
  rw [h1]
  have h2 := store_all_append [] (ts.map Prod.snd) (by simpa using hn)
  simp only [List.length_nil, List.nil_append] at h2
  exact h2

/-- C29 on the text `[true, "a", null]`, with the element texts `true`, ` "a"` and
` null`. -/
theorem array_elements_in_order_witness :
    load "[true, \"a\", null]".toList
      = Except.ok (json.array [json.boolean true, json.string ['a'], json.null]) :=
  array_elements_in_order
    [(['t', 'r', 'u', 'e'], json.boolean true), ([' ', '"', 'a', '"'], json.string ['a']),
      ([' ', 'n', 'u', 'l', 'l'], json.null)]
    (by decide)
    (by
      intro p hp
      simp only [List.mem_cons, List.mem_singleton, List.not_mem_nil, or_false] at hp
      rcases hp with rfl | rfl | rfl
      · exact Or.inl reads_clean_samples.1
      · exact Or.inl reads_clean_samples.2.2.2.1
      · exact Or.inl reads_clean_samples.2.2.2.2)

/-- C29 as stated fails: `parse_next` on the text `[[]` alone yields the empty
Array and consumes exactly the three characters, with the message of the
unterminated array; but `load` of the text between brackets, `[[[]]`, is not
the Array of length 1 that holds the empty Array: it is the empty Array. -/
theorem unterminated_element_text :
    parse_next (load_fuel ['[', '[', ']']) ['[', '[', ']'] 0
      = Except.ok (json.array [], ['[', '[', ']'].length) ∧
    load_cerr ['[', '[', ']'] = [Diag.array_comma '\x00'] ∧
    load ('[' :: (join_with [','] [['[', '[', ']']] ++ [']'])) = Except.ok (json.array []) ∧
    load ('[' :: (join_with [','] [['[', '[', ']']] ++ [']']))
      ≠ Except.ok (json.array [json.array []]) := by
  have h1 : load ('[' :: (join_with [','] [['[', '[', ']']] ++ [']']))
      = Except.ok (json.array []) := rfl
  refine ⟨rfl, rfl, h1, ?_⟩
  rw [h1]
  simp

/-! ## Escaped texts as keys -/

theorem json_escape_length (s : Str) : s.length ≤ (json_escape s).length := by
  induction s with
  | nil => simp [json_escape]
  | cons i s ih =>
    rw [json_escape, List.length_append, List.length_cons]
    have h : 1 ≤ (if i = '"' then ['\\', '"']
        else if i = '\\' then ['\\', '\\']
        else if i = '\x08' then ['\\', 'b']
        else if i = '\x0c' then ['\\', 'f']
        else if i = '\n' then ['\\', 'n']
        else if i = '\r' then ['\\', 'r']
        else if i = '\t' then ['\\', 't']
        else [i]).length := by
      split_ifs <;> simp
    omega

/-- The escaped form of a text is the text itself exactly when the text holds
none of the seven characters that `json_escape` rewrites. -/
theorem json_escape_eq_iff (s : Str) :
    json_escape s = s ↔
      ∀ c ∈ s, c ≠ '"' ∧ c ≠ '\\' ∧ c ≠ '\x08' ∧ c ≠ '\x0c' ∧ c ≠ '\n' ∧ c ≠ '\r' ∧
        c ≠ '\t' := by
  induction s with
  | nil => simp [json_escape]
  | cons i s ih =>
    rw [json_escape]
    constructor
    · intro h
      have hlen := json_escape_length s
      by_cases h1 : i = '"'
      · subst h1; simp at h
      by_cases h2 : i = '\\'
      · subst h2
        simp only [Char.reduceEq, if_false, if_true, List.cons_append, List.nil_append,
          List.cons.injEq, true_and] at h
        have := congrArg List.length h
        simp only [List.length_cons] at this
        omega
      by_cases h3 : i = '\x08'
      · subst h3; simp at h
      by_cases h4 : i = '\x0c'
      · subst h4; simp at h
      by_cases h5 : i = '\n'
      · subst h5; simp at h
      by_cases h6 : i = '\r'
      · subst h6; simp at h
      by_cases h7 : i = '\t'
      · subst h7; simp at h
      simp only [h1, h2, h3, h4, h5, h6, h7, if_false, List.singleton_append,
        List.cons.injEq, true_and] at h
      intro c hc
      rcases List.mem_cons.1 hc with rfl | hc
      · exact ⟨h1, h2, h3, h4, h5, h6, h7⟩
      · exact (ih.1 h) c hc
    · intro h
      obtain ⟨h1, h2, h3, h4, h5, h6, h7⟩ := h i (List.mem_cons_self _ _)
      simp only [h1, h2, h3, h4, h5, h6, h7, if_false, List.singleton_append]
      rw [ih.2 (fun c hc => h c (List.mem_cons_of_mem _ hc))]

/-- C33: for every String value with the payload `s`, `to_string()` and
`to_string(ok)` return `json_escape(s)`, the latter with `ok` set; and
`json_escape(s)` is `s` itself exactly when `s` holds none of the quote, the
backslash, backspace, form feed, newline, carriage return and tab. -/
theorem to_string_is_escaped (s : Str) :
    (json.string s).to_string = json_escape s ∧
    (json.string s).to_string_ok = (json_escape s, true) ∧
    (json_escape s = s ↔
      ∀ c ∈ s, c ≠ '"' ∧ c ≠ '\\' ∧ c ≠ '\x08' ∧ c ≠ '\x0c' ∧ c ≠ '\n' ∧ c ≠ '\r' ∧
        c ≠ '\t') ∧
    (json.string ['a', '"', 'b']).to_string = ['a', '\\', '"', 'b'] ∧
    (json.string ['a', 'b']).to_string = ['a', 'b'] :=
  ⟨rfl, rfl, json_escape_eq_iff s, rfl, rfl⟩

theorem last_value_isSome (es : List member) (k : Str) :
    (last_value es k).isSome = true ↔ ∃ e ∈ es, json_escape e.key = k := by
  induction es with
  | nil => simp [last_value]
  | cons e rest ih =>
    rw [last_value]
    cases h : last_value rest k with
    | some v =>
      rw [h] at ih
      obtain ⟨e2, he2, hk⟩ := ih.1 rfl
      simp only [Option.isSome_some, true_iff]
      exact ⟨e2, List.mem_cons_of_mem _ he2, hk⟩
    | none =>
      rw [h] at ih
      simp only
      by_cases hk : json_escape e.key = k
      · simp only [hk, if_true, Option.isSome_some, true_iff]
        exact ⟨e, List.mem_cons_self _ _, hk⟩
      · simp only [hk, if_false, Option.isSome_none, Bool.false_eq_true, false_iff]
        rintro ⟨e2, he2, hk2⟩
        rcases List.mem_cons.1 he2 with rfl | he2
        · exact hk hk2
        · have := ih.2 ⟨e2, he2, hk2⟩
          simp at this

/-- One iteration of the loop of `parse_object` that ends on the closing brace:
the value is stored under `to_string()` of the value that the key was parsed
to, whatever its kind. -/
theorem parse_object_loop_store (f : Nat) (str : Str) (o : Nat) (obj key value : json)
    (o1 o4 : Nat) (hk : parse_next f str o = Except.ok (key, o1))
    (hc : charAt str (consume_ws str o1) = ':')
    (hv : parse_next f str (consume_ws str (consume_ws str o1 + 1)) = Except.ok (value, o4))
    (hend : charAt str (consume_ws str o4) = '}') :
    parse_object_loop (f + 1) str o obj
      = Except.ok (obj.assign_key key.to_string value, consume_ws str o4 + 1) := by
  rw [parse_object_loop_succ, hk]
  simp only [hc, ne_eq, not_true_eq_false, if_false, hv, hend, Char.reduceEq, if_true]

theorem to_string_not_string (v : json) (h : v.json_type ≠ class_type.string) :
    v.to_string = [] := by
  cases v <;> first | rfl | exact absurd rfl h

/-- C34: in the Object that `load` returns for an object text, the keys are the
escaped forms `json_escape(p)` of the payloads `p` that the key strings were
parsed to, each with the value of its last member: `has_key(k)` holds exactly
when `k` is the escaped form of the key of a member. `to_string()` of a value
that is no String is the empty string, and that is the key under which a
member with such a key is stored, as on `{true:1}`. -/
theorem parsed_keys_are_escaped (es : List member)
    (hs : ∀ e ∈ es, member_spaced e = true) (hp : ∀ e ∈ es, parses_as e.text e.value) :
    (∃ m, load (object_text es) = Except.ok (json.object m) ∧ map_sorted m = true ∧
      (∀ k, map_find m k = last_value es k) ∧
      (∀ k, (json.object m).has_key k = true ↔ ∃ e ∈ es, json_escape e.key = k)) ∧
    (∀ v : json, v.json_type ≠ class_type.string → v.to_string = []) ∧
    load "\x7btrue:1\x7d".toList
      = Except.ok (json.object [([], json.floating (Dbl.of_int 1))]) ∧
    load "\x7bnull:false\x7d".toList = Except.ok (json.object [([], json.boolean false)]) ∧
    load "\x7b[]:true\x7d".toList = Except.ok (json.object [([], json.boolean true)]) ∧
    load "\x7b1 :2\x7d".toList
      = Except.ok (json.object [([], json.floating (Dbl.of_int 2))]) := by
  refine ⟨⟨_, load_object_text es hs hp, fold_put_sorted es [] rfl, ?_, ?_⟩,
    to_string_not_string, rfl, rfl, rfl, rfl⟩
  · intro k
    rw [fold_put_find]
    cases last_value es k <;> rfl
  · intro k
    rw [has_key, ← last_value_isSome]
    have e1 : (json.object (es.foldl (fun m e => map_store (map_index m
        (json_escape e.key)) (json_escape e.key) e.value) [])).entries
        = es.foldl (fun m e => map_store (map_index m
        (json_escape e.key)) (json_escape e.key) e.value) [] := rfl
    rw [e1, fold_put_find]
    have e2 : (json.object (es.foldl (fun m e => map_store (map_index m
        (json_escape e.key)) (json_escape e.key) e.value) [])).json_type
        = class_type.object := rfl
    rw [e2]
    cases last_value es k <;> simp [map_find]

/-- C34 on the text of an Object with the key literal `"a\"b"`, whose payload is
`a`, quote, `b`: the entry is stored under `a`, backslash, quote, `b`, and
`has_key` of the payload is false; likewise for a key with a newline escape. -/
theorem parsed_keys_are_escaped_witness :
    load "\x7b\"a\\\"b\":true\x7d".toList
      = Except.ok (json.object [(['a', '\\', '"', 'b'], json.boolean true)]) ∧
    (json.object [(['a', '\\', '"', 'b'], json.boolean true)]).has_key ['a', '"', 'b']
      = false ∧
    (json.object [(['a', '\\', '"', 'b'], json.boolean true)]).has_key ['a', '\\', '"', 'b']
      = true ∧
    load "\x7b\"a\\nb\":true\x7d".toList
      = Except.ok (json.object [(['a', '\\', 'n', 'b'], json.boolean true)]) ∧
    (json.object [(['a', '\\', 'n', 'b'], json.boolean true)]).has_key ['a', '\n', 'b']
      = false ∧
    ∃ m, load (object_text [⟨[], ['a', '"', 'b'], [], [], ['t', 'r', 'u', 'e'],
        json.boolean true, []⟩]) = Except.ok (json.object m) ∧
      ((json.object m).has_key ['a', '"', 'b'] = true ↔
        ∃ e ∈ [(⟨[], ['a', '"', 'b'], [], [], ['t', 'r', 'u', 'e'], json.boolean true,
          []⟩ : member)], json_escape e.key = ['a', '"', 'b']) := by
  refine ⟨rfl, by decide, by decide, rfl, by decide, ?_⟩
  obtain ⟨m, h1, _, _, h4⟩ := (parsed_keys_are_escaped
    [⟨[], ['a', '"', 'b'], [], [], ['t', 'r', 'u', 'e'], json.boolean true, []⟩]
    (by decide)
    (by
      intro e he
      rw [List.mem_singleton.1 he]
      exact reads_clean_parses_as _ _ reads_clean_samples.1)).1
  exact ⟨m, h1, h4 _⟩

/-! ## Texts that break off -/

/-- A text that `parse_next` reads alone, to its end and without a message, is
read in the same way wherever it stands, whatever follows it. -/
theorem reads_clean_at (t : Str) (v : json) (h : reads_clean t v) (fuel : Nat) (str : Str)
    (o : Nat) (rest : Str) (hf : load_fuel t ≤ fuel) (hd : str.drop o = t ++ rest) :
    parse_next fuel str o = Except.ok (v, o + t.length) := by
  have hne : t ≠ [] := by
    intro e
    subst e
    exact absurd h.2 (by decide)
  have ho : o < str.length := drop_ne_nil str o (by rw [hd]; simp [hne])
  have h1 := (parse_local t rest (load_fuel t)).1 0 (v, t.length) h.1 h.2 fuel hf
  have h2 := (parse_shift (str.take o) (t ++ rest) fuel).1 0
    (by rw [h1]; simp) fuel (Nat.le_refl _)
  rw [h1, shift_ok, ← hd, List.take_append_drop, List.length_take,
    Nat.min_eq_left (Nat.le_of_lt ho), Nat.zero_add] at h2
  rw [h2, Nat.add_comm]

/-- After white space, `consume_ws` stops where the text goes on with a character
that is no white space, or ends. -/
theorem consume_ws_tail (str : Str) (o : Nat) (w tail : Str) (h : str.drop o = w ++ tail)
    (hw : ∀ c ∈ w, isspace c = true) (ht : isspace (tail.headD '\x00') = false) :
    consume_ws str o = o + w.length := by
  rw [consume_ws, h, consume_ws_loop_append w tail o hw]
  cases tail with
  | nil => rfl
  | cons c r =>
    rw [consume_ws_loop]
    have hc : isspace c = false := ht
    simp [hc]

theorem charAt_tail (str : Str) (o : Nat) (tail : Str) (h : str.drop o = tail) :
    charAt str o = tail.headD '\x00' := by
  rw [charAt_eq_head, h]
  cases tail <;> rfl

/-- The steps of the loop of `parse_array` over one element, whatever follows
it. -/
theorem parse_element_any (e : element) (f : Nat) (str : Str) (o : Nat) (tail : Str)
    (hs : element_spaced e = true) (hr : reads_clean e.text e.value)
    (hf : load_fuel e.text ≤ f) (hd : str.drop o = element_text e ++ tail)
    (ht : isspace (tail.headD '\x00') = false) :
    parse_next f str o = Except.ok (e.value, o + e.ws_before.length + e.text.length) ∧
    consume_ws str (o + e.ws_before.length + e.text.length) = o + (element_text e).length ∧
    charAt str (o + (element_text e).length) = tail.headD '\x00' ∧
    str.drop (o + (element_text e).length) = tail := by
  obtain ⟨hw1, hw2⟩ := (element_spaced_iff e).1 hs
  have hd1 : str.drop o = e.ws_before ++ (e.text ++ (e.ws_after ++ tail)) := by
    rw [hd, element_text]; simp
  have hd2 := drop_step str o _ _ hd1
  have hd3 := drop_step str _ _ _ hd2
  have hd4 := drop_step str _ _ _ hd3
  have hlen : (element_text e).length
      = e.ws_before.length + e.text.length + e.ws_after.length := by
    simp only [element_text, List.length_append]; omega
  have ho : o + e.ws_before.length + e.text.length + e.ws_after.length
      = o + (element_text e).length := by omega
  rw [ho] at hd4
  refine ⟨?_, ?_, charAt_tail _ _ _ hd4, hd4⟩
  · rw [parse_next_over f str o e.ws_before _ hd1 hw1,
      reads_clean_at _ _ hr f str _ _ hf hd2]
  · rw [consume_ws_tail _ _ e.ws_after tail hd3 hw2 ht]
    omega

/-- The loop of `parse_array` over elements that are each followed by a comma and
a last element after which the text breaks off: the Array is dropped. -/
theorem parse_array_loop_bad :
    ∀ (init : List element) (last : element) (arr a : json) (idx : Nat) (fuel : Nat) (str : Str)
      (o : Nat) (tail : Str),
      (∀ e ∈ init ++ [last], element_spaced e = true) →
      (∀ e ∈ init ++ [last], reads_clean e.text e.value) →
      3 * ((elements_front init).length + (element_text last).length) + 9 ≤ fuel →
      str.drop o = elements_front init ++ (element_text last ++ tail) →
      isspace (tail.headD '\x00') = false → tail.headD '\x00' ≠ ',' →
      tail.headD '\x00' ≠ ']' →
      store_all arr idx ((init ++ [last]).map (fun e => e.value)) = Except.ok a →
      parse_array_loop fuel str o arr idx
        = Except.ok (json.array [],
            o + (elements_front init).length + (element_text last).length)
  | [], last, arr, a, idx, fuel, str, o, tail, hs, hr, hf, hd, ht1, ht2, ht3, hst => by
    obtain ⟨f, rfl⟩ : ∃ f, fuel = f + 1 := ⟨fuel - 1, by omega⟩
    have hlen : (element_text last).length
        = last.ws_before.length + last.text.length + last.ws_after.length := by
      simp only [element_text, List.length_append]; omega
    obtain ⟨h1, h2, h3, _⟩ := parse_element_any last f str o tail
      (hs last (by simp)) (hr last (by simp)) (by rw [load_fuel]; omega)
      (by rw [hd]; rfl) ht1
    simp only [List.nil_append, List.map_cons, List.map_nil, store_all] at hst
    rw [parse_array_loop_succ, h1]
    rcases ha : arr.assign_pos (idx % 2 ^ 32) last.value with er | arr2
    · rw [ha] at hst; cases hst
    · simp only [h2, h3, ht2, ht3, if_false, make_array]
      rw [ha]
      exact ok_pair_congr _ _ _ (by simp [elements_front])
  | e :: rest, last, arr, a, idx, fuel, str, o, tail, hs, hr, hf, hd, ht1, ht2, ht3, hst => by
    obtain ⟨f, rfl⟩ : ∃ f, fuel = f + 1 := ⟨fuel - 1, by omega⟩
    have hlen : (element_text e).length
        = e.ws_before.length + e.text.length + e.ws_after.length := by
      simp only [element_text, List.length_append]; omega
    have hpl : (elements_front (e :: rest)).length
        = (element_text e).length + 1 + (elements_front rest).length := by
      simp only [elements_front, List.length_append, List.length_cons]; omega
    rw [hpl] at hf
    obtain ⟨h1, h2, h3, h4⟩ := parse_element_any e f str o
      (',' :: (elements_front rest ++ (element_text last ++ tail)))
      (hs e (by simp)) (hr e (by simp)) (by rw [load_fuel]; omega)
      (by rw [hd, elements_front]; simp) (show isspace ',' = false by decide)
    rw [List.cons_append, List.map_cons, store_all] at hst
    rw [parse_array_loop_succ, h1]
    rcases ha : arr.assign_pos (idx % 2 ^ 32) e.value with er | arr2
    · rw [ha] at hst; cases hst
    · rw [ha] at hst
      simp only at hst
      simp only [h2, h3, List.headD_cons, if_true]
      rw [ha]
      simp only
      rw [parse_array_loop_bad rest last arr2 a (idx + 1) f str _ tail
        (fun e2 he2 => hs e2 (by simp at he2 ⊢; tauto))
        (fun e2 he2 => hr e2 (by simp at he2 ⊢; tauto))
        (by omega) (drop_succ _ _ _ _ h4) ht1 ht2 ht3 hst]
      exact ok_pair_congr _ _ _ (by omega)

/-- The steps of the loop of `parse_object` over one member, whatever follows
it. -/
theorem parse_member_any (e : member) (f : Nat) (str : Str) (o : Nat) (tail : Str)
    (hs : member_spaced e = true) (hr : reads_clean e.text e.value)
    (hf : 3 * (member_text e).length + 5 ≤ f)
    (hd : str.drop o = member_text e ++ tail) (ht : isspace (tail.headD '\x00') = false) :
    parse_next f str o = Except.ok (json.string e.key,
        o + e.ws_key.length + (json_escape e.key).length + 2) ∧
    consume_ws str (o + e.ws_key.length + (json_escape e.key).length + 2)
      = o + e.ws_key.length + (json_escape e.key).length + 2 + e.ws_colon.length ∧
    charAt str (o + e.ws_key.length + (json_escape e.key).length + 2 + e.ws_colon.length)
      = ':' ∧
    parse_next f str (consume_ws str
        (o + e.ws_key.length + (json_escape e.key).length + 2 + e.ws_colon.length + 1))
      = Except.ok (e.value, o + (member_text e).length - e.ws_end.length) ∧
    consume_ws str (o + (member_text e).length - e.ws_end.length)
      = o + (member_text e).length ∧
    charAt str (o + (member_text e).length) = tail.headD '\x00' ∧
    str.drop (o + (member_text e).length) = tail := by
  obtain ⟨hw1, hw2, hw3, hw4⟩ := (member_spaced_iff e).1 hs
  have hlen := member_text_length e
  obtain ⟨g, rfl⟩ : ∃ g, f = g + 1 := ⟨f - 1, by omega⟩
  have hd1 : str.drop o = e.ws_key ++ '"' :: (json_escape e.key ++ '"' :: (e.ws_colon
      ++ ':' :: (e.ws_value ++ (e.text ++ (e.ws_end ++ tail))))) := by
    rw [hd, member_text]; simp
  have hd2 := drop_step str o _ _ hd1
  have hkey := parse_next_string_at g str (o + e.ws_key.length) e.key _ hd2
  have hd3 : str.drop (o + e.ws_key.length + (json_escape e.key).length + 2)
      = e.ws_colon ++ ':' :: (e.ws_value ++ (e.text ++ (e.ws_end ++ tail))) := by
    have h := drop_step str (o + e.ws_key.length) ('"' :: (json_escape e.key ++ ['"']))
      (e.ws_colon ++ ':' :: (e.ws_value ++ (e.text ++ (e.ws_end ++ tail))))
      (by rw [hd2]; simp)
    have e2 : o + e.ws_key.length + ('"' :: (json_escape e.key ++ ['"'])).length
        = o + e.ws_key.length + (json_escape e.key).length + 2 := by
      simp only [List.length_cons, List.length_append, List.length_nil]; omega
    rw [e2] at h
    exact h
  have hd4 := drop_step _ _ _ _ hd3
  have hd5 := drop_succ _ _ _ _ hd4
  have hd6 := drop_step _ _ _ _ hd5
  have hd7 := drop_step _ _ _ _ hd6
  have hd8 := drop_step _ _ _ _ hd7
  have ho7 : o + e.ws_key.length + (json_escape e.key).length + 2 + e.ws_colon.length + 1
      + e.ws_value.length + e.text.length = o + (member_text e).length - e.ws_end.length := by
    omega
  have ho8 : o + e.ws_key.length + (json_escape e.key).length + 2 + e.ws_colon.length + 1
      + e.ws_value.length + e.text.length + e.ws_end.length = o + (member_text e).length := by
    omega
  rw [ho7] at hd7
  rw [ho8] at hd8
  refine ⟨?_, ?_, ?_, ?_, ?_, charAt_tail _ _ _ hd8, hd8⟩
  · rw [parse_next_skip (g + 1) str o e.ws_key '"' _ hd1 hw1 (by decide), hkey]
  · exact consume_ws_at _ _ e.ws_colon ':' _ hd3 hw2 (by decide)
  · exact charAt_at _ _ ':' _ hd4
  · rw [parse_next_consume, parse_next_over (g + 1) str _ e.ws_value _ hd5 hw3,
      reads_clean_at _ _ hr (g + 1) str _ _ (by unfold load_fuel; omega) hd6, ho7]
  · rw [consume_ws_tail _ _ e.ws_end tail hd7 hw4 ht]
    omega

/-- The loop of `parse_object` over members that are each followed by a comma and
a last member after which the text breaks off without a comma or a closing
brace: the Object keeps all the entries stored so far, the last included. -/
theorem parse_object_loop_bad_comma :
    ∀ (init : List member) (last : member) (done : map_type) (fuel : Nat) (str : Str)
      (o : Nat) (tail : Str),
      (∀ e ∈ init ++ [last], member_spaced e = true) →
      (∀ e ∈ init ++ [last], reads_clean e.text e.value) →
      3 * ((members_front init).length + (member_text last).length) + 6 ≤ fuel →
      str.drop o = members_front init ++ (member_text last ++ tail) →
      isspace (tail.headD '\x00') = false → tail.headD '\x00' ≠ ',' →
      tail.headD '\x00' ≠ '}' →
      parse_object_loop fuel str o (json.object done)
        = Except.ok (json.object ((init ++ [last]).foldl (fun m e => map_store (map_index m
            (json_escape e.key)) (json_escape e.key) e.value) done),
            o + (members_front init).length + (member_text last).length)
  | [], last, done, fuel, str, o, tail, hs, hr, hf, hd, ht1, ht2, ht3 => by
    obtain ⟨f, rfl⟩ : ∃ f, fuel = f + 1 := ⟨fuel - 1, by omega⟩
    have hto : (json.string last.key).to_string = json_escape last.key := rfl
    obtain ⟨h1, h2, h3, h4, h5, h6, _⟩ := parse_member_any last f str o tail
      (hs last (by simp)) (hr last (by simp))
      (by simp only [members_front, List.length_nil] at hf; omega)
      (by rw [hd]; rfl) ht1
    rw [parse_object_loop_succ, h1]
    simp only []
    rw [h2, h3]
    simp only [ne_eq, not_true_eq_false, if_false]
    rw [h4]
    simp only []
    rw [h5, h6, hto, assign_key_object]
    simp only [ht2, ht3, if_false, List.nil_append, List.foldl_cons, List.foldl_nil]
    exact ok_pair_congr _ _ _ (by simp [members_front])
  | e :: rest, last, done, fuel, str, o, tail, hs, hr, hf, hd, ht1, ht2, ht3 => by
    obtain ⟨f, rfl⟩ : ∃ f, fuel = f + 1 := ⟨fuel - 1, by omega⟩
    have hto : (json.string e.key).to_string = json_escape e.key := rfl
    have hpl : (members_front (e :: rest)).length
        = (member_text e).length + 1 + (members_front rest).length := by
      simp only [members_front, List.length_append, List.length_cons]; omega
    rw [hpl] at hf
    obtain ⟨h1, h2, h3, h4, h5, h6, h7⟩ := parse_member_any e f str o
      (',' :: (members_front rest ++ (member_text last ++ tail)))
      (hs e (by simp)) (hr e (by simp)) (by omega)
      (by rw [hd, members_front]; simp) (show isspace ',' = false by decide)
    rw [parse_object_loop_succ, h1]
    simp only []
    rw [h2, h3]
    simp only [ne_eq, not_true_eq_false, if_false]
    rw [h4]
    simp only []
    rw [h5, h6, hto, assign_key_object]
    simp only [List.headD_cons, if_true]
    rw [parse_object_loop_bad_comma rest last _ f str _ tail
      (fun e2 he2 => hs e2 (by simp at he2 ⊢; tauto))
      (fun e2 he2 => hr e2 (by simp at he2 ⊢; tauto))
      (by omega) (drop_succ _ _ _ _ h7) ht1 ht2 ht3]
    rw [List.cons_append, List.foldl_cons]
    exact ok_pair_congr _ _ _ (by omega)

/-- The loop of `parse_object` over members that are each followed by a comma and
a key after which there is no colon: the Object keeps the entries stored so
far. -/
theorem parse_object_loop_bad_colon :
    ∀ (init : List member) (ws1 key ws2 : Str) (done : map_type) (fuel : Nat) (str : Str)
      (o : Nat) (tail : Str),
      (∀ e ∈ init, member_spaced e = true) →
      (∀ e ∈ init, reads_clean e.text e.value) →
      (∀ c ∈ ws1, isspace c = true) → (∀ c ∈ ws2, isspace c = true) →
      3 * (members_front init).length + 6 ≤ fuel →
      str.drop o = members_front init ++ (ws1 ++ '"' :: (json_escape key ++ '"' ::
        (ws2 ++ tail))) →
      isspace (tail.headD '\x00') = false → tail.headD '\x00' ≠ ':' →
      parse_object_loop fuel str o (json.object done)
        = Except.ok (json.object (init.foldl (fun m e => map_store (map_index m
            (json_escape e.key)) (json_escape e.key) e.value) done),
            o + (members_front init).length + ws1.length + (json_escape key).length + 2
              + ws2.length)
  | [], ws1, key, ws2, done, fuel, str, o, tail, _, _, hw1, hw2, hf, hd, ht1, ht2 => by
    obtain ⟨f, rfl⟩ : ∃ f, fuel = f + 1 + 1 := ⟨fuel - 2, by omega⟩
    have hd1 : str.drop o = ws1 ++ '"' :: (json_escape key ++ '"' :: (ws2 ++ tail)) := by
      rw [hd]; rfl
    have hd2 := drop_step str o _ _ hd1
    have hkey := parse_next_string_at f str (o + ws1.length) key _ hd2
    have hd3 : str.drop (o + ws1.length + (json_escape key).length + 2) = ws2 ++ tail := by
      have h := drop_step str (o + ws1.length) ('"' :: (json_escape key ++ ['"']))
        (ws2 ++ tail) (by rw [hd2]; simp)
      have e2 : o + ws1.length + ('"' :: (json_escape key ++ ['"'])).length
          = o + ws1.length + (json_escape key).length + 2 := by
        simp only [List.length_cons, List.length_append, List.length_nil]; omega
      rw [e2] at h
      exact h
    have hd4 := drop_step _ _ _ _ hd3
    rw [parse_object_loop_succ,
      parse_next_skip (f + 1) str o ws1 '"' _ hd1 hw1 (by decide), hkey]
    simp only []
    rw [consume_ws_tail _ _ ws2 tail hd3 hw2 ht1, charAt_tail _ _ _ hd4]
    simp only [ne_eq, ht2, not_false_eq_true, if_true, List.foldl_nil]
    exact ok_pair_congr _ _ _ (by simp [members_front])
  | e :: rest, ws1, key, ws2, done, fuel, str, o, tail, hs, hr, hw1, hw2, hf, hd, ht1, ht2 => by
    obtain ⟨f, rfl⟩ : ∃ f, fuel = f + 1 := ⟨fuel - 1, by omega⟩
    have hto : (json.string e.key).to_string = json_escape e.key := rfl
    have hpl : (members_front (e :: rest)).length
        = (member_text e).length + 1 + (members_front rest).length := by
      simp only [members_front, List.length_append, List.length_cons]; omega
    rw [hpl] at hf
    obtain ⟨h1, h2, h3, h4, h5, h6, h7⟩ := parse_member_any e f str o
      (',' :: (members_front rest ++ (ws1 ++ '"' :: (json_escape key ++ '"' ::
        (ws2 ++ tail)))))
      (hs e (by simp)) (hr e (by simp)) (by omega)
      (by rw [hd, members_front]; simp) (show isspace ',' = false by decide)
    rw [parse_object_loop_succ, h1]
    simp only []
    rw [h2, h3]
    simp only [ne_eq, not_true_eq_false, if_false]
    rw [h4]
    simp only []
    rw [h5, h6, hto, assign_key_object]
    simp only [List.headD_cons, if_true]
    rw [parse_object_loop_bad_colon rest ws1 key ws2 _ f str _ tail
      (fun e2 he2 => hs e2 (List.mem_cons_of_mem _ he2))
      (fun e2 he2 => hr e2 (List.mem_cons_of_mem _ he2)) hw1 hw2
      (by omega) (drop_succ _ _ _ _ h7) ht1 ht2]
    rw [List.foldl_cons]
    exact ok_pair_congr _ _ _ (by omega)

theorem element_head (e : element) (tail : Str) (hs : element_spaced e = true)
    (hr : reads_clean e.text e.value) :
    ∃ ws x tl, element_text e ++ tail = ws ++ x :: tl ∧ (∀ c ∈ ws, isspace c = true) ∧
      isspace x = false ∧ x ≠ ']' := by
  obtain ⟨hw1, _⟩ := (element_spaced_iff e).1 hs
  obtain ⟨ws, x, tl, htx, hws, hx, hx2⟩ := parses_as_head e.text e.value
    (reads_clean_parses_as _ _ hr)
  refine ⟨e.ws_before ++ ws, x, tl ++ e.ws_after ++ tail, ?_, ?_, hx, hx2⟩
  · rw [element_text, htx]; simp
  · intro c hc
    rcases List.mem_append.1 hc with hc | hc
    · exact hw1 c hc
    · exact hws c hc

theorem elements_head (init : List element) (last : element) (tail : Str)
    (hs : ∀ e ∈ init ++ [last], element_spaced e = true)
    (hr : ∀ e ∈ init ++ [last], reads_clean e.text e.value) :
    ∃ ws x tl, elements_front init ++ (element_text last ++ tail) = ws ++ x :: tl ∧
      (∀ c ∈ ws, isspace c = true) ∧ isspace x = false ∧ x ≠ ']' := by
  cases init with
  | nil => exact element_head last tail (hs last (by simp)) (hr last (by simp))
  | cons e rest =>
    obtain ⟨ws, x, tl, h, hw, hx, hx2⟩ := element_head e
      (',' :: (elements_front rest ++ (element_text last ++ tail)))
      (hs e (by simp)) (hr e (by simp))
    refine ⟨ws, x, tl, ?_, hw, hx, hx2⟩
    rw [← h, elements_front]; simp

theorem members_head (init : List member) (ws1 key : Str) (tail : Str)
    (hs : ∀ e ∈ init, member_spaced e = true) (hw1 : ∀ c ∈ ws1, isspace c = true) :
    ∃ ws tl, members_front init ++ (ws1 ++ '"' :: (json_escape key ++ tail)) = ws ++ '"' :: tl ∧
      (∀ c ∈ ws, isspace c = true) := by
  cases init with
  | nil => exact ⟨ws1, _, rfl, hw1⟩
  | cons e rest =>
    obtain ⟨hw, _, _, _⟩ := (member_spaced_iff e).1 (hs e (List.mem_cons_self _ _))
    refine ⟨e.ws_key, json_escape e.key ++ '"' :: (e.ws_colon ++ ':' :: (e.ws_value
      ++ (e.text ++ e.ws_end))) ++ ',' :: (members_front rest ++ (ws1 ++ '"' ::
      (json_escape key ++ tail))), ?_, hw⟩
    rw [members_front, member_text]
    simp

/-- An array text that breaks off after an element, at the cursor: `parse_next`
returns an empty Array. -/
theorem parse_next_array_bad (init : List element) (last : element) (tail : Str)
    (fuel : Nat) (str : Str) (o : Nat)
    (hs : ∀ e ∈ init ++ [last], element_spaced e = true)
    (hr : ∀ e ∈ init ++ [last], reads_clean e.text e.value)
    (hn : init.length + 1 < 2 ^ 32)
    (hf : 3 * ((elements_front init).length + (element_text last).length) + 11 ≤ fuel)
    (hd : str.drop o = '[' :: (elements_front init ++ (element_text last ++ tail)))
    (ht1 : isspace (tail.headD '\x00') = false) (ht2 : tail.headD '\x00' ≠ ',')
    (ht3 : tail.headD '\x00' ≠ ']') :
    parse_next fuel str o = Except.ok (json.array [],
      o + 1 + (elements_front init).length + (element_text last).length) := by
  obtain ⟨g, rfl⟩ : ∃ g, fuel = g + 1 + 1 := ⟨fuel - 2, by omega⟩
  have h1 := drop_succ _ o _ _ hd
  obtain ⟨ws, x, tl, htx, hws, hx, hx2⟩ := elements_head init last tail hs hr
  have h2 : str.drop (o + 1) = ws ++ x :: tl := by rw [h1, htx]
  rw [parse_next_succ]
  simp only [consume_ws_stay _ o '[' _ hd (by decide), charAt_at _ o '[' _ hd]
  simp only [if_true]
  rw [parse_array_succ]
  have e1 := consume_ws_at _ _ _ x _ h2 hws hx
  have e2 := charAt_at _ _ x _ (drop_step _ _ _ _ h2)
  rw [← e1] at e2
  rw [e2, if_neg hx2, make_array]
  have h3 : parse_array_loop g str (consume_ws str (o + 1)) (json.array []) 0
      = parse_array_loop g str (o + 1) (json.array []) 0 := by
    cases g with
    | zero => rfl
    | succ g2 => rw [parse_array_loop_succ, parse_array_loop_succ, parse_next_consume]
  have hst := store_all_append [] ((init ++ [last]).map (fun e => e.value))
    (by simp only [List.length_nil, List.length_map, List.length_append,
      List.length_singleton]; omega)
  rw [h3, parse_array_loop_bad init last (json.array []) _ 0 g str (o + 1) tail hs hr
    (by omega) h1 ht1 ht2 ht3 hst]

/-- An object text that breaks off after a member, at the cursor: `parse_next`
returns the Object with the entries of all the members read. -/
theorem parse_next_object_bad_comma (init : List member) (last : member) (tail : Str)
    (fuel : Nat) (str : Str) (o : Nat)
    (hs : ∀ e ∈ init ++ [last], member_spaced e = true)
    (hr : ∀ e ∈ init ++ [last], reads_clean e.text e.value)
    (hf : 3 * ((members_front init).length + (member_text last).length) + 8 ≤ fuel)
    (hd : str.drop o = '{' :: (members_front init ++ (member_text last ++ tail)))
    (ht1 : isspace (tail.headD '\x00') = false) (ht2 : tail.headD '\x00' ≠ ',')
    (ht3 : tail.headD '\x00' ≠ '}') :
    parse_next fuel str o = Except.ok (json.object ((init ++ [last]).foldl
        (fun m e => map_store (map_index m (json_escape e.key)) (json_escape e.key) e.value)
        []),
      o + 1 + (members_front init).length + (member_text last).length) := by
  obtain ⟨g, rfl⟩ : ∃ g, fuel = g + 1 + 1 := ⟨fuel - 2, by omega⟩
  have h1 := drop_succ _ o _ _ hd
  obtain ⟨hl1, _, _, _⟩ := (member_spaced_iff last).1 (hs last (by simp))
  obtain ⟨ws, tl, htx, hws⟩ := members_head init last.ws_key last.key
    ('"' :: (last.ws_colon ++ ':' :: (last.ws_value ++ (last.text ++ last.ws_end))) ++ tail)
    (fun e he => hs e (by simp [he])) hl1
  have h2 : str.drop (o + 1) = ws ++ '"' :: tl := by
    rw [h1, ← htx, member_text]; simp
  rw [parse_next_succ]
  simp only [consume_ws_stay _ o '{' _ hd (by decide), charAt_at _ o '{' _ hd]
  simp only [Char.reduceEq, if_false, if_true]
  rw [parse_object_succ, consume_ws_at _ _ ws '"' _ h2 hws (by decide),
    charAt_at _ _ '"' _ (drop_step _ _ _ _ h2)]
  simp only [Char.reduceEq, if_false]
  rw [make_object, parse_object_loop_over _ _ (o + 1) ws _ _ h2 hws,
    parse_object_loop_bad_comma init last [] _ str (o + 1) tail hs hr (by omega) h1 ht1 ht2
      ht3]

/-- An object text that breaks off after a key, at the cursor: `parse_next`
returns the Object with the entries of the members before that key. -/
theorem parse_next_object_bad_colon (init : List member) (ws1 key ws2 tail : Str)
    (fuel : Nat) (str : Str) (o : Nat)
    (hs : ∀ e ∈ init, member_spaced e = true)
    (hr : ∀ e ∈ init, reads_clean e.text e.value)
    (hw1 : ∀ c ∈ ws1, isspace c = true) (hw2 : ∀ c ∈ ws2, isspace c = true)
    (hf : 3 * (members_front init).length + 8 ≤ fuel)
    (hd : str.drop o = '{' :: (members_front init ++ (ws1 ++ '"' :: (json_escape key ++
      '"' :: (ws2 ++ tail)))))
    (ht1 : isspace (tail.headD '\x00') = false) (ht2 : tail.headD '\x00' ≠ ':') :
    parse_next fuel str o = Except.ok (json.object (init.foldl
        (fun m e => map_store (map_index m (json_escape e.key)) (json_escape e.key) e.value)
        []),
      o + 1 + (members_front init).length + ws1.length + (json_escape key).length + 2
        + ws2.length) := by
  obtain ⟨g, rfl⟩ : ∃ g, fuel = g + 1 + 1 := ⟨fuel - 2, by omega⟩
  have h1 := drop_succ _ o _ _ hd
  obtain ⟨ws, tl, htx, hws⟩ := members_head init ws1 key ('"' :: (ws2 ++ tail)) hs hw1
  have h2 : str.drop (o + 1) = ws ++ '"' :: tl := by rw [h1, ← htx]
  rw [parse_next_succ]
  simp only [consume_ws_stay _ o '{' _ hd (by decide), charAt_at _ o '{' _ hd]
  simp only [Char.reduceEq, if_false, if_true]
  rw [parse_object_succ, consume_ws_at _ _ ws '"' _ h2 hws (by decide),
    charAt_at _ _ '"' _ (drop_step _ _ _ _ h2)]
  simp only [Char.reduceEq, if_false]
  rw [make_object, parse_object_loop_over _ _ (o + 1) ws _ _ h2 hws,
    parse_object_loop_bad_colon init ws1 key ws2 [] _ str (o + 1) tail hs hr hw1 hw2
      (by omega) h1 ht1 ht2]

/-- The error exit of the loop of `parse_array`: after an element, a character
that is neither `,` nor `]` ends the loop with a fresh empty Array, whatever
the Array built so far. -/
theorem parse_array_loop_exit (f : Nat) (str : Str) (o : Nat) (arr : json) (i : Nat)
    (x : json) (o1 : Nat) (a : json) (h1 : parse_next f str o = Except.ok (x, o1))
    (h2 : arr.assign_pos (i % 2 ^ 32) x = Except.ok a)
    (h3 : charAt str (consume_ws str o1) ≠ ',') (h4 : charAt str (consume_ws str o1) ≠ ']') :
    parse_array_loop (f + 1) str o arr i = Except.ok (json.array [], consume_ws str o1) := by
  rw [parse_array_loop_succ, h1]
  simp only [h2, h3, h4, if_false, make_array]

/-- The first error exit of the loop of `parse_object`: after a key, a character
other than `:` ends the loop with the Object built so far. -/
theorem parse_object_loop_exit_colon (f : Nat) (str : Str) (o : Nat) (obj key : json)
    (o1 : Nat) (h1 : parse_next f str o = Except.ok (key, o1))
    (h2 : charAt str (consume_ws str o1) ≠ ':') :
    parse_object_loop (f + 1) str o obj = Except.ok (obj, consume_ws str o1) := by
  rw [parse_object_loop_succ, h1]
  simp only [h2, ne_eq, not_false_eq_true, if_true]

/-- The second error exit of the loop of `parse_object`: after a value, a
character that is neither `,` nor the closing brace ends the loop with the
Object built so far, the entry of that value included. -/
theorem parse_object_loop_exit_comma (f : Nat) (str : Str) (o : Nat) (obj key value : json)
    (o1 o4 : Nat) (h1 : parse_next f str o = Except.ok (key, o1))
    (h2 : charAt str (consume_ws str o1) = ':')
    (h3 : parse_next f str (consume_ws str (consume_ws str o1 + 1)) = Except.ok (value, o4))
    (h4 : charAt str (consume_ws str o4) ≠ ',') (h5 : charAt str (consume_ws str o4) ≠ '\x7d') :
    parse_object_loop (f + 1) str o obj
      = Except.ok (obj.assign_key key.to_string value, consume_ws str o4) := by
  rw [parse_object_loop_succ, h1]
  simp only [h2, ne_eq, not_true_eq_false, if_false, h3, h4, h5]

/-- C35: a malformed array loses its elements. When the elements of an array
text are each read to their end and the text breaks off after the last of
them on a character that is neither white space nor `,` nor `]` (the end of
the text included), `load` returns the empty Array, of length 0, whatever the
elements were. An object text that breaks off after a member on a character
that is neither `,` nor `}` yields the Object with the entries of all its
members, that one included; one that breaks off after a key on a character
other than `:` yields the Object with the entries of the members before that
key. In general, whatever the Array or Object built so far: an iteration of
the loop of `parse_array` that finds neither `,` nor `]` after its element
returns a fresh empty Array, and an iteration of the loop of `parse_object`
that finds no `:` after its key, or neither `,` nor the closing brace after its
value, returns the Object built so far. -/
theorem malformed_array_loses_elements (init : List element) (last : element) (ta : Str)
    (minit : List member) (mlast : member) (tm : Str) (ws1 key ws2 tc : Str)
    (hes : ∀ e ∈ init ++ [last], element_spaced e = true)
    (her : ∀ e ∈ init ++ [last], reads_clean e.text e.value)
    (hn : init.length + 1 < 2 ^ 32)
    (hta : isspace (ta.headD '\x00') = false ∧ ta.headD '\x00' ≠ ',' ∧ ta.headD '\x00' ≠ ']')
    (hms : ∀ e ∈ minit ++ [mlast], member_spaced e = true)
    (hmr : ∀ e ∈ minit ++ [mlast], reads_clean e.text e.value)
    (htm : isspace (tm.headD '\x00') = false ∧ tm.headD '\x00' ≠ ',' ∧ tm.headD '\x00' ≠ '}')
    (hw1 : ∀ c ∈ ws1, isspace c = true) (hw2 : ∀ c ∈ ws2, isspace c = true)
    (htc : isspace (tc.headD '\x00') = false ∧ tc.headD '\x00' ≠ ':') :
    load ('[' :: (elements_front init ++ (element_text last ++ ta)))
      = Except.ok (json.array []) ∧
    (json.array []).length = 0 ∧
    (∃ m, load ('\x7b' :: (members_front minit ++ (member_text mlast ++ tm)))
        = Except.ok (json.object m) ∧
      ∀ k, map_find m k = last_value (minit ++ [mlast]) k) ∧
    (∃ m, load ('\x7b' :: (members_front minit ++ (ws1 ++ '"' :: (json_escape key ++ '"' ::
          (ws2 ++ tc))))) = Except.ok (json.object m) ∧
      ∀ k, map_find m k = last_value minit k) ∧
    (∀ (f : Nat) (str : Str) (o : Nat) (arr : json) (i : Nat) (x : json) (o1 : Nat) (a : json),
      parse_next f str o = Except.ok (x, o1) →
      arr.assign_pos (i % 2 ^ 32) x = Except.ok a →
      charAt str (consume_ws str o1) ≠ ',' → charAt str (consume_ws str o1) ≠ ']' →
      parse_array_loop (f + 1) str o arr i
        = Except.ok (json.array [], consume_ws str o1)) ∧
    (∀ (f : Nat) (str : Str) (o : Nat) (obj key : json) (o1 : Nat),
      parse_next f str o = Except.ok (key, o1) → charAt str (consume_ws str o1) ≠ ':' →
      parse_object_loop (f + 1) str o obj = Except.ok (obj, consume_ws str o1)) ∧
    (∀ (f : Nat) (str : Str) (o : Nat) (obj key value : json) (o1 o4 : Nat),
      parse_next f str o = Except.ok (key, o1) → charAt str (consume_ws str o1) = ':' →
      parse_next f str (consume_ws str (consume_ws str o1 + 1)) = Except.ok (value, o4) →
      charAt str (consume_ws str o4) ≠ ',' → charAt str (consume_ws str o4) ≠ '\x7d' →
      parse_object_loop (f + 1) str o obj
        = Except.ok (obj.assign_key key.to_string value, consume_ws str o4)) := by
  refine ⟨?_, rfl,
    ⟨(minit ++ [mlast]).foldl (fun m e => map_store (map_index m (json_escape e.key))
      (json_escape e.key) e.value) [], ?_, ?_⟩,
    ⟨minit.foldl (fun m e => map_store (map_index m (json_escape e.key))
      (json_escape e.key) e.value) [], ?_, ?_⟩,
    parse_array_loop_exit, parse_object_loop_exit_colon, parse_object_loop_exit_comma⟩
  · rw [load, parse_next_array_bad init last ta _ _ 0 hes her hn
      (by simp only [load_fuel, List.length_cons, List.length_append]; omega) rfl
      hta.1 hta.2.1 hta.2.2]
    rfl
  · rw [load, parse_next_object_bad_comma minit mlast tm _ _ 0 hms hmr
      (by simp only [load_fuel, List.length_cons, List.length_append]; omega) rfl
      htm.1 htm.2.1 htm.2.2]
    rfl
  · intro k
    rw [fold_put_find]
    cases last_value (minit ++ [mlast]) k <;> rfl
  · rw [load, parse_next_object_bad_colon minit ws1 key ws2 tc _ _ 0
      (fun e he => hms e (by simp [he])) (fun e he => hmr e (by simp [he])) hw1 hw2
      (by simp only [load_fuel, List.length_cons, List.length_append]; omega) rfl
      htc.1 htc.2]
    rfl
  · intro k
    rw [fold_put_find]
    cases last_value minit k <;> rfl

/-- C35 on the texts `[true, null x`, `{"a":true ,"b":null"c"` and
`{"a":true , "c" 1}`. -/
theorem malformed_array_loses_elements_witness :
    load "[true, null x".toList = Except.ok (json.array []) ∧
    (json.array []).length = 0 ∧
    (∃ m, load "\x7b\"a\":true ,\"b\":null\"c\"".toList = Except.ok (json.object m) ∧
      map_find m ['a'] = some (json.boolean true) ∧ map_find m ['b'] = some json.null) ∧
    (∃ m, load "\x7b\"a\":true , \"c\" 1\x7d".toList = Except.ok (json.object m) ∧
      map_find m ['a'] = some (json.boolean true) ∧ map_find m ['c'] = none) := by
  obtain ⟨h1, h2, ⟨m1, h3, h3b⟩, ⟨m2, h4, h4b⟩, _⟩ := malformed_array_loses_elements
    [⟨[], ['t', 'r', 'u', 'e'], json.boolean true, []⟩]
    ⟨[' '], ['n', 'u', 'l', 'l'], json.null, [' ']⟩ ['x']
    [⟨[], ['a'], [], [], ['t', 'r', 'u', 'e'], json.boolean true, [' ']⟩]
    ⟨[], ['b'], [], [], ['n', 'u', 'l', 'l'], json.null, []⟩ ['"', 'c', '"']
    [' '] ['c'] [' '] ['1', '\x7d']
    (by decide)
    (by
      intro e he
      simp only [List.cons_append, List.nil_append, List.mem_cons, List.mem_singleton,
        List.not_mem_nil, or_false] at he
      rcases he with rfl | rfl
      · exact reads_clean_samples.1
      · exact reads_clean_samples.2.1)
    (by decide) (by decide) (by decide)
    (by
      intro e he
      simp only [List.cons_append, List.nil_append, List.mem_cons, List.mem_singleton,
        List.not_mem_nil, or_false] at he
      rcases he with rfl | rfl
      · exact reads_clean_samples.1
      · exact reads_clean_samples.2.1)
    (by decide) (by decide) (by decide) (by decide)
  have a1 := h3b ['a']
  have a2 := h3b ['b']
  have b1 := h4b ['a']
  have b2 := h4b ['c']
  simp only [List.cons_append, List.nil_append, last_value, json_escape, List.append_nil,
    List.cons.injEq, Char.reduceEq, and_true, if_true, if_false] at a1 a2 b1 b2
  exact ⟨(congrArg load (by decide)).trans h1, h2,
    ⟨m1, (congrArg load (by decide)).trans h3, a1, a2⟩,
    ⟨m2, (congrArg load (by decide)).trans h4, b1, b2⟩⟩

/-! ## The cursor and the end of the text -/

/-- The first loop of `parse_number` on a run of `-`, digits and `.` that ends the
text: the loop ends on the terminating NUL and leaves the cursor one past it. -/
theorem parse_number_loop_end (w : Str) (off : Nat) (value : Str) (fl : Bool)
    (hw : number_chars w = true) :
    parse_number_loop w off value fl
      = (value ++ w, fl || w.contains '.', '\x00', off + w.length + 1) := by
  have h := parse_number_loop_at w '\x00' [] off value fl hw (by decide)
  have e : ∀ (l : Str) (o : Nat) (v : Str) (b : Bool), number_chars l = true →
      parse_number_loop l o v b = parse_number_loop (l ++ ['\x00']) o v b := by
    intro l
    induction l with
    | nil => intro o v b _; rfl
    | cons a l ih =>
      intro o v b hl
      rw [number_chars, List.all_cons, Bool.and_eq_true] at hl
      rw [List.cons_append, parse_number_loop, parse_number_loop, ih _ _ _ hl.2,
        ih _ _ _ hl.2]
  rw [e w off value fl hw, h]

/-- A run of `-`, digits and `.` that ends the text: `parse_number` returns Null
on its error path, with the cursor one past the terminating NUL. -/
theorem parse_number_end (w str : Str) (p : Nat) (hw : number_chars w = true)
    (hd : str.drop p = w) :
    parse_number str p = Except.ok (json.null, p + w.length + 1) := by
  rw [parse_number, hd, parse_number_loop_end w p [] false hw]
  rfl

theorem digit_dispatch (d : Char) (h : isdigit d = true) :
    d ≠ '[' ∧ d ≠ '\x7b' ∧ d ≠ '"' ∧ d ≠ 't' ∧ d ≠ 'f' ∧ d ≠ 'n' ∧ d ≠ ']' ∧
      isspace d = false ∧ (decide (d ≤ '9') && decide (d ≥ '0')) = true := by
  refine ⟨?_, ?_, ?_, ?_, ?_, ?_, ?_, ?_, ?_⟩
  · rintro rfl; exact absurd h (by decide)
  · rintro rfl; exact absurd h (by decide)
  · rintro rfl; exact absurd h (by decide)
  · rintro rfl; exact absurd h (by decide)
  · rintro rfl; exact absurd h (by decide)
  · rintro rfl; exact absurd h (by decide)
  · rintro rfl; exact absurd h (by decide)
  · cases hs : isspace d with
    | false => rfl
    | true =>
      simp only [isspace, Bool.or_eq_true, decide_eq_true_eq] at hs
      rcases hs with ((((rfl | rfl) | rfl) | rfl) | rfl) | rfl <;> exact absurd h (by decide)
  · simp only [isdigit, Bool.and_eq_true, decide_eq_true_eq] at h
    simp only [Bool.and_eq_true, decide_eq_true_eq, ge_iff_le]
    exact ⟨h.2, h.1⟩

/-- A number text at the cursor that ends the text: `parse_next` returns Null and
leaves the cursor one past the terminating NUL. -/
theorem parse_next_number_end (fuel : Nat) (d : Char) (w str : Str) (p : Nat)
    (hd : isdigit d = true) (hw : number_chars w = true) (h : str.drop p = d :: w) :
    parse_next (fuel + 1) str p = Except.ok (json.null, p + w.length + 2) := by
  obtain ⟨h1, h2, h3, h4, h5, h6, _, h8, h9⟩ := digit_dispatch d hd
  have hn : number_chars (d :: w) = true := by
    rw [number_chars, List.all_cons, Bool.and_eq_true]
    exact ⟨by simp [hd], hw⟩
  rw [parse_next_succ]
  simp only [consume_ws_stay str p d w h h8, charAt_at str p d w h]
  rw [if_neg h1, if_neg h2, if_neg h3, if_neg (by simp [h4, h5]), if_neg h6,
    if_pos (by rw [h9]; rfl), parse_number_end (d :: w) str p hn h]
  rfl

/-- The loop of `parse_string` on a text without a quote and without a backslash:
the scan leaves the text. -/
theorem parse_string_loop_runs_away (s : Str) (off : Nat) (value : Str)
    (hs : ∀ c ∈ s, c ≠ '"' ∧ c ≠ '\\') :
    parse_string_loop s off value = Except.error Fault.runaway := by
  induction s generalizing off value with
  | nil => rw [parse_string_loop.eq_def]
  | cons c s ih =>
    have hc := hs c (List.mem_cons_self _ _)
    rw [parse_string_loop_plain c s off value hc.1 hc.2]
    exact ih _ _ (fun x hx => hs x (List.mem_cons_of_mem _ hx))

/-- C31: the cursor does not stay in the text. On a text that ends inside a
number, as `[1` does, `parse_number` reads the terminating NUL at the index
`L` (the length of the text), takes it for an unexpected character and returns
with the cursor at `L + 1`; `parse_array` then calls `consume_ws` with that
cursor, which reads the index `L + 1`, and `parse_next` returns to `load` with
the cursor at `L + 1`. The same holds for a number text alone. On a text that
ends inside a string literal without a closing quote and without a backslash
the loop of `parse_string` has no test for the end of the text and leaves the
text. -/
theorem cursor_leaves_text (d : Char) (w s : Str) (hd : isdigit d = true)
    (hw : number_chars w = true) (hs : ∀ c ∈ s, c ≠ '"' ∧ c ≠ '\\') :
    parse_number ('[' :: d :: w) 1 = Except.ok (json.null, ('[' :: d :: w).length + 1) ∧
    consume_ws ('[' :: d :: w) (('[' :: d :: w).length + 1) = ('[' :: d :: w).length + 1 ∧
    parse_next (load_fuel ('[' :: d :: w)) ('[' :: d :: w) 0
      = Except.ok (json.array [], ('[' :: d :: w).length + 1) ∧
    parse_next (load_fuel (d :: w)) (d :: w) 0 = Except.ok (json.null, (d :: w).length + 1) ∧
    load ('"' :: s) = Except.error Fault.runaway := by
  obtain ⟨_, _, _, _, _, _, h7, h8, _⟩ := digit_dispatch d hd
  have hn : number_chars (d :: w) = true := by
    rw [number_chars, List.all_cons, Bool.and_eq_true]
    exact ⟨by simp [hd], hw⟩
  have hpast : ('[' :: d :: w).drop (('[' :: d :: w).length + 1) = [] :=
    List.drop_eq_nil_of_le (by omega)
  have hws : consume_ws ('[' :: d :: w) (('[' :: d :: w).length + 1)
      = ('[' :: d :: w).length + 1 := by
    rw [consume_ws, hpast]; rfl
  have hch : charAt ('[' :: d :: w) (('[' :: d :: w).length + 1) = '\x00' := by
    rw [charAt_eq_head, hpast]; rfl
  refine ⟨?_, hws, ?_, ?_, ?_⟩
  · rw [parse_number_end (d :: w) ('[' :: d :: w) 1 hn rfl]
    exact ok_pair_congr _ _ _ (by simp only [List.length_cons]; omega)
  · have hf : load_fuel ('[' :: d :: w) = (3 * w.length + 10 + 1) + 1 + 1 + 1 := by
      simp only [load_fuel, List.length_cons]; omega
    have hnum := parse_next_number_end (3 * w.length + 10) d w ('[' :: d :: w) (0 + 1) hd hw
      rfl
    have hlen : 0 + 1 + w.length + 2 = ('[' :: d :: w).length + 1 := by
      simp only [List.length_cons]; omega
    rw [hlen] at hnum
    rw [hf, parse_next_succ]
    simp only [consume_ws_stay ('[' :: d :: w) 0 '[' (d :: w) rfl (by decide),
      charAt_at ('[' :: d :: w) 0 '[' (d :: w) rfl, if_true]
    rw [parse_array_succ, consume_ws_stay ('[' :: d :: w) (0 + 1) d w rfl h8,
      charAt_at ('[' :: d :: w) (0 + 1) d w rfl, if_neg h7, make_array,
      parse_array_loop_succ, hnum]
    simp only [hws, hch]
    rfl
  · have hf : load_fuel (d :: w) = (3 * w.length + 10) + 1 := by
      simp only [load_fuel, List.length_cons]; omega
    rw [hf, parse_next_number_end _ d w (d :: w) 0 hd hw rfl]
    exact ok_pair_congr _ _ _ (by simp only [List.length_cons]; omega)
  · rw [load, load_fuel, parse_next_succ]
    simp only [consume_ws_stay ('"' :: s) 0 '"' s rfl (by decide),
      charAt_at ('"' :: s) 0 '"' s rfl]
    simp only [Char.reduceEq, if_false, if_true]
    rw [parse_string]
    simp only [Nat.zero_add, List.drop_succ_cons, List.drop_zero]
    rw [parse_string_loop_runs_away s _ _ hs]
    rfl

/-- C31 on the texts `[1`, `1` and `"a`: the cursor that `parse_next` returns on
`[1`, of length 2, is 3. -/
theorem cursor_leaves_text_witness :
    parse_number ['[', '1'] 1 = Except.ok (json.null, 3) ∧
    consume_ws ['[', '1'] 3 = 3 ∧
    parse_next (load_fuel ['[', '1']) ['[', '1'] 0 = Except.ok (json.array [], 3) ∧
    parse_next (load_fuel ['1']) ['1'] 0 = Except.ok (json.null, 2) ∧
    load ['"', 'a'] = Except.error Fault.runaway :=
  cursor_leaves_text '1' [] ['a'] (by decide) (by decide) (by decide)

/-! ## Texts without a quote

On a text without a double quote `parse_string` is never entered, so that the
only ways out of the parser other than a value are the exceptions of
`std::stoll` and `std::stod` and, on a text of 2^32 characters or more, the
store at the index where `index + 1` wraps. -/

theorem charAt_mem (t : Str) (i : Nat) (h : charAt t i ≠ '\x00') : charAt t i ∈ t := by
  have hlt := charAt_lt t i h
  rw [charAt, List.getD_eq_getElem _ _ hlt]
  exact List.getElem_mem _

theorem consume_ws_le_length (t : Str) (o : Nat) (h : o ≤ t.length) :
    consume_ws t o ≤ t.length := by
  have := (consume_ws_loop_le (t.drop o) o).2
  rw [List.length_drop] at this
  rw [consume_ws]
  omega

theorem stoll_throws (s : Str) (e : Fault) (h : stoll s = Except.error e) :
    e = Fault.invalid_argument ∨ e = Fault.out_of_range := by
  unfold stoll at h
  simp only at h
  split_ifs at h <;> simp at h <;> subst h <;> decide

theorem stod_throws (s : Str) (e : Fault) (h : stod s = Except.error e) :
    e = Fault.invalid_argument ∨ e = Fault.out_of_range := by
  unfold stod at h
  simp only at h
  split_ifs at h <;> simp at h <;> subst h <;> decide

theorem parse_number_value_throws (value : Str) (fl : Bool) (ev : Str) (ex : Int) (e : Fault)
    (h : parse_number_value value fl ev ex = Except.error e) :
    e = Fault.invalid_argument ∨ e = Fault.out_of_range := by
  unfold parse_number_value at h
  split_ifs at h
  · cases hs : stod value with
    | error e2 => rw [hs] at h; simp [Except.map] at h; subst h; exact stod_throws _ _ hs
    | ok x => rw [hs] at h; simp [Except.map] at h
  · cases hs : stoll value with
    | error e2 => rw [hs] at h; simp [Except.map] at h; subst h; exact stoll_throws _ _ hs
    | ok x => rw [hs] at h; simp [Except.map] at h
  · cases hs : stoll value with
    | error e2 => rw [hs] at h; simp [Except.map] at h; subst h; exact stoll_throws _ _ hs
    | ok x => rw [hs] at h; simp [Except.map] at h

theorem map_error (r : Except Fault json) (a : Nat) (e : Fault)
    (h : r.map (fun number => (number, a)) = Except.error e) : r = Except.error e := by
  cases r with
  | error e2 => simp [Except.map] at h; rw [h]
  | ok v => simp [Except.map] at h

/-- What `parse_number` throws is an exception of `std::stoll` or `std::stod`. -/
theorem parse_number_throws (str : Str) (o : Nat) (e : Fault)
    (h : parse_number str o = Except.error e) :
    e = Fault.invalid_argument ∨ e = Fault.out_of_range := by
  rw [parse_number] at h
  rcases hloop : parse_number_loop (str.drop o) o [] false with ⟨value, fl, c, n⟩
  rw [hloop] at h
  simp only at h
  by_cases h1 : (c = 'E' || c = 'e') = true
  · rw [if_pos h1] at h
    rcases hexp : parse_exponent_loop
        (str.drop (if charAt str n = '-' then n + 1 + 1 else n + 1))
        (if charAt str n = '-' then n + 1 + 1 else n + 1)
        (if charAt str n = '-' then ['-'] else []) with ⟨ev, m⟩
    rw [hexp] at h
    rcases ev with _ | ev
    · simp at h
    · simp only at h
      cases hs : stoll ev with
      | error e2 => rw [hs] at h; simp at h; subst h; exact stoll_throws _ _ hs
      | ok ex =>
        rw [hs] at h
        exact parse_number_value_throws _ _ _ _ _ (map_error _ _ _ h)
  · rw [if_neg h1] at h
    by_cases h2 : (!isterm c) = true
    · rw [if_pos h2] at h; simp at h
    · rw [if_neg h2] at h
      exact parse_number_value_throws _ _ _ _ _ (map_error _ _ _ h)

theorem assign_pos_dangling (a : json) (i : Nat) (x : json) (e : Fault)
    (h : a.assign_pos i x = Except.error e) : e = Fault.dangling := by
  unfold assign_pos at h
  simp only at h
  split_ifs at h
  simp at h
  exact h.symm

/-- Below the largest index the store `v[i] = x` designates an element. -/
theorem assign_pos_ok (a : json) (i : Nat) (x : json) (hi : i + 1 < 2 ^ 32) :
    ∃ b, a.assign_pos (i % 2 ^ 32) x = Except.ok b := by
  rw [Nat.mod_eq_of_lt (by omega)]
  obtain ⟨l, h1, h2, _⟩ := index_pos_in_range a i hi
  unfold assign_pos
  simp only [h1]
  have he : (json.array l).elements = l := rfl
  rw [he, if_pos (by rw [h2]; omega)]
  exact ⟨_, rfl⟩

/-- On a text without a double quote, with fuel for three steps per character
left, what leaves one of the five parsing functions instead of a value is an
exception of `std::stoll` or `std::stod`, or the store through the wrapped
index of an array text of 2^32 characters or more. -/
theorem parse_faults (str : Str) (hq : '"' ∉ str) : ∀ f : Nat,
    (∀ o e, 3 * (str.length - o) + 1 ≤ f → parse_next f str o = Except.error e →
      e = Fault.invalid_argument ∨ e = Fault.out_of_range ∨
        (e = Fault.dangling ∧ 2 ^ 32 ≤ str.length)) ∧
    (∀ o e, o < str.length → 3 * (str.length - o) ≤ f →
      parse_object f str o = Except.error e →
      e = Fault.invalid_argument ∨ e = Fault.out_of_range ∨
        (e = Fault.dangling ∧ 2 ^ 32 ≤ str.length)) ∧
    (∀ o obj e, 3 * (str.length - o) + 2 ≤ f →
      parse_object_loop f str o obj = Except.error e →
      e = Fault.invalid_argument ∨ e = Fault.out_of_range ∨
        (e = Fault.dangling ∧ 2 ^ 32 ≤ str.length)) ∧
    (∀ o e, o < str.length → 3 * (str.length - o) ≤ f →
      parse_array f str o = Except.error e →
      e = Fault.invalid_argument ∨ e = Fault.out_of_range ∨
        (e = Fault.dangling ∧ 2 ^ 32 ≤ str.length)) ∧
    (∀ o arr i e, i + 1 ≤ o → o ≤ str.length → 3 * (str.length - o) + 2 ≤ f →
      parse_array_loop f str o arr i = Except.error e →
      e = Fault.invalid_argument ∨ e = Fault.out_of_range ∨
        (e = Fault.dangling ∧ 2 ^ 32 ≤ str.length)) := by
  intro f
  induction f with
  | zero =>
    refine ⟨?_, ?_, ?_, ?_, ?_⟩
    · intro o e h; omega
    · intro o e h1 h2; omega
    · intro o obj e h; omega
    · intro o e h1 h2; omega
    · intro o arr i e _ _ h; omega
  | succ f ih =>
    obtain ⟨ihn, iho, ihol, iha, ihal⟩ := ih
    obtain ⟨sn, _, _, _, _⟩ := parse_settled str f
    refine ⟨?_, ?_, ?_, ?_, ?_⟩
    · intro o e hf h
      have hge := consume_ws_ge str o
      rw [parse_next_succ] at h
      simp only at h
      split_ifs at h with h1 h2 h3 h4 h5 h6
      · have hlt := charAt_lt str _ (by rw [h1]; decide)
        exact iha _ _ hlt (by omega) h
      · have hlt := charAt_lt str _ (by rw [h2]; decide)
        exact iho _ _ hlt (by omega) h
      · have hm := charAt_mem str (consume_ws str o) (by rw [h3]; decide)
        rw [h3] at hm
        exact absurd hm hq
      · rw [parse_bool] at h
        split_ifs at h
      · rw [parse_null] at h
        split_ifs at h
      · rcases parse_number_throws _ _ _ h with h | h
        · exact Or.inl h
        · exact Or.inr (Or.inl h)
    · intro o e hlt hf h
      have hge := consume_ws_ge str (o + 1)
      rw [parse_object_succ] at h
      split_ifs at h with h1
      exact ihol _ _ _ (by omega) h
    · intro o obj e hf h
      rw [parse_object_loop_succ] at h
      have hn := sn o (by omega)
      rcases hk : parse_next f str o with e2 | ⟨key, o1⟩
      · rw [hk] at h
        simp only [Except.error.injEq] at h
        subst h
        exact ihn _ _ (by omega) hk
      rw [hk] at hn h
      have h1 : o ≤ o1 := hn
      have h2 := consume_ws_ge str o1
      simp only at h
      by_cases hcol : charAt str (consume_ws str o1) = ':'
      swap
      · rw [if_pos hcol] at h; simp at h
      rw [if_neg (by simp [hcol])] at h
      have h3 := consume_ws_ge str (consume_ws str o1 + 1)
      have hv := sn (consume_ws str (consume_ws str o1 + 1)) (by omega)
      rcases hval : parse_next f str (consume_ws str (consume_ws str o1 + 1))
        with e2 | ⟨value, o4⟩
      · rw [hval] at h
        simp only [Except.error.injEq] at h
        subst h
        exact ihn _ _ (by omega) hval
      rw [hval] at hv h
      have h4 : consume_ws str (consume_ws str o1 + 1) ≤ o4 := hv
      have h5 := consume_ws_ge str o4
      simp only at h
      split_ifs at h with h6 h7
      have hlt := charAt_lt str _ (by rw [h6]; decide)
      exact ihol _ _ _ (by omega) h
    · intro o e hlt hf h
      have hge := consume_ws_ge str (o + 1)
      have hle := consume_ws_le_length str (o + 1) (by omega)
      rw [parse_array_succ] at h
      split_ifs at h with h1
      exact ihal _ _ _ _ (by omega) hle (by omega) h
    · intro o arr i e hi ho hf h
      rw [parse_array_loop_succ] at h
      have hn := sn o (by omega)
      rcases hk : parse_next f str o with e2 | ⟨x, o1⟩
      · rw [hk] at h
        simp only [Except.error.injEq] at h
        subst h
        exact ihn _ _ (by omega) hk
      rw [hk] at hn h
      have h1 : o ≤ o1 := hn
      have h2 := consume_ws_ge str o1
      simp only at h
      rcases ha : arr.assign_pos (i % 2 ^ 32) x with e2 | arr2
      · rw [ha] at h
        simp only [Except.error.injEq] at h
        subst h
        refine Or.inr (Or.inr ⟨assign_pos_dangling _ _ _ _ ha, ?_⟩)
        by_contra hlen
        obtain ⟨b, hb⟩ := assign_pos_ok arr i x (by omega)
        rw [hb] at ha
        cases ha
      rw [ha] at h
      simp only at h
      split_ifs at h with h6 h7
      have hlt := charAt_lt str _ (by rw [h6]; decide)
      exact ihal _ _ _ _ (by omega) (by omega) (by omega) h

/-- Across a call of `parse_next` that returns a value the cursor does not move
back, whatever the text and the fuel. -/
theorem parse_next_forward (t : Str) (f o : Nat) (v : json) (o2 : Nat)
    (h : parse_next f t o = Except.ok (v, o2)) : o ≤ o2 := by
  have hne : parse_next f t o ≠ Except.error Fault.fuel := by rw [h]; simp
  have hs := (parse_shift [] t f).1 o hne (max f (3 * (t.length - o) + 1)) (le_max_left _ _)
  simp only [List.nil_append, List.length_nil, Nat.add_zero, h, shift_ok] at hs
  have hst := (parse_settled t (max f (3 * (t.length - o) + 1))).1 o (le_max_right _ _)
  rw [hs] at hst
  exact hst

/-- Across a run of the loop of `parse_array` that returns a value the cursor
does not move back. -/
theorem parse_array_loop_forward (t : Str) (f o : Nat) (arr : json) (i : Nat) (v : json)
    (o2 : Nat) (h : parse_array_loop f t o arr i = Except.ok (v, o2)) : o ≤ o2 := by
  have hne : parse_array_loop f t o arr i ≠ Except.error Fault.fuel := by rw [h]; simp
  have hs := (parse_shift [] t f).2.2.2.2 o arr i hne (max f (3 * (t.length - o) + 2))
    (le_max_left _ _)
  simp only [List.nil_append, List.length_nil, Nat.add_zero, h, shift_ok] at hs
  have hst := (parse_settled t (max f (3 * (t.length - o) + 2))).2.2.2.2 o arr i
    (le_max_right _ _)
  rw [hs] at hst
  exact hst

/-- Across a run of the loop of `parse_object` that returns a value the cursor
does not move back. -/
theorem parse_object_loop_forward (t : Str) (f o : Nat) (obj : json) (v : json)
    (o2 : Nat) (h : parse_object_loop f t o obj = Except.ok (v, o2)) : o ≤ o2 := by
  have hne : parse_object_loop f t o obj ≠ Except.error Fault.fuel := by rw [h]; simp
  have hs := (parse_shift [] t f).2.2.1 o obj hne (max f (3 * (t.length - o) + 2))
    (le_max_left _ _)
  simp only [List.nil_append, List.length_nil, Nat.add_zero, h, shift_ok] at hs
  have hst := (parse_settled t (max f (3 * (t.length - o) + 2))).2.2.1 o obj
    (le_max_right _ _)
  rw [hs] at hst
  exact hst

/-- A call of `parse_array` that returns a value leaves the cursor after the
opening bracket. -/
theorem parse_array_advances (t : Str) (f o : Nat) (v : json) (o2 : Nat)
    (h : parse_array f t o = Except.ok (v, o2)) : o < o2 := by
  cases f with
  | zero => rw [parse_array] at h; simp at h
  | succ f =>
    have hge := consume_ws_ge t (o + 1)
    rw [parse_array_succ] at h
    split_ifs at h
    · simp only [Except.ok.injEq, Prod.mk.injEq] at h
      omega
    · have := parse_array_loop_forward t f _ _ _ _ _ h
      omega

/-- A call of `parse_object` that returns a value leaves the cursor after the
opening brace. -/
theorem parse_object_advances (t : Str) (f o : Nat) (v : json) (o2 : Nat)
    (h : parse_object f t o = Except.ok (v, o2)) : o < o2 := by
  cases f with
  | zero => rw [parse_object] at h; simp at h
  | succ f =>
    have hge := consume_ws_ge t (o + 1)
    rw [parse_object_succ] at h
    split_ifs at h
    · simp only [Except.ok.injEq, Prod.mk.injEq] at h
      omega
    · have := parse_object_loop_forward t f _ _ _ _ h
      omega

/-- C32: termination. With every index at or past the end of the text read as
NUL, `load` of a text without a double quote comes to an end: it returns a
value, or `std::stoll` or `std::stod` throws, or (on a text of 2^32 characters
or more) an element is stored through the wrapped index; the parse is over
within three nested steps per character, and more fuel changes nothing. The
cursor never moves back across a call of `parse_next`; a call of
`parse_array` or `parse_object` that returns leaves the cursor further on; an
iteration of the loop of `parse_array` or of `parse_object` that goes on to
the next one does so with the cursor further on; and the first loop of
`parse_number` leaves the cursor further on. -/
theorem load_terminates_without_quote (t : Str) (hq : '"' ∉ t) :
    ((∃ v, load t = Except.ok v) ∨ load t = Except.error Fault.invalid_argument ∨
      load t = Except.error Fault.out_of_range ∨
      (load t = Except.error Fault.dangling ∧ 2 ^ 32 ≤ t.length)) ∧
    (∀ g, load_fuel t ≤ g → parse_next g t 0 = parse_next (load_fuel t) t 0) ∧
    (∀ f o v o2, parse_next f t o = Except.ok (v, o2) → o ≤ o2) ∧
    (∀ f o v o2, parse_array f t o = Except.ok (v, o2) → o < o2) ∧
    (∀ f o v o2, parse_object f t o = Except.ok (v, o2) → o < o2) ∧
    (∀ f o arr i x o1 a, parse_next f t o = Except.ok (x, o1) →
      arr.assign_pos (i % 2 ^ 32) x = Except.ok a → charAt t (consume_ws t o1) = ',' →
      parse_array_loop (f + 1) t o arr i
        = parse_array_loop f t (consume_ws t o1 + 1) a (i + 1) ∧
      o < consume_ws t o1 + 1) ∧
    (∀ f o obj key o1 value o4, parse_next f t o = Except.ok (key, o1) →
      charAt t (consume_ws t o1) = ':' →
      parse_next f t (consume_ws t (consume_ws t o1 + 1)) = Except.ok (value, o4) →
      charAt t (consume_ws t o4) = ',' →
      parse_object_loop (f + 1) t o obj
        = parse_object_loop f t (consume_ws t o4 + 1) (obj.assign_key key.to_string value) ∧
      o < consume_ws t o4 + 1) ∧
    (∀ l off value fl, off < (parse_number_loop l off value fl).2.2.2) := by
  refine ⟨?_, parse_next_fuel t, parse_next_forward t, parse_array_advances t,
    parse_object_advances t, ?_, ?_, fun l off value fl => parse_number_loop_ge l off value fl⟩
  · rw [load]
    rcases h : parse_next (load_fuel t) t 0 with e | ⟨v, o⟩
    · right
      rcases (parse_faults t hq (load_fuel t)).1 0 e (by rw [load_fuel]; omega) h
        with h1 | h1 | ⟨h1, h2⟩
      · subst h1; exact Or.inl rfl
      · subst h1; exact Or.inr (Or.inl rfl)
      · subst h1; exact Or.inr (Or.inr ⟨rfl, h2⟩)
    · exact Or.inl ⟨v, rfl⟩
  · intro f o arr i x o1 a h1 h2 h3
    have hf := parse_next_forward t f o x o1 h1
    have hge := consume_ws_ge t o1
    refine ⟨?_, by omega⟩
    rw [parse_array_loop_succ, h1]
    simp only [h2, h3, if_true]
  · intro f o obj key o1 value o4 h1 h2 h3 h4
    have hf1 := parse_next_forward t f o key o1 h1
    have hf2 := parse_next_forward t f _ value o4 h3
    have hg1 := consume_ws_ge t o1
    have hg2 := consume_ws_ge t (consume_ws t o1 + 1)
    have hg3 := consume_ws_ge t o4
    refine ⟨?_, by omega⟩
    rw [parse_object_loop_succ, h1]
    simp only [h2, ne_eq, not_true_eq_false, if_false, h3, h4, if_true]

/-- C32 on the text `[1, -2.5e10, [true, {}], x]`, which holds no double quote:
`load` returns a value. -/
theorem load_terminates_without_quote_witness :
    '"' ∉ "[1, -2.5e10, [true, \x7b\x7d], x]".toList ∧
    ((∃ v, load "[1, -2.5e10, [true, \x7b\x7d], x]".toList = Except.ok v) ∨
      load "[1, -2.5e10, [true, \x7b\x7d], x]".toList
        = Except.error Fault.invalid_argument ∨
      load "[1, -2.5e10, [true, \x7b\x7d], x]".toList = Except.error Fault.out_of_range ∨
      (load "[1, -2.5e10, [true, \x7b\x7d], x]".toList = Except.error Fault.dangling ∧
        2 ^ 32 ≤ "[1, -2.5e10, [true, \x7b\x7d], x]".toList.length)) :=
  ⟨by decide, (load_terminates_without_quote "[1, -2.5e10, [true, \x7b\x7d], x]".toList
    (by decide)).1⟩

/-! ## The two implementations

The parser and `dump` of the single header, with a `long` of 64 bits, do what
those of `json.cpp` do. -/

/-- With a `long` of 64 bits `std::stol` is `std::stoll`. -/
theorem single_stol_wide (s : Str) : single.stol 64 s = stoll s := rfl

theorem single_parse_number_loop (l : Str) (off : Nat) (val : Str) (fl : Bool) :
    single.parse_number_loop l off val fl = parse_number_loop l off val fl := by
  induction l generalizing off val fl with
  | nil => rfl
  | cons c l ih => rw [single.parse_number_loop, parse_number_loop, ih, ih]

theorem single_parse_exponent_loop (l : Str) (off : Nat) (ev : Str) :
    single.parse_exponent_loop l off ev = parse_exponent_loop l off ev := by
  induction l generalizing off ev with
  | nil => rfl
  | cons c l ih => rw [single.parse_exponent_loop, parse_exponent_loop, ih]

theorem single_parse_number_value (val : Str) (fl : Bool) (ev : Str) (ex : Int) :
    single.parse_number_value 64 val fl ev ex = parse_number_value val fl ev ex := by
  rw [single.parse_number_value, parse_number_value, single_stol_wide]

theorem single_parse_number (str : Str) (o : Nat) :
    single.parse_number 64 str o = parse_number str o := by
  rw [single.parse_number, parse_number, single_parse_number_loop]
  simp only [single_parse_exponent_loop, single_stol_wide, single_parse_number_value]

theorem single_parse_next_succ (b fuel : Nat) (str : Str) (offset : Nat) :
    single.parse_next b (fuel + 1) str offset =
      (let offset := consume_ws str offset
       let value := charAt str offset
       if value = '[' then single.parse_array b fuel str offset
       else if value = '\x7b' then single.parse_object b fuel str offset
       else if value = '"' then parse_string str offset
       else if value = 't' || value = 'f' then parse_bool str offset
       else if value = 'n' then parse_null str offset
       else if (decide (value ≤ '9') && decide (value ≥ '0')) || value = '-' then
         single.parse_number b str offset
       else Except.ok (json.null, offset)) := by
  rw [single.parse_next]

theorem single_parse_object_succ (b fuel : Nat) (str : Str) (offset : Nat) :
    single.parse_object b (fuel + 1) str offset =
      (if charAt str (consume_ws str (offset + 1)) = '\x7d' then
        Except.ok (make class_type.object, consume_ws str (offset + 1) + 1)
      else single.parse_object_loop b fuel str (consume_ws str (offset + 1))
        (make class_type.object)) := by
  rw [single.parse_object]

theorem single_parse_array_succ (b fuel : Nat) (str : Str) (offset : Nat) :
    single.parse_array b (fuel + 1) str offset =
      (if charAt str (consume_ws str (offset + 1)) = ']' then
        Except.ok (make class_type.array, consume_ws str (offset + 1) + 1)
      else single.parse_array_loop b fuel str (consume_ws str (offset + 1))
        (make class_type.array) 0) := by
  rw [single.parse_array]

theorem single_parse_object_loop_succ (b fuel : Nat) (str : Str) (offset : Nat)
    (json_object : json) :
    single.parse_object_loop b (fuel + 1) str offset json_object =
      (match single.parse_next b fuel str offset with
      | Except.error e => Except.error e
      | Except.ok (key, offset) =>
        let offset := consume_ws str offset
        if charAt str offset ≠ ':' then Except.ok (json_object, offset)
        else
          let offset := consume_ws str (offset + 1)
          match single.parse_next b fuel str offset with
          | Except.error e => Except.error e
          | Except.ok (value, offset) =>
            let json_object := json_object.assign_key key.to_string value
            let offset := consume_ws str offset
            if charAt str offset = ',' then
              single.parse_object_loop b fuel str (offset + 1) json_object
            else if charAt str offset = '\x7d' then Except.ok (json_object, offset + 1)
            else Except.ok (json_object, offset)) := by
  rw [single.parse_object_loop]

theorem single_parse_array_loop_succ (b fuel : Nat) (str : Str) (offset : Nat)
    (json_array : json) (index : Nat) :
    single.parse_array_loop b (fuel + 1) str offset json_array index =
      (match single.parse_next b fuel str offset with
      | Except.error e => Except.error e
      | Except.ok (x, offset) =>
        match json_array.assign_pos index x with
        | Except.error e => Except.error e
        | Except.ok json_array =>
          let offset := consume_ws str offset
          if charAt str offset = ',' then
            single.parse_array_loop b fuel str (offset + 1) json_array ((index + 1) % 2 ^ 32)
          else if charAt str offset = ']' then Except.ok (json_array, offset + 1)
          else Except.ok (make class_type.array, offset)) := by
  rw [single.parse_array_loop]

/-- With a `long` of 64 bits each of the five parsing functions of the single
header returns what the one of `json.cpp` returns; the `unsigned` index of the
single header is the `size_type` index of `json.cpp` modulo 2^32. -/
theorem single_parse (str : Str) : ∀ f : Nat,
    (∀ o, single.parse_next 64 f str o = parse_next f str o) ∧
    (∀ o, single.parse_object 64 f str o = parse_object f str o) ∧
    (∀ o obj, single.parse_object_loop 64 f str o obj = parse_object_loop f str o obj) ∧
    (∀ o, single.parse_array 64 f str o = parse_array f str o) ∧
    (∀ o arr i, single.parse_array_loop 64 f str o arr (i % 2 ^ 32)
      = parse_array_loop f str o arr i) := by
  intro f
  induction f with
  | zero =>
    refine ⟨?_, ?_, ?_, ?_, ?_⟩
    · intro o; rw [single.parse_next, parse_next]
    · intro o; rw [single.parse_object, parse_object]
    · intro o obj; rw [single.parse_object_loop, parse_object_loop]
    · intro o; rw [single.parse_array, parse_array]
    · intro o arr i; rw [single.parse_array_loop, parse_array_loop]
  | succ f ih =>
    obtain ⟨ihn, iho, ihol, iha, ihal⟩ := ih
    refine ⟨?_, ?_, ?_, ?_, ?_⟩
    · intro o
      rw [single_parse_next_succ, parse_next_succ]
      simp only [iha, iho, single_parse_number]
    · intro o
      rw [single_parse_object_succ, parse_object_succ]
      simp only [ihol]
    · intro o obj
      rw [single_parse_object_loop_succ, parse_object_loop_succ]
      simp only [ihn, ihol]
    · intro o
      rw [single_parse_array_succ, parse_array_succ]
      have h := ihal (consume_ws str (o + 1)) (make class_type.array) 0
      rw [Nat.zero_mod] at h
      rw [h]
    · intro o arr i
      rw [single_parse_array_loop_succ, parse_array_loop_succ]
      have hi : (i % 2 ^ 32 + 1) % 2 ^ 32 = (i + 1) % 2 ^ 32 := by omega
      simp only [ihn, hi, ihal]

/-- With a `long` of 64 bits the `load` of the single header returns, or throws,
what the `load` of `json.cpp` does. -/
theorem single_load (t : Str) : single.load 64 t = load t := by
  rw [single.load, load, (single_parse t (load_fuel t)).1]

mutual
theorem single_dump (fmt : Dbl → Str) (tab : Str) :
    ∀ (v : json) (depth : Int), single.dump fmt tab v depth = dump fmt tab v depth
  | json.null, _ => by rw [single.dump, dump]
  | json.object m, depth => by
    rw [single.dump, dump]
    simp only [single_dump_object_loop fmt tab (make_pad depth tab) m depth]
  | json.array l, depth => by
    rw [single.dump, dump]
    simp only [single_dump_array_loop fmt tab l depth]
  | json.string _, _ => by rw [single.dump, dump]
  | json.floating _, _ => by rw [single.dump, dump]
  | json.integral _, _ => by rw [single.dump, dump]
  | json.boolean _, _ => by rw [single.dump, dump]
theorem single_dump_object_loop (fmt : Dbl → Str) (tab pad : Str) :
    ∀ (m : map_type) (depth : Int) (s : Str) (skip : Bool),
      single.dump_object_loop fmt tab pad m depth s skip
        = dump_object_loop fmt tab pad m depth s skip
  | [], _, _, _ => by rw [single.dump_object_loop, dump_object_loop]
  | (k, v) :: rest, depth, s, skip => by
    rw [single.dump_object_loop, dump_object_loop]
    simp only [single_dump fmt tab v (depth + 1),
      single_dump_object_loop fmt tab pad rest depth]
theorem single_dump_array_loop (fmt : Dbl → Str) (tab : Str) :
    ∀ (l : list_type) (depth : Int) (s : Str) (skip : Bool),
      single.dump_array_loop fmt tab l depth s skip = dump_array_loop fmt tab l depth s skip
  | [], _, _, _ => by rw [single.dump_array_loop, dump_array_loop]
  | v :: rest, depth, s, skip => by
    rw [single.dump_array_loop, dump_array_loop]
    simp only [single_dump fmt tab v (depth + 1), single_dump_array_loop fmt tab rest depth]
end

/-- C36: the two implementations part where `long` is narrower than
`long long`. The single header converts the digits with `std::stol`, `json.cpp`
with `std::stoll`: with a `long` of 32 bits the `load` of the single header
throws `std::out_of_range` on the text `[3000000000]`, for which the `load` of
`json.cpp` returns the Array of that number. With a `long` of 64 bits the
`load` of the single header returns for every text the value that the `load`
of `json.cpp` returns, or throws the exception that it throws. For every
value, depth and indent unit the `dump` of the single header returns the text
that the `dump` of `json.cpp` returns. -/
theorem single_header_parts_on_narrow_long :
    single.load 32 "[3000000000]".toList = Except.error Fault.out_of_range ∧
    load "[3000000000]".toList
      = Except.ok (json.array [json.floating (Dbl.of_int 3000000000)]) ∧
    (∀ t : Str, single.load 64 t = load t) ∧
    (∀ (fmt : Dbl → Str) (v : json) (depth : Int) (tab : Str),
      single.dump fmt tab v depth = dump fmt tab v depth) :=
  ⟨rfl, rfl, single_load, fun fmt v depth tab => single_dump fmt tab v depth⟩

/-- The calls of `dump` without arguments differ: the default indent unit is two
spaces in the single header and four in `json.h`. -/
theorem single_default_tab :
    single.default_tab = [' ', ' '] ∧ default_tab = [' ', ' ', ' ', ' '] := ⟨rfl, rfl⟩

/-! ## Values that their own delimiter closes

A value that is followed, behind white space, by one of the characters that
the loops of `parse_array` and `parse_object` look for was parsed from
characters of the text alone: the same call on any extension of the text
returns the same value and cursor, whether or not it wrote a message. -/

theorem isdelim_lt (t : Str) (o : Nat) (h : isdelim (charAt t (consume_ws t o)) = true) :
    consume_ws t o < t.length := by
  apply charAt_lt
  intro h0
  rw [h0] at h
  exact absurd h (by decide)

theorem parse_number_loop_near (s : Str) (l : Str) (off : Nat) (value : Str) (fl : Bool)
    (h : (parse_number_loop l off value fl).2.2.2 ≤ off + l.length) :
    parse_number_loop (l ++ s) off value fl = parse_number_loop l off value fl := by
  induction l generalizing off value fl with
  | nil => simp [parse_number_loop] at h
  | cons c l ih =>
    rw [List.cons_append, parse_number_loop, parse_number_loop]
    rw [parse_number_loop, List.length_cons] at h
    split_ifs at h ⊢ with h1 h2
    · exact ih _ _ _ (by omega)
    · exact ih _ _ _ (by omega)
    · rfl

theorem parse_exponent_loop_near (s : Str) (l : Str) (off : Nat) (ev : Str)
    (h : (parse_exponent_loop l off ev).2 ≤ off + l.length) :
    parse_exponent_loop (l ++ s) off ev = parse_exponent_loop l off ev := by
  induction l generalizing off ev with
  | nil => simp [parse_exponent_loop] at h
  | cons c l ih =>
    rw [List.cons_append, parse_exponent_loop, parse_exponent_loop]
    rw [parse_exponent_loop, List.length_cons] at h
    split_ifs at h ⊢ with h1 h2
    · exact ih _ _ (by omega)
    · rfl
    · rfl

/-- A call of `parse_number` that returns with the cursor inside the text read
only characters of the text. -/
theorem parse_number_near (t s : Str) (o : Nat) (x : json) (o1 : Nat) (ho : o ≤ t.length)
    (h : parse_number t o = Except.ok (x, o1)) (hlt : o1 < t.length) :
    parse_number (t ++ s) o = Except.ok (x, o1) := by
  rw [parse_number] at h
  rw [parse_number, drop_append t s o ho]
  have hn := parse_number_loop_ge (t.drop o) o [] false
  rcases hloop : parse_number_loop (t.drop o) o [] false with ⟨value, fl, c, n⟩
  rw [hloop] at h hn
  simp only at h hn
  by_cases hE : (c = 'E' || c = 'e') = true
  · rw [if_pos hE] at h
    have hx := parse_exponent_loop_ge
      (t.drop (if charAt t n = '-' then n + 1 + 1 else n + 1))
      (if charAt t n = '-' then n + 1 + 1 else n + 1)
      (if charAt t n = '-' then ['-'] else [])
    rcases hexp : parse_exponent_loop
        (t.drop (if charAt t n = '-' then n + 1 + 1 else n + 1))
        (if charAt t n = '-' then n + 1 + 1 else n + 1)
        (if charAt t n = '-' then ['-'] else []) with ⟨ev, m⟩
    rw [hexp] at h hx
    simp only at h hx
    have hm : m ≤ t.length := by
      rcases ev with _ | ev
      · simp only [Except.ok.injEq, Prod.mk.injEq] at h
        omega
      · simp only at h
        cases hs : stoll ev with
        | error e => rw [hs] at h; simp at h
        | ok ex =>
          rw [hs] at h
          simp only at h
          cases hv : parse_number_value value fl ev ex with
          | error e => rw [hv] at h; simp [Except.map] at h
          | ok number =>
            rw [hv] at h
            simp only [Except.map, Except.ok.injEq, Prod.mk.injEq] at h
            omega
    have hnlt : n < t.length := by
      split_ifs at hx <;> omega
    have hole : (if charAt t n = '-' then n + 1 + 1 else n + 1) ≤ t.length := by
      split_ifs at hx ⊢ <;> omega
    have hloop2 : parse_number_loop (t.drop o ++ s) o [] false = (value, fl, c, n) := by
      rw [parse_number_loop_near s _ _ _ _ (by rw [hloop, List.length_drop]; simp only; omega)]
      exact hloop
    have hexp2 := parse_exponent_loop_near s
      (t.drop (if charAt t n = '-' then n + 1 + 1 else n + 1))
      (if charAt t n = '-' then n + 1 + 1 else n + 1)
      (if charAt t n = '-' then ['-'] else [])
      (by rw [hexp, List.length_drop]; simp only; omega)
    rw [hloop2]
    simp only
    rw [if_pos hE, charAt_append t s n hnlt, drop_append t s _ hole, hexp2, hexp]
    exact h
  · rw [if_neg hE] at h
    have hnle : n ≤ t.length := by
      by_cases h2 : (!isterm c) = true
      · rw [if_pos h2] at h
        simp only [Except.ok.injEq, Prod.mk.injEq] at h
        omega
      · rw [if_neg h2] at h
        cases hv : parse_number_value value fl [] 0 with
        | error e => rw [hv] at h; simp [Except.map] at h
        | ok number =>
          rw [hv] at h
          simp only [Except.map, Except.ok.injEq, Prod.mk.injEq] at h
          omega
    have hloop2 : parse_number_loop (t.drop o ++ s) o [] false = (value, fl, c, n) := by
      rw [parse_number_loop_near s _ _ _ _ (by rw [hloop, List.length_drop]; simp only; omega)]
      exact hloop
    rw [hloop2]
    simp only
    rw [if_neg hE]
    exact h

/-- A run of the loop of `parse_string` that returns a value wrote no message,
or left the cursor on the `u` of the escape that it rejected. -/
theorem parse_string_loop_exit (t : Str) : ∀ (n : Nat) (l : Str), l.length ≤ n →
    ∀ (off : Nat) (acc : Str) (x : json) (o1 : Nat), t.drop off = l →
    parse_string_loop l off acc = Except.ok (x, o1) →
    parse_string_loop_cerr l = [] ∨ charAt t o1 = 'u' := by
  intro n
  induction n with
  | zero =>
    intro l hl off acc x o1 _ h
    have hnil : l = [] := List.length_eq_zero.1 (by omega)
    subst hnil
    rw [parse_string_loop.eq_def] at h; simp at h
  | succ n ih =>
    intro l hl off acc x o1 hd h
    rcases l with _ | ⟨c, rest⟩
    · rw [parse_string_loop.eq_def] at h; simp at h
    rw [parse_string_loop.eq_def] at h
    rw [parse_string_loop_cerr.eq_def]
    simp only [List.length_cons] at hl
    have hd1 := drop_succ t off c rest hd
    by_cases h1 : c = '"'
    · subst h1
      simp only [if_true]
      exact Or.inl trivial
    by_cases h2 : c = '\\'
    · subst h2
      rcases rest with _ | ⟨e, rest2⟩
      · simp at h
      simp only [List.length_cons] at hl
      have hd2 := drop_succ t (off + 1) e rest2 hd1
      by_cases hu : e = 'u'
      · subst hu
        have hcu : charAt t (off + 1) = 'u' := charAt_at t (off + 1) 'u' rest2 hd1
        rcases rest2 with _ | ⟨x1, _ | ⟨x2, _ | ⟨x3, _ | ⟨x4, rest3⟩⟩⟩⟩
        · simp only [Char.reduceEq, if_false, if_true, Except.ok.injEq, Prod.mk.injEq] at h
          rw [← h.2]; exact Or.inr hcu
        · simp only [Char.reduceEq, if_false, if_true, Except.ok.injEq, Prod.mk.injEq] at h
          rw [← h.2]; exact Or.inr hcu
        · simp only [Char.reduceEq, if_false, if_true, Except.ok.injEq, Prod.mk.injEq] at h
          rw [← h.2]; exact Or.inr hcu
        · simp only [Char.reduceEq, if_false, if_true, Except.ok.injEq, Prod.mk.injEq] at h
          rw [← h.2]; exact Or.inr hcu
        · simp only [List.length_cons] at hl
          by_cases hh : (ishex x1 && ishex x2 && ishex x3 && ishex x4) = true
          · simp only [Char.reduceEq, if_false, if_true, hh] at h ⊢
            have hd6 : t.drop (off + 6) = rest3 := by
              have := drop_step t off ['\\', 'u', x1, x2, x3, x4] rest3 (by rw [hd]; rfl)
              exact this
            exact ih rest3 (by omega) _ _ _ _ hd6 h
          · simp only [Char.reduceEq, if_false, if_true, hh, Bool.false_eq_true,
              Except.ok.injEq, Prod.mk.injEq] at h
            rw [← h.2]; exact Or.inr hcu
      · have hd2b : t.drop (off + 2) = rest2 := hd2
        simp only [Char.reduceEq, if_false, if_true, hu] at h ⊢
        split_ifs at h <;> exact ih rest2 (by omega) _ _ _ _ hd2b h
    · simp only [h1, h2, if_false] at h ⊢
      exact ih rest (by omega) _ _ _ _ hd1 h

/-- A call of `parse_string` whose value is followed by a delimiter does the same
on every extension of the text. -/
theorem parse_string_near (t s : Str) (o : Nat) (x : json) (o1 : Nat) (ho : o < t.length)
    (h : parse_string t o = Except.ok (x, o1))
    (hq : isdelim (charAt t (consume_ws t o1)) = true) :
    parse_string (t ++ s) o = Except.ok (x, o1) := by
  rcases parse_string_loop_exit t _ _ (Nat.le_refl _) (o + 1) [] x o1 rfl h with hc | hu
  · exact parse_string_local t s o _ ho h hc
  · exfalso
    have hdrop : t.drop o1 ≠ [] := by
      intro h0
      rw [charAt_eq_head, h0] at hu
      exact absurd hu (by decide)
    obtain ⟨c, rest, hcr⟩ := List.exists_cons_of_ne_nil hdrop
    have hc := charAt_at t o1 c rest hcr
    rw [hu] at hc
    subst hc
    rw [consume_ws_stay t o1 'u' rest hcr (by decide), hu] at hq
    exact absurd hq (by decide)

/-- A call of `parse_bool` on `t` or `f` whose result is followed by a delimiter
does the same on every extension of the text. -/
theorem parse_bool_near (t s : Str) (o : Nat) (x : json) (o1 : Nat)
    (hc : charAt t o = 't' ∨ charAt t o = 'f')
    (h : parse_bool t o = Except.ok (x, o1))
    (hq : isdelim (charAt t (consume_ws t o1)) = true) :
    parse_bool (t ++ s) o = Except.ok (x, o1) := by
  by_cases hm : parse_bool_cerr t o = []
  · rw [parse_bool_local t s o hm]; exact h
  · exfalso
    rw [parse_bool_cerr] at hm
    rw [parse_bool] at h
    split_ifs at h hm with h1 h2
    · exact hm rfl
    · exact hm rfl
    · simp only [Except.ok.injEq, Prod.mk.injEq] at h
      rw [← h.2] at hq
      have hdrop : t.drop o ≠ [] := by
        intro h0
        rw [charAt_eq_head, h0] at hc
        rcases hc with hc | hc <;> exact absurd hc (by decide)
      obtain ⟨c, rest, hcr⟩ := List.exists_cons_of_ne_nil hdrop
      have hcc := charAt_at t o c rest hcr
      have hsp : isspace c = false := by
        rcases hc with hc | hc <;> (rw [hcc] at hc; subst hc; decide)
      rw [consume_ws_stay t o c rest hcr hsp] at hq
      rcases hc with hc | hc <;> (rw [hc] at hq; exact absurd hq (by decide))

/-- A call of `parse_null` on `n` whose result is followed by a delimiter does
the same on every extension of the text. -/
theorem parse_null_near (t s : Str) (o : Nat) (x : json) (o1 : Nat)
    (hc : charAt t o = 'n') (h : parse_null t o = Except.ok (x, o1))
    (hq : isdelim (charAt t (consume_ws t o1)) = true) :
    parse_null (t ++ s) o = Except.ok (x, o1) := by
  by_cases hm : parse_null_cerr t o = []
  · rw [parse_null_local t s o hm]; exact h
  · exfalso
    rw [parse_null_cerr] at hm
    rw [parse_null] at h
    split_ifs at h hm with h1
    · simp only [Except.ok.injEq, Prod.mk.injEq] at h
      rw [← h.2] at hq
      have hdrop : t.drop o ≠ [] := by
        intro h0
        rw [charAt_eq_head, h0] at hc
        exact absurd hc (by decide)
      obtain ⟨c, rest, hcr⟩ := List.exists_cons_of_ne_nil hdrop
      have hcc := charAt_at t o c rest hcr
      rw [hcc] at hc
      subst hc
      rw [consume_ws_stay t o 'n' rest hcr (by decide), hcc] at hq
      exact absurd hq (by decide)
    · exact hm rfl

/-- Each of the five parsing functions, when the value that it returns is
followed by a delimiter, returns the same value and cursor on every extension
of the text. -/
theorem parse_near (t s : Str) : ∀ f : Nat,
    (∀ o x o1, parse_next f t o = Except.ok (x, o1) →
      isdelim (charAt t (consume_ws t o1)) = true →
      parse_next f (t ++ s) o = Except.ok (x, o1)) ∧
    (∀ o x o1, o < t.length → parse_object f t o = Except.ok (x, o1) →
      isdelim (charAt t (consume_ws t o1)) = true →
      parse_object f (t ++ s) o = Except.ok (x, o1)) ∧
    (∀ o obj x o1, parse_object_loop f t o obj = Except.ok (x, o1) →
      isdelim (charAt t (consume_ws t o1)) = true →
      parse_object_loop f (t ++ s) o obj = Except.ok (x, o1)) ∧
    (∀ o x o1, o < t.length → parse_array f t o = Except.ok (x, o1) →
      isdelim (charAt t (consume_ws t o1)) = true →
      parse_array f (t ++ s) o = Except.ok (x, o1)) ∧
    (∀ o arr i x o1, parse_array_loop f t o arr i = Except.ok (x, o1) →
      isdelim (charAt t (consume_ws t o1)) = true →
      parse_array_loop f (t ++ s) o arr i = Except.ok (x, o1)) := by
  intro f
  induction f with
  | zero =>
    refine ⟨?_, ?_, ?_, ?_, ?_⟩
    · intro o x o1 h; rw [parse_next] at h; simp at h
    · intro o x o1 _ h; rw [parse_object] at h; simp at h
    · intro o obj x o1 h; rw [parse_object_loop] at h; simp at h
    · intro o x o1 _ h; rw [parse_array] at h; simp at h
    · intro o arr i x o1 h; rw [parse_array_loop] at h; simp at h
  | succ f ih =>
    obtain ⟨ihn, iho, ihol, iha, ihal⟩ := ih
    refine ⟨?_, ?_, ?_, ?_, ?_⟩
    · intro o x o1 h hq
      have hlt := isdelim_lt t o1 hq
      have hge := consume_ws_ge t o1
      have hfw : consume_ws t o ≤ o1 :=
        parse_next_forward t (f + 1) (consume_ws t o) x o1 (by rw [parse_next_consume]; exact h)
      have e1 : consume_ws (t ++ s) o = consume_ws t o := consume_ws_local t s o (by omega)
      have e2 : charAt (t ++ s) (consume_ws t o) = charAt t (consume_ws t o) :=
        charAt_append t s _ (by omega)
      rw [parse_next_succ] at h ⊢
      simp only [e1, e2] at h ⊢
      split_ifs at h ⊢ with h1 h2 h3 h4 h5 h6
      · exact iha _ _ _ (by omega) h hq
      · exact iho _ _ _ (by omega) h hq
      · exact parse_string_near t s _ x o1 (by omega) h hq
      · exact parse_bool_near t s _ x o1
          (by simpa only [Bool.or_eq_true, decide_eq_true_eq] using h4) h hq
      · exact parse_null_near t s _ x o1 h5 h hq
      · exact parse_number_near t s _ x o1 (by omega) h (by omega)
      · exact h
    · intro o x o1 hlt0 h hq
      have hlt := isdelim_lt t o1 hq
      have hge := consume_ws_ge t o1
      rw [parse_object_succ] at h ⊢
      by_cases hc : charAt t (consume_ws t (o + 1)) = '\x7d'
      · have hp := charAt_lt t _ (by rw [hc]; decide)
        rw [consume_ws_local t s (o + 1) hp, charAt_append t s _ hp, if_pos hc]
        rw [if_pos hc] at h
        exact h
      · rw [if_neg hc] at h
        have hfw := parse_object_loop_forward t f _ _ _ _ h
        have hp : consume_ws t (o + 1) < t.length := by omega
        rw [consume_ws_local t s (o + 1) hp, charAt_append t s _ hp, if_neg hc]
        exact ihol _ _ _ _ h hq
    · intro o obj x o1 h hq
      rw [parse_object_loop_succ] at h ⊢
      rcases hk : parse_next f t o with e | ⟨key, o2⟩
      · rw [hk] at h; simp at h
      rw [hk] at h
      simp only at h
      have hqe : isdelim (charAt t (consume_ws t o2)) = true := by
        by_cases hcol : charAt t (consume_ws t o2) = ':'
        · rw [hcol]; decide
        · have h2 := h
          rw [if_pos hcol] at h2
          simp only [Except.ok.injEq, Prod.mk.injEq] at h2
          rw [← h2.2, consume_ws_idem] at hq
          exact hq
      have hp := isdelim_lt t o2 hqe
      rw [ihn o key o2 hk hqe]
      simp only [consume_ws_local t s o2 hp, charAt_append t s _ hp]
      by_cases hcol : charAt t (consume_ws t o2) = ':'
      swap
      · rw [if_pos hcol] at h ⊢; exact h
      rw [if_neg (by simp [hcol])] at h ⊢
      rcases hval : parse_next f t (consume_ws t (consume_ws t o2 + 1)) with e | ⟨value, o4⟩
      · rw [hval] at h; simp at h
      rw [hval] at h
      simp only at h
      have hqv : isdelim (charAt t (consume_ws t o4)) = true := by
        have h2 := h
        split_ifs at h2 with h6 h7
        · rw [h6]; decide
        · rw [h7]; decide
        · simp only [Except.ok.injEq, Prod.mk.injEq] at h2
          rw [← h2.2, consume_ws_idem] at hq
          exact hq
      have hp4 := isdelim_lt t o4 hqv
      have hfw := parse_next_forward t f _ value o4 hval
      have hge4 := consume_ws_ge t o4
      have e5 : consume_ws (t ++ s) (consume_ws t o2 + 1) = consume_ws t (consume_ws t o2 + 1) :=
        consume_ws_local t s _ (by omega)
      rw [e5, ihn _ value o4 hval hqv]
      simp only [consume_ws_local t s o4 hp4, charAt_append t s _ hp4]
      split_ifs at h ⊢ with h6 h7
      · exact ihol _ _ _ _ h hq
      · exact h
      · exact h
    · intro o x o1 hlt0 h hq
      have hlt := isdelim_lt t o1 hq
      have hge := consume_ws_ge t o1
      rw [parse_array_succ] at h ⊢
      by_cases hc : charAt t (consume_ws t (o + 1)) = ']'
      · have hp := charAt_lt t _ (by rw [hc]; decide)
        rw [consume_ws_local t s (o + 1) hp, charAt_append t s _ hp, if_pos hc]
        rw [if_pos hc] at h
        exact h
      · rw [if_neg hc] at h
        have hfw := parse_array_loop_forward t f _ _ _ _ _ h
        have hp : consume_ws t (o + 1) < t.length := by omega
        rw [consume_ws_local t s (o + 1) hp, charAt_append t s _ hp, if_neg hc]
        exact ihal _ _ _ _ _ h hq
    · intro o arr i x o1 h hq
      rw [parse_array_loop_succ] at h ⊢
      rcases hk : parse_next f t o with e | ⟨y, o2⟩
      · rw [hk] at h; simp at h
      rw [hk] at h
      simp only at h
      rcases ha : arr.assign_pos (i % 2 ^ 32) y with e | arr2
      · rw [ha] at h; simp at h
      rw [ha] at h
      simp only at h
      have hqe : isdelim (charAt t (consume_ws t o2)) = true := by
        have h2 := h
        split_ifs at h2 with h6 h7
        · rw [h6]; decide
        · rw [h7]; decide
        · simp only [Except.ok.injEq, Prod.mk.injEq] at h2
          rw [← h2.2, consume_ws_idem] at hq
          exact hq
      have hp := isdelim_lt t o2 hqe
      rw [ihn o y o2 hk hqe]
      simp only [ha, consume_ws_local t s o2 hp, charAt_append t s _ hp]
      split_ifs at h ⊢ with h6 h7
      · exact ihal _ _ _ _ _ h hq
      · exact h
      · exact h

/-- A run of the loop of `parse_array` that leaves on the closing bracket returns
a value, with the cursor behind that bracket, and does so on every extension
of the text. -/
theorem parse_array_loop_closes_near (t : Str) : ∀ (f o : Nat) (arr : json) (i : Nat),
    parse_array_loop_closes f t o arr i = true →
    ∃ v o1, parse_array_loop f t o arr i = Except.ok (v, o1) ∧ o < o1 ∧ o1 ≤ t.length ∧
      ∀ s, parse_array_loop f (t ++ s) o arr i = Except.ok (v, o1) := by
  intro f
  induction f with
  | zero => intro o arr i h; rw [parse_array_loop_closes] at h; simp at h
  | succ f ih =>
    intro o arr i h
    rw [parse_array_loop_closes] at h
    rcases hk : parse_next f t o with e | ⟨y, o2⟩
    · rw [hk] at h; simp at h
    rw [hk] at h
    simp only at h
    rcases ha : arr.assign_pos (i % 2 ^ 32) y with e | arr2
    · rw [ha] at h; simp at h
    rw [ha] at h
    simp only at h
    have hfw := parse_next_forward t f o y o2 hk
    have hge := consume_ws_ge t o2
    have hqe : isdelim (charAt t (consume_ws t o2)) = true := by
      have h2 := h
      split_ifs at h2 with h6 h7
      · rw [h6]; decide
      · rw [h7]; decide
    have hp := isdelim_lt t o2 hqe
    have hs : ∀ s, parse_array_loop (f + 1) (t ++ s) o arr i
        = (if charAt t (consume_ws t o2) = ',' then
            parse_array_loop f (t ++ s) (consume_ws t o2 + 1) arr2 (i + 1)
          else if charAt t (consume_ws t o2) = ']' then
            Except.ok (arr2, consume_ws t o2 + 1)
          else Except.ok (make class_type.array, consume_ws t o2)) := by
      intro s
      rw [parse_array_loop_succ, (parse_near t s f).1 o y o2 hk hqe]
      simp only [ha, consume_ws_local t s o2 hp, charAt_append t s _ hp]
    have h0 := hs []
    rw [List.append_nil] at h0
    by_cases h6 : charAt t (consume_ws t o2) = ','
    · rw [if_pos h6] at h
      obtain ⟨v, o1, hr, hlt, hle, hall⟩ := ih _ _ _ h
      refine ⟨v, o1, ?_, by omega, hle, ?_⟩
      · rw [h0, if_pos h6]; exact hr
      · intro s; rw [hs s, if_pos h6]; exact hall s
    · rw [if_neg h6] at h
      by_cases h7 : charAt t (consume_ws t o2) = ']'
      · refine ⟨arr2, consume_ws t o2 + 1, ?_, by omega, by omega, ?_⟩
        · rw [h0, if_neg h6, if_pos h7]
        · intro s; rw [hs s, if_neg h6, if_pos h7]
      · rw [if_neg h7] at h; simp at h

/-- A run of the loop of `parse_object` that leaves on the closing brace returns
a value, with the cursor behind that brace, and does so on every extension of
the text. -/
theorem parse_object_loop_closes_near (t : Str) : ∀ (f o : Nat) (obj : json),
    parse_object_loop_closes f t o obj = true →
    ∃ v o1, parse_object_loop f t o obj = Except.ok (v, o1) ∧ o < o1 ∧ o1 ≤ t.length ∧
      ∀ s, parse_object_loop f (t ++ s) o obj = Except.ok (v, o1) := by
  intro f
  induction f with
  | zero => intro o obj h; rw [parse_object_loop_closes] at h; simp at h
  | succ f ih =>
    intro o obj h
    rw [parse_object_loop_closes] at h
    rcases hk : parse_next f t o with e | ⟨key, o2⟩
    · rw [hk] at h; simp at h
    rw [hk] at h
    simp only at h
    by_cases hcol : charAt t (consume_ws t o2) = ':'
    swap
    · rw [if_pos hcol] at h; simp at h
    rw [if_neg (by simp [hcol])] at h
    rcases hval : parse_next f t (consume_ws t (consume_ws t o2 + 1)) with e | ⟨value, o4⟩
    · rw [hval] at h; simp at h
    rw [hval] at h
    simp only at h
    have hfw := parse_next_forward t f o key o2 hk
    have hge := consume_ws_ge t o2
    have hge3 := consume_ws_ge t (consume_ws t o2 + 1)
    have hfw4 := parse_next_forward t f _ value o4 hval
    have hge4 := consume_ws_ge t o4
    have hqe : isdelim (charAt t (consume_ws t o2)) = true := by rw [hcol]; decide
    have hp := isdelim_lt t o2 hqe
    have hqv : isdelim (charAt t (consume_ws t o4)) = true := by
      have h2 := h
      split_ifs at h2 with h6 h7
      · rw [h6]; decide
      · rw [h7]; decide
    have hp4 := isdelim_lt t o4 hqv
    have hs : ∀ s, parse_object_loop (f + 1) (t ++ s) o obj
        = (if charAt t (consume_ws t o4) = ',' then
            parse_object_loop f (t ++ s) (consume_ws t o4 + 1)
              (obj.assign_key key.to_string value)
          else if charAt t (consume_ws t o4) = '\x7d' then
            Except.ok (obj.assign_key key.to_string value, consume_ws t o4 + 1)
          else Except.ok (obj.assign_key key.to_string value, consume_ws t o4)) := by
      intro s
      have e5 : consume_ws (t ++ s) (consume_ws t o2 + 1)
          = consume_ws t (consume_ws t o2 + 1) := consume_ws_local t s _ (by omega)
      rw [parse_object_loop_succ, (parse_near t s f).1 o key o2 hk hqe]
      simp only [consume_ws_local t s o2 hp, charAt_append t s _ hp]
      rw [if_neg (by simp [hcol]), e5, (parse_near t s f).1 _ value o4 hval hqv]
      simp only [consume_ws_local t s o4 hp4, charAt_append t s _ hp4]
    have h0 := hs []
    rw [List.append_nil] at h0
    by_cases h6 : charAt t (consume_ws t o4) = ','
    · rw [if_pos h6] at h
      obtain ⟨v, o1, hr, hlt, hle, hall⟩ := ih _ _ h
      refine ⟨v, o1, ?_, by omega, hle, ?_⟩
      · rw [h0, if_pos h6]; exact hr
      · intro s; rw [hs s, if_pos h6]; exact hall s
    · rw [if_neg h6] at h
      by_cases h7 : charAt t (consume_ws t o4) = '\x7d'
      · refine ⟨obj.assign_key key.to_string value, consume_ws t o4 + 1, ?_, by omega,
          by omega, ?_⟩
        · rw [h0, if_neg h6, if_pos h7]
        · intro s; rw [hs s, if_neg h6, if_pos h7]
      · rw [if_neg h7] at h; simp at h

/-- A run of the loop of `parse_string` that leaves on the closing quote wrote no
message and returned a value. -/
theorem parse_string_loop_closes_clean : ∀ (n : Nat) (l : Str), l.length ≤ n →
    parse_string_loop_closes l = true →
    parse_string_loop_cerr l = [] ∧
      ∀ (off : Nat) (acc : Str), ∃ r, parse_string_loop l off acc = Except.ok r := by
  intro n
  induction n with
  | zero =>
    intro l hl h
    have hnil : l = [] := List.length_eq_zero.1 (by omega)
    subst hnil
    rw [parse_string_loop_closes.eq_def] at h; simp at h
  | succ n ih =>
    intro l hl h
    rcases l with _ | ⟨c, rest⟩
    · rw [parse_string_loop_closes.eq_def] at h; simp at h
    rw [parse_string_loop_closes.eq_def] at h
    rw [parse_string_loop_cerr.eq_def]
    simp only [List.length_cons] at hl
    by_cases h1 : c = '"'
    · subst h1
      refine ⟨by simp, fun off acc => ?_⟩
      rw [parse_string_loop.eq_def]
      simp
    by_cases h2 : c = '\\'
    · subst h2
      rcases rest with _ | ⟨e, rest2⟩
      · simp at h
      simp only [List.length_cons] at hl
      by_cases hu : e = 'u'
      · subst hu
        rcases rest2 with _ | ⟨x1, _ | ⟨x2, _ | ⟨x3, _ | ⟨x4, rest3⟩⟩⟩⟩
        · simp at h
        · simp at h
        · simp at h
        · simp at h
        · simp only [List.length_cons] at hl
          by_cases hh : (ishex x1 && ishex x2 && ishex x3 && ishex x4) = true
          · simp only [Char.reduceEq, if_false, if_true, hh] at h ⊢
            obtain ⟨hc, hr⟩ := ih rest3 (by omega) h
            refine ⟨hc, fun off acc => ?_⟩
            rw [parse_string_loop.eq_def]
            simp only [Char.reduceEq, if_false, if_true, hh]
            exact hr _ _
          · simp [hh] at h
      · simp only [Char.reduceEq, if_false, if_true, hu] at h ⊢
        obtain ⟨hc, hr⟩ := ih rest2 (by omega) h
        refine ⟨hc, fun off acc => ?_⟩
        rw [parse_string_loop.eq_def]
        simp only [Char.reduceEq, if_false, if_true, hu]
        split_ifs <;> exact hr _ _
    · simp only [h1, h2, if_false] at h ⊢
      obtain ⟨hc, hr⟩ := ih rest (by omega) h
      refine ⟨hc, fun off acc => ?_⟩
      rw [parse_string_loop.eq_def]
      simp only [h1, h2, if_false]
      exact hr _ _

/-- A call of `parse_array` that returns from behind the closing bracket of its
array does so, with the same value and cursor, on every extension of the
text. -/
theorem parse_array_closes_near (t : Str) (f o : Nat)
    (h : parse_array_closes f t o = true) :
    ∃ v o1, ∀ s, parse_array f (t ++ s) o = Except.ok (v, o1) := by
  cases f with
  | zero => rw [parse_array_closes] at h; simp at h
  | succ f =>
    rw [parse_array_closes] at h
    have hge := consume_ws_ge t (o + 1)
    by_cases h2 : charAt t (consume_ws t (o + 1)) = ']'
    · have hq := charAt_lt t _ (by rw [h2]; decide)
      refine ⟨make class_type.array, consume_ws t (o + 1) + 1, fun s => ?_⟩
      rw [parse_array_succ, consume_ws_local t s _ hq, charAt_append t s _ hq, if_pos h2]
    · rw [if_neg h2] at h
      obtain ⟨v, o1, _, hlt, hle, hall⟩ := parse_array_loop_closes_near t _ _ _ _ h
      have hq : consume_ws t (o + 1) < t.length := by omega
      refine ⟨v, o1, fun s => ?_⟩
      rw [parse_array_succ, consume_ws_local t s _ hq, charAt_append t s _ hq, if_neg h2]
      exact hall s

/-- A call of `parse_object` that returns from behind the closing brace of its
object does so, with the same value and cursor, on every extension of the
text. -/
theorem parse_object_closes_near (t : Str) (f o : Nat)
    (h : parse_object_closes f t o = true) :
    ∃ v o1, ∀ s, parse_object f (t ++ s) o = Except.ok (v, o1) := by
  cases f with
  | zero => rw [parse_object_closes] at h; simp at h
  | succ f =>
    rw [parse_object_closes] at h
    have hge := consume_ws_ge t (o + 1)
    by_cases h2 : charAt t (consume_ws t (o + 1)) = '\x7d'
    · have hq := charAt_lt t _ (by rw [h2]; decide)
      refine ⟨make class_type.object, consume_ws t (o + 1) + 1, fun s => ?_⟩
      rw [parse_object_succ, consume_ws_local t s _ hq, charAt_append t s _ hq, if_pos h2]
    · rw [if_neg h2] at h
      obtain ⟨v, o1, _, hlt, hle, hall⟩ := parse_object_loop_closes_near t _ _ _ h
      have hq : consume_ws t (o + 1) < t.length := by omega
      refine ⟨v, o1, fun s => ?_⟩
      rw [parse_object_succ, consume_ws_local t s _ hq, charAt_append t s _ hq, if_neg h2]
      exact hall s

/-- A call of `parse_string` that returns from behind the closing quote does so,
with the same value and cursor, on every extension of the text. -/
theorem parse_string_closes_near (t : Str) (o : Nat) (ho : o < t.length)
    (h : parse_string_closes t o = true) :
    ∃ v o1, ∀ s, parse_string (t ++ s) o = Except.ok (v, o1) := by
  obtain ⟨hc, hr⟩ := parse_string_loop_closes_clean _ _ (Nat.le_refl _) h
  obtain ⟨⟨v, o1⟩, hv⟩ := hr (o + 1) []
  exact ⟨v, o1, fun s => parse_string_local t s o _ ho hv hc⟩

/-- A text whose top-level value is closed by its own delimiter is parsed, with
the fuel of `load` for it, to the same value and cursor on every extension. -/
theorem closes_near (t : Str) (h : closes t = true) :
    ∃ v o1, ∀ s, parse_next (load_fuel t) (t ++ s) 0 = Except.ok (v, o1) := by
  have hF : load_fuel t = (3 * t.length + 7) + 1 := by rw [load_fuel]
  unfold closes at h
  simp only at h
  rw [hF, Nat.add_sub_cancel] at h
  rw [hF]
  have hstart : charAt t (consume_ws t 0) ≠ '\x00' → ∀ s,
      consume_ws (t ++ s) 0 = consume_ws t 0 ∧
      charAt (t ++ s) (consume_ws t 0) = charAt t (consume_ws t 0) :=
    fun hne s => consume_ws_char t s 0 hne
  by_cases h1 : charAt t (consume_ws t 0) = '['
  · rw [if_pos h1] at h
    obtain ⟨v, o1, hall⟩ := parse_array_closes_near t _ _ h
    refine ⟨v, o1, fun s => ?_⟩
    obtain ⟨e1, e2⟩ := hstart (by rw [h1]; decide) s
    rw [parse_next_succ]
    simp only [e1, e2, h1, if_true]
    exact hall s
  rw [if_neg h1] at h
  by_cases h2 : charAt t (consume_ws t 0) = '\x7b'
  · rw [if_pos h2] at h
    obtain ⟨v, o1, hall⟩ := parse_object_closes_near t _ _ h
    refine ⟨v, o1, fun s => ?_⟩
    obtain ⟨e1, e2⟩ := hstart (by rw [h2]; decide) s
    rw [parse_next_succ]
    simp only [e1, e2, h2, Char.reduceEq, if_false, if_true]
    exact hall s
  rw [if_neg h2] at h
  by_cases h3 : charAt t (consume_ws t 0) = '"'
  · rw [if_pos h3] at h
    have hp := charAt_lt t _ (by rw [h3]; decide)
    obtain ⟨v, o1, hall⟩ := parse_string_closes_near t _ hp h
    refine ⟨v, o1, fun s => ?_⟩
    obtain ⟨e1, e2⟩ := hstart (by rw [h3]; decide) s
    rw [parse_next_succ]
    simp only [e1, e2, h3, Char.reduceEq, if_false, if_true]
    exact hall s
  · rw [if_neg h3] at h
    simp at h

/-- C17: trailing text is ignored. For every text whose top-level value is an
Object, an Array or a String that its own closing brace, bracket or quote
ends, whether the text ends there (the cursor is then at the length of the
text) or goes on, `load` returns a value, and `load` of the text followed by
any suffix returns that value; so `load` of the empty object text followed by
` xyz` is the empty Object. The values inside may be malformed, as in `[1x]`:
what counts is that the top-level value is closed. -/
theorem closed_value_ignores_suffix (t : Str) (h : closes t = true) :
    ∃ v, load t = Except.ok v ∧ ∀ s, load (t ++ s) = Except.ok v := by
  obtain ⟨v, o1, hall⟩ := closes_near t h
  have key : ∀ s, load (t ++ s) = Except.ok v := by
    intro s
    have hs := hall s
    have hne : parse_next (load_fuel t) (t ++ s) 0 ≠ Except.error Fault.fuel := by
      rw [hs]; simp
    have hg := (parse_shift [] (t ++ s) (load_fuel t)).1 0 hne (load_fuel (t ++ s))
      (load_fuel_append t s)
    simp only [List.nil_append, List.length_nil, Nat.add_zero, hs, shift_ok] at hg
    rw [load, hg]
    rfl
  refine ⟨v, ?_, key⟩
  have := key []
  rw [List.append_nil] at this
  exact this

/-- C17 on the texts of an empty Object, followed by ` xyz`, and `[1x]`, in which
`1x` is no number: both are closed by their own delimiter, and a suffix changes
nothing. -/
theorem closed_value_ignores_suffix_witness :
    (∃ v, load ['\x7b', '\x7d'] = Except.ok v ∧
      ∀ s, load (['\x7b', '\x7d'] ++ s) = Except.ok v) ∧
    (∃ v, load ['[', '1', 'x', ']'] = Except.ok v ∧
      ∀ s, load (['[', '1', 'x', ']'] ++ s) = Except.ok v) ∧
    load "\x7b\x7d xyz".toList = Except.ok (json.object []) ∧
    load "[1x]".toList = Except.ok (json.array [json.null]) ∧
    load_cerr "[1x]".toList = [Diag.number_char 'x'] :=
  ⟨closed_value_ignores_suffix ['\x7b', '\x7d'] (by decide),
    closed_value_ignores_suffix ['[', '1', 'x', ']'] (by decide), rfl, rfl, rfl⟩

end wingmann
